import Mathlib

/-! Assignment lowering: `cmd/compile/internal/walk/assign.go`

A shallow embedding of the assignment-lowering stage of the compiler's middle
end: the aliasing analyser (`aliased`, `anyAddrTaken`, `refersToName`), the
simultaneous-assignment sequencer (`reorder3`, `reorder3save`) and the append
expansion engine (`appendSlice`, `extendSlice`, `isAppendOfMake`), together
with execution models for the statement sequences they emit. The string
comparison `Compare` of `strings/compare.go` is embedded at the end.

Fatal internal errors (`base.Fatalf`) are modelled as `Except.error`.
-/

namespace Walk

/-! ## Types (`cmd/compile/internal/types`) -/

/-- Basic type kinds (the entries of `types.Types`). -/
inductive Kind where
  | TINT8 | TUINT8 | TINT16 | TUINT16 | TINT32 | TUINT32 | TINT64 | TUINT64
  | TINT | TUINT | TUINTPTR | TBOOL | TSTRING | TUNSAFEPTR | TFLOAT32 | TFLOAT64
deriving DecidableEq, Repr

/-- Resolved static types. A struct type carries its identity, its computed
width and whether it contains pointers; `void` stands for the absence of a
type (a nil `*types.Type`, as for a call without result). -/
inductive Typ where
  | basic (k : Kind)
  | ptr (elem : Typ)
  | slice (elem : Typ)
  | array (elem : Typ) (bound : Nat)
  | map (key : Typ) (elem : Typ)
  | chan (elem : Typ)
  | struct (id : Nat) (width : Nat) (ptrs : Bool)
  | void
deriving DecidableEq, Repr

namespace Typ

/-- Modelled from the spec: the method `(*types.Type).IsArray`. -/
def IsArray : Typ → Bool
  | array _ _ => true
  | _ => false

/-- Modelled from the spec: the method `(*types.Type).IsSlice`. -/
def IsSlice : Typ → Bool
  | slice _ => true
  | _ => false

/-- Modelled from the spec: the method `(*types.Type).IsString`. -/
def IsString : Typ → Bool
  | basic .TSTRING => true
  | _ => false

/-- Modelled from the spec: the method `(*types.Type).Elem`; the element type of a string is taken to
be `uint8`, and types without an element type are returned unchanged. -/
def Elem : Typ → Typ
  | ptr e => e
  | slice e => e
  | array e _ => e
  | map _ e => e
  | chan e => e
  | basic .TSTRING => basic .TUINT8
  | t => t

/-- Modelled from the spec: the method `(*types.Type).PtrTo`. -/
def PtrTo (t : Typ) : Typ := ptr t

/-- Modelled from the spec: the method `(*types.Type).HasPointers`. -/
def HasPointers : Typ → Bool
  | basic .TSTRING => true
  | basic .TUNSAFEPTR => true
  | basic _ => false
  | ptr _ => true
  | slice _ => true
  | array e n => n != 0 && HasPointers e
  | map _ _ => true
  | chan _ => true
  | struct _ _ p => p
  | void => false

/-- Modelled from the spec: the field `Width` (method `Size`), in bytes, for a target whose pointers and
machine ints are `ptrSize` bytes wide. -/
def Width (ptrSize : Nat) : Typ → Nat
  | basic .TINT8 => 1
  | basic .TUINT8 => 1
  | basic .TBOOL => 1
  | basic .TINT16 => 2
  | basic .TUINT16 => 2
  | basic .TINT32 => 4
  | basic .TUINT32 => 4
  | basic .TFLOAT32 => 4
  | basic .TINT64 => 8
  | basic .TUINT64 => 8
  | basic .TFLOAT64 => 8
  | basic .TINT => ptrSize
  | basic .TUINT => ptrSize
  | basic .TUINTPTR => ptrSize
  | basic .TUNSAFEPTR => ptrSize
  | basic .TSTRING => 2 * ptrSize
  | ptr _ => ptrSize
  | slice _ => 3 * ptrSize
  | array e n => n * Width ptrSize e
  | map _ _ => ptrSize
  | chan _ => ptrSize
  | struct _ w _ => w
  | void => 0

end Typ

/-! ## IR nodes (`cmd/compile/internal/ir`) -/

/-- Storage classes of named objects (`ir.Class`). -/
inductive Class where
  | Pxxx | PEXTERN | PAUTO | PAUTOHEAP | PPARAM | PPARAMOUT | PFUNC
deriving DecidableEq, Repr

/-- Symbols: the blank identifier, source-level identifiers and the
compiler-generated `.autotmp_N` names. -/
inductive Sym where
  | blank
  | user (id : Nat)
  | autotmp (n : Nat)
deriving DecidableEq, Repr

/-- A named variable (`ir.Name`). Two name nodes are the same node exactly when
they are equal as records. -/
structure Name where
  sym : Sym
  Class_ : Class
  Addrtaken : Bool
  typ : Typ
deriving DecidableEq, Repr

/-- Node operations (`ir.Op`), restricted to those this stage inspects or
emits. -/
inductive Op where
  | ONAME | OLITERAL | ONIL
  | OADD | OSUB | OMUL | ODIV | OMOD | OAND | OOR | OXOR | OANDNOT | OLSH | ORSH
  | OANDAND | OOROR | OEQ | ONE | OLT | OLE | OGT | OGE
  | ONOT | ONEG | OPLUS | OBITNOT
  | OCONV | OCONVNOP | OCONVIFACE | ODOTTYPE | OPAREN | ODEREF | OADDR
  | OLEN | OCAP | OSPTR | ORECV
  | ODOT | ODOTPTR | OINDEX | OINDEXMAP | OSLICE
  | OAPPEND | OCALLFUNC | OMAKESLICE
  | OAS | OASOP | ORETURN
deriving DecidableEq, Repr

/-- Operations carried by one-operand expression nodes (`UnaryExpr`, `StarExpr`,
`ParenExpr`, `ConvExpr`, `AddrExpr`, `TypeAssertExpr`). -/
inductive UnOp where
  | ONOT | ONEG | OPLUS | OBITNOT
  | OCONV | OCONVNOP | OCONVIFACE | ODOTTYPE | OPAREN | ODEREF | OADDR
  | OLEN | OCAP | OSPTR | ORECV
deriving DecidableEq, Repr

/-- Operations carried by two-operand expression nodes (`BinaryExpr`,
`LogicalExpr`). -/
inductive BinOp where
  | OADD | OSUB | OMUL | ODIV | OMOD | OAND | OOR | OXOR | OANDNOT | OLSH | ORSH
  | OANDAND | OOROR | OEQ | ONE | OLT | OLE | OGT | OGE
deriving DecidableEq, Repr

/-- Operations carried by `CallExpr` nodes. -/
inductive CallOp where
  | OAPPEND | OCALLFUNC
deriving DecidableEq, Repr

/-- Kinds of constant values (`go/constant.Kind`). -/
inductive ConstKind where
  | Bool | String | Int | Float
deriving DecidableEq, Repr

/-- The callee of a `CallExpr`: absent (as for `append`), a function of the
runtime looked up by name and instantiated at type arguments
(`typecheck.LookupRuntime`, `typecheck.SubstArgTypes`), or the address of a
type that `walkAssign` sets up for the back end (`reflectdata.TypePtr`). -/
inductive Fn where
  | none
  | runtime (name : String) (targs : List Typ)
  | typeptr (t : Typ)
deriving DecidableEq, Repr

/-- Expression nodes. Every node carries its resolved static type. Pending
init statements have been drained before this stage inspects a node, so
they are not represented. -/
inductive Node where
  | name (v : Name)
  | lit (t : Typ) (k : ConstKind) (v : Int)
  | nilExpr (t : Typ)
  | typeptr (t : Typ)
  | unary (op : UnOp) (t : Typ) (x : Node)
  | binary (op : BinOp) (t : Typ) (x y : Node)
  | dot (t : Typ) (x : Node) (sel : Nat)
  | dotptr (t : Typ) (x : Node) (sel : Nat)
  | index (t : Typ) (x i : Node) (bounded : Bool)
  | indexmap (t : Typ) (x i : Node)
  | slice (t : Typ) (x : Node) (lo hi max : Option Node) (bounded : Bool)
  | call (op : CallOp) (t : Typ) (fn : Fn) (args : List Node) (isDDD : Bool)
  | makeslice (t : Typ) (len : Node) (cap : Option Node)
deriving Repr

/-- An assignment statement `X = Y` (`ir.AssignStmt`). -/
structure AssignStmt where
  X : Node
  Y : Node
deriving Repr

/-- Statements this stage emits. -/
inductive Stmt where
  | as (a : AssignStmt)
  | ifs (cond : Node) (body : List Stmt) (els : List Stmt) (likely : Bool)
  | expr (n : Node)
deriving Repr

namespace UnOp

/-- The `ir.Op` of a one-operand node. -/
def toOp : UnOp → Op
  | ONOT => .ONOT | ONEG => .ONEG | OPLUS => .OPLUS | OBITNOT => .OBITNOT
  | OCONV => .OCONV | OCONVNOP => .OCONVNOP | OCONVIFACE => .OCONVIFACE
  | ODOTTYPE => .ODOTTYPE | OPAREN => .OPAREN | ODEREF => .ODEREF | OADDR => .OADDR
  | OLEN => .OLEN | OCAP => .OCAP | OSPTR => .OSPTR | ORECV => .ORECV

end UnOp

namespace BinOp

/-- The `ir.Op` of a two-operand node. -/
def toOp : BinOp → Op
  | OADD => .OADD | OSUB => .OSUB | OMUL => .OMUL | ODIV => .ODIV | OMOD => .OMOD
  | OAND => .OAND | OOR => .OOR | OXOR => .OXOR | OANDNOT => .OANDNOT
  | OLSH => .OLSH | ORSH => .ORSH | OANDAND => .OANDAND | OOROR => .OOROR
  | OEQ => .OEQ | ONE => .ONE | OLT => .OLT | OLE => .OLE | OGT => .OGT | OGE => .OGE

end BinOp

namespace Node

/-- Modelled from the spec: the method `Node.Op`. -/
def op : Node → Op
  | name _ => .ONAME
  | lit _ _ _ => .OLITERAL
  | nilExpr _ => .ONIL
  | typeptr _ => .OADDR
  | unary o _ _ => o.toOp
  | binary o _ _ _ => o.toOp
  | dot _ _ _ => .ODOT
  | dotptr _ _ _ => .ODOTPTR
  | index _ _ _ _ => .OINDEX
  | indexmap _ _ _ => .OINDEXMAP
  | slice _ _ _ _ _ _ => .OSLICE
  | call .OAPPEND _ _ _ _ => .OAPPEND
  | call .OCALLFUNC _ _ _ _ => .OCALLFUNC
  | makeslice _ _ _ => .OMAKESLICE

/-- Modelled from the spec: the method `Node.Type`. -/
def typ : Node → Typ
  | name v => v.typ
  | lit t _ _ => t
  | nilExpr t => t
  | typeptr t => .ptr t
  | unary _ t _ => t
  | binary _ t _ _ => t
  | dot t _ _ => t
  | dotptr t _ _ => t
  | index t _ _ _ => t
  | indexmap t _ _ => t
  | slice t _ _ _ _ _ => t
  | call _ t _ _ _ => t
  | makeslice t _ _ => t

end Node

/-- Modelled from the spec: the function `ir.IsBlank`: the node is a name whose symbol is the blank
identifier. -/
def IsBlank : Node → Bool
  | .name v => v.sym == .blank
  | _ => false

/-- Modelled from the spec: the function `ir.OuterValue`: the containing struct or array that a write
to `n` affects, found by drilling through field selections, parentheses,
no-op conversions and indexing of fixed-size arrays. -/
def OuterValue : Node → Node
  | .dot _ x _ => OuterValue x
  | .unary .OPAREN _ x => OuterValue x
  | .unary .OCONVNOP _ x => OuterValue x
  | .index t x i b => if x.typ.IsArray then OuterValue x else .index t x i b
  | n => n

mutual
/-- Modelled from the spec: the function `ir.Any`: a depth-first, preorder search of the tree rooted at
`n` for a node satisfying `cond`, stopping at the first hit. The condition may
abort the compilation, hence the monad. -/
def Any {m : Type → Type} [Monad m] (cond : Node → m Bool) : Node → m Bool
  | .name v => cond (.name v)
  | .lit t k v => cond (.lit t k v)
  | .nilExpr t => cond (.nilExpr t)
  | .typeptr t => cond (.typeptr t)
  | .unary o t x => do
      if (← cond (.unary o t x)) then return true
      Any cond x
  | .binary o t x y => do
      if (← cond (.binary o t x y)) then return true
      if (← Any cond x) then return true
      Any cond y
  | .dot t x s => do
      if (← cond (.dot t x s)) then return true
      Any cond x
  | .dotptr t x s => do
      if (← cond (.dotptr t x s)) then return true
      Any cond x
  | .index t x i b => do
      if (← cond (.index t x i b)) then return true
      if (← Any cond x) then return true
      Any cond i
  | .indexmap t x i => do
      if (← cond (.indexmap t x i)) then return true
      if (← Any cond x) then return true
      Any cond i
  | .slice t x lo hi mx b => do
      if (← cond (.slice t x lo hi mx b)) then return true
      if (← Any cond x) then return true
      if (← AnyOpt cond lo) then return true
      if (← AnyOpt cond hi) then return true
      AnyOpt cond mx
  | .call o t f args d => do
      if (← cond (.call o t f args d)) then return true
      AnyList cond args
  | .makeslice t l c => do
      if (← cond (.makeslice t l c)) then return true
      if (← Any cond l) then return true
      AnyOpt cond c
/-- The search of `ir.Any` over a list of children. -/
def AnyList {m : Type → Type} [Monad m] (cond : Node → m Bool) : List Node → m Bool
  | [] => pure false
  | x :: xs => do
      if (← Any cond x) then return true
      AnyList cond xs
/-- The search of `ir.Any` over an optional child. -/
def AnyOpt {m : Type → Type} [Monad m] (cond : Node → m Bool) : Option Node → m Bool
  | none => pure false
  | some x => Any cond x
end

mutual
/-- The named variables occurring in an expression, in preorder. -/
def names : Node → List Name
  | .name v => [v]
  | .lit _ _ _ => []
  | .nilExpr _ => []
  | .typeptr _ => []
  | .unary _ _ x => names x
  | .binary _ _ x y => names x ++ names y
  | .dot _ x _ => names x
  | .dotptr _ x _ => names x
  | .index _ x i _ => names x ++ names i
  | .indexmap _ x i => names x ++ names i
  | .slice _ x lo hi mx _ => names x ++ (namesOpt lo ++ (namesOpt hi ++ namesOpt mx))
  | .call _ _ _ args _ => namesList args
  | .makeslice _ l c => names l ++ namesOpt c
/-- The named variables occurring in a list of expressions. -/
def namesList : List Node → List Name
  | [] => []
  | x :: xs => names x ++ namesList xs
/-- The named variables occurring in an optional expression. -/
def namesOpt : Option Node → List Name
  | none => []
  | some x => names x
end

/-! ## The aliasing analyser -/

/-- The function `refersToName`: reports whether `r` refers to `name`. -/
def refersToName (name : Name) (r : Node) : Bool :=
  Id.run (Any (fun r => pure (match r with
    | .name v => decide (v = name)
    | _ => false)) r)

/-- The condition closure of `anyAddrTaken`. -/
def anyAddrTakenCond (n : Node) : Except String Bool :=
  match n with
  | .name v => .ok (v.Class_ == .PEXTERN || v.Class_ == .PAUTOHEAP || v.Addrtaken)
  | n =>
    match n.op with
    | .ODOT => .error "anyAddrTaken unexpected ODOT"
    | .OADD | .OAND | .OANDAND | .OANDNOT | .OBITNOT | .OCONV | .OCONVIFACE
    | .OCONVNOP | .ODIV | .ODOTTYPE | .OLITERAL | .OLSH | .OMOD | .OMUL | .ONEG
    | .ONIL | .OOR | .OOROR | .OPAREN | .OPLUS | .ORSH | .OSUB | .OXOR => .ok false
    | _ => .ok true

/-- The function `anyAddrTaken`: reports whether the evaluation of `n` may refer
to variables whose addresses have been taken. -/
def anyAddrTaken (n : Node) : Except String Bool :=
  Any anyAddrTakenCond n

/-- The loop of `aliased` that strips field selections from the read
expression. -/
def stripDots : Node → Node
  | .dot _ x _ => stripDots x
  | r => r

/-- The loop of `aliased` over the prior assignments. It returns whether a
direct hit ended the loop, and the value of `memwrite`. -/
def aliasedLoop (r : Node) : List AssignStmt → Bool → Except String (Bool × Bool)
  | [], memwrite => .ok (false, memwrite)
  | a :: rest, memwrite =>
    if IsBlank a.X then aliasedLoop r rest memwrite
    else
      match OuterValue a.X with
      | .name l =>
        match l.Class_ with
        | .PAUTOHEAP | .PEXTERN => aliasedLoop r rest true
        | .PAUTO | .PPARAM | .PPARAMOUT =>
          if l.Addrtaken then aliasedLoop r rest true
          else if refersToName l r then .ok (true, memwrite)
          else aliasedLoop r rest memwrite
        | _ => .error "unexpected class"
      | _ => aliasedLoop r rest true

/-- The function `aliased`: is it possible that the computation of `r` might be
affected by the assignments in `all`? -/
def aliased (r : Option Node) (all : List AssignStmt) : Except String Bool :=
  match r with
  | none => .ok false
  | some r0 => do
    let r := stripDots r0
    let (hit, memwrite) ← aliasedLoop r all false
    if hit then return true
    if !memwrite then return false
    if !(← anyAddrTaken r) then return false
    return true

/-! ## The simultaneous-assignment sequencer -/

/-- Modelled from the spec: the temporary allocator `typecheck.Temp`, which
returns a fresh compiler temporary of the given type, uniquely named within
the enclosing routine by the running counter `k`. -/
def Temp (t : Typ) (k : Nat) : Name :=
  { sym := .autotmp k, Class_ := .PAUTO, Addrtaken := false, typ := t }

/-- The mutable state of `reorder3`: the counter of the temporary allocator and
the two statement lists `early` and `mapinit`. -/
structure Acc where
  next : Nat
  early : List Stmt
  mapinit : List Stmt
deriving Repr

/-- The function `reorder3save`: if the evaluation of `n` would be affected by
the assignments in `prior` (the assignments before the current one), copy it
into a temporary during `early` and return that temporary. -/
def reorder3save (n : Node) (prior : List AssignStmt) (st : Acc) :
    Except String (Node × Acc) := do
  if !(← aliased (some n) prior) then return (n, st)
  let q := Node.name (Temp n.typ st.next)
  let as := Stmt.as ⟨q, n⟩
  return (q, { st with next := st.next + 1, early := st.early ++ [as] })

/-- The left-hand-side part of the body of `reorder3`: the loop that drills
through field selections, parentheses and indexing of fixed-size arrays (saving
the index), followed by the switch on the root. It returns the rewritten
destination and whether the root is a map index. -/
def reorder3Lhs (prior : List AssignStmt) : Node → Acc → Except String (Node × Bool × Acc)
  | .dot t x s, st => do
      let (x', m, st) ← reorder3Lhs prior x st
      return (.dot t x' s, m, st)
  | .unary .OPAREN t x, st => do
      let (x', m, st) ← reorder3Lhs prior x st
      return (.unary .OPAREN t x', m, st)
  | .index t x i b, st =>
      if x.typ.IsArray then do
        let (i', st) ← reorder3save i prior st
        let (x', m, st) ← reorder3Lhs prior x st
        return (.index t x' i' b, m, st)
      else do
        let (x', st) ← reorder3save x prior st
        let (i', st) ← reorder3save i prior st
        return (.index t x' i' b, false, st)
  | .name v, st => return (.name v, false, st)
  | .indexmap t x i, st => do
      let (x', st) ← reorder3save x prior st
      let (i', st) ← reorder3save i prior st
      return (.indexmap t x' i', true, st)
  | .unary .ODEREF t x, st => do
      let (x', st) ← reorder3save x prior st
      return (.unary .ODEREF t x', false, st)
  | .dotptr t x s, st => do
      let (x', st) ← reorder3save x prior st
      return (.dotptr t x' s, false, st)
  | _, _ => .error "reorder3 unexpected lvalue"

/-- The conversion-assignment collaborator `convas`, as `reorder3` uses it: it
takes an assignment and the temporary counter and returns the converted
assignment, the statements it appends to its init list, and the new counter. -/
abbrev Convas := AssignStmt → Nat → AssignStmt × List Stmt × Nat

/-- The body of the loop of `reorder3` for the assignment `n`, where `prior`
holds the assignments before it as already rewritten. -/
def reorder3Step (convas : Convas) (prior : List AssignStmt) (n : AssignStmt) (st : Acc) :
    Except String (AssignStmt × Acc) := do
  let (x', isMap, st) ← reorder3Lhs prior n.X st
  let n1 : AssignStmt := { n with X := x' }
  let (n2, st) :=
    if isMap then
      let (a, ini, k) := convas n1 st.next
      (a, { st with next := k, mapinit := st.mapinit ++ ini })
    else (n1, st)
  let (y', st) ← reorder3save n2.Y prior st
  return ({ n2 with Y := y' }, st)

/-- The loop of `reorder3`: `done` holds the assignments already processed (as
rewritten in place), `todo` the remaining ones. -/
def reorder3Loop (convas : Convas) : List AssignStmt → List AssignStmt → Acc →
    Except String (List AssignStmt × Acc)
  | done, [], st => .ok (done, st)
  | done, n :: todo, st => do
      let (n', st) ← reorder3Step convas done n st
      reorder3Loop convas (done ++ [n']) todo st

/-- The function `reorder3`, run with the temporary counter at `next`: it
returns the map initialisers, then the early copies, then the assignments. -/
def reorder3 (convas : Convas) (next : Nat) (all : List AssignStmt) :
    Except String (List Stmt) := do
  let (all', st) ← reorder3Loop convas [] all ⟨next, [], []⟩
  return st.mapinit ++ st.early ++ all'.map Stmt.as

/-! ## Execution model for the sequencer

Variables whose address is never taken live in an environment; globals,
heap-escaped variables and address-taken variables live in memory cells, as do
the objects that pointers and slices refer to. Evaluation fails (`none`) where
the program would panic or the expression is outside the modelled fragment. -/

/-- Memory cells: the storage of a memory-resident variable, or a heap
object. -/
inductive Cell where
  | var (v : Name)
  | obj (n : Nat)
deriving DecidableEq, Repr

/-- Run-time values: integers, pointers to a component of a cell, slices of an
array stored in a component of a cell, and aggregates (arrays and structs). -/
inductive Val where
  | int (n : Int)
  | nil
  | ptr (c : Cell) (path : List Nat)
  | slice (c : Cell) (path : List Nat) (off : Nat) (len : Nat)
  | agg (vs : List Val)
deriving Repr

namespace Val

/-- The component of a value at a path of element and field indices. -/
def get : Val → List Nat → Option Val
  | v, [] => some v
  | agg vs, i :: p => match vs[i]? with
    | some e => get e p
    | none => none
  | _, _ :: _ => none

/-- The value with the component at a path replaced. -/
def set : Val → List Nat → Val → Option Val
  | _, [], w => some w
  | agg vs, i :: p, w => match vs[i]? with
    | some e => match set e p w with
      | some e' => some (agg (vs.set i e'))
      | none => none
    | none => none
  | _, _ :: _, _ => none

end Val

/-- A program state: the environment of register-like variables and the
memory. -/
structure State where
  env : Name → Val
  heap : Cell → Val

/-- Whether a variable is memory-resident: a global, a heap-escaped variable, or
a variable whose address has been taken. -/
def InMemory (v : Name) : Bool :=
  v.Class_ == .PEXTERN || v.Class_ == .PAUTOHEAP || v.Addrtaken

/-- Storage locations: a component of an environment variable, a component of
a memory cell, or the blank identifier. -/
inductive Loc where
  | blank
  | var (v : Name) (path : List Nat)
  | mem (c : Cell) (path : List Nat)
deriving Repr

namespace Loc

/-- The location of the component `i` of a location. -/
def extend : Loc → Nat → Loc
  | blank, _ => blank
  | var v p, i => var v (p ++ [i])
  | mem c p, i => mem c (p ++ [i])

end Loc

/-- The location of a named variable. -/
def varLoc (v : Name) : Loc :=
  if v.sym == .blank then .blank
  else if InMemory v then .mem (.var v) []
  else .var v []

/-- Reading a location. The blank identifier cannot be read. -/
def read (σ : State) : Loc → Option Val
  | .blank => none
  | .var v p => (σ.env v).get p
  | .mem c p => (σ.heap c).get p

/-- Writing a location. Writes to the blank identifier are discarded. -/
def write (σ : State) : Loc → Val → Option State
  | .blank, _ => some σ
  | .var v p, w => match (σ.env v).set p w with
    | some u => some { σ with env := fun x => if x = v then u else σ.env x }
    | none => none
  | .mem c p, w => match (σ.heap c).set p w with
    | some u => some { σ with heap := fun x => if x = c then u else σ.heap x }
    | none => none

/-- The element `n` of an array value or of a slice. -/
def elemOf (σ : State) : Val → Val → Option Val
  | .agg vs, .int n => if 0 ≤ n then vs[n.toNat]? else none
  | .slice c p off len, .int n =>
    if 0 ≤ n ∧ n.toNat < len then (σ.heap c).get (p ++ [off + n.toNat]) else none
  | _, _ => none

/-- The location of the element `n` of a slice. -/
def elemLoc : Val → Val → Option Loc
  | .slice c p off len, .int n =>
    if 0 ≤ n ∧ n.toNat < len then some (.mem c (p ++ [off + n.toNat])) else none
  | _, _ => none

/-- The location a pointer refers to. -/
def derefLoc : Val → Option Loc
  | .ptr c p => some (.mem c p)
  | _ => none

/-- The value of an expression built from variables, integer literals,
indexing, field selection and pointer dereference. -/
def eval (σ : State) : Node → Option Val
  | .name v => read σ (varLoc v)
  | .lit _ .Int n => some (.int n)
  | .unary .OPAREN _ x => eval σ x
  | .dot _ x s => match eval σ x with
    | some v => v.get [s]
    | none => none
  | .index _ x i _ => match eval σ x, eval σ i with
    | some vx, some vi => elemOf σ vx vi
    | _, _ => none
  | .unary .ODEREF _ x => match eval σ x with
    | some v => match derefLoc v with
      | some l => read σ l
      | none => none
    | none => none
  | .dotptr _ x s => match eval σ x with
    | some v => match derefLoc v with
      | some l => read σ (l.extend s)
      | none => none
    | none => none
  | _ => none

/-- The location an assignable expression designates. The operands (indexes
and pointers) are evaluated in the given state. -/
def lval (σ : State) : Node → Option Loc
  | .name v => some (varLoc v)
  | .unary .OPAREN _ x => lval σ x
  | .dot _ x s => match lval σ x with
    | some l => some (l.extend s)
    | none => none
  | .index _ x i _ =>
    if x.typ.IsArray then
      match lval σ x, eval σ i with
      | some l, some (.int n) => if 0 ≤ n then some (l.extend n.toNat) else none
      | _, _ => none
    else
      match eval σ x, eval σ i with
      | some vx, some vi => elemLoc vx vi
      | _, _ => none
  | .unary .ODEREF _ x => match eval σ x with
    | some v => derefLoc v
    | none => none
  | .dotptr _ x s => match eval σ x with
    | some v => match derefLoc v with
      | some l => some (l.extend s)
      | none => none
    | none => none
  | _ => none

/-- Executing one statement. Only assignments are executable in this model. -/
def exec (σ : State) : Stmt → Option State
  | .as a => match lval σ a.X, eval σ a.Y with
    | some l, some v => write σ l v
    | _, _ => none
  | _ => none

/-- Executing a statement sequence in order. -/
def execSeq : List Stmt → State → Option State
  | [], σ => some σ
  | s :: rest, σ => match exec σ s with
    | some σ' => execSeq rest σ'
    | none => none

/-- Performing a list of writes from left to right. -/
def writeAll : List (Loc × Val) → State → Option State
  | [], σ => some σ
  | (l, v) :: rest, σ => match write σ l v with
    | some σ' => writeAll rest σ'
    | none => none

/-- The operands of a list of assignments, all evaluated in the one state `σ`:
for each assignment the location of its destination and the value of its
source. -/
def evalAll (σ : State) : List AssignStmt → Option (List (Loc × Val))
  | [] => some []
  | a :: rest => match lval σ a.X, eval σ a.Y, evalAll σ rest with
    | some l, some v, some r => some ((l, v) :: r)
    | _, _, _ => none

/-- Simultaneous assignment: every source and every destination operand is
evaluated in the pre-assignment state, then the writes are performed from left
to right. -/
def simultaneous (all : List AssignStmt) (σ : State) : Option State :=
  match evalAll σ all with
  | some ws => writeAll ws σ
  | none => none

/-! ## What `aliased` sees of an assignment -/

/-- Whether the assignment counts, for `aliased`, as a write to generic memory. -/
def writesMemory (a : AssignStmt) : Bool :=
  !IsBlank a.X && (match OuterValue a.X with
    | .name l => InMemory l
    | _ => true)

/-- The register-like variable of which the assignment writes a component, if
there is one. -/
def writtenName (a : AssignStmt) : Option Name :=
  if IsBlank a.X then none
  else match OuterValue a.X with
    | .name l => if InMemory l then none else some l
    | _ => none

/-- Whether the storage class of the variable an assignment writes, if any, is
one that `aliased` recognises. -/
def classOK (a : AssignStmt) : Bool :=
  IsBlank a.X || (match OuterValue a.X with
    | .name l => l.Class_ == .PAUTO || l.Class_ == .PPARAM || l.Class_ == .PPARAMOUT
        || l.Class_ == .PAUTOHEAP || l.Class_ == .PEXTERN
    | _ => true)

/-- Whether the read expression mentions the variable the assignment writes. -/
def hitBy (r : Node) (a : AssignStmt) : Bool :=
  match writtenName a with
  | some l => refersToName l r
  | none => false

/-! ## Relations between states used to state the sequencer's correctness -/

/-- Whether a variable is not one of the temporaries allocated from the counter
value `next` on. -/
def notFresh (next : Nat) (v : Name) : Bool :=
  match v.sym with
  | .autotmp k => decide (k < next)
  | _ => true

/-- The relation between the pre-assignment state `σ0` and a state `τ` reached
after the assignments `prior` have been carried out: register-like variables
that are neither temporaries nor written by `prior` are unchanged, and memory
is unchanged unless `prior` writes to memory. -/
def Frame (next0 : Nat) (prior : List AssignStmt) (σ0 τ : State) : Prop :=
  (∀ v, InMemory v = false → notFresh next0 v = true →
    (∀ a ∈ prior, writtenName a ≠ some v) → τ.env v = σ0.env v) ∧
  (prior.any writesMemory = false → τ.heap = σ0.heap)

/-- The temporaries hold the pre-assignment values of the expressions copied
into them by the statements `E`. -/
def EarlyOK (σ0 τ : State) (E : List Stmt) : Prop :=
  ∀ q e, Stmt.as ⟨.name q, e⟩ ∈ E → eval σ0 e = some (τ.env q)

/-- Two states agree on memory and on every variable that is not one of the
temporaries allocated from `next0` on. -/
def Sim (next0 : Nat) (τ ρ : State) : Prop :=
  τ.heap = ρ.heap ∧ ∀ v, notFresh next0 v = true → τ.env v = ρ.env v

/-- Two executions have the same outcome: both fail, or both end in states
that agree on memory and on every variable other than the temporaries. -/
def SameOutcome (next0 : Nat) : Option State → Option State → Prop
  | some τ, some ρ => Sim next0 τ ρ
  | none, none => True
  | _, _ => False


/-- A plain variable: not the blank identifier, and of a storage class that
`aliased` recognises. -/
def goodName (v : Name) : Bool :=
  v.sym != .blank && (v.Class_ == .PAUTO || v.Class_ == .PPARAM || v.Class_ == .PPARAMOUT
    || v.Class_ == .PAUTOHEAP || v.Class_ == .PEXTERN)

/-- Call-free expressions built from plain variables, integer literals,
array/slice indexing, field access and pointer dereference. -/
def Frag : Node → Bool
  | .name v => goodName v
  | .lit _ .Int _ => true
  | .dot _ x _ => Frag x
  | .dotptr _ x _ => Frag x
  | .index _ x i _ => Frag x && Frag i
  | .unary .ODEREF _ x => Frag x
  | _ => false

/-- Assignable expressions of that fragment. -/
def DestFrag : Node → Bool
  | .name v => goodName v
  | .dot _ x _ => DestFrag x
  | .index _ x i _ => if x.typ.IsArray then DestFrag x && Frag i else Frag x && Frag i
  | .unary .ODEREF _ x => Frag x
  | .dotptr _ x _ => Frag x
  | _ => false

/-- A single assignment of the fragment: the destination is the blank
identifier or an assignable expression, the source an expression, and neither
mentions a temporary allocated from `next` on. -/
def FragAssign (next : Nat) (a : AssignStmt) : Bool :=
  (IsBlank a.X || DestFrag a.X) && Frag a.Y &&
    (names a.X ++ names a.Y).all (notFresh next)

/-- The statements `E` copy into temporaries whose counter values increase and
lie between `lo` and `hi`. -/
def EarlyInc : Nat → List Stmt → Nat → Prop
  | lo, [], hi => lo ≤ hi
  | lo, s :: rest, hi => ∃ t k e, s = .as ⟨.name (Temp t k), e⟩ ∧ lo ≤ k ∧ EarlyInc (k + 1) rest hi

/-- Carrying out the assignments from left to right in the state `ρ`, with the
operands of each evaluated in the fixed state `σ0`. -/
def seqFrom (σ0 : State) : List AssignStmt → State → Option State
  | [], ρ => some ρ
  | a :: rest, ρ => match lval σ0 a.X, eval σ0 a.Y with
    | some l, some v => match write ρ l v with
      | some ρ' => seqFrom σ0 rest ρ'
      | none => none
    | _, _ => none

/-- The statements `extra` are copies into temporaries of operands of the
destination `x`: each copied expression mentions only variables of `x`, and if
it cannot be evaluated then the location of `x` cannot be computed. -/
def CopiesOf (x : Node) (extra : List Stmt) : Prop :=
  ∀ s ∈ extra, ∃ q e, s = .as ⟨.name q, e⟩ ∧ (∀ v ∈ names e, v ∈ names x) ∧
    (∀ σ0, eval σ0 e = none → lval σ0 x = none)

/-- The statements `extra` are copies into temporaries of operands of the
assignments `todo`. -/
def CopiesOfAll (todo : List AssignStmt) (extra : List Stmt) : Prop :=
  ∀ s ∈ extra, ∃ q e, s = .as ⟨.name q, e⟩ ∧ ∃ a ∈ todo,
    (∀ v ∈ names e, v ∈ names a.X ∨ v ∈ names a.Y) ∧
    (∀ σ0, eval σ0 e = none → lval σ0 a.X = none ∨ eval σ0 a.Y = none)

/-- A local variable whose address is not taken: class PAUTO, PPARAM or
PPARAMOUT, not the blank identifier. -/
def plainLocal (v : Name) : Bool :=
  v.sym != .blank && !v.Addrtaken &&
    (v.Class_ == .PAUTO || v.Class_ == .PPARAM || v.Class_ == .PPARAMOUT)

/-- The base of the element locations of `a`: the variable itself for an array,
a component of a memory cell for a slice. -/
def SwapBase (a : Name) (B : Loc) : Prop :=
  (B = .var a [] ∧ a.typ.IsArray = true) ∨ ∃ c p, B = .mem c p

/-- The expression `n'` is `n` with some sub-expressions replaced by the
temporaries that the statements `early` copy them into. -/
inductive Repl (early : List Stmt) : Node → Node → Prop where
  | same (n : Node) : Repl early n n
  | temp (n : Node) (q : Name) : Stmt.as ⟨.name q, n⟩ ∈ early → Repl early n (.name q)
  | dot (t : Typ) (x x' : Node) (s : Nat) : Repl early x x' → Repl early (.dot t x s) (.dot t x' s)
  | paren (t : Typ) (x x' : Node) : Repl early x x' →
      Repl early (.unary .OPAREN t x) (.unary .OPAREN t x')
  | deref (t : Typ) (x x' : Node) : Repl early x x' →
      Repl early (.unary .ODEREF t x) (.unary .ODEREF t x')
  | dotptr (t : Typ) (x x' : Node) (s : Nat) : Repl early x x' →
      Repl early (.dotptr t x s) (.dotptr t x' s)
  | index (t : Typ) (x x' i i' : Node) (b : Bool) : Repl early x x' → Repl early i i' →
      Repl early (.index t x i b) (.index t x' i' b)
  | indexmap (t : Typ) (x x' i i' : Node) : Repl early x x' → Repl early i i' →
      Repl early (.indexmap t x i) (.indexmap t x' i')

/-- The assignment `a'` is what `reorder3` leaves of the assignment `a`: the
destination with sub-expressions replaced by temporaries, then (for a map
destination) the conversion by `convas`, then the source possibly replaced by
a temporary. -/
def Rewritten (convas : Convas) (early : List Stmt) (a a' : AssignStmt) : Prop :=
  ∃ x', Repl early a.X x' ∧ ∃ n2 : AssignStmt,
    (n2 = ⟨x', a.Y⟩ ∨ ∃ k, n2 = (convas ⟨x', a.Y⟩ k).1) ∧ a'.X = n2.X ∧ Repl early n2.Y a'.Y

/-- What one pass of the loop of `reorder3` adds to its state: `extra` to the
early copies and `ini` to the map initialisers. -/
def StepAdds (convas : Convas) (st st' : Acc) : Prop :=
  (∃ extra, st'.early = st.early ++ extra ∧
    ((∀ a k, k ≤ (convas a k).2.2) → EarlyInc st.next extra st'.next) ∧
    ∀ s ∈ extra, ∃ t k e, s = Stmt.as ⟨.name (Temp t k), e⟩) ∧
  (∃ ini, st'.mapinit = st.mapinit ++ ini ∧ ∀ s ∈ ini, ∃ a k, s ∈ (convas a k).2.1)

/-! ## The append expansion engine -/

/-- The build-mode flags this stage reads: `base.Flag.N`,
`base.Flag.Cfg.Instrumenting` and `base.Flag.CompilingRuntime`. -/
structure Flags where
  N : Nat
  Instrumenting : Bool
  CompilingRuntime : Bool
deriving DecidableEq, Repr

/-- The collaborator `walkAppendArgs`, as the append lowerings use it: it takes
the arguments of the call and the temporary counter and returns the walked
arguments, the statements it appends to init, and the new counter. -/
abbrev WalkArgs := List Node → Nat → List Node × List Stmt × Nat

/-- What an append lowering produces: the expression that yields the result,
the statements appended to init, whether a write-barrier position was recorded
for the enclosing function (`ir.CurFunc.SetWBPos`), and the temporary counter. -/
structure Lowered where
  result : Node
  init : List Stmt
  wbpos : Bool
  next : Nat
deriving Repr

/-- Modelled from the spec: the collaborator `cheapExpr` of the expression
walker. A name, literal or nil is returned as it is; any other expression is
evaluated once into a fresh temporary by an assignment appended to `init`, and
that temporary is returned. -/
def cheapExpr (n : Node) (init : List Stmt) (k : Nat) : Node × List Stmt × Nat :=
  match n.op with
  | .ONAME | .OLITERAL | .ONIL => (n, init, k)
  | _ =>
    let l := Node.name (Temp n.typ k)
    (l, init ++ [.as ⟨l, n⟩], k + 1)

/-- Modelled from the spec: the collaborators `mkcall` and `mkcall1`, which
build the call of a runtime primitive with the given result type and (already
cheap) arguments. -/
def mkcall (name : String) (targs : List Typ) (t : Typ) (args : List Node) : Node :=
  .call .OCALLFUNC t (.runtime name targs) args false

/-- The machine `int` type, `types.Types[types.TINT]`. -/
def TINT : Typ := .basic .TINT
/-- The machine `uint` type, `types.Types[types.TUINT]`. -/
def TUINT : Typ := .basic .TUINT
/-- The type `uintptr`, `types.Types[types.TUINTPTR]`. -/
def TUINTPTR : Typ := .basic .TUINTPTR
/-- The type `unsafe.Pointer`, `types.Types[types.TUNSAFEPTR]`. -/
def TUNSAFEPTR : Typ := .basic .TUNSAFEPTR
/-- The type `bool`, `types.Types[types.TBOOL]`. -/
def TBOOL : Typ := .basic .TBOOL

/-- Modelled from the spec: the constructor `ir.NewInt`. -/
def NewInt (v : Int) : Node := .lit TINT .Int v

/-- Modelled from the spec: the constructor `typecheck.Conv`. -/
def Conv (n : Node) (t : Typ) : Node := .unary .OCONV t n

/-- Modelled from the spec: the constructor `typecheck.ConvNop`. -/
def ConvNop (n : Node) (t : Typ) : Node := .unary .OCONVNOP t n

/-- Modelled from the spec: the constructor `typecheck.NodAddr`. -/
def NodAddr (n : Node) : Node := .unary .OADDR n.typ.PtrTo n

/-- The expression `len(n)`. -/
def lenOf (n : Node) : Node := .unary .OLEN TINT n

/-- The expression `cap(n)`. -/
def capOf (n : Node) : Node := .unary .OCAP TINT n

/-- Modelled from the spec: the collaborator `backingArrayPtrLen`, which returns
the expressions for the start pointer of the backing array of `n` and for the
length of `n`. -/
def backingArrayPtrLen (n : Node) : Node × Node :=
  let pt := if n.typ.IsString then (Typ.basic .TUINT8).PtrTo else n.typ.Elem.PtrTo
  (.unary .OSPTR pt n, lenOf n)

/-- The function `appendSlice`: expands `append(l1, l2...)`. The counter `k`
is that of the temporary allocator; typechecking and walking of the emitted
statements by the collaborators is not modelled. -/
def appendSlice (fl : Flags) (ptrSize : Nat) (walkAppendArgs : WalkArgs) (n : Node) (k : Nat) :
    Except String Lowered :=
  match n with
  | .call _ _ _ args _ =>
    let (args, init, k) := walkAppendArgs args k
    match args with
    | l1 :: l2 :: _ =>
      let (l2, init, k) := cheapExpr l2 init k
      let nodes : List Stmt := []
      -- var s []T
      let s := Node.name (Temp l1.typ k)
      let nodes := nodes ++ [.as ⟨s, l1⟩]
      let elemtype := s.typ.Elem
      -- n := len(s) + len(l2)
      let nn := Node.name (Temp TINT (k + 1))
      let nodes := nodes ++ [.as ⟨nn, .binary .OADD TINT (lenOf s) (lenOf l2)⟩]
      -- if uint(n) > uint(cap(s))
      let nuint := Conv nn TUINT
      let scapuint := Conv (capOf s) TUINT
      let cond := Node.binary .OGT TBOOL nuint scapuint
      -- s = growslice(T, s, n)
      let body := [Stmt.as ⟨s, mkcall "growslice" [elemtype, elemtype] s.typ
        [.typeptr elemtype, s, nn]⟩]
      let nodes := nodes ++ [.ifs cond body [] false]
      -- s = s[:n]
      let nt := Node.slice s.typ s none (some nn) none true
      let nodes := nodes ++ [.as ⟨s, nt⟩]
      if elemtype.HasPointers then
        -- copy(s[len(l1):], l2)
        let slice := Node.slice s.typ s (some (lenOf l1)) none none false
        let (c, nodes, k2) := cheapExpr slice nodes (k + 2)
        let (ptr1, len1) := backingArrayPtrLen c
        let (ptr2, len2) := backingArrayPtrLen l2
        let ncopy := mkcall "typedslicecopy" [l1.typ.Elem, l2.typ.Elem] TINT
          [.typeptr elemtype, ptr1, len1, ptr2, len2]
        .ok ⟨s, init ++ (nodes ++ [.expr ncopy]), true, k2⟩
      else if fl.Instrumenting && !fl.CompilingRuntime then
        -- rely on runtime to instrument: copy(s[len(l1):], l2)
        let slice := Node.slice s.typ s (some (lenOf l1)) none none false
        let (c, nodes, k2) := cheapExpr slice nodes (k + 2)
        let (ptr1, len1) := backingArrayPtrLen c
        let (ptr2, len2) := backingArrayPtrLen l2
        let ncopy := mkcall "slicecopy" [ptr1.typ.Elem, ptr2.typ.Elem] TINT
          [ptr1, len1, ptr2, len2, NewInt (elemtype.Width ptrSize)]
        .ok ⟨s, init ++ (nodes ++ [.expr ncopy]), false, k2⟩
      else
        -- memmove(&s[len(l1)], &l2[0], len(l2)*sizeof(T))
        let ix := Node.index elemtype s (lenOf l1) true
        let addr := NodAddr ix
        let sptr := Node.unary .OSPTR l2.typ.Elem.PtrTo l2
        let (nwid, nodes, k2) := cheapExpr (Conv (lenOf l2) TUINTPTR) nodes (k + 2)
        let nwid := Node.binary .OMUL TUINTPTR nwid (NewInt (elemtype.Width ptrSize))
        let ncopy := mkcall "memmove" [elemtype, elemtype] .void [addr, sptr, nwid]
        .ok ⟨s, init ++ (nodes ++ [.expr ncopy]), false, k2⟩
    | _ => .error "index out of range"
  | _ => .error "not a CallExpr"

/-- The function `isAppendOfMake`: reports whether `n` is of the form
`append(x, make([]T, y)...)`. The argument `typechecked` is `n.Typecheck() != 0`. -/
def isAppendOfMake (fl : Flags) (ptrSize : Nat) (typechecked : Bool) (n : Node) :
    Except String Bool :=
  if fl.N != 0 || fl.Instrumenting then .ok false
  else if !typechecked then .error "missing typecheck"
  else
    match n with
    | .call .OAPPEND _ _ args isDDD =>
      if !isDDD then .ok false
      else match args with
      | [_, .makeslice _ len cap] =>
        if cap.isSome then .ok false
        else
          -- y must be either an integer constant or the largest possible positive
          -- value of variable y needs to fit into an uint.
          let isConstInt := match len with
            | .lit _ .Int _ => true
            | _ => false
          if !isConstInt && len.typ.Width ptrSize > TUINT.Width ptrSize then .ok false
          else .ok true
      | _ => .ok false
    | _ => .ok false

/-- The function `extendSlice`: rewrites `append(l1, make([]T, l2)...)`. -/
def extendSlice (ptrSize : Nat) (walkAppendArgs : WalkArgs) (n : Node) (k : Nat) :
    Except String Lowered :=
  match n with
  | .call _ _ _ (a0 :: .makeslice _ len _ :: rest) _ =>
    -- isAppendOfMake made sure all possible positive values of l2 fit into an uint.
    let l2 := Conv len TINT
    let (args, init, k) := walkAppendArgs (a0 :: l2 :: rest) k
    match args with
    | l1 :: l2 :: _ =>
      let nodes : List Stmt := []
      -- if l2 >= 0 (likely happens), do nothing; else panicmakeslicelen()
      let nifneg := Stmt.ifs (.binary .OGE TBOOL l2 (NewInt 0)) []
        [.expr (mkcall "panicmakeslicelen" [] .void [])] true
      let nodes := nodes ++ [nifneg]
      -- s := l1
      let s := Node.name (Temp l1.typ k)
      let nodes := nodes ++ [.as ⟨s, l1⟩]
      let elemtype := s.typ.Elem
      -- n := len(s) + l2
      let nn := Node.name (Temp TINT (k + 1))
      let nodes := nodes ++ [.as ⟨nn, .binary .OADD TINT (lenOf s) l2⟩]
      -- if uint(n) > uint(cap(s))
      let nuint := Conv nn TUINT
      let capuint := Conv (capOf s) TUINT
      let nif := Stmt.ifs (.binary .OGT TBOOL nuint capuint)
        [.as ⟨s, mkcall "growslice" [elemtype, elemtype] s.typ [.typeptr elemtype, s, nn]⟩]
        [] false
      let nodes := nodes ++ [nif]
      -- s = s[:n]
      let nt := Node.slice s.typ s none (some nn) none true
      let nodes := nodes ++ [.as ⟨s, nt⟩]
      -- lptr := &l1[0]
      let l1ptr := Node.name (Temp l1.typ.Elem.PtrTo (k + 2))
      let nodes := nodes ++ [.as ⟨l1ptr, .unary .OSPTR l1.typ.Elem.PtrTo l1⟩]
      -- sptr := &s[0]
      let sptr := Node.name (Temp elemtype.PtrTo (k + 3))
      let nodes := nodes ++ [.as ⟨sptr, .unary .OSPTR elemtype.PtrTo s⟩]
      -- hp := &s[len(l1)]
      let ix := Node.index elemtype s (lenOf l1) true
      let hp := ConvNop (NodAddr ix) TUNSAFEPTR
      -- hn := l2 * sizeof(elem(s))
      let hn := Conv (.binary .OMUL TINT l2 (NewInt (elemtype.Width ptrSize))) TUINTPTR
      let hasPointers := elemtype.HasPointers
      let clrname := if hasPointers then "memclrHasPointers" else "memclrNoHeapPointers"
      let clr := [Stmt.expr (mkcall clrname [] .void [hp, hn])]
      if hasPointers then
        -- if l1ptr == sptr
        let nifclr := Stmt.ifs (.binary .OEQ TBOOL l1ptr sptr) clr [] false
        .ok ⟨s, init ++ (nodes ++ [nifclr]), true, k + 4⟩
      else
        .ok ⟨s, init ++ (nodes ++ clr), false, k + 4⟩
    | _ => .error "index out of range"
  | _ => .error "not a MakeExpr"

/-! ## Execution model for the append engine

Memory is byte-addressed and organised in blocks; a slice value is the
address of its first element (a block and a byte offset), its length and its
capacity. Machine integers are `w` bits wide. -/

/-- Run-time values of the append engine's statements. -/
inductive AVal where
  | int (n : Int)
  | uint (n : Nat)
  | bool (b : Bool)
  | ptr (blk : Nat) (off : Nat)
  | slice (blk : Nat) (off : Nat) (len : Nat) (cap : Nat)
  | str (blk : Nat) (off : Nat) (len : Nat)
  | typ (t : Typ)
deriving DecidableEq, Repr

/-- A machine state: the variables, the bytes of every memory block, and the
number of the next block the allocator hands out. -/
structure AState where
  env : Name → AVal
  mem : Nat → Nat → Nat
  nextBlk : Nat

/-- Modelled from the spec: the parameters of the growth primitive that the
spec leaves open: the capacity it chooses for a wanted length (given the old
capacity), and the bytes found in freshly allocated memory that it does not
zero. -/
structure Runtime where
  growCap : Nat → Nat → Nat
  junk : Nat → Nat → Nat

/-- How an execution ends: normally, by a run-time panic, or stuck on a
statement outside the model. -/
inductive Outcome where
  | done (σ : AState)
  | panicked (msg : String) (σ : AState)
  | stuck

/-- The value of a mathematical integer as a `w`-bit signed integer. -/
def wrapS (w : Nat) (z : Int) : Int :=
  (z + 2 ^ (w - 1)) % 2 ^ w - 2 ^ (w - 1)

/-- The value of a mathematical integer as a `w`-bit unsigned integer. -/
def wrapU (w : Nat) (z : Int) : Nat :=
  (z % 2 ^ w).toNat

/-- Whether a type is an unsigned integer type. -/
def isUnsigned : Typ → Bool
  | .basic .TUINT | .basic .TUINTPTR | .basic .TUINT8 | .basic .TUINT16
  | .basic .TUINT32 | .basic .TUINT64 => true
  | _ => false

/-- The integer a value stands for. -/
def AVal.toInt : AVal → Option Int
  | .int n => some n
  | .uint n => some n
  | _ => none

/-- An integer as a value of the integer type `t`. -/
def ofInt (w : Nat) (t : Typ) (z : Int) : AVal :=
  if isUnsigned t then .uint (wrapU w z) else .int (wrapS w z)

/-- The value of a binary operation of result type `t`. -/
def binop (w : Nat) (op : BinOp) (t : Typ) (a b : AVal) : Option AVal :=
  match op with
  | .OADD => match a.toInt, b.toInt with
    | some x, some y => some (ofInt w t (x + y))
    | _, _ => none
  | .OMUL => match a.toInt, b.toInt with
    | some x, some y => some (ofInt w t (x * y))
    | _, _ => none
  | .OGT => match a.toInt, b.toInt with
    | some x, some y => some (.bool (decide (x > y)))
    | _, _ => none
  | .OGE => match a.toInt, b.toInt with
    | some x, some y => some (.bool (decide (x ≥ y)))
    | _, _ => none
  | .OEQ => some (.bool (decide (a = b)))
  | _ => none

/-- The value of an expression of the kind the append lowerings emit. -/
def evalA (w ptrSize : Nat) (σ : AState) : Node → Option AVal
  | .name v => some (σ.env v)
  | .lit _ .Int v => some (.int v)
  | .typeptr t => some (.typ t)
  | .unary .OLEN _ x => match evalA w ptrSize σ x with
    | some (.slice _ _ l _) => some (.int l)
    | some (.str _ _ l) => some (.int l)
    | _ => none
  | .unary .OCAP _ x => match evalA w ptrSize σ x with
    | some (.slice _ _ _ c) => some (.int c)
    | _ => none
  | .unary .OSPTR _ x => match evalA w ptrSize σ x with
    | some (.slice b o _ _) => some (.ptr b o)
    | some (.str b o _) => some (.ptr b o)
    | _ => none
  | .unary .OCONV t x => match evalA w ptrSize σ x with
    | some v => match v.toInt with
      | some z => some (ofInt w t z)
      | none => none
    | none => none
  | .unary .OCONVNOP _ x => evalA w ptrSize σ x
  | .unary .OADDR _ (.index te x i _) => match evalA w ptrSize σ x, evalA w ptrSize σ i with
    | some (.slice b o _ _), some (.int n) =>
      if 0 ≤ n then some (.ptr b (o + n.toNat * te.Width ptrSize)) else none
    | _, _ => none
  | .binary op t x y => match evalA w ptrSize σ x, evalA w ptrSize σ y with
    | some a, some b => binop w op t a b
    | _, _ => none
  | .slice _ x none (some hi) none bounded => match evalA w ptrSize σ x, evalA w ptrSize σ hi with
    | some (.slice b o _ c), some (.int h) =>
      if bounded || (0 ≤ h ∧ h ≤ c) then some (.slice b o h.toNat c) else none
    | _, _ => none
  | .slice t x (some lo) none none bounded =>
    match evalA w ptrSize σ x, evalA w ptrSize σ lo with
    | some (.slice b o l c), some (.int n) =>
      if bounded || (0 ≤ n ∧ n ≤ l) then
        some (.slice b (o + n.toNat * t.Elem.Width ptrSize) (l - n.toNat) (c - n.toNat))
      else none
    | _, _ => none
  | _ => none

/-- Copying `n` bytes within memory; the source bytes are those before the
copy, also where the two ranges overlap. -/
def memCopy (mem : Nat → Nat → Nat) (tb ta fb fo n : Nat) : Nat → Nat → Nat :=
  fun b a => if b = tb ∧ ta ≤ a ∧ a < ta + n then mem fb (fo + (a - ta)) else mem b a

/-- Zeroing `n` bytes of memory. -/
def memClear (mem : Nat → Nat → Nat) (b o n : Nat) : Nat → Nat → Nat :=
  fun b' a => if b' = b ∧ o ≤ a ∧ a < o + n then 0 else mem b' a

/-- Modelled from the spec: the runtime primitives the lowerings call, other
than the growth primitive: the panic for a negative length, the raw byte move,
the pointer-aware typed copy and the instrumented copy (both copy as many
elements as the shorter of destination and source has), and the two clear
primitives. -/
def primitive (ptrSize : Nat) (name : String) (args : List AVal) (σ : AState) : Outcome :=
  match name, args with
  | "panicmakeslicelen", [] => .panicked "makeslice: len out of range" σ
  | "memmove", [.ptr tb ta, .ptr fb fo, .uint n] =>
    .done { σ with mem := memCopy σ.mem tb ta fb fo n }
  | "typedslicecopy", [.typ t, .ptr tb ta, .int dl, .ptr fb fo, .int sl] =>
    .done { σ with mem := memCopy σ.mem tb ta fb fo ((min dl sl).toNat * t.Width ptrSize) }
  | "slicecopy", [.ptr tb ta, .int dl, .ptr fb fo, .int sl, .int width] =>
    .done { σ with mem := memCopy σ.mem tb ta fb fo ((min dl sl).toNat * width.toNat) }
  | "memclrNoHeapPointers", [.ptr b o, .uint n] => .done { σ with mem := memClear σ.mem b o n }
  | "memclrHasPointers", [.ptr b o, .uint n] => .done { σ with mem := memClear σ.mem b o n }
  | _, _ => .stuck

/-- Modelled from the spec: the growth primitive `growslice(typ, old, n)`. It
panics when the wanted length `n` is negative; otherwise it allocates a fresh
block of the capacity the runtime chooses, copies the elements of the old
slice into it, zeroes the rest when the element type has pointers (new memory
is untouched otherwise), and returns the new slice with the old length. It
assigns the result to the variable `v`. -/
def growslice (rt : Runtime) (ptrSize : Nat) (v : Name) (args : List AVal) (σ : AState) :
    Outcome :=
  match args with
  | [.typ t, .slice b o l c, .int n] =>
    if n < 0 then .panicked "growslice: len out of range" σ
    else
      let nb := σ.nextBlk
      let width := t.Width ptrSize
      .done { env := fun x => if x = v then .slice nb 0 l (rt.growCap c n.toNat) else σ.env x,
              mem := fun b' a =>
                if b' = nb then
                  (if a < l * width then σ.mem b (o + a)
                   else if t.HasPointers then 0 else rt.junk nb a)
                else σ.mem b' a,
              nextBlk := nb + 1 }
  | _ => .stuck

/-- The values of a list of argument expressions. -/
def evalArgs (w ptrSize : Nat) (σ : AState) : List Node → Option (List AVal)
  | [] => some []
  | x :: xs => match evalA w ptrSize σ x, evalArgs w ptrSize σ xs with
    | some v, some vs => some (v :: vs)
    | _, _ => none

mutual
/-- Executing one emitted statement. -/
def execA (rt : Runtime) (w ptrSize : Nat) : Stmt → AState → Outcome
  | .as ⟨.name v, .call .OCALLFUNC _ (.runtime "growslice" _) args _⟩, σ =>
    match evalArgs w ptrSize σ args with
    | some vs => growslice rt ptrSize v vs σ
    | none => .stuck
  | .as ⟨.name v, e⟩, σ =>
    match evalA w ptrSize σ e with
    | some x => .done { σ with env := fun y => if y = v then x else σ.env y }
    | none => .stuck
  | .as _, _ => .stuck
  | .ifs c body els _, σ =>
    match evalA w ptrSize σ c with
    | some (.bool true) => execListA rt w ptrSize body σ
    | some (.bool false) => execListA rt w ptrSize els σ
    | _ => .stuck
  | .expr (.call .OCALLFUNC _ (.runtime name _) args _), σ =>
    match evalArgs w ptrSize σ args with
    | some vs => primitive ptrSize name vs σ
    | none => .stuck
  | .expr _, _ => .stuck
/-- Executing a list of emitted statements in order. -/
def execListA (rt : Runtime) (w ptrSize : Nat) : List Stmt → AState → Outcome
  | [], σ => .done σ
  | s :: rest, σ =>
    match execA rt w ptrSize s σ with
    | .done σ' => execListA rt w ptrSize rest σ'
    | o => o
end


/-- The name of the runtime primitive called by the last statement of a list. -/
def lastCall (l : List Stmt) : Option String :=
  match l.getLast? with
  | some (.expr (.call _ _ (.runtime name _) _ _)) => some name
  | _ => none

/-- The growth condition `uint(n) > uint(cap(s))` that both lowerings emit. -/
def growCond (s nn : Node) : Node :=
  .binary .OGT TBOOL (Conv nn TUINT) (Conv (capOf s) TUINT)

/-- The check of the length that `extendSlice` emits:
`if l2 >= 0 { } else { panicmakeslicelen() }`, marked likely. -/
def lenCheck (l2 : Node) : Stmt :=
  .ifs (.binary .OGE TBOOL l2 (NewInt 0)) []
    [.expr (mkcall "panicmakeslicelen" [] .void [])] true

/-- The statements both lowerings emit to size the result: the copy `s = l1`,
the sum `n = len(s) + k`, the growth under the growth condition, and the
reslice `s = s[:n]`. -/
def growStmts (s nn : Name) (l1 addend : Node) : List Stmt :=
  [ .as ⟨.name s, l1⟩,
    .as ⟨.name nn, .binary .OADD TINT (lenOf (.name s)) addend⟩,
    .ifs (growCond (.name s) (.name nn))
      [.as ⟨.name s, mkcall "growslice" [s.typ.Elem, s.typ.Elem] s.typ
        [.typeptr s.typ.Elem, .name s, .name nn]⟩] [] false,
    .as ⟨.name s, .slice s.typ (.name s) none (some (.name nn)) none true⟩ ]

/-- The value of a source of elements: a slice or a string at block `b`, offset
`o`, of length `n`. -/
def IsSource (v : AVal) (b o n : Nat) : Prop :=
  (∃ c, v = .slice b o n c) ∨ v = .str b o n

/-- An expression keeps the value `v` in every state whose variables agree with
those of `σ` except on the temporaries numbered `k` and above. -/
def StableAt (w ptrSize k : Nat) (σ : AState) (e : Node) (v : AVal) : Prop :=
  ∀ τ : AState, (∀ x : Name, (∀ i, k ≤ i → x.sym ≠ .autotmp i) → τ.env x = σ.env x) →
    evalA w ptrSize τ e = some v

/-! ## Names in common -/

mutual
/-- The closure `doR` of `refersToCommonName`, with `targetL` the name being
looked for: it stops (true) at a name node whose name is `targetL`, and
otherwise visits the children in order (`ir.DoChildren`). -/
def doR (targetL : Name) : Node → Bool
  | .name v => decide (v = targetL)
  | .lit _ _ _ => false
  | .nilExpr _ => false
  | .typeptr _ => false
  | .unary _ _ x => doR targetL x
  | .binary _ _ x y => doR targetL x || doR targetL y
  | .dot _ x _ => doR targetL x
  | .dotptr _ x _ => doR targetL x
  | .index _ x i _ => doR targetL x || doR targetL i
  | .indexmap _ x i => doR targetL x || doR targetL i
  | .slice _ x lo hi mx _ =>
    doR targetL x || (doROpt targetL lo || (doROpt targetL hi || doROpt targetL mx))
  | .call _ _ _ args _ => doRList targetL args
  | .makeslice _ l c => doR targetL l || doROpt targetL c
/-- The closure `doR` over a list of children. -/
def doRList (targetL : Name) : List Node → Bool
  | [] => false
  | x :: xs => doR targetL x || doRList targetL xs
/-- The closure `doR` over an optional child. -/
def doROpt (targetL : Name) : Option Node → Bool
  | none => false
  | some x => doR targetL x
end

mutual
/-- The closure `doL` of `refersToCommonName`, with `r` the right-hand tree: at
a name node it sets the target and runs `doR` over `r`, stopping (true) when
that stops; otherwise it visits the children in order. -/
def doL (r : Node) : Node → Bool
  | .name v => doR v r
  | .lit _ _ _ => false
  | .nilExpr _ => false
  | .typeptr _ => false
  | .unary _ _ x => doL r x
  | .binary _ _ x y => doL r x || doL r y
  | .dot _ x _ => doL r x
  | .dotptr _ x _ => doL r x
  | .index _ x i _ => doL r x || doL r i
  | .indexmap _ x i => doL r x || doL r i
  | .slice _ x lo hi mx _ => doL r x || (doLOpt r lo || (doLOpt r hi || doLOpt r mx))
  | .call _ _ _ args _ => doLList r args
  | .makeslice _ l c => doL r l || doLOpt r c
/-- The closure `doL` over a list of children. -/
def doLList (r : Node) : List Node → Bool
  | [] => false
  | x :: xs => doL r x || doLList r xs
/-- The closure `doL` over an optional child. -/
def doLOpt (r : Node) : Option Node → Bool
  | none => false
  | some x => doL r x
end

/-- The function `refersToCommonName`: reports whether any name appears in
common between `l` and `r`; `none` is the nil node. -/
def refersToCommonName (l r : Option Node) : Bool :=
  match l, r with
  | some l, some r => doL r l
  | _, _ => false

/-- The nested-`Find` formulation given in the comment of `refersToCommonName`:
a search of `l` for a name node for which a search of `r` finds a name node
with the same name. -/
def refersToCommonNameFind (l r : Node) : Bool :=
  Id.run (Any (fun l => pure (match l with
    | .name v => Id.run (Any (fun r => pure (match r with
        | .name u => decide (v = u)
        | _ => false)) r)
    | _ => false)) l)

/-! ## Matching destinations with sources -/

/-- Modelled from the spec: the function `types.Identical`; resolved types are
compared structurally. -/
def Identical (t1 t2 : Typ) : Bool := t1 == t2

/-- The function `fncall`: reports whether assigning an rvalue of type `rt` to
the lvalue `l` might involve a function call. The argument `hasCall` is the
flag `HasCall` of a node. -/
def fncall (hasCall : Node → Bool) (l : Node) (rt : Typ) : Bool :=
  if hasCall l || l.op == .OINDEXMAP then true
  else if Identical l.typ rt then false
  -- There might be a conversion required, which might involve a runtime call.
  else true

/-- The collaborator `safeExpr`: it takes an expression and the temporary
counter and returns the safe expression, the statements it appends to init,
and the new counter. -/
abbrev SafeExpr := Node → Nat → Node × List Stmt × Nat

/-- The loops `nl[i] = safeExpr(nl[i], init)` of `ascompatee`. -/
def safeExprList (safeExpr : SafeExpr) : List Node → Nat → List Node × List Stmt × Nat
  | [], k => ([], [], k)
  | n :: ns, k =>
    let (n', i1, k) := safeExpr n k
    let (ns', i2, k) := safeExprList safeExpr ns k
    (n' :: ns', i1 ++ i2, k)

/-- The function `ascompatee1`: the assignment `l = r`, converted unless the
destination is a map index. -/
def ascompatee1 (convas : Convas) (l r : Node) (k : Nat) : AssignStmt × List Stmt × Nat :=
  -- convas will turn map assigns into function calls,
  -- making it impossible for reorder3 to work.
  let n : AssignStmt := ⟨l, r⟩
  if l.op == .OINDEXMAP then (n, [], k)
  else convas n k

/-- The pairing loop of `ascompatee`, over the destinations and sources from
position `i` on: it stops when either list is exhausted and returns the
assignments, the statements appended to init, the counter, and what is left of
the two lists. -/
def ascompateeLoop (op : Op) (sameSafe : Node → Node → Bool) (convas : Convas) :
    List Node → List Node → List AssignStmt → List Stmt → Nat →
    List AssignStmt × List Stmt × Nat × List Node × List Node
  | l :: nl, r :: nr, nn, init, k =>
    -- Do not generate 'x = x' during return. See issue 4014.
    if op == .ORETURN && sameSafe l r then ascompateeLoop op sameSafe convas nl nr nn init k
    else
      let (a, ini, k) := ascompatee1 convas l r k
      ascompateeLoop op sameSafe convas nl nr (nn ++ [a]) (init ++ ini) k
  | nl, nr, nn, init, k => (nn, init, k, nl, nr)

/-- The function `ascompatee`: matches the expression list `nr` with the
destination list `nl`. It returns the statements and what it appended to
init. The argument `sameSafe` is `ir.SameSafeExpr`. -/
def ascompatee (op : Op) (sameSafe : Node → Node → Bool) (safeExpr : SafeExpr)
    (convas : Convas) (nl nr : List Node) (k : Nat) : Except String (List Stmt × List Stmt) :=
  -- ensure order of evaluation for function calls
  let (nl, i1, k) := safeExprList safeExpr nl k
  let (nr, i2, k) := safeExprList safeExpr nr k
  let (nn, i3, k, restL, restR) := ascompateeLoop op sameSafe convas nl nr [] [] k
  -- cannot happen: caller checked that lists had same length
  if !restL.isEmpty || !restR.isEmpty then .error "error in shape"
  else do
    let out ← reorder3 convas k nn
    return (out, i1 ++ i2 ++ i3)

/-- A field of a result type: its type and its offset in the frame. -/
structure Field where
  typ : Typ
  Offset : Int
deriving DecidableEq, Repr

/-- The loop of `ascompatet` over the destinations and the fields of the
result type: `nn` collects the reads of the result fields, `mm` the deferred
writes. The arguments are the flag `HasCall` of a node, the flag `HasCall` of
an assignment after `updateHasCall`, the constructor of a result expression of
a given type at a given offset, and `base.Ctxt.FixedFrameSize()`. -/
def ascompatetLoop (hasCall : Node → Bool) (stmtHasCall : AssignStmt → Bool)
    (resultExpr : Typ → Int → Node) (fixedFrameSize : Int) (convas : Convas) :
    List Node → List Field → List Stmt → List Stmt → Nat → Except String (List Stmt × List Stmt)
  | [], _, nn, mm, _ => .ok (nn, mm)
  | _ :: _, [], _, _, _ => .error "index out of range"
  | l :: nl, r :: nr, nn, mm, k =>
    if IsBlank l then
      ascompatetLoop hasCall stmtHasCall resultExpr fixedFrameSize convas nl nr nn mm k
    else
      -- Any assignment to an lvalue that might cause a function call must be
      -- deferred until all the returned values have been read.
      let (l, mm, k) :=
        if fncall hasCall l r.typ then
          let tmp := Node.name (Temp r.typ k)
          let (a, ini, k) := convas ⟨l, tmp⟩ (k + 1)
          (tmp, mm ++ ini ++ [.as a], k)
        else (l, mm, k)
      let res := resultExpr r.typ (fixedFrameSize + r.Offset)
      let (a, ini, k) := convas ⟨l, res⟩ k
      let nn := nn ++ ini
      if stmtHasCall a then
        .error "ascompatet: too many function calls evaluating parameters"
      else
        ascompatetLoop hasCall stmtHasCall resultExpr fixedFrameSize convas nl nr
          (nn ++ [.as a]) mm k

/-- The function `ascompatet`: matches the fields of the result type `nr` with
the destination list `nl`. -/
def ascompatet (hasCall : Node → Bool) (stmtHasCall : AssignStmt → Bool)
    (resultExpr : Typ → Int → Node) (fixedFrameSize : Int) (convas : Convas)
    (nl : List Node) (nr : List Field) (k : Nat) : Except String (List Stmt) :=
  if nl.length != nr.length then .error "ascompatet: assignment count mismatch"
  else do
    let (nn, mm) ←
      ascompatetLoop hasCall stmtHasCall resultExpr fixedFrameSize convas nl nr [] [] k
    return nn ++ mm

/-- The fatal errors of the sequencer and of the aliasing analyser. -/
def SeqError (e : String) : Prop :=
  e = "anyAddrTaken unexpected ODOT" ∨ e = "unexpected class" ∨ e = "reorder3 unexpected lvalue"

/-- The pairs of a destination and a source at the same position for which
`ascompatee` generates an assignment: all of them, except the pairs of the
same safe expression when lowering a return. -/
def keptPairs (op : Op) (sameSafe : Node → Node → Bool) (nl nr : List Node) :
    List (Node × Node) :=
  (nl.zip nr).filter (fun p => !(op == .ORETURN && sameSafe p.1 p.2))

/-- The assignment `a` is the one that `ascompatee1` builds for the pair `p`. -/
def PairedBy (convas : Convas) (p : Node × Node) (a : AssignStmt) : Prop :=
  ∃ k, a = (ascompatee1 convas p.1 p.2 k).1

/-- What `ascompatet` emits for a non-blank destination `p.1` matched with the
result field `p.2`: the read `b.1` of the field and the deferred writes `b.2`.
Where `fncall` is false the read goes to the destination and nothing is
deferred; where it is true the read goes to a temporary and the converted
assignment of that temporary to the destination is deferred. -/
def SplitOf (hasCall : Node → Bool) (resultExpr : Typ → Int → Node) (fixedFrameSize : Int)
    (convas : Convas) (p : Node × Field) (b : Stmt × List Stmt) : Prop :=
  (fncall hasCall p.1 p.2.typ = false ∧
    b.1 = .as ⟨p.1, resultExpr p.2.typ (fixedFrameSize + p.2.Offset)⟩ ∧ b.2 = []) ∨
  (fncall hasCall p.1 p.2.typ = true ∧ ∃ j k,
    b.1 = .as ⟨.name (Temp p.2.typ j), resultExpr p.2.typ (fixedFrameSize + p.2.Offset)⟩ ∧
    b.2 = (convas ⟨p.1, .name (Temp p.2.typ j)⟩ k).2.1 ++
      [.as (convas ⟨p.1, .name (Temp p.2.typ j)⟩ k).1])

/-! ## Return statements -/

/-- The enclosing function `ir.CurFunc`, as `walkReturn` reads it: its
declarations `Dcl`, whether it has named results (`ir.HasNamedResults`),
whether an output parameter is on the heap or has its address taken
(`paramoutheap`), and the variables `Nname` of the fields of its result type. -/
structure Func where
  Dcl : List Name
  HasNamedResults : Bool
  paramoutheap : Bool
  Results : List Name

/-- The collaborators of `walkReturn`: `ir.IsParamStackCopy`, the walked
dereference of the heap address of an output parameter, `ir.IsParamHeapCopy`,
the field `Stackcopy` of a name, `walkExprListSafe`, `walkExprList`,
`ir.SameSafeExpr`, `safeExpr` and `convas`. -/
structure ReturnEnv where
  isParamStackCopy : Name → Bool
  heapaddrDeref : Name → Node
  isParamHeapCopy : Name → Bool
  stackcopy : Name → Name
  walkExprListSafe : List Node → Nat → List Node × List Stmt × Nat
  walkExprList : List Node → Nat → List Node × List Stmt × Nat
  sameSafe : Node → Node → Bool
  safeExpr : SafeExpr
  convas : Convas

/-- The loop of `walkReturn` over the declarations of the function that
collects the function out parameters: it stops at the first local variable. -/
def returnDests (c : ReturnEnv) : List Name → List Node
  | [] => []
  | ln :: rest =>
    let cl := ln.Class_
    if cl == .PAUTO || cl == .PAUTOHEAP then []
    else if cl == .PPARAMOUT then
      (if c.isParamStackCopy ln then c.heapaddrDeref ln else .name ln) :: returnDests c rest
    else returnDests c rest

/-- The loop of `walkReturn` that assigns to each return parameter the
corresponding result; `rhs` holds the results from position `i` on. -/
def walkReturnPositional (c : ReturnEnv) :
    List Name → List Node → List Stmt → List Stmt → Nat → Except String (List Stmt × List Stmt)
  | [], _, res, init, _ => .ok (res, init)
  | _ :: _, [], _, _, _ => .error "index out of range"
  | nl :: lhs, r :: rhs, res, init, k =>
    let nname := if c.isParamHeapCopy nl then c.stackcopy nl else nl
    let (a, ini, k) := c.convas ⟨.name nname, r⟩ k
    walkReturnPositional c lhs rhs (res ++ [.as a]) (init ++ ini) k

/-- The function `walkReturn`, on the results of a return statement of the
function `fn`. It returns the new results of the statement and what it
appends to the init list of the statement. -/
def walkReturn (c : ReturnEnv) (fn : Func) (results : List Node) (k : Nat) :
    Except String (List Stmt × List Stmt) :=
  if results.length == 0 then .ok ([], [])
  else if (fn.HasNamedResults && decide (results.length > 1)) || fn.paramoutheap then
    -- assign to the function out parameters,
    -- so that ascompatee can fix up conflicts
    let rl := returnDests c fn.Dcl
    if results.length != rl.length then
      -- order should have rewritten multi-value function calls
      -- with explicit OAS2FUNC nodes.
      .error "expected return arguments"
    else
      -- move function calls out, to make ascompatee's job easier.
      let (results, ini, k) := c.walkExprListSafe results k
      do
        let (out, ini2) ← ascompatee .ORETURN c.sameSafe c.safeExpr c.convas rl results k
        return (out, ini ++ ini2)
  else
    let (results, ini, k) := c.walkExprList results k
    -- For each return parameter (lhs), assign the corresponding result (rhs).
    do
      let (res, ini2) ← walkReturnPositional c fn.Results results [] [] k
      return (res, ini ++ ini2)

/-! ## The assignment dispatcher -/

/-- An assignment node as `walkAssign` receives it: a plain assignment (OAS,
whose source may be absent) or a compound assignment (OASOP). -/
inductive AssignNode where
  | as (X : Node) (Y : Option Node)
  | asop (AsOp : BinOp) (X : Node) (Y : Node)

/-- A record of a call that `walkAssign` makes to one of its collaborators, or
of the error it reports. -/
inductive Call where
  | walkExpr (n : Node)
  | safeExpr (n : Node)
  | oaslit (X : Node) (Y : Option Node)
  | errorf
  | extendSlice (call : Node)
  | appendSlice (call : Node)
  | walkAppend (call : Node)
  | chanrecv1 (r n1 : Node)
  | convas (a : AssignStmt)

/-- The state `walkAssign` works on: the init list, the counter of the
temporary allocator, whether a write-barrier position has been recorded, and
the calls made so far, in order. -/
structure WalkState where
  init : List Stmt
  next : Nat
  wbpos : Bool
  log : List Call

/-- The state after the collaborator call `c` that returned `r`: the
statements the call appended to init, the new counter, and the call recorded. -/
def WalkState.run {α : Type} (st : WalkState) (c : Call) (r : α × List Stmt × Nat) :
    α × WalkState :=
  (r.1, { st with init := st.init ++ r.2.1, next := r.2.2, log := st.log ++ [c] })

/-- The collaborators of `walkAssign` and the flags it reads:
`ir.SameSafeExpr`, `walkExpr`, `safeExpr`, `typecheck.Expr`, `oaslit`,
`ir.IsZero`, `NotInHeap`, the flag `Typecheck` of a node, `walkAppendArgs`,
`walkAppend`, the call of `chanrecv1` built by `mkcall1`, and `convas`. -/
structure AssignEnv where
  fl : Flags
  ptrSize : Nat
  sameSafe : Node → Node → Bool
  walkExpr : Node → Nat → Node × List Stmt × Nat
  safeExpr : SafeExpr
  typecheckExpr : Node → Node
  oaslit : Node → Option Node → Nat → Bool × List Stmt × Nat
  isZero : Node → Bool
  notInHeap : Typ → Bool
  typechecked : Node → Bool
  walkAppendArgs : WalkArgs
  walkAppend : Node → AssignStmt → Nat → Node × List Stmt × Nat
  chanrecv1 : Node → Node → Nat → Node × List Stmt × Nat
  convas : Convas

/-- What `walkAssign` returns: an empty block, the assignment (possibly
without source), or another node. -/
inductive Walked where
  | block
  | assign (X : Node) (Y : Option Node)
  | node (n : Node)

/-- The assignment `mapAppend.Args[0] = left`. -/
def setArg0 (call : Node) (left : Node) : Node :=
  match call with
  | .call o t f (_ :: rest) d => .call o t f (left :: rest) d
  | n => n

/-- The recognition of `m[k] = append(m[k], ...)` in `walkAssign`: it returns
the append call when the pattern is there. -/
def mapAppendOf (sameSafe : Node → Node → Bool) (left : Node) (right : Option Node) :
    Except String (Option Node) :=
  if left.op == .OINDEXMAP then
    match right with
    | none => .error "nil pointer dereference"
    | some r =>
      if r.op == .OAPPEND then
        match r with
        | .call _ _ _ (a0 :: _) _ =>
          if !sameSafe left a0 then .error "not same expressions"
          else .ok (some r)
        | _ => .error "index out of range"
      else .ok none
  else .ok none

/-- The first part of `walkAssign`, up to the assignment `as`: it drains the
init list of the node, recognises the map-append pattern, lowers the
destination, and rewrites a compound assignment. It returns the destination
and the source of `as`. -/
def walkAssignHead (c : AssignEnv) (ninit : List Stmt) (n : AssignNode) (st : WalkState) :
    Except String (Node × Option Node) × WalkState :=
  let st := { st with init := st.init ++ ninit }
  let (left, right) : Node × Option Node :=
    match n with
    | .as X Y => (X, Y)
    | .asop _ X Y => (X, some Y)
  -- Recognize m[k] = append(m[k], ...) so we can reuse
  -- the mapassign call.
  match mapAppendOf c.sameSafe left right with
  | .error e => (.error e, st)
  | .ok mapAppend =>
    let (left, st) := st.run (.walkExpr left) (c.walkExpr left st.next)
    let (left, st) := st.run (.safeExpr left) (c.safeExpr left st.next)
    match n with
    | .asop op _ Y =>
      let right := match mapAppend with
        | some r => setArg0 r left
        | none => Y
      -- Rewrite x op= y into x = x op y.
      (.ok (left, some (c.typecheckExpr (.binary op .void left right))), st)
    | .as _ Y =>
      let right := match mapAppend with
        | some r => some (setArg0 r left)
        | none => Y
      (.ok (left, right), st)

/-- The end of `walkAssign`: the conversion-assignment of `X = y`. -/
def walkAssignConvas (c : AssignEnv) (X y : Node) (st : WalkState) :
    Except String Walked × WalkState :=
  let (a, st) := st.run (.convas ⟨X, y⟩) (c.convas ⟨X, y⟩ st.next)
  (.ok (.assign a.X (some a.Y)), st)

/-- The state after one of the append lowerings returned `low`. -/
def WalkState.lowered (st : WalkState) (c : Call) (low : Lowered) : WalkState :=
  { init := st.init ++ low.init, next := low.next, wbpos := st.wbpos || low.wbpos,
    log := st.log ++ [c] }

/-- The switch of `walkAssign` that lowers the append call `call` by
`extendSlice`, `appendSlice` or `walkAppend`; `isMake` is the result of
`isAppendOfMake` and `d` the flag `IsDDD` of the call. -/
def lowerAppend (c : AssignEnv) (X call : Node) (d isMake : Bool) (st : WalkState) :
    Except String (Node × WalkState) :=
  if isMake then
    -- x = append(y, make([]T, y)...)
    match extendSlice c.ptrSize c.walkAppendArgs call st.next with
    | .error e => .error e
    | .ok low => .ok (low.result, st.lowered (.extendSlice call) low)
  else if d then
    match appendSlice c.fl c.ptrSize c.walkAppendArgs call st.next with
    | .error e => .error e
    | .ok low => .ok (low.result, st.lowered (.appendSlice call) low)
  else
    .ok (st.run (.walkAppend call) (c.walkAppend call ⟨X, call⟩ st.next))

/-- The case OAPPEND of the switch of `walkAssign` on the source, with what
follows it: `x = append(...)`. -/
def walkAssignAppend (c : AssignEnv) (X : Node) (t : Typ) (f : Fn) (args : List Node)
    (d : Bool) (st : WalkState) : Except String Walked × WalkState :=
  let call := Node.call .OAPPEND t f args d
  let st := if c.notInHeap t.Elem then { st with log := st.log ++ [.errorf] } else st
  match isAppendOfMake c.fl c.ptrSize (c.typechecked call) call with
  | .error e => (.error e, st)
  | .ok isMake =>
    match lowerAppend c X call d isMake st with
    | .error e => (.error e, st)
    | .ok (.call .OAPPEND t _ args d, st) =>
      -- Left in place for back end.
      -- Do not add a new write barrier.
      -- Set up address of type for back end.
      (.ok (.assign X (some (.call .OAPPEND t (.typeptr t.Elem) args d))), st)
    | .ok (r, st) =>
      -- Otherwise, lowered for race detector.
      -- Treat as ordinary assignment.
      walkAssignConvas c X r st

/-- The second part of `walkAssign`, on the assignment `as` with destination
`X` and source `Y`: the dispatch on the shape of the source. -/
def walkAssignTail (c : AssignEnv) (X : Node) (Y : Option Node) (st : WalkState) :
    Except String Walked × WalkState :=
  let (lit, st) := st.run (.oaslit X Y) (c.oaslit X Y st.next)
  if lit then (.ok .block, st)
  else
    match Y with
    | none => (.ok (.assign X none), st)
    | some y =>
      if !c.fl.Instrumenting && c.isZero y then (.ok (.assign X (some y)), st)
      else
        match y with
        | .unary .ORECV _ ch =>
          -- x = <-c; as.Left is x, as.Right.Left is c.
          let (ch, st) := st.run (.walkExpr ch) (c.walkExpr ch st.next)
          let n1 := NodAddr X
          let (r, st) := st.run (.chanrecv1 ch n1) (c.chanrecv1 ch n1 st.next)
          (.ok (.node r), st)
        | .call .OAPPEND t f args d => walkAssignAppend c X t f args d st
        | y =>
          let (y, st) := st.run (.walkExpr y) (c.walkExpr y st.next)
          walkAssignConvas c X y st

/-- The function `walkAssign`: walks an OAS or OASOP node whose init list is
`ninit`. -/
def walkAssign (c : AssignEnv) (ninit : List Stmt) (n : AssignNode) (st : WalkState) :
    Except String Walked × WalkState :=
  match walkAssignHead c ninit n st with
  | (.error e, st) => (.error e, st)
  | (.ok (X, Y), st) => walkAssignTail c X Y st

/-- The fatal errors of the append lowerings. -/
def LowerError (e : String) : Prop :=
  e = "missing typecheck" ∨ e = "index out of range" ∨ e = "not a CallExpr" ∨
    e = "not a MakeExpr"

/-- The destination of an assignment node. -/
def AssignNode.X : AssignNode → Node
  | .as X _ => X
  | .asop _ X _ => X

/-- The source of an assignment node. -/
def AssignNode.Y : AssignNode → Option Node
  | .as _ Y => Y
  | .asop _ _ Y => some Y

/-- The calls that the second part of `walkAssign` may make on the assignment
of the append call `call` to `X`. -/
def AppendTailCall (X call : Node) (e : Call) : Prop :=
  e = .oaslit X (some call) ∨ e = .errorf ∨ e = .extendSlice call ∨ e = .appendSlice call ∨
    e = .walkAppend call ∨ ∃ y, e = .convas ⟨X, y⟩

/-! ## The string comparison primitive (`strings/compare.go`) -/

/-- A Go string: an immutable sequence of bytes. -/
abbrev GoString := List (Fin 256)

/-- Modelled from the spec: the built-in ordering `a < b` of strings, which
`Compare` uses: the strings are compared byte by byte from the front, and a
string that ends first is the smaller. The test `a > b` is `strLess b a`. -/
def strLess : GoString → GoString → Bool
  | [], [] => false
  | [], _ :: _ => true
  | _ :: _, [] => false
  | x :: a, y :: b => if x < y then true else if y < x then false else strLess a b

/-- The function `Compare`: an integer comparing two strings
lexicographically. -/
def Compare (a b : GoString) : Int :=
  if strLess a b then -1
  else if strLess b a then 1
  else 0

/-- Lexicographic byte order as a relation: `a` comes before `b` when `a` is a
proper prefix of `b`, or when after a common prefix `a` continues with a
smaller byte than `b` does. -/
def LexLess (a b : GoString) : Prop :=
  (∃ t : GoString, t ≠ [] ∧ b = a ++ t) ∨
  (∃ (p : GoString) (x y : Fin 256) (s t : GoString),
    a = p ++ x :: s ∧ b = p ++ y :: t ∧ x < y)

/-! ## Field selections below the root of a read expression -/

/-- The operations for which the condition of `anyAddrTaken` answers false, so
that the search goes on into the operands. -/
def lookedThrough : Op → Bool
  | .OADD | .OAND | .OANDAND | .OANDNOT | .OBITNOT | .OCONV | .OCONVIFACE
  | .OCONVNOP | .ODIV | .ODOTTYPE | .OLITERAL | .OLSH | .OMOD | .OMUL | .ONEG
  | .ONIL | .OOR | .OOROR | .OPAREN | .OPLUS | .ORSH | .OSUB | .OXOR => true
  | _ => false

/-- Whether a field selection can be reached from the root of the expression by
going only through operations that `anyAddrTaken` looks through. -/
def exposedDot : Node → Bool
  | .dot _ _ _ => true
  | .unary o _ x => lookedThrough o.toOp && exposedDot x
  | .binary o _ x y => lookedThrough o.toOp && (exposedDot x || exposedDot y)
  | _ => false

/-- The root of a destination as `reorder3` finds it: the node reached by
drilling through field selections, parentheses and indexing of fixed-size
arrays. -/
def lvalueRoot : Node → Node
  | .dot _ x _ => lvalueRoot x
  | .unary .OPAREN _ x => lvalueRoot x
  | .index t x i b => if x.typ.IsArray then lvalueRoot x else .index t x i b
  | n => n

/-! ## What the sequencer does to an operand, a destination and an assignment -/

/-- What `reorder3` makes of an operand `n` when the temporary counter is at
`k`: if `aliased` finds no hazard against the prior assignments the operand is
kept and no copy is made; if it finds one, the operand becomes the temporary
numbered `k` and the one copy of `n` into that temporary is made. -/
inductive Saved (prior : List AssignStmt) : Node → Nat → Node → List Stmt → Nat → Prop where
  | keep (n : Node) (k : Nat) : aliased (some n) prior = .ok false → Saved prior n k n [] k
  | copy (n : Node) (k : Nat) : aliased (some n) prior = .ok true →
      Saved prior n k (.name (Temp n.typ k)) [.as ⟨.name (Temp n.typ k), n⟩] (k + 1)

/-- What `reorder3` makes of a destination: field selections, parentheses and
indexing of fixed-size arrays are kept (the index of the array being an
operand), and the operands of the root are saved; the copies are listed in the
order of their creation. -/
inductive SavedDest (prior : List AssignStmt) :
    Node → Nat → Node → List Stmt → Nat → Prop where
  | name (v : Name) (k : Nat) : SavedDest prior (.name v) k (.name v) [] k
  | dot (t : Typ) (x x' : Node) (s : Nat) (k k' : Nat) (c : List Stmt) :
      SavedDest prior x k x' c k' → SavedDest prior (.dot t x s) k (.dot t x' s) c k'
  | paren (t : Typ) (x x' : Node) (k k' : Nat) (c : List Stmt) :
      SavedDest prior x k x' c k' →
      SavedDest prior (.unary .OPAREN t x) k (.unary .OPAREN t x') c k'
  | elem (t : Typ) (x x' i i' : Node) (b : Bool) (k k1 k' : Nat) (c1 c2 : List Stmt) :
      x.typ.IsArray = true → Saved prior i k i' c1 k1 → SavedDest prior x k1 x' c2 k' →
      SavedDest prior (.index t x i b) k (.index t x' i' b) (c1 ++ c2) k'
  | index (t : Typ) (x x' i i' : Node) (b : Bool) (k k1 k' : Nat) (c1 c2 : List Stmt) :
      x.typ.IsArray = false → Saved prior x k x' c1 k1 → Saved prior i k1 i' c2 k' →
      SavedDest prior (.index t x i b) k (.index t x' i' b) (c1 ++ c2) k'
  | indexmap (t : Typ) (x x' i i' : Node) (k k1 k' : Nat) (c1 c2 : List Stmt) :
      Saved prior x k x' c1 k1 → Saved prior i k1 i' c2 k' →
      SavedDest prior (.indexmap t x i) k (.indexmap t x' i') (c1 ++ c2) k'
  | deref (t : Typ) (x x' : Node) (k k' : Nat) (c : List Stmt) :
      Saved prior x k x' c k' →
      SavedDest prior (.unary .ODEREF t x) k (.unary .ODEREF t x') c k'
  | dotptr (t : Typ) (x x' : Node) (s : Nat) (k k' : Nat) (c : List Stmt) :
      Saved prior x k x' c k' → SavedDest prior (.dotptr t x s) k (.dotptr t x' s) c k'

/-- What `reorder3` makes of the assignment `a` with the counter at `k`: the
destination with its operands saved; then, exactly when the root of the
destination is a map index, the conversion by `convas`, whose statements `ini`
are the map initialisers of this assignment; then the source saved. The
copies made are `copies`, in the order of their creation. -/
def RewrittenBy (convas : Convas) (prior : List AssignStmt) (a : AssignStmt) (k : Nat)
    (a' : AssignStmt) (copies ini : List Stmt) (k' : Nat) : Prop :=
  ∃ (x' : Node) (c1 c2 : List Stmt) (k1 k2 : Nat) (n2 : AssignStmt),
    SavedDest prior a.X k x' c1 k1 ∧
    (((lvalueRoot a.X).op ≠ .OINDEXMAP ∧ n2 = ⟨x', a.Y⟩ ∧ ini = [] ∧ k2 = k1) ∨
     ((lvalueRoot a.X).op = .OINDEXMAP ∧ n2 = (convas ⟨x', a.Y⟩ k1).1 ∧
      ini = (convas ⟨x', a.Y⟩ k1).2.1 ∧ k2 = (convas ⟨x', a.Y⟩ k1).2.2)) ∧
    a'.X = n2.X ∧ Saved prior n2.Y k2 a'.Y c2 k' ∧ copies = c1 ++ c2

/-- What `reorder3` makes of the assignments `todo` that follow the already
rewritten assignments `done`: each is rewritten against all the rewritten
assignments before it, and the copies and the map initialisers are collected
in order. -/
inductive Sequenced (convas : Convas) : List AssignStmt → List AssignStmt → Nat →
    List AssignStmt → List Stmt → List Stmt → Nat → Prop where
  | nil (done : List AssignStmt) (k : Nat) : Sequenced convas done [] k [] [] [] k
  | cons (done todo news : List AssignStmt) (a a' : AssignStmt) (k k1 k' : Nat)
      (c cs ini inis : List Stmt) :
      RewrittenBy convas done a k a' c ini k1 →
      Sequenced convas (done ++ [a']) todo k1 news cs inis k' →
      Sequenced convas done (a :: todo) k (a' :: news) (c ++ cs) (ini ++ inis) k'

/-- The assignments that `ascompatee1` builds for a list of pairs of a
destination and a source, from left to right, with the statements appended to
init and the temporary counter. -/
def pairKept (convas : Convas) : List (Node × Node) → Nat → List AssignStmt × List Stmt × Nat
  | [], k => ([], [], k)
  | p :: ps, k =>
    let (a, ini, k) := ascompatee1 convas p.1 p.2 k
    let (rest, ini', k) := pairKept convas ps k
    (a :: rest, ini ++ ini', k)

/-! ### Concrete inputs used to instantiate the theorems -/

/-- The byte slice type `[]uint8`. -/
def exBytes : Typ := .slice (.basic .TUINT8)

/-- A walker of append arguments that finds them already walked. -/
def exWalkArgs : WalkArgs := fun args k => (args, [], k)

/-- The local byte slice `x`. -/
def exDst : Name := ⟨.user 0, .PAUTO, false, exBytes⟩

/-- The local byte slice `y`. -/
def exSrc : Name := ⟨.user 1, .PAUTO, false, exBytes⟩

/-- The call `append(x, y...)`. -/
def exAppend : Node := .call .OAPPEND exBytes .none [.name exDst, .name exSrc] true

/-- Flags of an instrumented build of the runtime itself. -/
def exRuntimeFlags : Flags := ⟨0, true, true⟩

/-- The machine integer type, for the examples. -/
def exInt : Typ := .basic .TINT

/-- A local array `a` of four ints. -/
def exA : Name := ⟨.user 10, .PAUTO, false, .array exInt 4⟩

/-- A local int `i`. -/
def exI : Name := ⟨.user 11, .PAUTO, false, exInt⟩

/-- A local int `j`. -/
def exJ : Name := ⟨.user 12, .PAUTO, false, exInt⟩

/-- A conversion pass that leaves every assignment as it is. -/
def exConvas : Convas := fun a k => (a, [], k)

/-- The swap `a[i], a[j] = a[j], a[i]`. -/
def exSwap : List AssignStmt :=
  [⟨.index exInt (.name exA) (.name exI) false, .index exInt (.name exA) (.name exJ) false⟩,
   ⟨.index exInt (.name exA) (.name exJ) false, .index exInt (.name exA) (.name exI) false⟩]

/-- The lowering of the swap: `t = a[i]; a[i] = a[j]; a[j] = t`. -/
def exSwapOut : List Stmt :=
  [.as ⟨.name (Temp exInt 0), .index exInt (.name exA) (.name exI) false⟩,
   .as ⟨.index exInt (.name exA) (.name exI) false, .index exInt (.name exA) (.name exJ) false⟩,
   .as ⟨.index exInt (.name exA) (.name exJ) false, .name (Temp exInt 0)⟩]

/-- A state in which `a = [1, 2, 3, 4]`, `i = 0` and `j = 1`. -/
def exSeqState : State :=
  { env := fun v =>
      if v = exA then .agg [.int 1, .int 2, .int 3, .int 4]
      else if v = exJ then .int 1 else .int 0,
    heap := fun _ => .nil }

/-- The call `append(x, make([]uint8, n)...)` for a local int `n`. -/
def exExtend : Node :=
  .call .OAPPEND exBytes .none [.name exDst, .makeslice exBytes (.name exI) none] true

/-- A walker of append arguments that replaces the converted length by the
variable it converts. -/
def exWalkLen : WalkArgs := fun args k =>
  match args with
  | [x, .unary .OCONV _ n] => ([x, n], [], k)
  | _ => (args, [], k)

/-- A runtime that grows to twice the wanted length and leaves zeros in fresh
memory. -/
def exRuntime : Runtime := { growCap := fun _ n => 2 * n, junk := fun _ _ => 0 }

/-- A machine state in which `x` is a byte slice of length and capacity 1 in
block 0, `y` a byte slice of length 1 in block 1, and `i` holds 2. -/
def exAState : AState :=
  { env := fun v =>
      if v = exDst then .slice 0 0 1 1
      else if v = exSrc then .slice 1 0 1 1
      else .int 2,
    mem := fun b _ => b + 7,
    nextBlk := 2 }

/-- A machine state in which the length variable `i` holds -1. -/
def exNegState : AState :=
  { env := fun v => if v = exDst then .slice 0 0 1 1 else .int (-1),
    mem := fun b _ => b + 7,
    nextBlk := 2 }

/-- A `safeExpr` that finds every expression already safe. -/
def exSafeExpr : SafeExpr := fun n k => (n, [], k)

/-- A stand-in for the result expression of a given type at a given offset. -/
def exResultExpr : Typ → Int → Node := fun t o => .unary .OPAREN t (.lit t .Int o)

/-- The two int fields of a result type, at offsets 0 and 8. -/
def exFields : List Field := [⟨exInt, 0⟩, ⟨exInt, 8⟩]

/-- An output parameter `r` of type int. -/
def exResult : Name := ⟨.user 20, .PPARAMOUT, false, exInt⟩

/-- A function with the one named result `r`. -/
def exFunc : Func :=
  { Dcl := [exResult], HasNamedResults := true, paramoutheap := false, Results := [exResult] }

/-- Collaborators of `walkReturn` that leave expressions as they are. -/
def exReturnEnv : ReturnEnv :=
  { isParamStackCopy := fun _ => false, heapaddrDeref := fun v => .name v,
    isParamHeapCopy := fun _ => false, stackcopy := fun v => v,
    walkExprListSafe := fun l k => (l, [], k), walkExprList := fun l k => (l, [], k),
    sameSafe := fun _ _ => false, safeExpr := exSafeExpr, convas := exConvas }

/-- Collaborators of `walkAssign`: `walkExpr` wraps an expression in
parentheses, every two expressions are the same safe expression, and the other
collaborators leave their arguments as they are. -/
def exAssignEnv : AssignEnv :=
  { fl := ⟨0, false, false⟩, ptrSize := 8, sameSafe := fun _ _ => true,
    walkExpr := fun n k => (.unary .OPAREN n.typ n, [], k), safeExpr := exSafeExpr,
    typecheckExpr := fun n => n, oaslit := fun _ _ k => (false, [], k),
    isZero := fun _ => false, notInHeap := fun _ => false, typechecked := fun _ => true,
    walkAppendArgs := exWalkArgs, walkAppend := fun call _ k => (call, [], k),
    chanrecv1 := fun r _ k => (r, [], k), convas := exConvas }

/-- The same collaborators, except that no two expressions are the same safe
expression. -/
def exAssignEnvStrict : AssignEnv := { exAssignEnv with sameSafe := fun _ _ => false }

/-- The state at the start of a walk. -/
def exWalkState : WalkState := { init := [], next := 0, wbpos := false, log := [] }

/-- A local map `m` from int to byte slices. -/
def exMap : Name := ⟨.user 30, .PAUTO, false, .map exInt exBytes⟩

/-- The map index expression `m[i]`. -/
def exMapIndex : Node := .indexmap exBytes (.name exMap) (.name exI)

/-- The assignment `m[i] = append(m[i], y...)`. -/
def exMapAppend : AssignNode :=
  .as exMapIndex (some (.call .OAPPEND exBytes .none [exMapIndex, .name exSrc] true))

/-- A local variable `s` of a struct type. -/
def exStruct : Name := ⟨.user 40, .PAUTO, false, .struct 0 16 false⟩

/-- A local variable `p` of type `*int`. -/
def exPtr : Name := ⟨.user 41, .PAUTO, false, .ptr exInt⟩

/-- The field read `s.f`. -/
def exField : Node := .dot exInt (.name exStruct) 0

/-- The read `s.f + 1`. -/
def exFieldSum : Node := .binary .OADD exInt exField (.lit exInt .Int 1)

/-- The write through a pointer `*p = 0`. -/
def exPtrWrite : AssignStmt := ⟨.unary .ODEREF exInt (.name exPtr), .lit exInt .Int 0⟩

/-- The single assignment `a[i] = j`. -/
def exElemWrite : AssignStmt := ⟨.index exInt (.name exA) (.name exI) false, .name exJ⟩

/-! ## Structural induction on nodes -/

theorem Node.induct {P : Node → Prop}
    (hname : ∀ v, P (.name v))
    (hlit : ∀ t k v, P (.lit t k v))
    (hnil : ∀ t, P (.nilExpr t))
    (htp : ∀ t, P (.typeptr t))
    (hun : ∀ o t x, P x → P (.unary o t x))
    (hbin : ∀ o t x y, P x → P y → P (.binary o t x y))
    (hdot : ∀ t x s, P x → P (.dot t x s))
    (hdotptr : ∀ t x s, P x → P (.dotptr t x s))
    (hindex : ∀ t x i b, P x → P i → P (.index t x i b))
    (hindexmap : ∀ t x i, P x → P i → P (.indexmap t x i))
    (hslice : ∀ t x lo hi mx b, P x → (∀ n, lo = some n → P n) → (∀ n, hi = some n → P n) →
      (∀ n, mx = some n → P n) → P (.slice t x lo hi mx b))
    (hcall : ∀ o t f args d, (∀ a ∈ args, P a) → P (.call o t f args d))
    (hmake : ∀ t l c, P l → (∀ n, c = some n → P n) → P (.makeslice t l c)) :
    ∀ n, P n := by
  intro n
  refine Node.rec (motive_1 := P) (motive_2 := fun o => ∀ n, o = some n → P n)
    (motive_3 := fun l => ∀ a ∈ l, P a) hname hlit hnil htp hun hbin hdot hdotptr hindex hindexmap
    ?_ ?_ ?_ ?_ ?_ ?_ ?_ n
  · intro t x lo hi mx b hx hlo hhi hmx; exact hslice t x lo hi mx b hx hlo hhi hmx
  · intro o t f args d h; exact hcall o t f args d h
  · intro t l c hl hc; exact hmake t l c hl hc
  · intro n h; cases h
  · intro v hv n h; cases h; exact hv
  · intro a h; cases h
  · intro h t hh ht a ha
    rcases List.mem_cons.1 ha with rfl | ha
    · exact hh
    · exact ht a ha




theorem anyOptId_iff (c : Node → Id Bool) (o : Option Node)
    (h : ∀ n, o = some n → (Any c n = true ↔ ∃ v ∈ names n, c (.name v) = true)) :
    AnyOpt c o = true ↔ ∃ v ∈ namesOpt o, c (.name v) = true := by
  cases o with
  | none => simp [AnyOpt, namesOpt]
  | some n => simpa [AnyOpt, namesOpt] using h n rfl

theorem anyListId_iff (c : Node → Id Bool) (args : List Node)
    (h : ∀ a ∈ args, (Any c a = true ↔ ∃ v ∈ names a, c (.name v) = true)) :
    AnyList c args = true ↔ ∃ v ∈ namesList args, c (.name v) = true := by
  induction args with
  | nil => simp [AnyList, namesList]
  | cons a rest ih =>
    have h1 := h a (List.mem_cons_self _ _)
    have h2 := ih (fun b hb => h b (List.mem_cons_of_mem _ hb))
    cases hx : Any c a <;> simp_all [AnyList, namesList, or_and_right, exists_or]

theorem anyId_iff (c : Node → Id Bool) (hc : ∀ n, c n = true → ∃ v, n = .name v) (r : Node) :
    Any c r = true ↔ ∃ v ∈ names r, c (.name v) = true := by
  have hf : ∀ n, (∀ v, n ≠ .name v) → c n = false := by
    intro n hn
    cases h : c n with
    | false => rfl
    | true => obtain ⟨v, rfl⟩ := hc n h; exact absurd rfl (hn v)
  induction r using Node.induct with
  | hname v => simp [Any, names]
  | hlit t k v => simp [Any, names, hf]
  | hnil t => simp [Any, names, hf]
  | htp t => simp [Any, names, hf]
  | hun o t x ih => simp [Any, names, hf, ih]
  | hbin o t x y ihx ihy =>
    cases hx : Any c x <;> simp_all [Any, names, or_and_right, exists_or]
  | hdot t x s ih => simp [Any, names, hf, ih]
  | hdotptr t x s ih => simp [Any, names, hf, ih]
  | hindex t x i b ihx ihy =>
    cases hx : Any c x <;> simp_all [Any, names, or_and_right, exists_or]
  | hindexmap t x i ihx ihy =>
    cases hx : Any c x <;> simp_all [Any, names, or_and_right, exists_or]
  | hslice t x lo hi mx b ihx ihlo ihhi ihmx =>
    have h1 := anyOptId_iff c lo ihlo
    have h2 := anyOptId_iff c hi ihhi
    have h3 := anyOptId_iff c mx ihmx
    simp only [names, List.mem_append, or_and_right, exists_or, ← ihx, ← h1, ← h2, ← h3]
    cases hx : Any c x <;> cases hl : AnyOpt c lo <;> cases hh : AnyOpt c hi <;>
      simp [Any, hf, hx, hl, hh]
  | hcall o t f args d ih =>
    have h1 := anyListId_iff c args ih
    simp_all [Any, names]
  | hmake t l cp ihl ihc =>
    have h1 := anyOptId_iff c cp ihc
    cases hx : Any c l <;> simp_all [Any, names, or_and_right, exists_or]

theorem refersToName_iff (l : Name) (r : Node) : refersToName l r = true ↔ l ∈ names r := by
  unfold refersToName
  simp only [Id.run]
  refine (anyId_iff _ ?_ r).trans ?_
  · intro n hn
    cases n <;> simp_all [pure]
  · constructor
    · rintro ⟨v, hv, h⟩
      have : v = l := of_decide_eq_true h
      exact this ▸ hv
    · intro h
      exact ⟨l, h, by simp [pure]⟩



theorem aliasedLoop_cons (r : Node) (a : AssignStmt) (rest : List AssignStmt) (mw : Bool) :
    aliasedLoop r (a :: rest) mw =
      if classOK a then
        (if hitBy r a then .ok (true, mw) else aliasedLoop r rest (mw || writesMemory a))
      else .error "unexpected class" := by
  rw [aliasedLoop]
  by_cases hb : IsBlank a.X = true
  · simp [hb, classOK, hitBy, writtenName, writesMemory]
  · have hb' : IsBlank a.X = false := by simpa using hb
    cases hov : OuterValue a.X with
    | name l =>
      cases hc : l.Class_ <;> cases hal : l.Addrtaken <;> cases hr : refersToName l r <;>
        simp [hb', hov, hc, hal, hr, classOK, hitBy, writtenName, writesMemory, InMemory, BEq.beq]
    | _ => simp [hb', hov, classOK, hitBy, writtenName, writesMemory]

theorem aliasedLoop_false (r : Node) : ∀ (all : List AssignStmt) (mw0 mw : Bool),
    aliasedLoop r all mw0 = .ok (false, mw) →
      mw = (mw0 || all.any writesMemory) ∧ all.any (hitBy r) = false ∧
        all.all classOK = true := by
  intro all
  induction all with
  | nil => intro mw0 mw h; simp [aliasedLoop] at h; simp [h]
  | cons a rest ih =>
    intro mw0 mw h
    rw [aliasedLoop_cons] at h
    cases hc : classOK a <;> cases hh : hitBy r a <;> simp [hc, hh] at h
    obtain ⟨h1, h2, h3⟩ := ih _ _ h
    simp [h1, h2, h3, hc, hh, Bool.or_assoc]

theorem aliasedLoop_true (r : Node) : ∀ (all : List AssignStmt) (mw0 mw : Bool),
    aliasedLoop r all mw0 = .ok (true, mw) → all.any (hitBy r) = true := by
  intro all
  induction all with
  | nil => intro mw0 mw h; simp [aliasedLoop] at h
  | cons a rest ih =>
    intro mw0 mw h
    rw [aliasedLoop_cons] at h
    cases hc : classOK a <;> cases hh : hitBy r a <;> simp [hc, hh] at h
    · simp [ih _ _ h]
    · simp [hh]

theorem aliasedLoop_ok (r : Node) : ∀ (all : List AssignStmt) (mw0 : Bool),
    all.all classOK = true → ∃ res, aliasedLoop r all mw0 = .ok res := by
  intro all
  induction all with
  | nil => intro mw0 _; exact ⟨_, rfl⟩
  | cons a rest ih =>
    intro mw0 h
    simp only [List.all_cons, Bool.and_eq_true] at h
    rw [aliasedLoop_cons]
    cases hh : hitBy r a
    · simpa [h.1] using ih _ h.2
    · simp [h.1]

theorem names_stripDots (r : Node) : names (stripDots r) = names r := by
  induction r using Node.induct with
  | hdot t x s ih => simpa [stripDots, names] using ih
  | _ => simp [stripDots]

theorem anyAddrTaken_false_names (r : Node) (h : anyAddrTaken r = .ok false) :
    ∀ v ∈ names r, InMemory v = false := by
  unfold anyAddrTaken at h
  induction r using Node.induct with
  | hname v =>
    intro w hw
    simp [names] at hw
    subst hw
    simpa [Any, anyAddrTakenCond, InMemory] using h
  | hlit t k v => simp [names]
  | hnil t => simp [names]
  | htp t => simp [names]
  | hun o t x ih =>
    cases o <;> simp [Any, anyAddrTakenCond, Node.op, UnOp.toOp, bind, Except.bind, pure, Except.pure] at h <;>
      simpa [names] using ih h
  | hbin o t x y ihx ihy =>
    cases o <;> simp [Any, anyAddrTakenCond, Node.op, BinOp.toOp, bind, Except.bind, pure, Except.pure] at h <;>
      (cases hx : Any anyAddrTakenCond x with
       | error e => simp [hx] at h
       | ok b =>
         cases b <;> simp [hx, pure, Except.pure] at h
         intro v hv
         simp only [names, List.mem_append] at hv
         rcases hv with hv | hv
         · exact ihx hx v hv
         · exact ihy h v hv)
  | hdot t x s ih =>
    simp [Any, anyAddrTakenCond, Node.op, bind, Except.bind] at h
  | hdotptr t x s ih =>
    simp [Any, anyAddrTakenCond, Node.op, bind, Except.bind, pure, Except.pure] at h
  | hindex t x i b ihx ihy =>
    simp [Any, anyAddrTakenCond, Node.op, bind, Except.bind, pure, Except.pure] at h
  | hindexmap t x i ihx ihy =>
    simp [Any, anyAddrTakenCond, Node.op, bind, Except.bind, pure, Except.pure] at h
  | hslice t x lo hi mx b ihx ihlo ihhi ihmx =>
    simp [Any, anyAddrTakenCond, Node.op, bind, Except.bind, pure, Except.pure] at h
  | hcall o t f args d ih =>
    cases o <;> simp [Any, anyAddrTakenCond, Node.op, bind, Except.bind, pure, Except.pure] at h
  | hmake t l cp ihl ihc =>
    simp [Any, anyAddrTakenCond, Node.op, bind, Except.bind, pure, Except.pure] at h

theorem aliased_false (r : Node) (all : List AssignStmt) (h : aliased (some r) all = .ok false) :
    ∃ mw, aliasedLoop (stripDots r) all false = .ok (false, mw) ∧
      (mw = false ∨ anyAddrTaken (stripDots r) = .ok false) := by
  simp only [aliased, bind, Except.bind] at h
  cases hl : aliasedLoop (stripDots r) all false with
  | error e => simp [hl] at h
  | ok res =>
    obtain ⟨hit, mw⟩ := res
    simp only [hl] at h
    cases hit <;> cases mw <;> simp [pure, Except.pure] at h
    · exact ⟨false, rfl, Or.inl rfl⟩
    · refine ⟨true, rfl, Or.inr ?_⟩
      cases ha : anyAddrTaken (stripDots r) with
      | error e => simp [ha] at h
      | ok b => cases b <;> simp [ha] at h; rfl

/-- C2: `aliased` has no false negatives for named variables. If a non-blank
prior assignment's outermost destination value is a named variable of class
PAUTO, PPARAM, PPARAMOUT, PAUTOHEAP or PEXTERN (address-taken or not) and that
name occurs inside the read expression `r`, then `aliased r all` does not
return false. -/
theorem aliased_no_false_negative (r : Node) (all : List AssignStmt) (a : AssignStmt)
    (l : Name) (ha : a ∈ all) (hnb : IsBlank a.X = false) (hov : OuterValue a.X = .name l)
    (_hcl : l.Class_ = .PAUTO ∨ l.Class_ = .PPARAM ∨ l.Class_ = .PPARAMOUT ∨
      l.Class_ = .PAUTOHEAP ∨ l.Class_ = .PEXTERN)
    (hocc : l ∈ names r) : aliased (some r) all ≠ .ok false := by
  intro h
  obtain ⟨mw, hloop, hmw⟩ := aliased_false r all h
  obtain ⟨h1, h2, _⟩ := aliasedLoop_false _ _ _ _ hloop
  have hocc' : l ∈ names (stripDots r) := by rw [names_stripDots]; exact hocc
  cases him : InMemory l with
  | true =>
    have hw : writesMemory a = true := by simp [writesMemory, hnb, hov, him]
    have hmw' : mw = true := by
      rw [h1]; simp only [Bool.false_or, List.any_eq_true]; exact ⟨a, ha, hw⟩
    rcases hmw with hmw | hmw
    · rw [hmw] at hmw'; exact absurd hmw' (by simp)
    · have := anyAddrTaken_false_names _ hmw l hocc'
      rw [him] at this; exact absurd this (by simp)
  | false =>
    have hh : hitBy (stripDots r) a = true := by
      simp [hitBy, writtenName, hnb, hov, him, (refersToName_iff l _).2 hocc']
    have : all.any (hitBy (stripDots r)) = true := List.any_eq_true.2 ⟨a, ha, hh⟩
    rw [h2] at this; exact absurd this (by simp)

theorem aliased_of_loop (r : Node) (all : List AssignStmt) (hit : Bool)
    (hl : aliasedLoop (stripDots r) all false = .ok (hit, false)) :
    aliased (some r) all = .ok hit := by
  simp only [aliased, bind, Except.bind, hl]
  cases hit <;> simp [pure, Except.pure]

/-- C3: `aliased` is exact when no generic-memory write occurs. If every
non-blank destination's outermost value is a named variable of class PAUTO,
PPARAM or PPARAMOUT whose address has not been taken, then `aliased r all`
returns, and it returns true exactly when one of those destination variables
occurs as a name node inside `r`; in particular a read of a plain local `x` is
not flagged against a write to a different plain local `y`. -/
theorem aliased_exact_without_memwrite (r : Node) (all : List AssignStmt)
    (h : ∀ a ∈ all, IsBlank a.X = true ∨ ∃ l, OuterValue a.X = .name l ∧
      (l.Class_ = .PAUTO ∨ l.Class_ = .PPARAM ∨ l.Class_ = .PPARAMOUT) ∧ l.Addrtaken = false) :
    (∃ b, aliased (some r) all = .ok b ∧
      (b = true ↔ ∃ a ∈ all, IsBlank a.X = false ∧ ∃ l, OuterValue a.X = .name l ∧ l ∈ names r)) ∧
    (∀ (x y : Name) (e : Node), x ≠ y → all = [⟨.name y, e⟩] →
      aliased (some (.name x)) all = .ok false) := by
  have hcls : ∀ r' : Node, ∀ a ∈ all, classOK a = true ∧ writesMemory a = false ∧
      (hitBy (stripDots r') a = true ↔
        (IsBlank a.X = false ∧ ∃ l, OuterValue a.X = .name l ∧ l ∈ names r')) := by
    intro r' a ha
    rcases h a ha with hb | ⟨l, hov, hc, hat⟩
    · simp [classOK, writesMemory, hitBy, writtenName, hb]
    · cases hb : IsBlank a.X
      · have him : InMemory l = false := by
          rcases hc with hc | hc | hc <;> simp [InMemory, hc, hat, BEq.beq]
        refine ⟨?_, ?_, ?_⟩
        · rcases hc with hc | hc | hc <;> simp [classOK, hov, hc]
        · simp [writesMemory, hov, him]
        · simp [hitBy, writtenName, hb, hov, him, refersToName_iff, names_stripDots]
      · simp [classOK, writesMemory, hitBy, writtenName, hb]
  have hok : all.all classOK = true := List.all_eq_true.2 (fun a ha => (hcls r a ha).1)
  have hmain : ∀ r',
      ∃ b, aliased (some r') all = .ok b ∧
      (b = true ↔ ∃ a ∈ all, IsBlank a.X = false ∧ ∃ l, OuterValue a.X = .name l ∧ l ∈ names r') := by
    intro r'
    have hr' := fun a ha => (hcls r' a ha).2.2
    obtain ⟨⟨hit, mw⟩, hres⟩ := aliasedLoop_ok (stripDots r') all false hok
    have hmw : hit = false → mw = false := by
      intro hh
      subst hh
      obtain ⟨h1, _, _⟩ := aliasedLoop_false _ _ _ _ hres
      rw [h1]
      simp only [Bool.false_or]
      cases hany : all.any writesMemory
      · rfl
      · obtain ⟨a, ha, hw⟩ := List.any_eq_true.1 hany
        rw [(hcls r a ha).2.1] at hw; exact absurd hw (by simp)
    cases hit with
    | false =>
      have := hmw rfl
      subst this
      refine ⟨false, aliased_of_loop r' all false hres, ?_⟩
      obtain ⟨_, h2, _⟩ := aliasedLoop_false _ _ _ _ hres
      constructor
      · intro hc; exact absurd hc (by simp)
      · rintro ⟨a, ha, hx⟩
        have : all.any (hitBy (stripDots r')) = true :=
          List.any_eq_true.2 ⟨a, ha, (hr' a ha).2 hx⟩
        rw [h2] at this; exact absurd this (by simp)
    | true =>
      refine ⟨true, ?_, ?_⟩
      · simp only [aliased, bind, Except.bind, hres]
        simp [pure, Except.pure]
      · have := aliasedLoop_true _ _ _ _ hres
        obtain ⟨a, ha, hx⟩ := List.any_eq_true.1 this
        simp only [true_iff]
        exact ⟨a, ha, (hr' a ha).1 hx⟩
  refine ⟨hmain r, ?_⟩
  intro x y e hxy hall
  obtain ⟨b, hb, hiff⟩ := hmain (.name x)
  cases b with
  | false => exact hb
  | true =>
    obtain ⟨a, ha, _, l, hov, hl⟩ := hiff.1 rfl
    subst hall
    simp only [List.mem_singleton] at ha
    subst ha
    simp only [OuterValue, Node.name.injEq] at hov
    simp only [names, List.mem_singleton] at hl
    exact absurd (hl.symm.trans hov.symm) hxy

theorem reorder3save_spec (n : Node) (prior : List AssignStmt) (st : Acc) (n' : Node) (st' : Acc)
    (h : reorder3save n prior st = .ok (n', st')) :
    (aliased (some n) prior = .ok false ∧ n' = n ∧ st' = st) ∨
    (aliased (some n) prior = .ok true ∧ n' = .name (Temp n.typ st.next) ∧
      st' = { st with next := st.next + 1,
                      early := st.early ++ [.as ⟨.name (Temp n.typ st.next), n⟩] }) := by
  simp only [reorder3save, bind, Except.bind] at h
  cases ha : aliased (some n) prior with
  | error e => simp [ha] at h
  | ok b =>
    cases b <;> simp [ha, pure, Except.pure] at h
    · exact Or.inl ⟨rfl, h.1.symm, h.2.symm⟩
    · exact Or.inr ⟨rfl, h.1.symm, h.2.symm⟩


theorem anyAddrTaken_paren (t : Typ) (x : Node) :
    anyAddrTaken (.unary .OPAREN t x) = anyAddrTaken x := by
  simp [anyAddrTaken, Any, anyAddrTakenCond, Node.op, UnOp.toOp, bind, Except.bind, pure, Except.pure]


theorem deref_congr (σ σ' : State) (hh : σ'.heap = σ.heap) (v : Val) :
    (match derefLoc v with | some l => read σ' l | none => none) =
    (match derefLoc v with | some l => read σ l | none => none) := by
  cases v <;> simp [derefLoc, read, hh]

theorem derefExt_congr (σ σ' : State) (hh : σ'.heap = σ.heap) (v : Val) (s : Nat) :
    (match derefLoc v with | some l => read σ' (l.extend s) | none => none) =
    (match derefLoc v with | some l => read σ (l.extend s) | none => none) := by
  cases v <;> simp [derefLoc, read, Loc.extend, hh]

theorem elemOf_congr (σ σ' : State) (hh : σ'.heap = σ.heap) (v w : Val) :
    elemOf σ' v w = elemOf σ v w := by
  cases v <;> cases w <;> simp [elemOf, hh]

theorem any_head_false (c : Node → Except String Bool) (r : Node)
    (h : Any c r = .ok false) : c r = .ok false := by
  cases r <;> simp only [Any, bind, Except.bind] at h <;>
    first
    | exact h
    | (split at h
       · exact absurd h (by simp)
       · rename_i b hb
         cases b
         · exact hb
         · simp [pure, Except.pure] at h)

theorem anyAddrTaken_not_false {r : Node} (h : anyAddrTakenCond r ≠ .ok false)
    (h' : anyAddrTaken r = .ok false) : False :=
  h (any_head_false _ r h')

theorem eval_congr (σ σ' : State) (r : Node)
    (henv : ∀ v ∈ names r, InMemory v = false → σ'.env v = σ.env v)
    (hheap : σ'.heap = σ.heap ∨ anyAddrTaken r = .ok false) : eval σ' r = eval σ r := by
  induction r using Node.induct with
  | hname v =>
    simp only [eval, varLoc]
    by_cases hb : (v.sym == Sym.blank) = true
    · simp [hb, read]
    · simp only [hb, if_false]
      cases him : InMemory v with
      | true =>
        rcases hheap with hh | hh
        · simp [read, hh]
        · have := anyAddrTaken_false_names _ hh v (by simp [names])
          rw [him] at this; exact absurd this (by simp)
      | false =>
        simp [read, henv v (by simp [names]) him]
  | hlit t k v => cases k <;> simp [eval]
  | hnil t => simp [eval]
  | htp t => simp [eval]
  | hun o t x ih =>
    cases o <;> simp only [eval]
    · -- OPAREN
      exact ih (by simpa [names] using henv) (by
        rcases hheap with hh | hh
        · exact Or.inl hh
        · exact Or.inr (by rwa [anyAddrTaken_paren] at hh))
    · -- ODEREF
      rcases hheap with hh | hh
      · rw [ih (by simpa [names] using henv) (Or.inl hh)]
        cases eval σ x with
        | none => rfl
        | some v => exact deref_congr σ σ' hh v
      · exact (anyAddrTaken_not_false (by simp [anyAddrTakenCond, Node.op, UnOp.toOp]) hh).elim
  | hbin o t x y ihx ihy => simp [eval]
  | hdot t x s ih =>
    rcases hheap with hh | hh
    · simp only [eval]
      rw [ih (by simpa [names] using henv) (Or.inl hh)]
    · exact (anyAddrTaken_not_false (by simp [anyAddrTakenCond, Node.op]) hh).elim
  | hdotptr t x s ih =>
    rcases hheap with hh | hh
    · simp only [eval]
      rw [ih (by simpa [names] using henv) (Or.inl hh)]
      cases eval σ x with
      | none => rfl
      | some v => exact derefExt_congr σ σ' hh v s
    · exact (anyAddrTaken_not_false (by simp [anyAddrTakenCond, Node.op]) hh).elim
  | hindex t x i b ihx ihi =>
    rcases hheap with hh | hh
    · simp only [eval]
      rw [ihx (fun v hv => henv v (by simp [names, hv])) (Or.inl hh),
        ihi (fun v hv => henv v (by simp [names, hv])) (Or.inl hh)]
      cases eval σ x <;> cases eval σ i <;> simp [elemOf_congr σ σ' hh]
    · exact (anyAddrTaken_not_false (by simp [anyAddrTakenCond, Node.op]) hh).elim
  | hindexmap t x i ihx ihy => simp [eval]
  | hslice t x lo hi mx b ihx ihlo ihhi ihmx => simp [eval]
  | hcall o t f args d ih => simp [eval]
  | hmake t l cp ihl ihc => simp [eval]

theorem eval_stripDots (σ σ' : State) (n : Node)
    (h : eval σ' (stripDots n) = eval σ (stripDots n)) : eval σ' n = eval σ n := by
  induction n using Node.induct with
  | hdot t x s ih =>
    simp only [stripDots] at h
    simp only [eval, ih h]
  | _ => simpa [stripDots] using h

theorem eval_unaliased (next0 : Nat) (prior : List AssignStmt) (σ0 τ : State) (n : Node)
    (ha : aliased (some n) prior = .ok false) (hf : Frame next0 prior σ0 τ)
    (hn : ∀ v ∈ names n, notFresh next0 v = true) : eval τ n = eval σ0 n := by
  obtain ⟨mw, hloop, hmw⟩ := aliased_false n prior ha
  obtain ⟨h1, h2, _⟩ := aliasedLoop_false _ _ _ _ hloop
  apply eval_stripDots
  apply eval_congr
  · intro v hv him
    apply hf.1 v him (hn v (by rwa [names_stripDots] at hv))
    intro a ha' hw
    have : hitBy (stripDots n) a = true := by
      simp [hitBy, hw, (refersToName_iff v _).2 hv]
    have h3 : prior.any (hitBy (stripDots n)) = true := List.any_eq_true.2 ⟨a, ha', this⟩
    rw [h2] at h3; exact absurd h3 (by simp)
  · rcases hmw with hmw | hmw
    · left
      apply hf.2
      rw [hmw] at h1
      simpa using h1.symm
    · exact Or.inr hmw

theorem eval_temp (τ : State) (t : Typ) (k : Nat) :
    eval τ (.name (Temp t k)) = some (τ.env (Temp t k)) := by
  simp [eval, varLoc, Temp, InMemory, read, Val.get, BEq.beq]

theorem reorder3save_sem (next0 : Nat) (n : Node) (prior : List AssignStmt) (st : Acc)
    (n' : Node) (st' : Acc) (σ0 τ : State)
    (h : reorder3save n prior st = .ok (n', st')) (hf : Frame next0 prior σ0 τ)
    (hn : ∀ v ∈ names n, notFresh next0 v = true) (he : EarlyOK σ0 τ st'.early) :
    eval τ n' = eval σ0 n := by
  rcases reorder3save_spec n prior st n' st' h with ⟨ha, rfl, rfl⟩ | ⟨_, rfl, rfl⟩
  · exact eval_unaliased next0 prior σ0 τ _ ha hf hn
  · rw [eval_temp]
    exact (he _ _ (by simp)).symm

theorem reorder3save_typ (n : Node) (prior : List AssignStmt) (st : Acc)
    (n' : Node) (st' : Acc) (h : reorder3save n prior st = .ok (n', st')) : n'.typ = n.typ := by
  rcases reorder3save_spec n prior st n' st' h with ⟨_, rfl, rfl⟩ | ⟨_, rfl, rfl⟩
  · rfl
  · rfl

theorem reorder3save_early (n : Node) (prior : List AssignStmt) (st : Acc)
    (n' : Node) (st' : Acc) (h : reorder3save n prior st = .ok (n', st')) :
    ∀ s ∈ st.early, s ∈ st'.early := by
  rcases reorder3save_spec n prior st n' st' h with ⟨_, rfl, rfl⟩ | ⟨_, rfl, rfl⟩
  · exact fun s hs => hs
  · exact fun s hs => List.mem_append_left _ hs

theorem bind_ok {α β : Type} {x : Except String α} {f : α → Except String β} {b : β}
    (h : (x >>= f) = .ok b) : ∃ a, x = .ok a ∧ f a = .ok b := by
  cases x with
  | error e => simp [bind, Except.bind] at h
  | ok a => exact ⟨a, rfl, h⟩

theorem reorder3Lhs_sem (next0 : Nat) (prior : List AssignStmt) (σ0 τ : State)
    (hf : Frame next0 prior σ0 τ) : ∀ (x : Node) (st : Acc) (x' : Node) (m : Bool) (st' : Acc),
    reorder3Lhs prior x st = .ok (x', m, st') →
    (∀ v ∈ names x, notFresh next0 v = true) → EarlyOK σ0 τ st'.early →
    lval τ x' = lval σ0 x ∧ x'.typ = x.typ ∧ (∀ s ∈ st.early, s ∈ st'.early) := by
  intro x
  induction x using Node.induct with
  | hname v =>
    intro st x' m st' h hn he
    simp only [reorder3Lhs, pure, Except.pure, Except.ok.injEq, Prod.mk.injEq] at h
    obtain ⟨rfl, rfl, rfl⟩ := h
    exact ⟨by simp [lval], rfl, fun s hs => hs⟩
  | hlit t k v => intro st x' m st' h; simp [reorder3Lhs] at h
  | hnil t => intro st x' m st' h; simp [reorder3Lhs] at h
  | htp t => intro st x' m st' h; simp [reorder3Lhs] at h
  | hun o t x ih =>
    intro st x' m st' h hn he
    cases o <;> try (simp [reorder3Lhs] at h; done)
    · -- OPAREN
      rw [reorder3Lhs] at h
      obtain ⟨⟨x1, m1, st1⟩, h1, h2⟩ := bind_ok h
      simp only [pure, Except.pure, Except.ok.injEq, Prod.mk.injEq] at h2
      obtain ⟨rfl, rfl, rfl⟩ := h2
      obtain ⟨e1, e2, e3⟩ := ih st x1 m1 st1 h1 (by simpa [names] using hn) he
      exact ⟨by simp [lval, e1], rfl, e3⟩
    · -- ODEREF
      rw [reorder3Lhs] at h
      obtain ⟨⟨x1, st1⟩, h1, h2⟩ := bind_ok h
      simp only [pure, Except.pure, Except.ok.injEq, Prod.mk.injEq] at h2
      obtain ⟨rfl, rfl, rfl⟩ := h2
      have e1 := reorder3save_sem next0 x prior st x1 st1 σ0 τ h1 hf (by simpa [names] using hn) he
      exact ⟨by simp [lval, e1], rfl, reorder3save_early _ _ _ _ _ h1⟩
  | hbin o t x y ihx ihy => intro st x' m st' h; simp [reorder3Lhs] at h
  | hdot t x s ih =>
    intro st x' m st' h hn he
    rw [reorder3Lhs] at h
    obtain ⟨⟨x1, m1, st1⟩, h1, h2⟩ := bind_ok h
    simp only [pure, Except.pure, Except.ok.injEq, Prod.mk.injEq] at h2
    obtain ⟨rfl, rfl, rfl⟩ := h2
    obtain ⟨e1, e2, e3⟩ := ih st x1 m1 st1 h1 (by simpa [names] using hn) he
    exact ⟨by simp [lval, e1], rfl, e3⟩
  | hdotptr t x s ih =>
    intro st x' m st' h hn he
    rw [reorder3Lhs] at h
    obtain ⟨⟨x1, st1⟩, h1, h2⟩ := bind_ok h
    simp only [pure, Except.pure, Except.ok.injEq, Prod.mk.injEq] at h2
    obtain ⟨rfl, rfl, rfl⟩ := h2
    have e1 := reorder3save_sem next0 x prior st x1 st1 σ0 τ h1 hf (by simpa [names] using hn) he
    exact ⟨by simp [lval, e1], rfl, reorder3save_early _ _ _ _ _ h1⟩
  | hindex t x i b ihx ihi =>
    intro st x' m st' h hn he
    rw [reorder3Lhs] at h
    have hnx : ∀ v ∈ names x, notFresh next0 v = true := fun v hv => hn v (by simp [names, hv])
    have hni : ∀ v ∈ names i, notFresh next0 v = true := fun v hv => hn v (by simp [names, hv])
    by_cases harr : x.typ.IsArray = true
    · simp only [harr, if_true] at h
      obtain ⟨⟨i1, st1⟩, h1, h2⟩ := bind_ok h
      obtain ⟨⟨x1, m1, st2⟩, h3, h4⟩ := bind_ok h2
      simp only [pure, Except.pure, Except.ok.injEq, Prod.mk.injEq] at h4
      obtain ⟨rfl, rfl, rfl⟩ := h4
      obtain ⟨e1, e2, e3⟩ := ihx st1 x1 m1 st2 h3 hnx he
      have e4 := reorder3save_sem next0 i prior st i1 st1 σ0 τ h1 hf hni
        (fun q e hq => he q e (e3 _ hq))
      exact ⟨by simp [lval, e1, e2, e4, harr], rfl,
        fun s hs => e3 s (reorder3save_early _ _ _ _ _ h1 s hs)⟩
    · simp only [harr] at h
      obtain ⟨⟨x1, st1⟩, h1, h2⟩ := bind_ok h
      obtain ⟨⟨i1, st2⟩, h3, h4⟩ := bind_ok h2
      simp only [pure, Except.pure, Except.ok.injEq, Prod.mk.injEq] at h4
      obtain ⟨rfl, rfl, rfl⟩ := h4
      have e3 := reorder3save_early _ _ _ _ _ h3
      have e1 := reorder3save_sem next0 x prior st x1 st1 σ0 τ h1 hf hnx
        (fun q e hq => he q e (e3 _ hq))
      have e4 := reorder3save_sem next0 i prior st1 i1 st2 σ0 τ h3 hf hni he
      have e2 := reorder3save_typ _ _ _ _ _ h1
      exact ⟨by simp [lval, e1, e2, e4, harr], rfl,
        fun s hs => e3 s (reorder3save_early _ _ _ _ _ h1 s hs)⟩
  | hindexmap t x i ihx ihy =>
    intro st x' m st' h hn he
    rw [reorder3Lhs] at h
    obtain ⟨⟨x1, st1⟩, h1, h2⟩ := bind_ok h
    obtain ⟨⟨i1, st2⟩, h3, h4⟩ := bind_ok h2
    simp only [pure, Except.pure, Except.ok.injEq, Prod.mk.injEq] at h4
    obtain ⟨rfl, rfl, rfl⟩ := h4
    exact ⟨by simp [lval], rfl,
      fun s hs => reorder3save_early _ _ _ _ _ h3 s (reorder3save_early _ _ _ _ _ h1 s hs)⟩
  | hslice t x lo hi mx b ihx ihlo ihhi ihmx => intro st x' m st' h; simp [reorder3Lhs] at h
  | hcall o t f args d ih => intro st x' m st' h; simp [reorder3Lhs] at h
  | hmake t l cp ihl ihc => intro st x' m st' h; simp [reorder3Lhs] at h

theorem lval_loc (σ : State) : ∀ (x : Node) (l : Loc), lval σ x = some l →
    (∀ v p, l = .var v p →
      OuterValue x = .name v ∧ InMemory v = false ∧ IsBlank x = false ∧ v ∈ names x) ∧
    (∀ c p, l = .mem c p → IsBlank x = false ∧ ∀ v, OuterValue x = .name v → InMemory v = true) := by
  intro x
  induction x using Node.induct with
  | hname v =>
    intro l h
    simp only [lval, Option.some.injEq] at h
    subst h
    by_cases hb : (v.sym == Sym.blank) = true
    · simp [varLoc, hb]
    · cases him : InMemory v <;> simp [varLoc, hb, him, OuterValue, IsBlank, names]
  | hlit t k v => intro l h; simp [lval] at h
  | hnil t => intro l h; simp [lval] at h
  | htp t => intro l h; simp [lval] at h
  | hun o t x ih =>
    intro l h
    cases o <;> try (simp [lval] at h; done)
    · simp only [lval] at h
      obtain ⟨h1, h2⟩ := ih l h
      refine ⟨fun v p e => ?_, fun c p e => ?_⟩
      · obtain ⟨a, b, _, d⟩ := h1 v p e
        exact ⟨by simpa [OuterValue] using a, b, by simp [IsBlank], by simpa [names] using d⟩
      · obtain ⟨_, b⟩ := h2 c p e
        exact ⟨by simp [IsBlank], by simpa [OuterValue] using b⟩
    · simp only [lval] at h
      cases hx : eval σ x with
      | none => simp [hx] at h
      | some v =>
        simp only [hx] at h
        cases v <;> simp [derefLoc] at h
        subst h
        simp [IsBlank, OuterValue]
  | hbin o t x y ihx ihy => intro l h; simp [lval] at h
  | hdot t x s ih =>
    intro l h
    simp only [lval] at h
    cases hx : lval σ x with
    | none => simp [hx] at h
    | some l' =>
      simp only [hx, Option.some.injEq] at h
      subst h
      obtain ⟨h1, h2⟩ := ih l' hx
      cases l' with
      | blank => simp [Loc.extend]
      | var v p =>
        obtain ⟨a, b, _, d⟩ := h1 v p rfl
        simp [Loc.extend, OuterValue, IsBlank, names, a, b, d]
      | mem c p =>
        obtain ⟨_, b⟩ := h2 c p rfl
        simpa [Loc.extend, OuterValue, IsBlank] using b
  | hdotptr t x s ih =>
    intro l h
    simp only [lval] at h
    cases hx : eval σ x with
    | none => simp [hx] at h
    | some v =>
      simp only [hx] at h
      cases v <;> simp [derefLoc] at h
      subst h
      simp [IsBlank, OuterValue, Loc.extend]
  | hindex t x i b ihx ihi =>
    intro l h
    simp only [lval] at h
    by_cases harr : x.typ.IsArray = true
    · simp only [harr, if_true] at h
      cases hx : lval σ x with
      | none => simp [hx] at h
      | some l' =>
        cases hi : eval σ i with
        | none => simp [hx, hi] at h
        | some vi =>
          cases vi <;> simp [hx, hi] at h
          obtain ⟨_, h⟩ := h
          subst h
          obtain ⟨h1, h2⟩ := ihx l' hx
          cases l' with
          | blank => simp [Loc.extend]
          | var v p =>
            obtain ⟨a, b, _, d⟩ := h1 v p rfl
            simp [Loc.extend, OuterValue, IsBlank, names, a, b, d, harr]
          | mem c p =>
            obtain ⟨_, b⟩ := h2 c p rfl
            simpa [Loc.extend, OuterValue, IsBlank, harr] using b
    · simp only [harr] at h
      cases hx : eval σ x with
      | none => simp [hx] at h
      | some vx =>
        cases hi : eval σ i with
        | none => simp [hx, hi] at h
        | some vi =>
          simp only [hx, hi] at h
          cases vx <;> cases vi <;> simp [elemLoc] at h
          obtain ⟨_, h⟩ := h
          subst h
          simp [IsBlank, OuterValue, harr]
  | hindexmap t x i ihx ihy => intro l h; simp [lval] at h
  | hslice t x lo hi mx b ihx ihlo ihhi ihmx => intro l h; simp [lval] at h
  | hcall o t f args d ih => intro l h; simp [lval] at h
  | hmake t l cp ihl ihc => intro l h; simp [lval] at h

theorem write_var (σ σ' : State) (v : Name) (p : List Nat) (w : Val)
    (h : write σ (.var v p) w = some σ') :
    σ'.heap = σ.heap ∧ ∀ u, u ≠ v → σ'.env u = σ.env u := by
  simp only [write] at h
  cases hs : (σ.env v).set p w with
  | none => simp [hs] at h
  | some u =>
    simp only [hs, Option.some.injEq] at h
    subst h
    exact ⟨rfl, fun u hu => by simp [hu]⟩

theorem write_mem (σ σ' : State) (c : Cell) (p : List Nat) (w : Val)
    (h : write σ (.mem c p) w = some σ') : σ'.env = σ.env := by
  simp only [write] at h
  cases hs : (σ.heap c).set p w with
  | none => simp [hs] at h
  | some u =>
    simp only [hs, Option.some.injEq] at h
    subst h
    rfl

theorem write_sim (next0 : Nat) (τ ρ : State) (l : Loc) (w : Val) (hs : Sim next0 τ ρ)
    (hl : ∀ v p, l = .var v p → notFresh next0 v = true) :
    SameOutcome next0 (write τ l w) (write ρ l w) := by
  cases l with
  | blank => simpa [write, SameOutcome] using hs
  | var v p =>
    have hv := hs.2 v (hl v p rfl)
    simp only [write, hv]
    cases (ρ.env v).set p w with
    | none => simp [SameOutcome]
    | some u =>
      refine ⟨hs.1, fun x hx => ?_⟩
      by_cases hxv : x = v
      · simp [hxv]
      · simp [hxv, hs.2 x hx]
  | mem c p =>
    simp only [write, hs.1]
    cases (ρ.heap c).set p w with
    | none => simp [SameOutcome]
    | some u =>
      exact ⟨by simp [hs.1], fun x hx => hs.2 x hx⟩

theorem frame_step (next0 : Nat) (done : List AssignStmt) (σ0 τ τ' : State) (n : AssignStmt)
    (l : Loc) (w : Val) (hf : Frame next0 done σ0 τ) (hl : lval τ n.X = some l)
    (hw : write τ l w = some τ') : Frame next0 (done ++ [n]) σ0 τ' := by
  obtain ⟨h1, h2⟩ := lval_loc τ n.X l hl
  cases l with
  | blank =>
    simp only [write, Option.some.injEq] at hw
    subst hw
    refine ⟨fun v him hnf hnw => hf.1 v him hnf (fun a ha => hnw a (by simp [ha])), fun hm => ?_⟩
    apply hf.2
    simp only [List.any_append, Bool.or_eq_false_iff] at hm
    exact hm.1
  | var v p =>
    obtain ⟨a, b, c, _⟩ := h1 v p rfl
    obtain ⟨e1, e2⟩ := write_var τ τ' v p w hw
    have hwn : writtenName n = some v := by simp [writtenName, a, b, c]
    refine ⟨fun u him hnf hnw => ?_, fun hm => ?_⟩
    · have huv : u ≠ v := by
        intro e
        subst e
        exact hnw n (by simp) hwn
      rw [e2 u huv]
      exact hf.1 u him hnf (fun a ha => hnw a (by simp [ha]))
    · rw [e1]
      apply hf.2
      simp only [List.any_append, Bool.or_eq_false_iff] at hm
      exact hm.1
  | mem c p =>
    obtain ⟨a, b⟩ := h2 c p rfl
    have e1 := write_mem τ τ' c p w hw
    have hwm : writesMemory n = true := by
      simp only [writesMemory, a, Bool.not_false, Bool.true_and]
      cases hov : OuterValue n.X <;> simp
      exact b _ hov
    refine ⟨fun u him hnf hnw => ?_, fun hm => ?_⟩
    · rw [e1]
      exact hf.1 u him hnf (fun a ha => hnw a (by simp [ha]))
    · simp [hwm] at hm

theorem earlyOK_step (next0 : Nat) (σ0 τ τ' : State) (E : List Stmt) (l : Loc) (w : Val)
    (he : EarlyOK σ0 τ E)
    (hE : ∀ q e, Stmt.as ⟨.name q, e⟩ ∈ E → notFresh next0 q = false)
    (hl : ∀ v p, l = .var v p → notFresh next0 v = true)
    (hw : write τ l w = some τ') : EarlyOK σ0 τ' E := by
  intro q e hq
  rw [he q e hq]
  cases l with
  | blank =>
    simp only [write, Option.some.injEq] at hw
    subst hw; rfl
  | var v p =>
    obtain ⟨_, e2⟩ := write_var τ τ' v p w hw
    have : q ≠ v := by
      intro e'
      subst e'
      have := hE q e hq
      rw [hl q p rfl] at this
      exact absurd this (by simp)
    rw [e2 q this]
  | mem c p =>
    rw [write_mem τ τ' c p w hw]

theorem earlyInc_mono_lo : ∀ (E : List Stmt) (lo lo' hi : Nat), lo' ≤ lo →
    EarlyInc lo E hi → EarlyInc lo' E hi := by
  intro E
  cases E with
  | nil => intro lo lo' hi h1 h2; exact Nat.le_trans h1 h2
  | cons s rest =>
    intro lo lo' hi h1 h2
    obtain ⟨t, k, e, hs, hk, hr⟩ := h2
    exact ⟨t, k, e, hs, Nat.le_trans h1 hk, hr⟩

theorem earlyInc_mono_hi : ∀ (E : List Stmt) (lo hi hi' : Nat), hi ≤ hi' →
    EarlyInc lo E hi → EarlyInc lo E hi' := by
  intro E
  induction E with
  | nil => intro lo hi hi' h1 h2; exact Nat.le_trans h2 h1
  | cons s rest ih =>
    intro lo hi hi' h1 h2
    obtain ⟨t, k, e, hs, hk, hr⟩ := h2
    exact ⟨t, k, e, hs, hk, ih _ _ _ h1 hr⟩

theorem earlyInc_le : ∀ (E : List Stmt) (lo hi : Nat), EarlyInc lo E hi → lo ≤ hi := by
  intro E
  induction E with
  | nil => intro lo hi h; exact h
  | cons s rest ih =>
    intro lo hi h
    obtain ⟨t, k, e, hs, hk, hr⟩ := h
    have := ih _ _ hr
    omega

theorem earlyInc_append : ∀ (E E' : List Stmt) (lo mid hi : Nat),
    EarlyInc lo E mid → EarlyInc mid E' hi → EarlyInc lo (E ++ E') hi := by
  intro E
  induction E with
  | nil => intro E' lo mid hi h1 h2; exact earlyInc_mono_lo E' mid lo hi h1 h2
  | cons s rest ih =>
    intro E' lo mid hi h1 h2
    obtain ⟨t, k, e, hs, hk, hr⟩ := h1
    exact ⟨t, k, e, hs, hk, ih E' _ mid hi hr h2⟩

theorem earlyInc_mem : ∀ (E : List Stmt) (lo hi : Nat), EarlyInc lo E hi →
    ∀ s ∈ E, ∃ t k e, s = .as ⟨.name (Temp t k), e⟩ ∧ lo ≤ k ∧ k < hi := by
  intro E
  induction E with
  | nil => intro lo hi _ s hs; cases hs
  | cons s rest ih =>
    intro lo hi h s' hs'
    obtain ⟨t, k, e, hs, hk, hr⟩ := h
    rcases List.mem_cons.1 hs' with rfl | hs'
    · exact ⟨t, k, e, hs, hk, by have := earlyInc_le _ _ _ hr; omega⟩
    · obtain ⟨t', k', e', h1, h2, h3⟩ := ih _ _ hr s' hs'
      exact ⟨t', k', e', h1, by omega, h3⟩

/-- What one call of `reorder3save` on `n` adds to the state of `reorder3`. -/
theorem reorder3save_extra (n : Node) (prior : List AssignStmt) (st : Acc)
    (n' : Node) (st' : Acc) (h : reorder3save n prior st = .ok (n', st')) :
    st'.mapinit = st.mapinit ∧ ∃ extra, st'.early = st.early ++ extra ∧
      EarlyInc st.next extra st'.next ∧
      ∀ s ∈ extra, ∃ q, s = .as ⟨.name q, n⟩ := by
  rcases reorder3save_spec n prior st n' st' h with ⟨_, rfl, rfl⟩ | ⟨_, rfl, rfl⟩
  · exact ⟨rfl, [], by simp, Nat.le_refl _, by simp⟩
  · refine ⟨rfl, [_], rfl, ⟨_, _, _, rfl, Nat.le_refl _, Nat.le_refl _⟩, ?_⟩
    intro s hs
    simp only [List.mem_singleton] at hs
    exact ⟨_, hs⟩

theorem copiesOf_save (x n : Node) (extra : List Stmt)
    (h : ∀ s ∈ extra, ∃ q, s = .as ⟨.name q, n⟩) (hn : ∀ v ∈ names n, v ∈ names x)
    (hl : ∀ σ0, eval σ0 n = none → lval σ0 x = none) : CopiesOf x extra := by
  intro s hs
  obtain ⟨q, rfl⟩ := h s hs
  exact ⟨q, n, rfl, hn, hl⟩

theorem copiesOf_mono (x y : Node) (extra : List Stmt) (h : CopiesOf x extra)
    (hn : ∀ v ∈ names x, v ∈ names y) (hl : ∀ σ0, lval σ0 x = none → lval σ0 y = none) :
    CopiesOf y extra := by
  intro s hs
  obtain ⟨q, e, rfl, h1, h2⟩ := h s hs
  exact ⟨q, e, rfl, fun v hv => hn v (h1 v hv), fun σ0 he => hl σ0 (h2 σ0 he)⟩

theorem copiesOf_append (x : Node) (e1 e2 : List Stmt) (h1 : CopiesOf x e1)
    (h2 : CopiesOf x e2) : CopiesOf x (e1 ++ e2) := by
  intro s hs
  rcases List.mem_append.1 hs with hs | hs
  · exact h1 s hs
  · exact h2 s hs

theorem reorder3Lhs_extra (prior : List AssignStmt) : ∀ (x : Node) (st : Acc) (x' : Node)
    (m : Bool) (st' : Acc), reorder3Lhs prior x st = .ok (x', m, st') →
    st'.mapinit = st.mapinit ∧ ∃ extra, st'.early = st.early ++ extra ∧
      EarlyInc st.next extra st'.next ∧ CopiesOf x extra := by
  intro x
  induction x using Node.induct with
  | hname v =>
    intro st x' m st' h
    simp only [reorder3Lhs, pure, Except.pure, Except.ok.injEq, Prod.mk.injEq] at h
    obtain ⟨rfl, rfl, rfl⟩ := h
    exact ⟨rfl, [], by simp, Nat.le_refl _, by intro s hs; cases hs⟩
  | hlit t k v => intro st x' m st' h; simp [reorder3Lhs] at h
  | hnil t => intro st x' m st' h; simp [reorder3Lhs] at h
  | htp t => intro st x' m st' h; simp [reorder3Lhs] at h
  | hun o t x ih =>
    intro st x' m st' h
    cases o <;> try (simp [reorder3Lhs] at h; done)
    · rw [reorder3Lhs] at h
      obtain ⟨⟨x1, m1, st1⟩, h1, h2⟩ := bind_ok h
      simp only [pure, Except.pure, Except.ok.injEq, Prod.mk.injEq] at h2
      obtain ⟨rfl, rfl, rfl⟩ := h2
      obtain ⟨e1, extra, e2, e3, e4⟩ := ih st x1 m1 st1 h1
      exact ⟨e1, extra, e2, e3, copiesOf_mono x _ extra e4 (by simp [names])
        (fun σ0 hl => by simp [lval, hl])⟩
    · rw [reorder3Lhs] at h
      obtain ⟨⟨x1, st1⟩, h1, h2⟩ := bind_ok h
      simp only [pure, Except.pure, Except.ok.injEq, Prod.mk.injEq] at h2
      obtain ⟨rfl, rfl, rfl⟩ := h2
      obtain ⟨e1, extra, e2, e3, e4⟩ := reorder3save_extra _ _ _ _ _ h1
      exact ⟨e1, extra, e2, e3, copiesOf_save _ x extra e4 (by simp [names])
        (fun σ0 hl => by simp [lval, hl])⟩
  | hbin o t x y ihx ihy => intro st x' m st' h; simp [reorder3Lhs] at h
  | hdot t x s ih =>
    intro st x' m st' h
    rw [reorder3Lhs] at h
    obtain ⟨⟨x1, m1, st1⟩, h1, h2⟩ := bind_ok h
    simp only [pure, Except.pure, Except.ok.injEq, Prod.mk.injEq] at h2
    obtain ⟨rfl, rfl, rfl⟩ := h2
    obtain ⟨e1, extra, e2, e3, e4⟩ := ih st x1 m1 st1 h1
    exact ⟨e1, extra, e2, e3, copiesOf_mono x _ extra e4 (by simp [names])
      (fun σ0 hl => by simp [lval, hl])⟩
  | hdotptr t x s ih =>
    intro st x' m st' h
    rw [reorder3Lhs] at h
    obtain ⟨⟨x1, st1⟩, h1, h2⟩ := bind_ok h
    simp only [pure, Except.pure, Except.ok.injEq, Prod.mk.injEq] at h2
    obtain ⟨rfl, rfl, rfl⟩ := h2
    obtain ⟨e1, extra, e2, e3, e4⟩ := reorder3save_extra _ _ _ _ _ h1
    exact ⟨e1, extra, e2, e3, copiesOf_save _ x extra e4 (by simp [names])
      (fun σ0 hl => by simp [lval, hl])⟩
  | hindex t x i b ihx ihi =>
    intro st x' m st' h
    rw [reorder3Lhs] at h
    by_cases harr : x.typ.IsArray = true
    · simp only [harr, if_true] at h
      obtain ⟨⟨i1, st1⟩, h1, h2⟩ := bind_ok h
      obtain ⟨⟨x1, m1, st2⟩, h3, h4⟩ := bind_ok h2
      simp only [pure, Except.pure, Except.ok.injEq, Prod.mk.injEq] at h4
      obtain ⟨rfl, rfl, rfl⟩ := h4
      obtain ⟨a1, ex1, a2, a3, a4⟩ := reorder3save_extra _ _ _ _ _ h1
      obtain ⟨b1, ex2, b2, b3, b4⟩ := ihx st1 x1 m1 st2 h3
      refine ⟨b1.trans a1, ex1 ++ ex2, by rw [b2, a2, List.append_assoc],
        earlyInc_append _ _ _ _ _ a3 b3, copiesOf_append _ _ _ ?_ ?_⟩
      · exact copiesOf_save _ i ex1 a4 (by intro v hv; simp [names, hv]) (fun σ0 hl => by
          simp only [lval, harr, if_true, hl]
          cases lval σ0 x <;> rfl)
      · exact copiesOf_mono x _ ex2 b4 (by intro v hv; simp [names, hv])
          (fun σ0 hl => by simp [lval, harr, hl])
    · simp only [harr] at h
      obtain ⟨⟨x1, st1⟩, h1, h2⟩ := bind_ok h
      obtain ⟨⟨i1, st2⟩, h3, h4⟩ := bind_ok h2
      simp only [pure, Except.pure, Except.ok.injEq, Prod.mk.injEq] at h4
      obtain ⟨rfl, rfl, rfl⟩ := h4
      obtain ⟨a1, ex1, a2, a3, a4⟩ := reorder3save_extra _ _ _ _ _ h1
      obtain ⟨b1, ex2, b2, b3, b4⟩ := reorder3save_extra _ _ _ _ _ h3
      refine ⟨b1.trans a1, ex1 ++ ex2, by rw [b2, a2, List.append_assoc],
        earlyInc_append _ _ _ _ _ a3 b3, copiesOf_append _ _ _ ?_ ?_⟩
      · exact copiesOf_save _ x ex1 a4 (by intro v hv; simp [names, hv]) (fun σ0 hl => by
          simp [lval, harr, hl])
      · exact copiesOf_save _ i ex2 b4 (by intro v hv; simp [names, hv]) (fun σ0 hl => by
          simp only [lval, harr, hl]
          cases eval σ0 x <;> simp)
  | hindexmap t x i ihx ihy =>
    intro st x' m st' h
    rw [reorder3Lhs] at h
    obtain ⟨⟨x1, st1⟩, h1, h2⟩ := bind_ok h
    obtain ⟨⟨i1, st2⟩, h3, h4⟩ := bind_ok h2
    simp only [pure, Except.pure, Except.ok.injEq, Prod.mk.injEq] at h4
    obtain ⟨rfl, rfl, rfl⟩ := h4
    obtain ⟨a1, ex1, a2, a3, a4⟩ := reorder3save_extra _ _ _ _ _ h1
    obtain ⟨b1, ex2, b2, b3, b4⟩ := reorder3save_extra _ _ _ _ _ h3
    refine ⟨b1.trans a1, ex1 ++ ex2, by rw [b2, a2, List.append_assoc],
      earlyInc_append _ _ _ _ _ a3 b3, copiesOf_append _ _ _ ?_ ?_⟩
    · exact copiesOf_save _ x ex1 a4 (by intro v hv; simp [names, hv])
        (fun σ0 hl => by simp [lval])
    · exact copiesOf_save _ i ex2 b4 (by intro v hv; simp [names, hv])
        (fun σ0 hl => by simp [lval])
  | hslice t x lo hi mx b ihx ihlo ihhi ihmx => intro st x' m st' h; simp [reorder3Lhs] at h
  | hcall o t f args d ih => intro st x' m st' h; simp [reorder3Lhs] at h
  | hmake t l cp ihl ihc => intro st x' m st' h; simp [reorder3Lhs] at h

theorem reorder3Lhs_shape (prior : List AssignStmt) : ∀ (x : Node) (st : Acc) (x' : Node)
    (m : Bool) (st' : Acc), reorder3Lhs prior x st = .ok (x', m, st') →
    x'.typ = x.typ ∧ IsBlank x' = IsBlank x ∧
      (∀ l, OuterValue x' = .name l → OuterValue x = .name l) := by
  intro x
  induction x using Node.induct with
  | hname v =>
    intro st x' m st' h
    simp only [reorder3Lhs, pure, Except.pure, Except.ok.injEq, Prod.mk.injEq] at h
    obtain ⟨rfl, rfl, rfl⟩ := h
    exact ⟨rfl, rfl, fun l hl => hl⟩
  | hlit t k v => intro st x' m st' h; simp [reorder3Lhs] at h
  | hnil t => intro st x' m st' h; simp [reorder3Lhs] at h
  | htp t => intro st x' m st' h; simp [reorder3Lhs] at h
  | hun o t x ih =>
    intro st x' m st' h
    cases o <;> try (simp [reorder3Lhs] at h; done)
    · rw [reorder3Lhs] at h
      obtain ⟨⟨x1, m1, st1⟩, h1, h2⟩ := bind_ok h
      simp only [pure, Except.pure, Except.ok.injEq, Prod.mk.injEq] at h2
      obtain ⟨rfl, rfl, rfl⟩ := h2
      obtain ⟨e1, e2, e3⟩ := ih st x1 m1 st1 h1
      exact ⟨rfl, rfl, fun l hl => by simpa [OuterValue] using e3 l (by simpa [OuterValue] using hl)⟩
    · rw [reorder3Lhs] at h
      obtain ⟨⟨x1, st1⟩, h1, h2⟩ := bind_ok h
      simp only [pure, Except.pure, Except.ok.injEq, Prod.mk.injEq] at h2
      obtain ⟨rfl, rfl, rfl⟩ := h2
      exact ⟨rfl, rfl, fun l hl => by simp [OuterValue] at hl⟩
  | hbin o t x y ihx ihy => intro st x' m st' h; simp [reorder3Lhs] at h
  | hdot t x s ih =>
    intro st x' m st' h
    rw [reorder3Lhs] at h
    obtain ⟨⟨x1, m1, st1⟩, h1, h2⟩ := bind_ok h
    simp only [pure, Except.pure, Except.ok.injEq, Prod.mk.injEq] at h2
    obtain ⟨rfl, rfl, rfl⟩ := h2
    obtain ⟨e1, e2, e3⟩ := ih st x1 m1 st1 h1
    exact ⟨rfl, rfl, fun l hl => by simpa [OuterValue] using e3 l (by simpa [OuterValue] using hl)⟩
  | hdotptr t x s ih =>
    intro st x' m st' h
    rw [reorder3Lhs] at h
    obtain ⟨⟨x1, st1⟩, h1, h2⟩ := bind_ok h
    simp only [pure, Except.pure, Except.ok.injEq, Prod.mk.injEq] at h2
    obtain ⟨rfl, rfl, rfl⟩ := h2
    exact ⟨rfl, rfl, fun l hl => by simp [OuterValue] at hl⟩
  | hindex t x i b ihx ihi =>
    intro st x' m st' h
    rw [reorder3Lhs] at h
    by_cases harr : x.typ.IsArray = true
    · simp only [harr, if_true] at h
      obtain ⟨⟨i1, st1⟩, h1, h2⟩ := bind_ok h
      obtain ⟨⟨x1, m1, st2⟩, h3, h4⟩ := bind_ok h2
      simp only [pure, Except.pure, Except.ok.injEq, Prod.mk.injEq] at h4
      obtain ⟨rfl, rfl, rfl⟩ := h4
      obtain ⟨e1, e2, e3⟩ := ihx st1 x1 m1 st2 h3
      refine ⟨rfl, rfl, fun l hl => ?_⟩
      simp only [OuterValue, e1, harr, if_true] at hl ⊢
      exact e3 l hl
    · simp only [harr] at h
      obtain ⟨⟨x1, st1⟩, h1, h2⟩ := bind_ok h
      obtain ⟨⟨i1, st2⟩, h3, h4⟩ := bind_ok h2
      simp only [pure, Except.pure, Except.ok.injEq, Prod.mk.injEq] at h4
      obtain ⟨rfl, rfl, rfl⟩ := h4
      have e2 := reorder3save_typ _ _ _ _ _ h1
      refine ⟨rfl, rfl, fun l hl => ?_⟩
      simp [OuterValue, e2, harr] at hl
  | hindexmap t x i ihx ihy =>
    intro st x' m st' h
    rw [reorder3Lhs] at h
    obtain ⟨⟨x1, st1⟩, h1, h2⟩ := bind_ok h
    obtain ⟨⟨i1, st2⟩, h3, h4⟩ := bind_ok h2
    simp only [pure, Except.pure, Except.ok.injEq, Prod.mk.injEq] at h4
    obtain ⟨rfl, rfl, rfl⟩ := h4
    exact ⟨rfl, rfl, fun l hl => by simp [OuterValue] at hl⟩
  | hslice t x lo hi mx b ihx ihlo ihhi ihmx => intro st x' m st' h; simp [reorder3Lhs] at h
  | hcall o t f args d ih => intro st x' m st' h; simp [reorder3Lhs] at h
  | hmake t l cp ihl ihc => intro st x' m st' h; simp [reorder3Lhs] at h

theorem anyAddrTaken_frag : ∀ (n : Node), Frag n = true →
    ∃ b, anyAddrTaken (stripDots n) = .ok b := by
  intro n
  induction n using Node.induct with
  | hname v => intro _; exact ⟨_, rfl⟩
  | hlit t k v =>
    intro _
    exact ⟨false, by simp [stripDots, anyAddrTaken, Any, anyAddrTakenCond, Node.op]⟩
  | hnil t => intro h; simp [Frag] at h
  | htp t => intro h; simp [Frag] at h
  | hun o t x ih =>
    intro h
    cases o <;> try (simp [Frag] at h; done)
    exact ⟨true, by simp [stripDots, anyAddrTaken, Any, anyAddrTakenCond, Node.op, UnOp.toOp,
      bind, Except.bind, pure, Except.pure]⟩
  | hbin o t x y ihx ihy => intro h; simp [Frag] at h
  | hdot t x s ih => intro h; simpa [stripDots] using ih (by simpa [Frag] using h)
  | hdotptr t x s ih =>
    intro _
    exact ⟨true, by simp [stripDots, anyAddrTaken, Any, anyAddrTakenCond, Node.op,
      bind, Except.bind, pure, Except.pure]⟩
  | hindex t x i b ihx ihi =>
    intro _
    exact ⟨true, by simp [stripDots, anyAddrTaken, Any, anyAddrTakenCond, Node.op,
      bind, Except.bind, pure, Except.pure]⟩
  | hindexmap t x i ihx ihy => intro h; simp [Frag] at h
  | hslice t x lo hi mx b ihx ihlo ihhi ihmx => intro h; simp [Frag] at h
  | hcall o t f args d ih => intro h; simp [Frag] at h
  | hmake t l cp ihl ihc => intro h; simp [Frag] at h

theorem aliased_total (n : Node) (prior : List AssignStmt) (hn : Frag n = true)
    (hp : prior.all classOK = true) : ∃ b, aliased (some n) prior = .ok b := by
  obtain ⟨⟨hit, mw⟩, hres⟩ := aliasedLoop_ok (stripDots n) prior false hp
  obtain ⟨b, hb⟩ := anyAddrTaken_frag n hn
  simp only [aliased, bind, Except.bind, hres, hb]
  cases hit <;> cases mw <;> cases b <;> simp [pure, Except.pure]

theorem reorder3save_total (n : Node) (prior : List AssignStmt) (st : Acc)
    (hn : Frag n = true) (hp : prior.all classOK = true) :
    ∃ n' st', reorder3save n prior st = .ok (n', st') := by
  obtain ⟨b, hb⟩ := aliased_total n prior hn hp
  simp only [reorder3save, bind, Except.bind, hb]
  cases b <;> simp [pure, Except.pure]

theorem reorder3Lhs_total (prior : List AssignStmt) (hp : prior.all classOK = true) :
    ∀ (x : Node) (st : Acc), DestFrag x = true →
      ∃ x' st', reorder3Lhs prior x st = .ok (x', false, st') := by
  intro x
  induction x using Node.induct with
  | hname v => intro st _; exact ⟨.name v, st, by simp [reorder3Lhs, pure, Except.pure]⟩
  | hlit t k v => intro st h; simp [DestFrag] at h
  | hnil t => intro st h; simp [DestFrag] at h
  | htp t => intro st h; simp [DestFrag] at h
  | hun o t x ih =>
    intro st h
    cases o <;> try (simp [DestFrag] at h; done)
    obtain ⟨x1, st1, h1⟩ := reorder3save_total x prior st (by simpa [DestFrag] using h) hp
    exact ⟨.unary .ODEREF t x1, st1,
      by simp [reorder3Lhs, h1, bind, Except.bind, pure, Except.pure]⟩
  | hbin o t x y ihx ihy => intro st h; simp [DestFrag] at h
  | hdot t x s ih =>
    intro st h
    obtain ⟨x1, st1, h1⟩ := ih st (by simpa [DestFrag] using h)
    exact ⟨.dot t x1 s, st1, by simp [reorder3Lhs, h1, bind, Except.bind, pure, Except.pure]⟩
  | hdotptr t x s ih =>
    intro st h
    obtain ⟨x1, st1, h1⟩ := reorder3save_total x prior st (by simpa [DestFrag] using h) hp
    exact ⟨.dotptr t x1 s, st1, by simp [reorder3Lhs, h1, bind, Except.bind, pure, Except.pure]⟩
  | hindex t x i b ihx ihi =>
    intro st h
    by_cases harr : x.typ.IsArray = true
    · simp only [DestFrag, harr, if_true, Bool.and_eq_true] at h
      obtain ⟨i1, st1, h1⟩ := reorder3save_total i prior st h.2 hp
      obtain ⟨x1, st2, h2⟩ := ihx st1 h.1
      exact ⟨.index t x1 i1 b, st2,
        by simp [reorder3Lhs, harr, h1, h2, bind, Except.bind, pure, Except.pure]⟩
    · have harr' : x.typ.IsArray = false := by simpa using harr
      simp only [DestFrag, harr', Bool.false_eq_true, if_false, Bool.and_eq_true] at h
      obtain ⟨x1, st1, h1⟩ := reorder3save_total x prior st h.1 hp
      obtain ⟨i1, st2, h2⟩ := reorder3save_total i prior st1 h.2 hp
      exact ⟨.index t x1 i1 b, st2,
        by simp [reorder3Lhs, harr', h1, h2, bind, Except.bind, pure, Except.pure]⟩
  | hindexmap t x i ihx ihy => intro st h; simp [DestFrag] at h
  | hslice t x lo hi mx b ihx ihlo ihhi ihmx => intro st h; simp [DestFrag] at h
  | hcall o t f args d ih => intro st h; simp [DestFrag] at h
  | hmake t l cp ihl ihc => intro st h; simp [DestFrag] at h

theorem destFrag_outer : ∀ (x : Node), DestFrag x = true → ∀ l, OuterValue x = .name l →
    goodName l = true := by
  intro x
  induction x using Node.induct with
  | hname v => intro h l hl; simp only [OuterValue, Node.name.injEq] at hl; subst hl; simpa [DestFrag] using h
  | hun o t x ih =>
    intro h l hl
    cases o <;> try (simp [DestFrag] at h; done)
    simp [OuterValue] at hl
  | hdot t x s ih => intro h l hl; exact ih (by simpa [DestFrag] using h) l (by simpa [OuterValue] using hl)
  | hdotptr t x s ih => intro h l hl; simp [OuterValue] at hl
  | hindex t x i b ihx ihi =>
    intro h l hl
    by_cases harr : x.typ.IsArray = true
    · simp only [DestFrag, harr, if_true, Bool.and_eq_true] at h
      exact ihx h.1 l (by simpa [OuterValue, harr] using hl)
    · simp [OuterValue, harr] at hl
  | _ => intro h; simp [DestFrag] at h

theorem fragAssign_parts (next0 : Nat) (a : AssignStmt) (h : FragAssign next0 a = true) :
    (IsBlank a.X = true ∨ DestFrag a.X = true) ∧ Frag a.Y = true ∧
    (∀ v ∈ names a.X, notFresh next0 v = true) ∧ (∀ v ∈ names a.Y, notFresh next0 v = true) := by
  simp only [FragAssign, Bool.and_eq_true, Bool.or_eq_true, List.all_eq_true, List.mem_append] at h
  exact ⟨h.1.1, h.1.2, fun v hv => h.2 v (Or.inl hv), fun v hv => h.2 v (Or.inr hv)⟩

theorem classOK_of_frag (a : AssignStmt) (h : IsBlank a.X = true ∨ DestFrag a.X = true) :
    classOK a = true := by
  rcases h with h | h
  · simp [classOK, h]
  · simp only [classOK, Bool.or_eq_true]
    right
    cases hov : OuterValue a.X with
    | name l =>
      have := destFrag_outer a.X h l hov
      simp only [goodName, Bool.and_eq_true, Bool.or_eq_true] at this
      simpa using this.2
    | _ => rfl

theorem reorder3Step_frag (convas : Convas) (prior : List AssignStmt) (n : AssignStmt) (st : Acc)
    (hp : prior.all classOK = true) (hx : IsBlank n.X = true ∨ DestFrag n.X = true)
    (hy : Frag n.Y = true) :
    ∃ x' y' st1 st', reorder3Lhs prior n.X st = .ok (x', false, st1) ∧
      reorder3save n.Y prior st1 = .ok (y', st') ∧
      reorder3Step convas prior n st = .ok (⟨x', y'⟩, st') := by
  have hL : ∃ x' st1, reorder3Lhs prior n.X st = .ok (x', false, st1) := by
    rcases hx with hx | hx
    · cases hX : n.X <;> simp [hX, IsBlank] at hx
      rename_i v
      exact ⟨.name v, st, by simp [reorder3Lhs, pure, Except.pure]⟩
    · exact reorder3Lhs_total prior hp n.X st hx
  obtain ⟨x', st1, h1⟩ := hL
  obtain ⟨y', st', h2⟩ := reorder3save_total n.Y prior st1 hy hp
  exact ⟨x', y', st1, st', h1, h2, by
    simp [reorder3Step, h1, h2, bind, Except.bind, pure, Except.pure]⟩

theorem reorder3Loop_sem (convas : Convas) (next0 : Nat) :
    ∀ (todo done : List AssignStmt) (st : Acc),
    (∀ a ∈ todo, FragAssign next0 a = true) → done.all classOK = true →
    ∃ news st', reorder3Loop convas done todo st = .ok (done ++ news, st') ∧
      st'.mapinit = st.mapinit ∧
      ∃ extra, st'.early = st.early ++ extra ∧ EarlyInc st.next extra st'.next ∧
        CopiesOfAll todo extra ∧
        ∀ σ0 τ ρ, Frame next0 done σ0 τ → EarlyOK σ0 τ st'.early →
          (∀ q e, Stmt.as ⟨.name q, e⟩ ∈ st'.early → notFresh next0 q = false) →
          Sim next0 τ ρ →
          SameOutcome next0 (execSeq (news.map Stmt.as) τ) (seqFrom σ0 todo ρ) := by
  intro todo
  induction todo with
  | nil =>
    intro done st _ _
    refine ⟨[], st, by simp [reorder3Loop], rfl, [], by simp, Nat.le_refl _, ?_, ?_⟩
    · intro s hs; cases hs
    · intro σ0 τ ρ _ _ _ hs
      simpa [execSeq, seqFrom, SameOutcome] using hs
  | cons a todo ih =>
    intro done st hfrag hp
    obtain ⟨hx, hy, hnx, hny⟩ := fragAssign_parts next0 a (hfrag a (by simp))
    obtain ⟨x', y', st1, st2, h1, h2, h3⟩ := reorder3Step_frag convas done a st hp hx hy
    obtain ⟨hs1, hs2, hs3⟩ := reorder3Lhs_shape done a.X st x' false st1 h1
    have hp' : (done ++ [AssignStmt.mk x' y']).all classOK = true := by
      simp only [List.all_append, hp, List.all_cons, List.all_nil, Bool.and_true, Bool.true_and]
      have hc := classOK_of_frag a hx
      simp only [classOK, Bool.or_eq_true] at hc ⊢
      rcases hc with hc | hc
      · left; rw [hs2]; exact hc
      · right
        cases hov : OuterValue x' with
        | name l => simpa [hs3 l hov] using hc
        | _ => rfl
    obtain ⟨news, st', g1, g2, extra', g3, g4, g5, g6⟩ :=
      ih (done ++ [AssignStmt.mk x' y']) st2 (fun b hb => hfrag b (by simp [hb])) hp'
    obtain ⟨a1, ex1, a2, a3, a4⟩ := reorder3Lhs_extra done a.X st x' false st1 h1
    obtain ⟨b1, ex2, b2, b3, b4⟩ := reorder3save_extra a.Y done st1 y' st2 h2
    refine ⟨AssignStmt.mk x' y' :: news, st', ?_, ?_, ex1 ++ ex2 ++ extra', ?_, ?_, ?_, ?_⟩
    · simp only [reorder3Loop, h3, bind, Except.bind]
      simpa using g1
    · rw [g2, b1, a1]
    · rw [g3, b2, a2]; simp [List.append_assoc]
    · exact earlyInc_append _ _ _ _ _ (earlyInc_append _ _ _ _ _ a3 b3) g4
    · intro s hs
      rcases List.mem_append.1 hs with hs | hs
      · rcases List.mem_append.1 hs with hs | hs
        · obtain ⟨q, e, rfl, c1, c2⟩ := a4 s hs
          exact ⟨q, e, rfl, a, by simp, fun v hv => Or.inl (c1 v hv),
            fun σ0 he => Or.inl (c2 σ0 he)⟩
        · obtain ⟨q, rfl⟩ := b4 s hs
          exact ⟨q, a.Y, rfl, a, by simp, fun v hv => Or.inr hv, fun σ0 he => Or.inr he⟩
      · obtain ⟨q, e, rfl, b, hb, c1, c2⟩ := g5 s hs
        exact ⟨q, e, rfl, b, by simp [hb], c1, c2⟩
    · intro σ0 τ ρ hf he hfr hsim
      have hsub2 : ∀ s ∈ st2.early, s ∈ st'.early := fun s hs => by
        rw [g3]; exact List.mem_append_left _ hs
      have hsub1 : ∀ s ∈ st1.early, s ∈ st2.early := fun s hs => by
        rw [b2]; exact List.mem_append_left _ hs
      have e1 := (reorder3Lhs_sem next0 done σ0 τ hf a.X st x' false st1 h1 hnx
        (fun q e hq => he q e (hsub2 _ (hsub1 _ hq)))).1
      have e2 := reorder3save_sem next0 a.Y done st1 y' st2 σ0 τ h2 hf hny
        (fun q e hq => he q e (hsub2 _ hq))
      simp only [List.map_cons, execSeq, exec, seqFrom, e1, e2]
      cases hl : lval σ0 a.X with
      | none => simp [SameOutcome]
      | some l =>
        cases hv : eval σ0 a.Y with
        | none => simp [SameOutcome]
        | some v =>
          simp only []
          have hlv : ∀ u p, l = .var u p → notFresh next0 u = true := fun u p hu =>
            hnx u ((lval_loc σ0 a.X l hl).1 u p hu).2.2.2
          have hw := write_sim next0 τ ρ l v hsim hlv
          cases hwt : write τ l v with
          | none =>
            cases hwr : write ρ l v with
            | none => simp [SameOutcome]
            | some ρ' => simp [hwt, hwr, SameOutcome] at hw
          | some τ' =>
            cases hwr : write ρ l v with
            | none => simp [hwt, hwr, SameOutcome] at hw
            | some ρ' =>
              simp only [hwt, hwr, SameOutcome] at hw
              simp only []
              apply g6 σ0 τ' ρ'
              · exact frame_step next0 done σ0 τ τ' (AssignStmt.mk x' y') l v hf (by rw [e1]; exact hl) hwt
              · exact earlyOK_step next0 σ0 τ τ' st'.early l v he hfr hlv hwt
              · exact hfr
              · exact hw

theorem execSeq_append : ∀ (A B : List Stmt) (σ : State),
    execSeq (A ++ B) σ = match execSeq A σ with
      | some σ' => execSeq B σ'
      | none => none := by
  intro A
  induction A with
  | nil => intro B σ; simp [execSeq]
  | cons s rest ih =>
    intro B σ
    simp only [List.cons_append, execSeq]
    cases exec σ s with
    | none => rfl
    | some σ' => exact ih B σ'

theorem evalAll_none (σ : State) : ∀ (all : List AssignStmt),
    (∃ a ∈ all, lval σ a.X = none ∨ eval σ a.Y = none) → evalAll σ all = none := by
  intro all
  induction all with
  | nil => rintro ⟨a, ha, _⟩; cases ha
  | cons b rest ih =>
    rintro ⟨a, ha, h⟩
    simp only [evalAll]
    rcases List.mem_cons.1 ha with rfl | ha
    · rcases h with h | h
      · simp [h]
      · rw [h]; cases lval σ a.X <;> simp
    · rw [ih ⟨a, ha, h⟩]
      cases lval σ b.X <;> cases eval σ b.Y <;> simp

theorem seqFrom_eq (σ0 : State) : ∀ (all : List AssignStmt) (ρ : State),
    seqFrom σ0 all ρ = match evalAll σ0 all with
      | some ws => writeAll ws ρ
      | none => none := by
  intro all
  induction all with
  | nil => intro ρ; simp [seqFrom, evalAll, writeAll]
  | cons a rest ih =>
    intro ρ
    simp only [seqFrom, evalAll]
    cases hl : lval σ0 a.X with
    | none => simp
    | some l =>
      cases hv : eval σ0 a.Y with
      | none => simp
      | some v =>
        cases he : evalAll σ0 rest with
        | none =>
          simp only []
          cases hw : write ρ l v with
          | none => rfl
          | some ρ' => simp [ih ρ', he]
        | some ws =>
          simp only [writeAll]
          cases hw : write ρ l v with
          | none => rfl
          | some ρ' => simp [ih ρ', he]

theorem notFresh_temp (next0 : Nat) (t : Typ) (k : Nat) (h : next0 ≤ k) :
    notFresh next0 (Temp t k) = false := by
  simp [notFresh, Temp]; omega

theorem execEarly (next0 : Nat) (σ0 : State) : ∀ (E : List Stmt) (lo hi : Nat) (τ : State),
    EarlyInc lo E hi → next0 ≤ lo →
    (∀ q e, Stmt.as ⟨.name q, e⟩ ∈ E → ∀ v ∈ names e, notFresh next0 v = true) →
    Sim next0 τ σ0 →
    ((∃ q e, Stmt.as ⟨.name q, e⟩ ∈ E ∧ eval σ0 e = none) ∧ execSeq E τ = none) ∨
    (∃ σe, execSeq E τ = some σe ∧ σe.heap = τ.heap ∧
      (∀ v, (∀ t k, lo ≤ k → v ≠ Temp t k) → σe.env v = τ.env v) ∧
      (∀ q e, Stmt.as ⟨.name q, e⟩ ∈ E → eval σ0 e = some (σe.env q))) := by
  intro E
  induction E with
  | nil =>
    intro lo hi τ _ _ _ _
    right
    exact ⟨τ, rfl, rfl, fun v _ => rfl, fun q e h => by cases h⟩
  | cons s rest ih =>
    intro lo hi τ hinc hlo hsrc hsim
    obtain ⟨t, k, e, rfl, hk, hr⟩ := hinc
    have hev : eval τ e = eval σ0 e :=
      eval_congr σ0 τ e (fun v hv _ => hsim.2 v (hsrc (Temp t k) e (List.mem_cons_self _ _) v hv))
        (Or.inl hsim.1)
    cases he : eval σ0 e with
    | none =>
      left
      exact ⟨⟨Temp t k, e, List.mem_cons_self _ _, he⟩, by simp [execSeq, exec, hev, he, lval]⟩
    | some w =>
      have hlv : lval τ (.name (Temp t k)) = some (.var (Temp t k) []) := by
        simp [lval, varLoc, Temp, InMemory, BEq.beq]
      let τ1 : State := { τ with env := fun x => if x = Temp t k then w else τ.env x }
      have hex : exec τ (.as ⟨.name (Temp t k), e⟩) = some τ1 := by
        simp [exec, hlv, hev, he, write, Val.set, τ1]
      have hsim1 : Sim next0 τ1 σ0 := by
        refine ⟨hsim.1, fun v hv => ?_⟩
        have : v ≠ Temp t k := by
          intro e'
          rw [e', notFresh_temp next0 t k (by omega)] at hv
          exact absurd hv (by simp)
        simp [τ1, this, hsim.2 v hv]
      rcases ih (k + 1) hi τ1 hr (by omega) (fun q e' hq => hsrc q e' (by simp [hq])) hsim1 with
        ⟨⟨q, e', hq, hn⟩, hx⟩ | ⟨σe, h1, h2, h3, h4⟩
      · left
        exact ⟨⟨q, e', by simp [hq], hn⟩, by simp [execSeq, hex, hx]⟩
      · right
        refine ⟨σe, by simp [execSeq, hex, h1], h2, fun v hv => ?_, fun q e' hq => ?_⟩
        · rw [h3 v (fun t' k' hk' => hv t' k' (by omega))]
          have : v ≠ Temp t k := hv t k hk
          simp [τ1, this]
        · rcases List.mem_cons.1 hq with hq | hq
          · simp only [Stmt.as.injEq, AssignStmt.mk.injEq, Node.name.injEq] at hq
            obtain ⟨rfl, rfl⟩ := hq
            rw [h3 (Temp t k) (fun t' k' hk' => by
              intro e''
              simp only [Temp, Name.mk.injEq, Sym.autotmp.injEq] at e''
              omega)]
            simp [τ1, he]
          · exact h4 q e' hq

/-- C1: for every list of single assignments whose expressions are call-free and
built from plain variables, integer literals, array/slice indexing, field
access and pointer dereference, `reorder3` returns a statement sequence, and
executing that sequence in order from any state has the same outcome as
simultaneous assignment (all sources and destination operands evaluated in the
pre-assignment state, then the writes performed left to right): both panic,
or both end in states that agree on memory and on every variable other than
the temporaries `reorder3` introduced. -/
theorem reorder3_simultaneous (convas : Convas) (next : Nat) (all : List AssignStmt)
    (hfrag : ∀ a ∈ all, FragAssign next a = true) :
    ∃ out, reorder3 convas next all = .ok out ∧
      ∀ σ, SameOutcome next (execSeq out σ) (simultaneous all σ) := by
  obtain ⟨news, st', g1, g2, extra, g3, g4, g5, g6⟩ :=
    reorder3Loop_sem convas next all [] ⟨next, [], []⟩ hfrag rfl
  simp only [List.nil_append] at g1 g2 g3
  refine ⟨extra ++ news.map Stmt.as, ?_, ?_⟩
  · simp [reorder3, g1, g2, g3, bind, Except.bind, pure, Except.pure]
  · intro σ
    have hsrc : ∀ q e, Stmt.as ⟨.name q, e⟩ ∈ extra → ∀ v ∈ names e, notFresh next v = true := by
      intro q e hq v hv
      obtain ⟨q', e', heq, a, ha, c1, _⟩ := g5 _ hq
      simp only [Stmt.as.injEq, AssignStmt.mk.injEq, Node.name.injEq] at heq
      obtain ⟨_, rfl⟩ := heq
      obtain ⟨_, _, hnx, hny⟩ := fragAssign_parts next a (hfrag a ha)
      rcases c1 v hv with h | h
      · exact hnx v h
      · exact hny v h
    rw [execSeq_append]
    rcases execEarly next σ extra next st'.next σ g4 (Nat.le_refl _) hsrc ⟨rfl, fun _ _ => rfl⟩
      with ⟨⟨q, e, hq, hn⟩, hx⟩ | ⟨σe, h1, h2, h3, h4⟩
    · obtain ⟨q', e', heq, a, ha, _, c2⟩ := g5 _ hq
      simp only [Stmt.as.injEq, AssignStmt.mk.injEq, Node.name.injEq] at heq
      obtain ⟨_, rfl⟩ := heq
      have := evalAll_none σ all ⟨a, ha, c2 σ hn⟩
      simp [hx, simultaneous, this, SameOutcome]
    · have hnt : ∀ v, notFresh next v = true → ∀ t k, next ≤ k → v ≠ Temp t k := by
        intro v hv t k hk e'
        rw [e', notFresh_temp next t k hk] at hv
        exact absurd hv (by simp)
      have hsim : Sim next σe σ := ⟨h2, fun v hv => h3 v (hnt v hv)⟩
      have hframe : Frame next [] σ σe :=
        ⟨fun v _ hv _ => h3 v (hnt v hv), fun _ => h2⟩
      have hfresh : ∀ q e, Stmt.as ⟨.name q, e⟩ ∈ st'.early → notFresh next q = false := by
        intro q e hq
        rw [g3] at hq
        obtain ⟨t, k, e', heq, hk, _⟩ := earlyInc_mem extra next st'.next g4 _ hq
        simp only [Stmt.as.injEq, AssignStmt.mk.injEq, Node.name.injEq] at heq
        rw [heq.1]
        exact notFresh_temp next t k hk
      have := g6 σ σe σ hframe (by rw [g3]; exact h4) hfresh hsim
      rw [seqFrom_eq] at this
      simpa [h1, simultaneous] using this

theorem plainLocal_inMemory (v : Name) (h : plainLocal v = true) : InMemory v = false := by
  simp only [plainLocal, Bool.and_eq_true, Bool.or_eq_true, Bool.not_eq_true'] at h
  obtain ⟨⟨_, h2⟩, h3⟩ := h
  rcases h3 with (h3 | h3) | h3 <;> simp at h3 <;> simp [InMemory, h2, h3, BEq.beq]

theorem plainLocal_classOK (v : Name) (x y : Node) (h : plainLocal v = true)
    (hx : OuterValue x = .name v) : classOK ⟨x, y⟩ = true := by
  simp only [plainLocal, Bool.and_eq_true, Bool.or_eq_true, Bool.not_eq_true'] at h
  obtain ⟨⟨_, h2⟩, h3⟩ := h
  rcases h3 with (h3 | h3) | h3 <;> simp at h3 <;> simp [classOK, hx, h3]

theorem aliased_hit (r : Node) (prior : List AssignStmt) (hp : prior.all classOK = true)
    (hh : prior.any (hitBy (stripDots r)) = true) : aliased (some r) prior = .ok true := by
  obtain ⟨⟨hit, mw⟩, hres⟩ := aliasedLoop_ok (stripDots r) prior false hp
  cases hit with
  | false =>
    obtain ⟨_, h2, _⟩ := aliasedLoop_false _ _ _ _ hres
    rw [h2] at hh; exact absurd hh (by simp)
  | true => simp [aliased, hres, bind, Except.bind, pure, Except.pure]

theorem aliased_nohit (r : Node) (prior : List AssignStmt) (b : Bool)
    (hp : prior.all classOK = true) (hh : prior.any (hitBy (stripDots r)) = false)
    (hb : prior.any writesMemory = false ∨ anyAddrTaken (stripDots r) = .ok b) :
    aliased (some r) prior = .ok (prior.any writesMemory && b) := by
  obtain ⟨⟨hit, mw⟩, hres⟩ := aliasedLoop_ok (stripDots r) prior false hp
  cases hit with
  | true =>
    have := aliasedLoop_true _ _ _ _ hres
    rw [hh] at this; exact absurd this (by simp)
  | false =>
    obtain ⟨h1, _, _⟩ := aliasedLoop_false _ _ _ _ hres
    simp only [Bool.false_or] at h1
    subst h1
    rcases hb with hb | hb
    · simp [aliased, hres, hb, bind, Except.bind, pure, Except.pure]
    · cases hm : prior.any writesMemory <;> cases b <;>
        simp [aliased, hres, hb, hm, bind, Except.bind, pure, Except.pure]

theorem reorder3save_no (n : Node) (prior : List AssignStmt) (st : Acc)
    (h : aliased (some n) prior = .ok false) : reorder3save n prior st = .ok (n, st) := by
  simp [reorder3save, h, bind, Except.bind, pure, Except.pure]

theorem reorder3save_yes (n : Node) (prior : List AssignStmt) (st : Acc)
    (h : aliased (some n) prior = .ok true) :
    reorder3save n prior st = .ok (.name (Temp n.typ st.next),
      { st with next := st.next + 1,
                early := st.early ++ [.as ⟨.name (Temp n.typ st.next), n⟩] }) := by
  simp [reorder3save, h, bind, Except.bind, pure, Except.pure]

theorem aliased_nil (r : Node) : aliased (some r) [] = .ok false := by
  simp [aliased, aliasedLoop, bind, Except.bind, pure, Except.pure]

theorem swap_reorder3 (convas : Convas) (next : Nat) (a i j : Name) (te : Typ) (b1 b2 : Bool)
    (ha : plainLocal a = true) (_hi : plainLocal i = true) (hj : plainLocal j = true)
    (_hai : a ≠ i) (haj : a ≠ j) :
    reorder3 convas next
      [⟨.index te (.name a) (.name i) b1, .index te (.name a) (.name j) b2⟩,
       ⟨.index te (.name a) (.name j) b2, .index te (.name a) (.name i) b1⟩] =
    .ok [.as ⟨.name (Temp te next), .index te (.name a) (.name i) b1⟩,
         .as ⟨.index te (.name a) (.name i) b1, .index te (.name a) (.name j) b2⟩,
         .as ⟨.index te (.name a) (.name j) b2, .name (Temp te next)⟩] := by
  have hma := plainLocal_inMemory a ha
  have hmj := plainLocal_inMemory j hj
  have hrj : refersToName a (.name j) = false := by
    cases h : refersToName a (.name j)
    · rfl
    · have := (refersToName_iff _ _).1 h
      simp [names] at this
      exact absurd this haj
  have hri : refersToName a (.index te (.name a) (.name i) b1) = true :=
    (refersToName_iff _ _).2 (by simp [names])
  have haj' : anyAddrTaken (.name j) = .ok false := by
    simp only [anyAddrTaken, Any, anyAddrTakenCond]
    simpa [InMemory] using hmj
  have haa' : anyAddrTaken (.name a) = .ok false := by
    simp only [anyAddrTaken, Any, anyAddrTakenCond]
    simpa [InMemory] using hma
  have hai' : anyAddrTaken (.index te (.name a) (.name i) b1) = .ok true := by
    simp [anyAddrTaken, Any, anyAddrTakenCond, Node.op, bind, Except.bind, pure, Except.pure]
  by_cases harr : a.typ.IsArray = true
  · have hov : OuterValue (.index te (.name a) (.name i) b1) = .name a := by
      simp [OuterValue, Node.typ, harr]
    have hc := plainLocal_classOK a _ (.index te (.name a) (.name j) b2) ha hov
    have hwn : writtenName ⟨.index te (.name a) (.name i) b1, .index te (.name a) (.name j) b2⟩
        = some a := by simp [writtenName, IsBlank, hov, hma]
    have hwm : writesMemory ⟨.index te (.name a) (.name i) b1, .index te (.name a) (.name j) b2⟩
        = false := by simp [writesMemory, IsBlank, hov, hma]
    have s1 := reorder3save_no (.name j)
      [⟨.index te (.name a) (.name i) b1, .index te (.name a) (.name j) b2⟩] ⟨next, [], []⟩
      (by simpa [hwm] using aliased_nohit (.name j)
            [⟨.index te (.name a) (.name i) b1, .index te (.name a) (.name j) b2⟩] false
            (by simp [hc])
            (by simp [hitBy, hwn, stripDots, hrj]) (Or.inl (by simp [hwm])))
    have s2 := reorder3save_yes (.index te (.name a) (.name i) b1)
      [⟨.index te (.name a) (.name i) b1, .index te (.name a) (.name j) b2⟩] ⟨next, [], []⟩
      (aliased_hit _ _ (by simp [hc]) (by simp [hitBy, hwn, stripDots, hri]))
    simp [reorder3, reorder3Loop, reorder3Step, reorder3Lhs, Node.typ, harr,
      reorder3save_no _ [] _ (aliased_nil _), s1, s2,
      bind, Except.bind, pure, Except.pure]
  · have harr' : a.typ.IsArray = false := by simpa using harr
    have hov : OuterValue (.index te (.name a) (.name i) b1) =
        .index te (.name a) (.name i) b1 := by
      simp [OuterValue, Node.typ, harr']
    have hc : classOK ⟨.index te (.name a) (.name i) b1, .index te (.name a) (.name j) b2⟩
        = true := by simp [classOK, hov]
    have hwn : writtenName ⟨.index te (.name a) (.name i) b1, .index te (.name a) (.name j) b2⟩
        = none := by simp [writtenName, IsBlank, hov]
    have hwm : writesMemory ⟨.index te (.name a) (.name i) b1, .index te (.name a) (.name j) b2⟩
        = true := by simp [writesMemory, IsBlank, hov]
    have s0 := reorder3save_no (.name a)
      [⟨.index te (.name a) (.name i) b1, .index te (.name a) (.name j) b2⟩] ⟨next, [], []⟩
      (by simpa [hwm] using aliased_nohit (.name a)
            [⟨.index te (.name a) (.name i) b1, .index te (.name a) (.name j) b2⟩] false
            (by simp [hc])
            (by simp [hitBy, hwn]) (Or.inr (by simpa [stripDots] using haa')))
    have s1 := reorder3save_no (.name j)
      [⟨.index te (.name a) (.name i) b1, .index te (.name a) (.name j) b2⟩] ⟨next, [], []⟩
      (by simpa [hwm] using aliased_nohit (.name j)
            [⟨.index te (.name a) (.name i) b1, .index te (.name a) (.name j) b2⟩] false
            (by simp [hc])
            (by simp [hitBy, hwn]) (Or.inr (by simpa [stripDots] using haj')))
    have s2 := reorder3save_yes (.index te (.name a) (.name i) b1)
      [⟨.index te (.name a) (.name i) b1, .index te (.name a) (.name j) b2⟩] ⟨next, [], []⟩
      (by simpa [hwm] using aliased_nohit (.index te (.name a) (.name i) b1)
            [⟨.index te (.name a) (.name i) b1, .index te (.name a) (.name j) b2⟩] true
            (by simp [hc]) (by simp [hitBy, hwn]) (Or.inr (by simpa [stripDots] using hai')))
    simp [reorder3, reorder3Loop, reorder3Step, reorder3Lhs, Node.typ, harr',
      reorder3save_no _ [] _ (aliased_nil _), s0, s1, s2,
      bind, Except.bind, pure, Except.pure]

theorem Val.get_set_same : ∀ (p : List Nat) (v w v' : Val), v.set p w = some v' →
    v'.get p = some w := by
  intro p
  induction p with
  | nil => intro v w v' h; cases v <;> simp_all [Val.set, Val.get]
  | cons i p ih =>
    intro v w v' h
    cases v with
    | agg vs =>
      simp only [Val.set] at h
      cases hi : vs[i]? with
      | none => simp [hi] at h
      | some e =>
        simp only [hi] at h
        cases hs : e.set p w with
        | none => simp [hs] at h
        | some e' =>
          simp only [hs, Option.some.injEq] at h
          subst h
          have hlt : i < vs.length := by
            rcases List.getElem?_eq_some_iff.1 hi with ⟨h1, _⟩
            exact h1
          simp [Val.get, List.getElem?_set_self, hlt, ih e w e' hs]
    | _ => simp [Val.set] at h

theorem Val.set_of_get : ∀ (p : List Nat) (v x w : Val), v.get p = some x →
    ∃ v', v.set p w = some v' := by
  intro p
  induction p with
  | nil => intro v x w _; exact ⟨w, by cases v <;> simp [Val.set]⟩
  | cons i p ih =>
    intro v x w h
    cases v with
    | agg vs =>
      simp only [Val.get] at h
      cases hi : vs[i]? with
      | none => simp [hi] at h
      | some e =>
        simp only [hi] at h
        obtain ⟨e', he'⟩ := ih e x w h
        exact ⟨.agg (vs.set i e'), by simp [Val.set, hi, he']⟩
    | _ => simp [Val.get] at h

theorem Val.get_set_sibling : ∀ (p : List Nat) (v w v' : Val) (m m' : Nat), m ≠ m' →
    v.set (p ++ [m]) w = some v' → v'.get (p ++ [m']) = v.get (p ++ [m']) := by
  intro p
  induction p with
  | nil =>
    intro v w v' m m' hm h
    cases v with
    | agg vs =>
      simp only [List.nil_append, Val.set] at h
      cases hi : vs[m]? with
      | none => simp [hi] at h
      | some e =>
        simp only [hi, Option.some.injEq] at h
        subst h
        simp [Val.get, List.getElem?_set_ne hm]
    | _ => simp [Val.set] at h
  | cons i p ih =>
    intro v w v' m m' hm h
    cases v with
    | agg vs =>
      simp only [List.cons_append, Val.set] at h
      cases hi : vs[i]? with
      | none => simp [hi] at h
      | some e =>
        simp only [hi] at h
        cases hs : e.set (p ++ [m]) w with
        | none => simp [hs] at h
        | some e' =>
          rw [show p.append [m] = p ++ [m] from rfl, hs] at h
          simp only [Option.some.injEq] at h
          subst h
          have hlt : i < vs.length := by
            rcases List.getElem?_eq_some_iff.1 hi with ⟨h1, _⟩
            exact h1
          simp [Val.get, List.getElem?_set_self, hlt, hi, ih e w e' m m' hm hs]
    | _ => simp [Val.set] at h

theorem plainLocal_varLoc (v : Name) (h : plainLocal v = true) : varLoc v = .var v [] := by
  have hm := plainLocal_inMemory v h
  simp only [plainLocal, Bool.and_eq_true, bne_iff_ne, ne_eq] at h
  simp [varLoc, hm, h.1.1]

theorem eval_name (τ : State) (v : Name) (h : plainLocal v = true) :
    eval τ (.name v) = some (τ.env v) := by
  simp [eval, plainLocal_varLoc v h, read, Val.get]

theorem lval_name (τ : State) (v : Name) (h : plainLocal v = true) :
    lval τ (.name v) = some (.var v []) := by
  simp [lval, plainLocal_varLoc v h]

theorem eval_index_name (τ : State) (a i : Name) (te : Typ) (b : Bool)
    (ha : plainLocal a = true) (hi : plainLocal i = true) :
    eval τ (.index te (.name a) (.name i) b) = elemOf τ (τ.env a) (τ.env i) := by
  simp [eval, plainLocal_varLoc a ha, plainLocal_varLoc i hi, read, Val.get]

theorem lval_index_name (τ : State) (a i : Name) (te : Typ) (b : Bool)
    (ha : plainLocal a = true) (hi : plainLocal i = true) :
    lval τ (.index te (.name a) (.name i) b) =
      if a.typ.IsArray then
        (match τ.env i with
         | .int n => if 0 ≤ n then some (.var a [n.toNat]) else none
         | _ => none)
      else elemLoc (τ.env a) (τ.env i) := by
  simp only [lval, eval, Node.typ, plainLocal_varLoc a ha, plainLocal_varLoc i hi, read, Val.get]
  by_cases harr : a.typ.IsArray = true
  · simp only [harr, if_true]
    cases τ.env i <;> simp [Loc.extend]
  · simp [harr]

theorem plainLocal_temp (t : Typ) (k : Nat) : plainLocal (Temp t k) = true := by
  simp [plainLocal, Temp]

theorem ne_temp (next : Nat) (v : Name) (t : Typ) (h : notFresh next v = true) :
    v ≠ Temp t next := by
  intro e
  rw [e, notFresh_temp next t next (Nat.le_refl _)] at h
  exact absurd h (by simp)

theorem read_write_same (σ σ' : State) (l : Loc) (w : Val) (hl : l ≠ .blank)
    (h : write σ l w = some σ') : read σ' l = some w := by
  cases l with
  | blank => exact absurd rfl hl
  | var v p =>
    simp only [write] at h
    cases hs : (σ.env v).set p w with
    | none => simp [hs] at h
    | some u =>
      simp only [hs, Option.some.injEq] at h
      subst h
      simpa [read] using Val.get_set_same p _ w u hs
  | mem c p =>
    simp only [write] at h
    cases hs : (σ.heap c).set p w with
    | none => simp [hs] at h
    | some u =>
      simp only [hs, Option.some.injEq] at h
      subst h
      simpa [read] using Val.get_set_same p _ w u hs

theorem write_of_read (σ : State) (l : Loc) (x w : Val) (h : read σ l = some x) :
    ∃ σ', write σ l w = some σ' := by
  cases l with
  | blank => simp [read] at h
  | var v p =>
    obtain ⟨u, hu⟩ := Val.set_of_get p _ x w (by simpa [read] using h)
    exact ⟨{ σ with env := fun y => if y = v then u else σ.env y }, by simp [write, hu]⟩
  | mem c p =>
    obtain ⟨u, hu⟩ := Val.set_of_get p _ x w (by simpa [read] using h)
    exact ⟨{ σ with heap := fun y => if y = c then u else σ.heap y }, by simp [write, hu]⟩

theorem read_write_sibling (σ σ' : State) (B : Loc) (m m' : Nat) (w : Val) (hm : m ≠ m')
    (h : write σ (B.extend m) w = some σ') : read σ' (B.extend m') = read σ (B.extend m') := by
  cases B with
  | blank => simp [Loc.extend, read]
  | var v p =>
    simp only [Loc.extend, write] at h
    cases hs : (σ.env v).set (p ++ [m]) w with
    | none => simp [hs] at h
    | some u =>
      simp only [hs, Option.some.injEq] at h
      subst h
      simpa [read, Loc.extend] using Val.get_set_sibling p _ w u m m' hm hs
  | mem c p =>
    simp only [Loc.extend, write] at h
    cases hs : (σ.heap c).set (p ++ [m]) w with
    | none => simp [hs] at h
    | some u =>
      simp only [hs, Option.some.injEq] at h
      subst h
      simpa [read, Loc.extend] using Val.get_set_sibling p _ w u m m' hm hs

theorem read_congr_loc (σ τ : State) (l : Loc) (he : ∀ v p, l = .var v p → τ.env v = σ.env v)
    (hh : τ.heap = σ.heap) : read τ l = read σ l := by
  cases l with
  | blank => rfl
  | var v p => simp [read, he v p rfl]
  | mem c p => simp [read, hh]

theorem swapBase_write (a : Name) (B : Loc) (m : Nat) (σ σ' : State) (w : Val)
    (hB : SwapBase a B) (h : write σ (B.extend m) w = some σ') :
    (∀ v, v ≠ a → σ'.env v = σ.env v) ∧ (a.typ.IsArray = true ∨ σ'.env a = σ.env a) := by
  rcases hB with ⟨rfl, harr⟩ | ⟨c, p, rfl⟩
  · exact ⟨(write_var σ σ' a _ w h).2, Or.inl harr⟩
  · have := write_mem σ σ' c _ w h
    exact ⟨fun v _ => by rw [this], Or.inr (by rw [this])⟩

theorem swapBase_ne_blank (a : Name) (B : Loc) (m : Nat) (hB : SwapBase a B) :
    B.extend m ≠ .blank := by
  rcases hB with ⟨rfl, _⟩ | ⟨c, p, rfl⟩ <;> simp [Loc.extend]

theorem swap_core (σ : State) (tmp a i j : Name) (ai aj : Node) (B : Loc) (mi mj : Nat)
    (x y : Val) (htmp : plainLocal tmp = true) (hB : SwapBase a B)
    (hta : tmp ≠ a) (hti : tmp ≠ i) (htj : tmp ≠ j) (hai : a ≠ i) (haj : a ≠ j)
    (hl : ∀ τ : State, τ.env i = σ.env i → τ.env j = σ.env j →
      (a.typ.IsArray = true ∨ τ.env a = σ.env a) →
      lval τ ai = some (B.extend mi) ∧ lval τ aj = some (B.extend mj) ∧
      (∀ z, read τ (B.extend mi) = some z → eval τ ai = some z) ∧
      (∀ z, read τ (B.extend mj) = some z → eval τ aj = some z))
    (hrx : read σ (B.extend mi) = some x) (hry : read σ (B.extend mj) = some y) :
    ∃ σ', execSeq [.as ⟨.name tmp, ai⟩, .as ⟨ai, aj⟩, .as ⟨aj, .name tmp⟩] σ = some σ' ∧
      eval σ' ai = some y ∧ eval σ' aj = some x := by
  -- the copy into the temporary
  obtain ⟨l0i, _, e0i, _⟩ := hl σ rfl rfl (Or.inr rfl)
  let σ1 : State := { σ with env := fun v => if v = tmp then x else σ.env v }
  have h1 : exec σ (.as ⟨.name tmp, ai⟩) = some σ1 := by
    simp [exec, lval_name σ tmp htmp, e0i x hrx, write, Val.set, σ1]
  have env1 : ∀ v, v ≠ tmp → σ1.env v = σ.env v := fun v hv => by simp [σ1, hv]
  have hr1 : ∀ l, (∀ p, l ≠ .var tmp p) → read σ1 l = read σ l := fun l hl' =>
    read_congr_loc σ σ1 l (fun v p hv => env1 v (by rintro rfl; exact hl' p hv)) rfl
  have hBt : ∀ m p, B.extend m ≠ .var tmp p := by
    intro m p
    rcases hB with ⟨rfl, _⟩ | ⟨c, p', rfl⟩
    · simp only [Loc.extend, ne_eq, Loc.var.injEq, not_and]
      intro e; exact absurd e.symm hta
    · simp [Loc.extend]
  obtain ⟨l1i, l1j, _, e1j⟩ := hl σ1 (env1 i (Ne.symm hti)) (env1 j (Ne.symm htj))
    (Or.inr (env1 a (Ne.symm hta)))
  -- the first assignment
  have r1i : read σ1 (B.extend mi) = some x := by rw [hr1 _ (hBt mi)]; exact hrx
  have r1j : read σ1 (B.extend mj) = some y := by rw [hr1 _ (hBt mj)]; exact hry
  obtain ⟨σ2, hw2⟩ := write_of_read σ1 (B.extend mi) x y r1i
  have h2 : exec σ1 (.as ⟨ai, aj⟩) = some σ2 := by
    simp [exec, l1i, e1j y r1j, hw2]
  obtain ⟨env2, ha2⟩ := swapBase_write a B mi σ1 σ2 y hB hw2
  have st2a : a.typ.IsArray = true ∨ σ2.env a = σ.env a := by
    rcases ha2 with h | h
    · exact Or.inl h
    · exact Or.inr (by rw [h, env1 a (Ne.symm hta)])
  obtain ⟨_, l2j, _, _⟩ := hl σ2 (by rw [env2 i (Ne.symm hai), env1 i (Ne.symm hti)])
    (by rw [env2 j (Ne.symm haj), env1 j (Ne.symm htj)]) st2a
  have r2i : read σ2 (B.extend mi) = some y :=
    read_write_same σ1 σ2 _ y (swapBase_ne_blank a B mi hB) hw2
  have r2j : read σ2 (B.extend mj) = some y := by
    by_cases hm : mi = mj
    · rw [← hm]; exact r2i
    · rw [read_write_sibling σ1 σ2 B mi mj y hm hw2]; exact r1j
  -- the second assignment
  obtain ⟨σ3, hw3⟩ := write_of_read σ2 (B.extend mj) y x r2j
  have et2 : eval σ2 (.name tmp) = some x := by
    rw [eval_name σ2 tmp htmp, env2 tmp hta]; simp [σ1]
  have h3 : exec σ2 (.as ⟨aj, .name tmp⟩) = some σ3 := by
    simp [exec, l2j, et2, hw3]
  obtain ⟨env3, ha3⟩ := swapBase_write a B mj σ2 σ3 x hB hw3
  have st3a : a.typ.IsArray = true ∨ σ3.env a = σ.env a := by
    rcases ha3 with h | h
    · exact Or.inl h
    · rcases st2a with h' | h'
      · exact Or.inl h'
      · exact Or.inr (by rw [h, h'])
  obtain ⟨_, _, e3i, e3j⟩ := hl σ3
    (by rw [env3 i (Ne.symm hai), env2 i (Ne.symm hai), env1 i (Ne.symm hti)])
    (by rw [env3 j (Ne.symm haj), env2 j (Ne.symm haj), env1 j (Ne.symm htj)]) st3a
  have r3j : read σ3 (B.extend mj) = some x :=
    read_write_same σ2 σ3 _ x (swapBase_ne_blank a B mj hB) hw3
  refine ⟨σ3, by simp [execSeq, h1, h2, h3], e3i y ?_, e3j x r3j⟩
  by_cases hm : mi = mj
  · have hxy : x = y := by
      rw [hm] at hrx
      rw [hrx] at hry
      exact Option.some.inj hry
    rw [hm, r3j, hxy]
  · rw [read_write_sibling σ2 σ3 B mj mi x (Ne.symm hm) hw3]; exact r2i

theorem swap_array (σ : State) (next : Nat) (a i j : Name) (te : Typ) (b1 b2 : Bool)
    (x y : Val) (vs : List Val)
    (ha : plainLocal a = true) (hi : plainLocal i = true) (hj : plainLocal j = true)
    (hai : a ≠ i) (haj : a ≠ j)
    (hfa : notFresh next a = true) (hfi : notFresh next i = true) (hfj : notFresh next j = true)
    (harr : a.typ.IsArray = true) (hv : σ.env a = .agg vs)
    (hx : eval σ (.index te (.name a) (.name i) b1) = some x)
    (hy : eval σ (.index te (.name a) (.name j) b2) = some y) :
    ∃ σ', execSeq [.as ⟨.name (Temp te next), .index te (.name a) (.name i) b1⟩,
        .as ⟨.index te (.name a) (.name i) b1, .index te (.name a) (.name j) b2⟩,
        .as ⟨.index te (.name a) (.name j) b2, .name (Temp te next)⟩] σ = some σ' ∧
      eval σ' (.index te (.name a) (.name i) b1) = some y ∧
      eval σ' (.index te (.name a) (.name j) b2) = some x := by
  rw [eval_index_name σ a i te b1 ha hi, hv] at hx
  rw [eval_index_name σ a j te b2 ha hj, hv] at hy
  cases hei : σ.env i with
  | int ni =>
    cases hej : σ.env j with
    | int nj =>
      simp only [hei, elemOf] at hx
      simp only [hej, elemOf] at hy
      have hni : 0 ≤ ni := by by_contra h; simp [h] at hx
      have hnj : 0 ≤ nj := by by_contra h; simp [h] at hy
      simp only [hni, hnj, if_true] at hx hy
      have key : ∀ (k : Name) (bk : Bool) (nk : Int), plainLocal k = true → 0 ≤ nk →
          ∀ τ : State, τ.env k = .int nk →
          lval τ (.index te (.name a) (.name k) bk) = some ((Loc.var a []).extend nk.toNat) ∧
          ∀ z, read τ ((Loc.var a []).extend nk.toNat) = some z →
            eval τ (.index te (.name a) (.name k) bk) = some z := by
        intro k bk nk hk hnk τ hτ
        refine ⟨by simp [lval_index_name τ a k te bk ha hk, harr, hτ, hnk, Loc.extend], ?_⟩
        intro z hz
        rw [eval_index_name τ a k te bk ha hk, hτ]
        simp only [Loc.extend, List.nil_append, read] at hz
        cases hta : τ.env a with
        | agg ws =>
          rw [hta] at hz
          simp only [Val.get] at hz
          cases hw : ws[nk.toNat]? with
          | none => simp [hw] at hz
          | some e => simp [hw, Val.get] at hz; simp [elemOf, hnk, hw, hz]
        | _ => rw [hta] at hz; simp [Val.get] at hz
      apply swap_core σ (Temp te next) a i j _ _ (.var a []) ni.toNat nj.toNat x y
        (plainLocal_temp te next) (Or.inl ⟨rfl, harr⟩)
        (Ne.symm (ne_temp next a te hfa)) (Ne.symm (ne_temp next i te hfi))
        (Ne.symm (ne_temp next j te hfj)) hai haj
      · intro τ hτi hτj _
        obtain ⟨k1, k2⟩ := key i b1 ni hi hni τ (by rw [hτi, hei])
        obtain ⟨k3, k4⟩ := key j b2 nj hj hnj τ (by rw [hτj, hej])
        exact ⟨k1, k3, k2, k4⟩
      · simp [read, Loc.extend, hv, Val.get, hx]
      · simp [read, Loc.extend, hv, Val.get, hy]
    | _ => simp [hej, elemOf] at hy
  | _ => simp [hei, elemOf] at hx

theorem swap_slice (σ : State) (next : Nat) (a i j : Name) (te : Typ) (b1 b2 : Bool)
    (x y : Val) (c : Cell) (p : List Nat) (off len : Nat)
    (ha : plainLocal a = true) (hi : plainLocal i = true) (hj : plainLocal j = true)
    (hai : a ≠ i) (haj : a ≠ j)
    (hfa : notFresh next a = true) (hfi : notFresh next i = true) (hfj : notFresh next j = true)
    (harr : a.typ.IsArray = false) (hv : σ.env a = .slice c p off len)
    (hx : eval σ (.index te (.name a) (.name i) b1) = some x)
    (hy : eval σ (.index te (.name a) (.name j) b2) = some y) :
    ∃ σ', execSeq [.as ⟨.name (Temp te next), .index te (.name a) (.name i) b1⟩,
        .as ⟨.index te (.name a) (.name i) b1, .index te (.name a) (.name j) b2⟩,
        .as ⟨.index te (.name a) (.name j) b2, .name (Temp te next)⟩] σ = some σ' ∧
      eval σ' (.index te (.name a) (.name i) b1) = some y ∧
      eval σ' (.index te (.name a) (.name j) b2) = some x := by
  rw [eval_index_name σ a i te b1 ha hi, hv] at hx
  rw [eval_index_name σ a j te b2 ha hj, hv] at hy
  cases hei : σ.env i with
  | int ni =>
    cases hej : σ.env j with
    | int nj =>
      simp only [hei, elemOf] at hx
      simp only [hej, elemOf] at hy
      have hni : 0 ≤ ni ∧ ni.toNat < len := by by_contra h; simp [h] at hx
      have hnj : 0 ≤ nj ∧ nj.toNat < len := by by_contra h; simp [h] at hy
      simp only [hni, hnj, and_self, if_true] at hx hy
      have key : ∀ (k : Name) (bk : Bool) (nk : Int), plainLocal k = true →
          (0 ≤ nk ∧ nk.toNat < len) →
          ∀ τ : State, τ.env k = .int nk → τ.env a = σ.env a →
          lval τ (.index te (.name a) (.name k) bk) =
            some ((Loc.mem c p).extend (off + nk.toNat)) ∧
          ∀ z, read τ ((Loc.mem c p).extend (off + nk.toNat)) = some z →
            eval τ (.index te (.name a) (.name k) bk) = some z := by
        intro k bk nk hk hnk τ hτ hτa
        refine ⟨by simp [lval_index_name τ a k te bk ha hk, harr, hτ, hτa, hv, elemLoc, hnk,
          Loc.extend], ?_⟩
        intro z hz
        rw [eval_index_name τ a k te bk ha hk, hτ, hτa, hv]
        simpa [elemOf, hnk, read, Loc.extend] using hz
      have hstable : ∀ τ : State, (a.typ.IsArray = true ∨ τ.env a = σ.env a) →
          τ.env a = σ.env a := by
        intro τ h
        rcases h with h | h
        · rw [harr] at h; exact absurd h (by simp)
        · exact h
      apply swap_core σ (Temp te next) a i j _ _ (.mem c p) (off + ni.toNat) (off + nj.toNat) x y
        (plainLocal_temp te next) (Or.inr ⟨c, p, rfl⟩)
        (Ne.symm (ne_temp next a te hfa)) (Ne.symm (ne_temp next i te hfi))
        (Ne.symm (ne_temp next j te hfj)) hai haj
      · intro τ hτi hτj hτa
        obtain ⟨k1, k2⟩ := key i b1 ni hi hni τ (by rw [hτi, hei]) (hstable τ hτa)
        obtain ⟨k3, k4⟩ := key j b2 nj hj hnj τ (by rw [hτj, hej]) (hstable τ hτa)
        exact ⟨k1, k3, k2, k4⟩
      · simpa [read, Loc.extend] using hx
      · simpa [read, Loc.extend] using hy
    | _ => simp [hej, elemOf] at hy
  | _ => simp [hei, elemOf] at hx

/-- C4: for the swap `a[i], a[j] = a[j], a[i]`, where `a`, `i`, `j` are distinct
local variables whose addresses are not taken and `a` is an array or a slice,
`reorder3` returns exactly `[t = a[i], a[i] = a[j], a[j] = t]` for the fresh
temporary `t`; and executing these three statements from a state in which both
elements exist ends in a state where `a[i]` holds the old `a[j]` and `a[j]`
the old `a[i]`, so that `a[i]` is unchanged when `i` and `j` are equal at run
time. -/
theorem swap_lowering (convas : Convas) (next : Nat) (a i j : Name) (te : Typ) (b1 b2 : Bool)
    (ha : plainLocal a = true) (hi : plainLocal i = true) (hj : plainLocal j = true)
    (hai : a ≠ i) (haj : a ≠ j) (_hij : i ≠ j)
    (hty : a.typ.IsArray = true ∨ a.typ.IsSlice = true)
    (hfa : notFresh next a = true) (hfi : notFresh next i = true)
    (hfj : notFresh next j = true) :
    reorder3 convas next
      [⟨.index te (.name a) (.name i) b1, .index te (.name a) (.name j) b2⟩,
       ⟨.index te (.name a) (.name j) b2, .index te (.name a) (.name i) b1⟩] =
    .ok [.as ⟨.name (Temp te next), .index te (.name a) (.name i) b1⟩,
         .as ⟨.index te (.name a) (.name i) b1, .index te (.name a) (.name j) b2⟩,
         .as ⟨.index te (.name a) (.name j) b2, .name (Temp te next)⟩] ∧
    ∀ (σ : State) (x y : Val),
      (a.typ.IsArray = true → ∃ vs, σ.env a = .agg vs) →
      (a.typ.IsSlice = true → ∃ c p off len, σ.env a = .slice c p off len) →
      eval σ (.index te (.name a) (.name i) b1) = some x →
      eval σ (.index te (.name a) (.name j) b2) = some y →
      ∃ σ', execSeq [.as ⟨.name (Temp te next), .index te (.name a) (.name i) b1⟩,
          .as ⟨.index te (.name a) (.name i) b1, .index te (.name a) (.name j) b2⟩,
          .as ⟨.index te (.name a) (.name j) b2, .name (Temp te next)⟩] σ = some σ' ∧
        eval σ' (.index te (.name a) (.name i) b1) = some y ∧
        eval σ' (.index te (.name a) (.name j) b2) = some x ∧
        (σ.env i = σ.env j → eval σ' (.index te (.name a) (.name i) b1) = some x) := by
  refine ⟨swap_reorder3 convas next a i j te b1 b2 ha hi hj hai haj, ?_⟩
  intro σ x y hwa hws hx hy
  have hmain : ∃ σ', execSeq [.as ⟨.name (Temp te next), .index te (.name a) (.name i) b1⟩,
      .as ⟨.index te (.name a) (.name i) b1, .index te (.name a) (.name j) b2⟩,
      .as ⟨.index te (.name a) (.name j) b2, .name (Temp te next)⟩] σ = some σ' ∧
      eval σ' (.index te (.name a) (.name i) b1) = some y ∧
      eval σ' (.index te (.name a) (.name j) b2) = some x := by
    rcases hty with harr | hsl
    · obtain ⟨vs, hv⟩ := hwa harr
      exact swap_array σ next a i j te b1 b2 x y vs ha hi hj hai haj hfa hfi hfj harr hv hx hy
    · obtain ⟨c, p, off, len, hv⟩ := hws hsl
      have harr : a.typ.IsArray = false := by
        cases h : a.typ <;> simp [h, Typ.IsSlice] at hsl
        simp [Typ.IsArray]
      exact swap_slice σ next a i j te b1 b2 x y c p off len ha hi hj hai haj hfa hfi hfj
        harr hv hx hy
  obtain ⟨σ', h1, h2, h3⟩ := hmain
  refine ⟨σ', h1, h2, h3, fun hij' => ?_⟩
  rw [eval_index_name σ a i te b1 ha hi] at hx
  rw [eval_index_name σ a j te b2 ha hj, ← hij', hx] at hy
  rw [h2, ← hy]

theorem Repl.mono {E E' : List Stmt} (h : ∀ s ∈ E, s ∈ E') {n n' : Node} (r : Repl E n n') :
    Repl E' n n' := by
  induction r with
  | same n => exact .same n
  | temp n q hq => exact .temp n q (h _ hq)
  | dot t x x' s _ ih => exact .dot t x x' s ih
  | paren t x x' _ ih => exact .paren t x x' ih
  | deref t x x' _ ih => exact .deref t x x' ih
  | dotptr t x x' s _ ih => exact .dotptr t x x' s ih
  | index t x x' i i' b _ _ ih1 ih2 => exact .index t x x' i i' b ih1 ih2
  | indexmap t x x' i i' _ _ ih1 ih2 => exact .indexmap t x x' i i' ih1 ih2

theorem reorder3save_repl (n : Node) (prior : List AssignStmt) (st : Acc)
    (n' : Node) (st' : Acc) (h : reorder3save n prior st = .ok (n', st')) :
    Repl st'.early n n' := by
  rcases reorder3save_spec n prior st n' st' h with ⟨_, rfl, rfl⟩ | ⟨_, rfl, rfl⟩
  · exact .same _
  · exact .temp _ _ (by simp)

theorem reorder3Lhs_repl (prior : List AssignStmt) : ∀ (x : Node) (st : Acc) (x' : Node)
    (m : Bool) (st' : Acc), reorder3Lhs prior x st = .ok (x', m, st') →
    Repl st'.early x x' := by
  intro x
  induction x using Node.induct with
  | hname v =>
    intro st x' m st' h
    simp only [reorder3Lhs, pure, Except.pure, Except.ok.injEq, Prod.mk.injEq] at h
    obtain ⟨rfl, rfl, rfl⟩ := h
    exact .same _
  | hlit t k v => intro st x' m st' h; simp [reorder3Lhs] at h
  | hnil t => intro st x' m st' h; simp [reorder3Lhs] at h
  | htp t => intro st x' m st' h; simp [reorder3Lhs] at h
  | hun o t x ih =>
    intro st x' m st' h
    cases o <;> try (simp [reorder3Lhs] at h; done)
    · rw [reorder3Lhs] at h
      obtain ⟨⟨x1, m1, st1⟩, h1, h2⟩ := bind_ok h
      simp only [pure, Except.pure, Except.ok.injEq, Prod.mk.injEq] at h2
      obtain ⟨rfl, rfl, rfl⟩ := h2
      exact .paren _ _ _ (ih st x1 m1 st1 h1)
    · rw [reorder3Lhs] at h
      obtain ⟨⟨x1, st1⟩, h1, h2⟩ := bind_ok h
      simp only [pure, Except.pure, Except.ok.injEq, Prod.mk.injEq] at h2
      obtain ⟨rfl, rfl, rfl⟩ := h2
      exact .deref _ _ _ (reorder3save_repl _ _ _ _ _ h1)
  | hbin o t x y ihx ihy => intro st x' m st' h; simp [reorder3Lhs] at h
  | hdot t x s ih =>
    intro st x' m st' h
    rw [reorder3Lhs] at h
    obtain ⟨⟨x1, m1, st1⟩, h1, h2⟩ := bind_ok h
    simp only [pure, Except.pure, Except.ok.injEq, Prod.mk.injEq] at h2
    obtain ⟨rfl, rfl, rfl⟩ := h2
    exact .dot _ _ _ _ (ih st x1 m1 st1 h1)
  | hdotptr t x s ih =>
    intro st x' m st' h
    rw [reorder3Lhs] at h
    obtain ⟨⟨x1, st1⟩, h1, h2⟩ := bind_ok h
    simp only [pure, Except.pure, Except.ok.injEq, Prod.mk.injEq] at h2
    obtain ⟨rfl, rfl, rfl⟩ := h2
    exact .dotptr _ _ _ _ (reorder3save_repl _ _ _ _ _ h1)
  | hindex t x i b ihx ihi =>
    intro st x' m st' h
    rw [reorder3Lhs] at h
    by_cases harr : x.typ.IsArray = true
    · simp only [harr, if_true] at h
      obtain ⟨⟨i1, st1⟩, h1, h2⟩ := bind_ok h
      obtain ⟨⟨x1, m1, st2⟩, h3, h4⟩ := bind_ok h2
      simp only [pure, Except.pure, Except.ok.injEq, Prod.mk.injEq] at h4
      obtain ⟨rfl, rfl, rfl⟩ := h4
      obtain ⟨_, ex, hex, _, _⟩ := reorder3Lhs_extra prior x st1 x1 m1 st2 h3
      exact .index _ _ _ _ _ _ (ihx st1 x1 m1 st2 h3)
        (Repl.mono (fun s hs => by rw [hex]; exact List.mem_append_left _ hs)
          (reorder3save_repl _ _ _ _ _ h1))
    · simp only [harr] at h
      obtain ⟨⟨x1, st1⟩, h1, h2⟩ := bind_ok h
      obtain ⟨⟨i1, st2⟩, h3, h4⟩ := bind_ok h2
      simp only [pure, Except.pure, Except.ok.injEq, Prod.mk.injEq] at h4
      obtain ⟨rfl, rfl, rfl⟩ := h4
      exact .index _ _ _ _ _ _
        (Repl.mono (reorder3save_early _ _ _ _ _ h3) (reorder3save_repl _ _ _ _ _ h1))
        (reorder3save_repl _ _ _ _ _ h3)
  | hindexmap t x i ihx ihy =>
    intro st x' m st' h
    rw [reorder3Lhs] at h
    obtain ⟨⟨x1, st1⟩, h1, h2⟩ := bind_ok h
    obtain ⟨⟨i1, st2⟩, h3, h4⟩ := bind_ok h2
    simp only [pure, Except.pure, Except.ok.injEq, Prod.mk.injEq] at h4
    obtain ⟨rfl, rfl, rfl⟩ := h4
    exact .indexmap _ _ _ _ _
      (Repl.mono (reorder3save_early _ _ _ _ _ h3) (reorder3save_repl _ _ _ _ _ h1))
      (reorder3save_repl _ _ _ _ _ h3)
  | hslice t x lo hi mx b ihx ihlo ihhi ihmx => intro st x' m st' h; simp [reorder3Lhs] at h
  | hcall o t f args d ih => intro st x' m st' h; simp [reorder3Lhs] at h
  | hmake t l cp ihl ihc => intro st x' m st' h; simp [reorder3Lhs] at h

theorem earlyInc_temps (lo hi : Nat) (E : List Stmt) (h : EarlyInc lo E hi) :
    ∀ s ∈ E, ∃ t k e, s = Stmt.as ⟨.name (Temp t k), e⟩ := by
  intro s hs
  obtain ⟨t, k, e, h1, _, _⟩ := earlyInc_mem E lo hi h s hs
  exact ⟨t, k, e, h1⟩

theorem stepAdds_refl (convas : Convas) (st : Acc) : StepAdds convas st st :=
  ⟨⟨[], by simp, fun _ => Nat.le_refl _, fun s hs => by cases hs⟩,
   ⟨[], by simp, fun s hs => by cases hs⟩⟩

theorem stepAdds_trans (convas : Convas) (st st1 st2 : Acc) (h1 : StepAdds convas st st1)
    (h2 : StepAdds convas st1 st2) : StepAdds convas st st2 := by
  obtain ⟨⟨e1, a1, a2, a3⟩, ⟨i1, b1, b2⟩⟩ := h1
  obtain ⟨⟨e2, c1, c2, c3⟩, ⟨i2, d1, d2⟩⟩ := h2
  refine ⟨⟨e1 ++ e2, by rw [c1, a1, List.append_assoc],
    fun hc => earlyInc_append _ _ _ _ _ (a2 hc) (c2 hc), ?_⟩,
    ⟨i1 ++ i2, by rw [d1, b1, List.append_assoc], ?_⟩⟩
  · intro s hs
    rcases List.mem_append.1 hs with hs | hs
    · exact a3 s hs
    · exact c3 s hs
  · intro s hs
    rcases List.mem_append.1 hs with hs | hs
    · exact b2 s hs
    · exact d2 s hs

theorem stepAdds_early (convas : Convas) (st st' : Acc) (extra : List Stmt)
    (hm : st'.mapinit = st.mapinit) (he : st'.early = st.early ++ extra)
    (hi : EarlyInc st.next extra st'.next) : StepAdds convas st st' :=
  ⟨⟨extra, he, fun _ => hi, earlyInc_temps _ _ _ hi⟩, ⟨[], by simp [hm], fun s hs => by cases hs⟩⟩

theorem stepAdds_sub (convas : Convas) (st st' : Acc) (h : StepAdds convas st st') :
    ∀ s ∈ st.early, s ∈ st'.early := by
  obtain ⟨⟨e1, a1, _, _⟩, _⟩ := h
  intro s hs
  rw [a1]; exact List.mem_append_left _ hs

theorem reorder3Step_shape (convas : Convas) (prior : List AssignStmt) (n n' : AssignStmt)
    (st st' : Acc) (h : reorder3Step convas prior n st = .ok (n', st')) :
    Rewritten convas st'.early n n' ∧ StepAdds convas st st' := by
  rw [reorder3Step] at h
  obtain ⟨⟨x', isMap, st1⟩, h1, h2⟩ := bind_ok h
  obtain ⟨_, ex1, a2, a3, _⟩ := reorder3Lhs_extra prior n.X st x' isMap st1 h1
  have hr1 := reorder3Lhs_repl prior n.X st x' isMap st1 h1
  have hA1 : StepAdds convas st st1 := stepAdds_early convas st st1 ex1 (by assumption) a2 a3
  cases isMap with
  | false =>
    simp only [Bool.false_eq_true, if_false] at h2
    obtain ⟨⟨y', st3⟩, h3, h4⟩ := bind_ok h2
    simp only [pure, Except.pure, Except.ok.injEq, Prod.mk.injEq] at h4
    obtain ⟨rfl, rfl⟩ := h4
    obtain ⟨b1, ex2, b2, b3, _⟩ := reorder3save_extra _ _ _ _ _ h3
    have hA2 : StepAdds convas st1 st3 := stepAdds_early convas st1 st3 ex2 b1 b2 b3
    refine ⟨⟨x', Repl.mono (stepAdds_sub _ _ _ hA2) hr1, ⟨x', n.Y⟩, Or.inl rfl, rfl, ?_⟩,
      stepAdds_trans _ _ _ _ hA1 hA2⟩
    exact reorder3save_repl _ _ _ _ _ h3
  | true =>
    simp only [if_true] at h2
    obtain ⟨⟨y', st3⟩, h3, h4⟩ := bind_ok h2
    simp only [pure, Except.pure, Except.ok.injEq, Prod.mk.injEq] at h4
    obtain ⟨rfl, rfl⟩ := h4
    obtain ⟨b1, ex2, b2, b3, _⟩ := reorder3save_extra _ _ _ _ _ h3
    have hAc : StepAdds convas st1
        { st1 with next := (convas { n with X := x' } st1.next).2.2,
                   mapinit := st1.mapinit ++ (convas { n with X := x' } st1.next).2.1 } :=
      ⟨⟨[], by simp, fun hc => hc _ _, fun s hs => by cases hs⟩,
       ⟨_, rfl, fun s hs => ⟨_, _, hs⟩⟩⟩
    have hA2 := stepAdds_early convas _ st3 ex2 b1 b2 b3
    refine ⟨⟨x', Repl.mono (stepAdds_sub _ _ _ (stepAdds_trans _ _ _ _ hAc hA2)) hr1,
      (convas ⟨x', n.Y⟩ st1.next).1, Or.inr ⟨_, rfl⟩, rfl, ?_⟩,
      stepAdds_trans _ _ _ _ hA1 (stepAdds_trans _ _ _ _ hAc hA2)⟩
    exact reorder3save_repl _ _ _ _ _ h3

theorem rewritten_mono (convas : Convas) (E E' : List Stmt) (h : ∀ s ∈ E, s ∈ E')
    (a a' : AssignStmt) (r : Rewritten convas E a a') : Rewritten convas E' a a' := by
  obtain ⟨x', r1, n2, h2, h3, r2⟩ := r
  exact ⟨x', Repl.mono h r1, n2, h2, h3, Repl.mono h r2⟩

theorem reorder3Loop_shape (convas : Convas) : ∀ (todo done res : List AssignStmt)
    (st st' : Acc), reorder3Loop convas done todo st = .ok (res, st') →
    ∃ news, res = done ++ news ∧ List.Forall₂ (Rewritten convas st'.early) todo news ∧
      StepAdds convas st st' := by
  intro todo
  induction todo with
  | nil =>
    intro done res st st' h
    simp only [reorder3Loop, Except.ok.injEq, Prod.mk.injEq] at h
    obtain ⟨rfl, rfl⟩ := h
    exact ⟨[], by simp, List.Forall₂.nil, stepAdds_refl convas st⟩
  | cons a todo ih =>
    intro done res st st' h
    rw [reorder3Loop] at h
    obtain ⟨⟨n', st1⟩, h1, h2⟩ := bind_ok h
    obtain ⟨r1, s1⟩ := reorder3Step_shape convas done a n' st st1 h1
    obtain ⟨news, rfl, f, s2⟩ := ih (done ++ [n']) res st1 st' h2
    exact ⟨n' :: news, by simp, List.Forall₂.cons
      (rewritten_mono convas _ _ (stepAdds_sub _ _ _ s2) a n' r1) f,
      stepAdds_trans _ _ _ _ s1 s2⟩

theorem reorder3save_saved (n : Node) (prior : List AssignStmt) (st : Acc) (n' : Node)
    (st' : Acc) (h : reorder3save n prior st = .ok (n', st')) :
    ∃ c, Saved prior n st.next n' c st'.next ∧ st'.early = st.early ++ c ∧
      st'.mapinit = st.mapinit := by
  rcases reorder3save_spec n prior st n' st' h with ⟨ha, rfl, rfl⟩ | ⟨ha, rfl, rfl⟩
  · exact ⟨[], Saved.keep _ _ ha, by simp, rfl⟩
  · exact ⟨_, Saved.copy _ _ ha, rfl, rfl⟩

theorem reorder3Lhs_saved (prior : List AssignStmt) : ∀ (x : Node) (st : Acc) (x' : Node)
    (m : Bool) (st' : Acc), reorder3Lhs prior x st = .ok (x', m, st') →
    ∃ c, SavedDest prior x st.next x' c st'.next ∧ st'.early = st.early ++ c ∧
      st'.mapinit = st.mapinit ∧ (m = true ↔ (lvalueRoot x).op = .OINDEXMAP) := by
  intro x
  induction x using Node.induct with
  | hname v =>
    intro st x' m st' h
    simp only [reorder3Lhs, pure, Except.pure, Except.ok.injEq, Prod.mk.injEq] at h
    obtain ⟨rfl, rfl, rfl⟩ := h
    exact ⟨[], SavedDest.name v _, by simp, rfl, by simp [lvalueRoot, Node.op]⟩
  | hdot t x s ih =>
    intro st x' m st' h
    rw [reorder3Lhs] at h
    obtain ⟨⟨x1, m1, st1⟩, h1, h2⟩ := bind_ok h
    simp only [pure, Except.pure, Except.ok.injEq, Prod.mk.injEq] at h2
    obtain ⟨rfl, rfl, rfl⟩ := h2
    obtain ⟨c, hc, he, hm, hr⟩ := ih st x1 m1 st1 h1
    exact ⟨c, SavedDest.dot t x x1 s _ _ c hc, he, hm, by simpa [lvalueRoot] using hr⟩
  | hun o t x ih =>
    intro st x' m st' h
    cases o with
    | OPAREN =>
      rw [reorder3Lhs] at h
      obtain ⟨⟨x1, m1, st1⟩, h1, h2⟩ := bind_ok h
      simp only [pure, Except.pure, Except.ok.injEq, Prod.mk.injEq] at h2
      obtain ⟨rfl, rfl, rfl⟩ := h2
      obtain ⟨c, hc, he, hm, hr⟩ := ih st x1 m1 st1 h1
      exact ⟨c, SavedDest.paren t x x1 _ _ c hc, he, hm, by simpa [lvalueRoot] using hr⟩
    | ODEREF =>
      rw [reorder3Lhs] at h
      obtain ⟨⟨x1, st1⟩, h1, h2⟩ := bind_ok h
      simp only [pure, Except.pure, Except.ok.injEq, Prod.mk.injEq] at h2
      obtain ⟨rfl, rfl, rfl⟩ := h2
      obtain ⟨c, hc, he, hm⟩ := reorder3save_saved _ _ _ _ _ h1
      exact ⟨c, SavedDest.deref t x x1 _ _ c hc, he, hm,
        by simp [lvalueRoot, Node.op, UnOp.toOp]⟩
    | _ => simp [reorder3Lhs] at h
  | hindex t x i b ihx _ =>
    intro st x' m st' h
    rw [reorder3Lhs] at h
    by_cases ha : x.typ.IsArray = true
    · simp only [ha, if_true] at h
      obtain ⟨⟨i1, st1⟩, h1, h2⟩ := bind_ok h
      obtain ⟨⟨x1, m1, st2⟩, h3, h4⟩ := bind_ok h2
      simp only [pure, Except.pure, Except.ok.injEq, Prod.mk.injEq] at h4
      obtain ⟨rfl, rfl, rfl⟩ := h4
      obtain ⟨c1, hc1, he1, hm1⟩ := reorder3save_saved _ _ _ _ _ h1
      obtain ⟨c2, hc2, he2, hm2, hr⟩ := ihx st1 x1 m1 st2 h3
      exact ⟨c1 ++ c2, SavedDest.elem t x x1 i i1 b _ _ _ c1 c2 ha hc1 hc2,
        by rw [he2, he1, List.append_assoc], by rw [hm2, hm1],
        by simpa [lvalueRoot, ha] using hr⟩
    · have ha' : x.typ.IsArray = false := by simpa using ha
      simp only [ha', Bool.false_eq_true, if_false] at h
      obtain ⟨⟨x1, st1⟩, h1, h2⟩ := bind_ok h
      obtain ⟨⟨i1, st2⟩, h3, h4⟩ := bind_ok h2
      simp only [pure, Except.pure, Except.ok.injEq, Prod.mk.injEq] at h4
      obtain ⟨rfl, rfl, rfl⟩ := h4
      obtain ⟨c1, hc1, he1, hm1⟩ := reorder3save_saved _ _ _ _ _ h1
      obtain ⟨c2, hc2, he2, hm2⟩ := reorder3save_saved _ _ _ _ _ h3
      exact ⟨c1 ++ c2, SavedDest.index t x x1 i i1 b _ _ _ c1 c2 ha' hc1 hc2,
        by rw [he2, he1, List.append_assoc], by rw [hm2, hm1],
        by simp [lvalueRoot, ha', Node.op]⟩
  | hindexmap t x i _ _ =>
    intro st x' m st' h
    rw [reorder3Lhs] at h
    obtain ⟨⟨x1, st1⟩, h1, h2⟩ := bind_ok h
    obtain ⟨⟨i1, st2⟩, h3, h4⟩ := bind_ok h2
    simp only [pure, Except.pure, Except.ok.injEq, Prod.mk.injEq] at h4
    obtain ⟨rfl, rfl, rfl⟩ := h4
    obtain ⟨c1, hc1, he1, hm1⟩ := reorder3save_saved _ _ _ _ _ h1
    obtain ⟨c2, hc2, he2, hm2⟩ := reorder3save_saved _ _ _ _ _ h3
    exact ⟨c1 ++ c2, SavedDest.indexmap t x x1 i i1 _ _ _ c1 c2 hc1 hc2,
      by rw [he2, he1, List.append_assoc], by rw [hm2, hm1], by simp [lvalueRoot, Node.op]⟩
  | hdotptr t x s _ =>
    intro st x' m st' h
    rw [reorder3Lhs] at h
    obtain ⟨⟨x1, st1⟩, h1, h2⟩ := bind_ok h
    simp only [pure, Except.pure, Except.ok.injEq, Prod.mk.injEq] at h2
    obtain ⟨rfl, rfl, rfl⟩ := h2
    obtain ⟨c, hc, he, hm⟩ := reorder3save_saved _ _ _ _ _ h1
    exact ⟨c, SavedDest.dotptr t x x1 s _ _ c hc, he, hm, by simp [lvalueRoot, Node.op]⟩
  | _ => intro st x' m st' h; simp [reorder3Lhs] at h

theorem reorder3Step_rewritten (convas : Convas) (prior : List AssignStmt) (n n' : AssignStmt)
    (st st' : Acc) (h : reorder3Step convas prior n st = .ok (n', st')) :
    ∃ c ini, RewrittenBy convas prior n st.next n' c ini st'.next ∧
      st'.early = st.early ++ c ∧ st'.mapinit = st.mapinit ++ ini := by
  rw [reorder3Step] at h
  obtain ⟨⟨x', isMap, st1⟩, h1, h2⟩ := bind_ok h
  obtain ⟨c1, hd, he1, hm1, hr⟩ := reorder3Lhs_saved prior n.X st x' isMap st1 h1
  cases isMap with
  | false =>
    have hroot : (lvalueRoot n.X).op ≠ .OINDEXMAP := fun e => by
      have := hr.2 e
      exact absurd this (by simp)
    simp only [Bool.false_eq_true, if_false] at h2
    obtain ⟨⟨y', st3⟩, h3, h4⟩ := bind_ok h2
    simp only [pure, Except.pure, Except.ok.injEq, Prod.mk.injEq] at h4
    obtain ⟨rfl, rfl⟩ := h4
    obtain ⟨c2, hs, he2, hm2⟩ := reorder3save_saved _ _ _ _ _ h3
    refine ⟨c1 ++ c2, [], ⟨x', c1, c2, st1.next, st1.next, ⟨x', n.Y⟩, hd,
      Or.inl ⟨hroot, rfl, rfl, rfl⟩, rfl, hs, rfl⟩, ?_, ?_⟩
    · rw [he2, he1, List.append_assoc]
    · rw [hm2, hm1, List.append_nil]
  | true =>
    have hroot : (lvalueRoot n.X).op = .OINDEXMAP := hr.1 rfl
    simp only [if_true] at h2
    obtain ⟨⟨y', st3⟩, h3, h4⟩ := bind_ok h2
    simp only [pure, Except.pure, Except.ok.injEq, Prod.mk.injEq] at h4
    obtain ⟨rfl, rfl⟩ := h4
    obtain ⟨c2, hs, he2, hm2⟩ := reorder3save_saved _ _ _ _ _ h3
    refine ⟨c1 ++ c2, (convas ⟨x', n.Y⟩ st1.next).2.1, ⟨x', c1, c2, st1.next,
      (convas ⟨x', n.Y⟩ st1.next).2.2, (convas ⟨x', n.Y⟩ st1.next).1, hd,
      Or.inr ⟨hroot, rfl, rfl, rfl⟩, rfl, hs, rfl⟩, ?_, ?_⟩
    · rw [he2]; simp only [he1, List.append_assoc]
    · rw [hm2]; simp only [hm1]

theorem reorder3Loop_sequenced (convas : Convas) : ∀ (todo done res : List AssignStmt)
    (st st' : Acc), reorder3Loop convas done todo st = .ok (res, st') →
    ∃ news early ini, res = done ++ news ∧
      Sequenced convas done todo st.next news early ini st'.next ∧
      st'.early = st.early ++ early ∧ st'.mapinit = st.mapinit ++ ini := by
  intro todo
  induction todo with
  | nil =>
    intro done res st st' h
    simp only [reorder3Loop, Except.ok.injEq, Prod.mk.injEq] at h
    obtain ⟨rfl, rfl⟩ := h
    exact ⟨[], [], [], by simp, Sequenced.nil _ _, by simp, by simp⟩
  | cons a todo ih =>
    intro done res st st' h
    rw [reorder3Loop] at h
    obtain ⟨⟨n', st1⟩, h1, h2⟩ := bind_ok h
    obtain ⟨c, ini, hrw, he1, hm1⟩ := reorder3Step_rewritten convas done a n' st st1 h1
    obtain ⟨news, cs, inis, rfl, hseq, he2, hm2⟩ := ih (done ++ [n']) res st1 st' h2
    exact ⟨n' :: news, c ++ cs, ini ++ inis, by simp,
      Sequenced.cons done todo news a n' _ _ _ c cs ini inis hrw hseq,
      by rw [he2, he1, List.append_assoc], by rw [hm2, hm1, List.append_assoc]⟩

/-- C5: whenever `reorder3` returns on a list `all` of assignments, the returned
list is the map initialisers, followed by the early copies into temporaries in
the order of their creation, followed by exactly as many assignments as `all`
has, in the original order. The three parts are the ones `Sequenced`
describes: each assignment is rewritten against the rewritten assignments
before it, an operand is replaced by a temporary exactly when `aliased` finds
a hazard for it, each replacement contributes its one copy to the early
copies, and each assignment whose destination root is a map index contributes
the statements of its conversion by `convas` to the map initialisers; nothing
else is emitted. The temporaries have increasing counter values when `convas`
never lowers the counter. -/
theorem reorder3_output_shape (convas : Convas) (next : Nat) (all : List AssignStmt)
    (out : List Stmt) (h : reorder3 convas next all = .ok out) :
    ∃ (mapinit early : List Stmt) (all' : List AssignStmt) (k' : Nat),
      out = mapinit ++ early ++ all'.map Stmt.as ∧ all'.length = all.length ∧
      Sequenced convas [] all next all' early mapinit k' ∧
      (∀ s ∈ mapinit, ∃ a k, s ∈ (convas a k).2.1) ∧
      (∀ s ∈ early, ∃ t k e, s = Stmt.as ⟨.name (Temp t k), e⟩) ∧
      ((∀ a k, k ≤ (convas a k).2.2) → ∃ hi, EarlyInc next early hi) ∧
      List.Forall₂ (Rewritten convas early) all all' := by
  rw [reorder3] at h
  obtain ⟨⟨all', st'⟩, h1, h2⟩ := bind_ok h
  simp only [pure, Except.pure, Except.ok.injEq] at h2
  obtain ⟨news, hn, f, ⟨ex, e1, e2, e3⟩, ⟨ini, i1, i2⟩⟩ :=
    reorder3Loop_shape convas all [] all' ⟨next, [], []⟩ st' h1
  obtain ⟨news', early, inis, hn', hseq, he, hm⟩ :=
    reorder3Loop_sequenced convas all [] all' ⟨next, [], []⟩ st' h1
  simp only [List.nil_append] at hn e1 i1 hn' he hm
  subst hn
  subst hn'
  rw [← he, ← hm] at hseq
  refine ⟨st'.mapinit, st'.early, _, st'.next, h2.symm, (List.Forall₂.length_eq f).symm,
    hseq, ?_, ?_, ?_, f⟩
  · rw [i1]; exact i2
  · rw [e1]; exact e3
  · intro hc; rw [e1]; exact ⟨_, e2 hc⟩

/-- C9: for a typechecked node `n`, `isAppendOfMake` returns, and it returns true
if and only if the no-optimization flag is 0, instrumentation is off, `n` is
an append call in spread form with exactly two arguments, the second argument
is a make-slice expression without capacity argument, and its length argument
is an integer constant or has a type no wider than the machine `uint`. -/
theorem isAppendOfMake_iff (fl : Flags) (ptrSize : Nat) (n : Node) :
    ∃ b, isAppendOfMake fl ptrSize true n = .ok b ∧
      (b = true ↔ (fl.N = 0 ∧ fl.Instrumenting = false ∧
        ∃ t f x mt len, n = .call .OAPPEND t f [x, .makeslice mt len none] true ∧
          ((∃ lt v, len = .lit lt .Int v) ∨ len.typ.Width ptrSize ≤ TUINT.Width ptrSize))) := by
  unfold isAppendOfMake
  by_cases hN : fl.N = 0
  · cases hI : fl.Instrumenting
    · simp only [hN, hI, bne_self_eq_false, Bool.or_self, Bool.false_eq_true, if_false,
        Bool.not_true, true_and]
      cases n with
      | call op t f args d =>
        cases op with
        | OCALLFUNC => exact ⟨false, rfl, by simp⟩
        | OAPPEND =>
          cases d with
          | false => exact ⟨false, rfl, by simp⟩
          | true =>
            simp only [Bool.not_true, Bool.false_eq_true, if_false]
            rcases args with _ | ⟨x, _ | ⟨y, _ | ⟨z, r⟩⟩⟩
            · exact ⟨false, rfl, by simp⟩
            · exact ⟨false, rfl, by simp⟩
            · cases y with
              | makeslice mt len cap =>
                cases cap with
                | some c => exact ⟨false, rfl, by simp⟩
                | none =>
                  simp only [Option.isSome_none, Bool.false_eq_true, if_false]
                  by_cases hw : len.typ.Width ptrSize ≤ TUINT.Width ptrSize
                  · refine ⟨true, ?_, by simp only [true_iff]; exact ⟨_, _, _, _, _, rfl, Or.inr hw⟩⟩
                    have : ¬ (len.typ.Width ptrSize > TUINT.Width ptrSize) := by omega
                    simp [this]
                  · by_cases hl : ∃ lt v, len = .lit lt .Int v
                    · obtain ⟨lt, v, rfl⟩ := hl
                      exact ⟨true, by simp,
                        by simp only [true_iff]; exact ⟨_, _, _, _, _, rfl, Or.inl ⟨_, _, rfl⟩⟩⟩
                    · refine ⟨false, ?_, ?_⟩
                      rotate_left
                      · simp only [Bool.false_eq_true, false_iff]
                        rintro ⟨_, _, _, _, len', he, h⟩
                        simp only [Node.call.injEq, List.cons.injEq, Node.makeslice.injEq,
                          and_true, true_and] at he
                        obtain ⟨_, _, _, _, rfl⟩ := he
                        rcases h with h | h
                        · exact hl h
                        · exact hw h
                      have hgt : len.typ.Width ptrSize > TUINT.Width ptrSize := by omega
                      cases len with
                      | lit lt ck v =>
                        cases ck with
                        | Int => exact absurd ⟨lt, v, rfl⟩ hl
                        | _ => simp [hgt]
                      | _ => simp [hgt]
              | _ => exact ⟨false, rfl, by simp⟩
            · exact ⟨false, by simp, by simp⟩
      | _ => exact ⟨false, rfl, by simp⟩
    · exact ⟨false, by simp [hN, hI], by simp⟩
  · exact ⟨false, by simp [hN], by simp [hN]⟩

theorem lastCall_concat (l : List Stmt) (name : String) (targs : List Typ) (t : Typ)
    (args : List Node) : lastCall (l ++ [.expr (mkcall name targs t args)]) = some name := by
  simp [lastCall, mkcall]

/-- C10 (amended): on a call whose walked arguments are `l1, l2, ...`, `appendSlice`
copies the tail with `typedslicecopy`, recording a write-barrier position,
exactly when the element type has pointers; otherwise it uses `slicecopy` when
instrumentation is on and the runtime itself is not being compiled, and
`memmove` in every other case. -/
theorem appendSlice_copy_primitive (fl : Flags) (ptrSize : Nat) (wa : WalkArgs) (op : CallOp)
    (t : Typ) (f : Fn) (args : List Node) (d : Bool) (k : Nat) (l1 l2 : Node)
    (rest : List Node) (ini : List Stmt) (k1 : Nat)
    (hw : wa args k = (l1 :: l2 :: rest, ini, k1)) :
    ∃ low, appendSlice fl ptrSize wa (.call op t f args d) k = .ok low ∧
      lastCall low.init = some
        (if l1.typ.Elem.HasPointers then "typedslicecopy"
         else if fl.Instrumenting && !fl.CompilingRuntime then "slicecopy"
         else "memmove") ∧
      low.wbpos = l1.typ.Elem.HasPointers := by
  simp only [appendSlice, hw]
  rcases hce : cheapExpr l2 ini k1 with ⟨l2', ini', k2⟩
  have hs : (Node.name (Temp l1.typ k2)).typ = l1.typ := rfl
  simp only [hs]
  by_cases hp : l1.typ.Elem.HasPointers = true
  · simp only [hp, if_true]
    refine ⟨_, rfl, ?_, rfl⟩
    simp only [← List.append_assoc]
    exact lastCall_concat _ _ _ _ _
  · have hp' : l1.typ.Elem.HasPointers = false := by simpa using hp
    by_cases hi : (fl.Instrumenting && !fl.CompilingRuntime) = true
    · simp only [hp', hi, Bool.false_eq_true, if_false, if_true]
      refine ⟨_, rfl, ?_, rfl⟩
      simp only [← List.append_assoc]
      exact lastCall_concat _ _ _ _ _
    · simp only [hp', hi, Bool.false_eq_true, if_false]
      refine ⟨_, rfl, ?_, rfl⟩
      simp only [← List.append_assoc]
      exact lastCall_concat _ _ _ _ _

/-- C10 (counterexample): compiling the runtime itself with instrumentation on,
`append(x, y...)` on byte slices copies the tail with `memmove`, not with
`slicecopy`, although instrumentation is on and bytes hold no pointers. -/
theorem appendSlice_instrumented_runtime_memmove :
    exRuntimeFlags.Instrumenting = true ∧ exBytes.Elem.HasPointers = false ∧
      ∃ low, appendSlice exRuntimeFlags 8 exWalkArgs exAppend 0 = .ok low ∧
        lastCall low.init = some "memmove" ∧ lastCall low.init ≠ some "slicecopy" :=
  ⟨rfl, rfl, _, rfl, by decide, by decide⟩

/-- Instance of `appendSlice_copy_primitive` at `append(x, y...)` on byte slices. -/
theorem appendSlice_copy_primitive_witness :
    ∃ low, appendSlice exRuntimeFlags 8 exWalkArgs exAppend 0 = .ok low ∧
      lastCall low.init = some
        (if (Node.name exDst).typ.Elem.HasPointers then "typedslicecopy"
         else if exRuntimeFlags.Instrumenting && !exRuntimeFlags.CompilingRuntime then "slicecopy"
         else "memmove") ∧
      low.wbpos = (Node.name exDst).typ.Elem.HasPointers :=
  appendSlice_copy_primitive exRuntimeFlags 8 exWalkArgs .OAPPEND exBytes .none
    [.name exDst, .name exSrc] true 0 (.name exDst) (.name exSrc) [] [] 0 rfl

/-! ## The append engine: execution of the emitted statements -/

theorem wrapU_wrapS (w : Nat) (z : Int) : wrapU w (wrapS w z) = wrapU w z := by
  unfold wrapU wrapS
  congr 1
  rw [Int.sub_emod, Int.emod_emod_of_dvd _ (dvd_refl _), ← Int.sub_emod]
  congr 1
  ring

theorem wrapU_small (w : Nat) (n : Nat) (h : n < 2 ^ w) : wrapU w (n : Int) = n := by
  unfold wrapU
  have : ((n : Int) % 2 ^ w) = n := by
    apply Int.emod_eq_of_lt (by positivity)
    exact_mod_cast h
  rw [this]; simp

theorem wrapS_small (w : Nat) (hw : 0 < w) (n : Nat) (h : n < 2 ^ (w - 1)) :
    wrapS w (n : Int) = n := by
  unfold wrapS
  have h2 : (2 : Int) ^ w = 2 * 2 ^ (w - 1) := by
    obtain ⟨m, rfl⟩ : ∃ m, w = m + 1 := ⟨w - 1, by omega⟩
    simp [pow_succ]; ring
  have hH : (0 : Int) < 2 ^ (w - 1) := by positivity
  have hn : (n : Int) < 2 ^ (w - 1) := by exact_mod_cast h
  rw [Int.emod_eq_of_lt] <;> omega

theorem pow_half_lt (w : Nat) (hw : 0 < w) : 2 ^ (w - 1) < 2 ^ w :=
  Nat.pow_lt_pow_right (by decide) (by omega)

theorem execA_as (rt : Runtime) (w ptrSize : Nat) (σ : AState) (v : Name) (e : Node) (x : AVal)
    (h : evalA w ptrSize σ e = some x) :
    execA rt w ptrSize (.as ⟨.name v, e⟩) σ =
      .done { σ with env := fun y => if y = v then x else σ.env y } := by
  unfold execA
  split
  · rename_i heq
    simp only [Stmt.as.injEq, AssignStmt.mk.injEq, Node.name.injEq] at heq
    obtain ⟨⟨rfl, rfl⟩, rfl⟩ := heq
    simp [evalA] at h
  · rename_i heq
    simp only [Stmt.as.injEq, AssignStmt.mk.injEq, Node.name.injEq] at heq
    obtain ⟨⟨rfl, rfl⟩, rfl⟩ := heq
    simp [h]
  · rename_i a hna heq
    simp only [Stmt.as.injEq] at heq
    exact absurd heq.symm (hna v e)
  · rename_i heq; simp at heq
  · rename_i heq; simp at heq
  · rename_i heq; simp at heq

theorem execListA_cons_done (rt : Runtime) (w ptrSize : Nat) (s : Stmt) (rest : List Stmt)
    (σ σ' : AState) (h : execA rt w ptrSize s σ = .done σ') :
    execListA rt w ptrSize (s :: rest) σ = execListA rt w ptrSize rest σ' := by
  simp [execListA, h]

theorem execListA_append_done (rt : Runtime) (w ptrSize : Nat) (l1 l2 : List Stmt)
    (σ σ' : AState) (h : execListA rt w ptrSize l1 σ = .done σ') :
    execListA rt w ptrSize (l1 ++ l2) σ = execListA rt w ptrSize l2 σ' := by
  induction l1 generalizing σ with
  | nil => simp [execListA] at h; subst h; rfl
  | cons s r ih =>
    simp only [List.cons_append, execListA] at h ⊢
    cases hs : execA rt w ptrSize s σ with
    | done τ => rw [hs] at h; simp only at h ⊢; exact ih τ h
    | panicked m τ => rw [hs] at h; simp at h
    | stuck => rw [hs] at h; simp at h

theorem execA_ifs (rt : Runtime) (w ptrSize : Nat) (σ : AState) (c : Node) (b : Bool)
    (body els : List Stmt) (lk : Bool) (h : evalA w ptrSize σ c = some (.bool b)) :
    execA rt w ptrSize (.ifs c body els lk) σ =
      if b then execListA rt w ptrSize body σ else execListA rt w ptrSize els σ := by
  cases b <;> simp [execA, h]

theorem execListA_single (rt : Runtime) (w ptrSize : Nat) (s : Stmt) (σ : AState) :
    execListA rt w ptrSize [s] σ = execA rt w ptrSize s σ := by
  simp only [execListA]
  cases execA rt w ptrSize s σ <;> rfl

theorem execA_growslice (rt : Runtime) (w ptrSize : Nat) (σ : AState) (v : Name)
    (targs : List Typ) (t : Typ) (args : List Node) (vs : List AVal)
    (h : evalArgs w ptrSize σ args = some vs) :
    execA rt w ptrSize (.as ⟨.name v, mkcall "growslice" targs t args⟩) σ =
      growslice rt ptrSize v vs σ := by
  simp [execA, mkcall, h]

theorem execA_primitive (rt : Runtime) (w ptrSize : Nat) (σ : AState) (name : String)
    (targs : List Typ) (t : Typ) (args : List Node) (vs : List AVal)
    (h : evalArgs w ptrSize σ args = some vs) :
    execA rt w ptrSize (.expr (mkcall name targs t args)) σ = primitive ptrSize name vs σ := by
  simp [execA, mkcall, h]

theorem growCond_eval (w ptrSize : Nat) (σ : AState) (s nn : Name) (b o l c n : Nat)
    (hs : σ.env s = .slice b o l c) (hn : σ.env nn = .int (wrapS w n))
    (hn2 : n < 2 ^ w) (hc : c < 2 ^ w) :
    evalA w ptrSize σ (growCond (.name s) (.name nn)) = some (.bool (decide (c < n))) := by
  simp [growCond, evalA, Conv, capOf, hs, hn, AVal.toInt, ofInt, TUINT, isUnsigned, binop,
    wrapU_wrapS, wrapU_small w n hn2, wrapU_small w c hc]

theorem growStmts_sem (rt : Runtime) (w ptrSize : Nat) (hw : 0 < w)
    (hrt : ∀ c n, n ≤ rt.growCap c n) (s nn : Name) (hne : s ≠ nn) (l1 e : Node) (τ : AState)
    (b1 o1 Lx Cx K : Nat)
    (h1 : evalA w ptrSize τ l1 = some (.slice b1 o1 Lx Cx))
    (he : ∀ τ' : AState, (∀ x, x ≠ s → x ≠ nn → τ'.env x = τ.env x) →
      evalA w ptrSize τ' e = some (.int K))
    (hsum : Lx + K < 2 ^ (w - 1)) (hC : Cx < 2 ^ (w - 1)) :
    ∃ τ1 b o c, execListA rt w ptrSize (growStmts s nn l1 e) τ = .done τ1 ∧
      τ1.env s = .slice b o (Lx + K) c ∧ τ1.env nn = .int (Lx + K : Nat) ∧ Lx + K ≤ c ∧
      (∀ x, x ≠ s → x ≠ nn → τ1.env x = τ.env x) ∧
      ((Lx + K ≤ Cx ∧ b = b1 ∧ o = o1 ∧ c = Cx ∧ τ1.mem = τ.mem ∧ τ1.nextBlk = τ.nextBlk) ∨
       (Cx < Lx + K ∧ b = τ.nextBlk ∧ o = 0 ∧ τ1.nextBlk = τ.nextBlk + 1 ∧
        τ1.mem = fun b' a =>
          if b' = τ.nextBlk then
            (if a < Lx * s.typ.Elem.Width ptrSize then τ.mem b1 (o1 + a)
             else if s.typ.Elem.HasPointers then 0 else rt.junk τ.nextBlk a)
          else τ.mem b' a)) := by
  have hlt := pow_half_lt w hw
  have hne' : nn ≠ s := fun h => hne h.symm
  -- s = l1
  have e1 := execA_as rt w ptrSize τ s l1 _ h1
  obtain ⟨τa, hτa⟩ : ∃ x : AState, x =
    { τ with env := fun y => if y = s then .slice b1 o1 Lx Cx else τ.env y } := ⟨_, rfl⟩
  rw [← hτa] at e1
  have has : τa.env s = .slice b1 o1 Lx Cx := by simp [hτa]
  -- n = len(s) + k
  have hea : evalA w ptrSize τa e = some (.int K) :=
    he τa (fun x hx _ => by simp [hτa, hx])
  have hsumv : evalA w ptrSize τa (.binary .OADD TINT (lenOf (.name s)) e)
      = some (.int (Lx + K : Nat)) := by
    have := wrapS_small w hw (Lx + K) hsum
    simp only [Nat.cast_add] at this
    simp [evalA, lenOf, has, hea, binop, AVal.toInt, ofInt, TINT, isUnsigned, this]
  have e2 := execA_as rt w ptrSize τa nn _ _ hsumv
  obtain ⟨τb, hτb⟩ : ∃ x : AState, x =
    { τa with env := fun y => if y = nn then .int (Lx + K : Nat) else τa.env y } := ⟨_, rfl⟩
  rw [← hτb] at e2
  have hbs : τb.env s = .slice b1 o1 Lx Cx := by simp [hτb, has, hne]
  have hn : τb.env nn = .int (Lx + K : Nat) := by simp [hτb]
  have hbn : τb.env nn = .int (wrapS w (Lx + K : Nat)) := by
    rw [wrapS_small w hw (Lx + K) hsum]; exact hn
  have hboth : ∀ x, x ≠ s → x ≠ nn → τb.env x = τ.env x := by
    intro x hx hx'
    simp [hτb, hτa, hx, hx']
  have hbmem : τb.mem = τ.mem := by simp [hτb, hτa]
  have hbnext : τb.nextBlk = τ.nextBlk := by simp [hτb, hτa]
  have hcond := growCond_eval w ptrSize τb s nn b1 o1 Lx Cx (Lx + K) hbs hbn (by omega) (by omega)
  by_cases hg : Cx < Lx + K
  · -- growth
    have hc3 : execA rt w ptrSize
        (.ifs (growCond (.name s) (.name nn))
          [.as ⟨.name s, mkcall "growslice" [s.typ.Elem, s.typ.Elem] s.typ
            [.typeptr s.typ.Elem, .name s, .name nn]⟩] [] false) τb
        = growslice rt ptrSize s [.typ s.typ.Elem, .slice b1 o1 Lx Cx, .int (Lx + K : Nat)] τb := by
      rw [execA_ifs rt w ptrSize τb _ _ _ _ _ hcond]
      simp only [hg, decide_True, if_true, execListA_single]
      exact execA_growslice rt w ptrSize τb s _ _ _ _ (by simp only [evalArgs, evalA, hbs, hn])
    have hnn : ¬ ((Lx + K : Nat) : Int) < 0 := by omega
    simp only [growslice, hnn, if_false, Int.toNat_ofNat] at hc3
    obtain ⟨τc, hτc⟩ : ∃ x : AState, x =
      { env := fun x => if x = s then .slice τb.nextBlk 0 Lx (rt.growCap Cx (Lx + K))
          else τb.env x,
        mem := fun b' a =>
          if b' = τb.nextBlk then
            (if a < Lx * s.typ.Elem.Width ptrSize then τb.mem b1 (o1 + a)
             else if s.typ.Elem.HasPointers then 0 else rt.junk τb.nextBlk a)
          else τb.mem b' a,
        nextBlk := τb.nextBlk + 1 } := ⟨_, rfl⟩
    rw [← hτc] at hc3
    have hcs : τc.env s = .slice τb.nextBlk 0 Lx (rt.growCap Cx (Lx + K)) := by simp [hτc]
    have hcn : τc.env nn = .int (Lx + K : Nat) := by simp [hτc, hne', hn]
    have h4 : evalA w ptrSize τc (.slice s.typ (.name s) none (some (.name nn)) none true)
        = some (.slice τb.nextBlk 0 (Lx + K) (rt.growCap Cx (Lx + K))) := by
      simp only [evalA, hcs, hcn, Bool.true_or, if_true, Int.toNat_ofNat]
    have e4 := execA_as rt w ptrSize τc s _ _ h4
    refine ⟨{ τc with env := fun y =>
        if y = s then .slice τb.nextBlk 0 (Lx + K) (rt.growCap Cx (Lx + K)) else τc.env y },
      τb.nextBlk, 0, rt.growCap Cx (Lx + K), ?_, ?_, ?_, hrt _ _, ?_,
      Or.inr ⟨hg, hbnext, rfl, ?_, ?_⟩⟩
    · simp only [growStmts]
      rw [execListA_cons_done _ _ _ _ _ _ _ e1, execListA_cons_done _ _ _ _ _ _ _ e2,
        execListA_cons_done _ _ _ _ _ _ _ hc3, execListA_cons_done _ _ _ _ _ _ _ e4]
      simp [execListA]
    · simp
    · simp [hne', hcn]
    · intro x hx hx'
      simp [hx, hτc, hboth x hx hx']
    · simp [hτc, hbnext]
    · simp [hτc, hbnext, hbmem]
  · -- no growth
    have hc3 : execA rt w ptrSize
        (.ifs (growCond (.name s) (.name nn))
          [.as ⟨.name s, mkcall "growslice" [s.typ.Elem, s.typ.Elem] s.typ
            [.typeptr s.typ.Elem, .name s, .name nn]⟩] [] false) τb
        = .done τb := by
      rw [execA_ifs rt w ptrSize τb _ _ _ _ _ hcond]
      simp [hg, execListA]
    have h4 : evalA w ptrSize τb (.slice s.typ (.name s) none (some (.name nn)) none true)
        = some (.slice b1 o1 (Lx + K) Cx) := by
      simp only [evalA, hbs, hn, Bool.true_or, if_true, Int.toNat_ofNat]
    have e4 := execA_as rt w ptrSize τb s _ _ h4
    refine ⟨{ τb with env := fun y => if y = s then .slice b1 o1 (Lx + K) Cx else τb.env y },
      b1, o1, Cx, ?_, ?_, ?_, by omega, ?_, Or.inl ⟨by omega, rfl, rfl, rfl, hbmem, hbnext⟩⟩
    · simp only [growStmts]
      rw [execListA_cons_done _ _ _ _ _ _ _ e1, execListA_cons_done _ _ _ _ _ _ _ e2,
        execListA_cons_done _ _ _ _ _ _ _ hc3, execListA_cons_done _ _ _ _ _ _ _ e4]
      simp [execListA]
    · simp
    · simp [hne', hn]
    · intro x hx hx'
      simp [hx, hboth x hx hx']

theorem execA_lenCheck_neg (rt : Runtime) (w ptrSize : Nat) (σ : AState) (l2 : Node) (z : Int)
    (tail : List Stmt) (h : evalA w ptrSize σ l2 = some (.int z)) (hz : z < 0) :
    execListA rt w ptrSize (lenCheck l2 :: tail) σ =
      .panicked "makeslice: len out of range" σ := by
  have hz' : ¬ (z ≥ 0) := by omega
  simp [execListA, execA, lenCheck, evalA, h, NewInt, binop, AVal.toInt, hz', mkcall, evalArgs,
    primitive]

/-- C8: on a zero-extend call whose walked arguments are `l1, l2, ...`,
`extendSlice` returns, and the first statement it emits is the check
`if l2 >= 0 {} else { panicmakeslicelen() }` with an empty then-branch, marked
likely; it is followed in this order by the copy `s := l1`, the sum, the growth
call under the growth condition, the reslice, the two pointer assignments and
the clear. When the length is negative at run time, running the emitted
statements panics in the state in which they were started. -/
theorem extendSlice_len_check_first (ptrSize : Nat) (wa : WalkArgs) (op : CallOp) (t : Typ)
    (f : Fn) (a0 : Node) (mt : Typ) (len : Node) (cap : Option Node) (rest : List Node)
    (d : Bool) (k : Nat) (l1 l2 : Node) (r : List Node) (ini : List Stmt) (k1 : Nat)
    (hw : wa (a0 :: Conv len TINT :: rest) k = (l1 :: l2 :: r, ini, k1)) :
    ∃ low clear, extendSlice ptrSize wa (.call op t f (a0 :: .makeslice mt len cap :: rest) d) k
        = .ok low ∧
      (∀ s nn, s = Node.name (Temp l1.typ k1) → nn = Node.name (Temp TINT (k1 + 1)) →
        low.init = ini ++
          [ lenCheck l2,
            .as ⟨s, l1⟩,
            .as ⟨nn, .binary .OADD TINT (lenOf s) l2⟩,
            .ifs (growCond s nn)
              [.as ⟨s, mkcall "growslice" [l1.typ.Elem, l1.typ.Elem] l1.typ
                [.typeptr l1.typ.Elem, s, nn]⟩] [] false,
            .as ⟨s, .slice l1.typ s none (some nn) none true⟩,
            .as ⟨.name (Temp l1.typ.Elem.PtrTo (k1 + 2)), .unary .OSPTR l1.typ.Elem.PtrTo l1⟩,
            .as ⟨.name (Temp l1.typ.Elem.PtrTo (k1 + 3)), .unary .OSPTR l1.typ.Elem.PtrTo s⟩,
            clear ]) ∧
      (∃ hp hn, clear = .expr (mkcall "memclrNoHeapPointers" [] .void [hp, hn]) ∨
        clear = .ifs (.binary .OEQ TBOOL (.name (Temp l1.typ.Elem.PtrTo (k1 + 2)))
          (.name (Temp l1.typ.Elem.PtrTo (k1 + 3))))
          [.expr (mkcall "memclrHasPointers" [] .void [hp, hn])] [] false) ∧
      (lenCheck l2 = .ifs (.binary .OGE TBOOL l2 (NewInt 0)) []
          [.expr (mkcall "panicmakeslicelen" [] .void [])] true) ∧
      (∀ rt w σ z, evalA w ptrSize σ l2 = some (.int z) → z < 0 →
        ∃ tail, low.init = ini ++ lenCheck l2 :: tail ∧
          execListA rt w ptrSize (lenCheck l2 :: tail) σ =
            .panicked "makeslice: len out of range" σ) := by
  simp only [extendSlice, hw]
  have hs : (Node.name (Temp l1.typ k1)).typ = l1.typ := rfl
  simp only [hs]
  by_cases hp : l1.typ.Elem.HasPointers = true
  · simp only [hp, if_true]
    refine ⟨_, .ifs (.binary .OEQ TBOOL (.name (Temp l1.typ.Elem.PtrTo (k1 + 2)))
          (.name (Temp l1.typ.Elem.PtrTo (k1 + 3))))
          [.expr (mkcall "memclrHasPointers" [] .void
            [ConvNop (NodAddr (.index l1.typ.Elem (.name (Temp l1.typ k1)) (lenOf l1) true))
              TUNSAFEPTR,
             Conv (.binary .OMUL TINT l2 (NewInt (l1.typ.Elem.Width ptrSize))) TUINTPTR])]
          [] false, rfl, ?_, ⟨_, _, Or.inr rfl⟩, rfl, ?_⟩
    · rintro s nn rfl rfl
      simp [lenCheck, growCond]
    · intro rt w σ z h hz
      exact ⟨_, rfl, execA_lenCheck_neg rt w ptrSize σ l2 z _ h hz⟩
  · have hp' : l1.typ.Elem.HasPointers = false := by simpa using hp
    simp only [hp', Bool.false_eq_true, if_false]
    refine ⟨_, .expr (mkcall "memclrNoHeapPointers" [] .void
            [ConvNop (NodAddr (.index l1.typ.Elem (.name (Temp l1.typ k1)) (lenOf l1) true))
              TUNSAFEPTR,
             Conv (.binary .OMUL TINT l2 (NewInt (l1.typ.Elem.Width ptrSize))) TUINTPTR]),
          rfl, ?_, ⟨_, _, Or.inl rfl⟩, rfl, ?_⟩
    · rintro s nn rfl rfl
      simp [lenCheck, growCond]
    · intro rt w σ z h hz
      exact ⟨_, rfl, execA_lenCheck_neg rt w ptrSize σ l2 z _ h hz⟩

theorem evalA_conv (w ptrSize : Nat) (σ : AState) (x : Node) (t : Typ) (v : AVal) (z : Int)
    (h : evalA w ptrSize σ x = some v) (hz : v.toInt = some z) :
    evalA w ptrSize σ (Conv x t) = some (ofInt w t z) := by
  simp [Conv, evalA, h, hz]

theorem source_sptr (w ptrSize : Nat) (τ : AState) (e : Node) (v : AVal) (b o n : Nat)
    (p : Typ) (h : evalA w ptrSize τ e = some v) (hv : IsSource v b o n) :
    evalA w ptrSize τ (.unary .OSPTR p e) = some (.ptr b o) := by
  rcases hv with ⟨c, rfl⟩ | rfl <;> simp [evalA, h]

theorem source_len (w ptrSize : Nat) (τ : AState) (e : Node) (v : AVal) (b o n : Nat)
    (h : evalA w ptrSize τ e = some v) (hv : IsSource v b o n) :
    evalA w ptrSize τ (lenOf e) = some (.int n) := by
  rcases hv with ⟨c, rfl⟩ | rfl <;> simp [evalA, lenOf, h]

theorem typedcopy_sem (rt : Runtime) (w ptrSize : Nat) (τ1 : AState) (s c : Name) (hcs : c ≠ s)
    (l1 l2c : Node) (ts tr p1 p2 : Typ) (targs : List Typ) (v2 : AVal)
    (b o Lx K c0 b1 o1 Cx b2 o2 : Nat)
    (hs : τ1.env s = .slice b o (Lx + K) c0)
    (hst : ∀ τ' : AState, (∀ x, x ≠ c → τ'.env x = τ1.env x) →
      evalA w ptrSize τ' l1 = some (.slice b1 o1 Lx Cx) ∧ evalA w ptrSize τ' l2c = some v2)
    (hv2 : IsSource v2 b2 o2 K) :
    ∃ τ2, execListA rt w ptrSize
      [ .as ⟨.name c, .slice ts (.name s) (some (lenOf l1)) none none false⟩,
        .expr (mkcall "typedslicecopy" targs tr
          [.typeptr ts.Elem, .unary .OSPTR p1 (.name c), lenOf (.name c),
           .unary .OSPTR p2 l2c, lenOf l2c]) ] τ1 = .done τ2 ∧
      τ2.env s = τ1.env s ∧ τ2.nextBlk = τ1.nextBlk ∧
      τ2.mem = memCopy τ1.mem b (o + Lx * ts.Elem.Width ptrSize) b2 o2
        (K * ts.Elem.Width ptrSize) := by
  have h1 := (hst τ1 (fun _ _ => rfl)).1
  have hsl : evalA w ptrSize τ1 (.slice ts (.name s) (some (lenOf l1)) none none false)
      = some (.slice b (o + Lx * ts.Elem.Width ptrSize) K (c0 - Lx)) := by
    simp [evalA, lenOf, hs, h1]
  have e1 := execA_as rt w ptrSize τ1 c _ _ hsl
  obtain ⟨τa, hτa⟩ : ∃ x : AState, x =
    { τ1 with env := fun y => if y = c then
        (AVal.slice b (o + Lx * ts.Elem.Width ptrSize) K (c0 - Lx)) else (τ1.env y) } :=
    ⟨_, rfl⟩
  rw [← hτa] at e1
  have hac : τa.env c = .slice b (o + Lx * ts.Elem.Width ptrSize) K (c0 - Lx) := by simp [hτa]
  have h2 := (hst τa (fun x hx => by simp [hτa, hx])).2
  have hargs : evalArgs w ptrSize τa
      [.typeptr ts.Elem, .unary .OSPTR p1 (.name c), lenOf (.name c),
        .unary .OSPTR p2 l2c, lenOf l2c]
      = some [.typ ts.Elem, .ptr b (o + Lx * ts.Elem.Width ptrSize), .int K, .ptr b2 o2, .int K] := by
    simp only [evalArgs, source_sptr w ptrSize τa l2c v2 b2 o2 K p2 h2 hv2,
      source_len w ptrSize τa l2c v2 b2 o2 K h2 hv2]
    simp [evalA, lenOf, hac]
  have e2 := execA_primitive rt w ptrSize τa "typedslicecopy" targs tr _ _ hargs
  refine ⟨{ τa with mem := (memCopy τa.mem b (o + Lx * ts.Elem.Width ptrSize) b2 o2
      (K * ts.Elem.Width ptrSize)) }, ?_, ?_, ?_, ?_⟩
  · rw [execListA_cons_done _ _ _ _ _ _ _ e1, execListA_single, e2]
    simp [primitive]
  · simp [hτa, Ne.symm hcs]
  · simp [hτa]
  · simp [hτa]

theorem slicecopy_sem (rt : Runtime) (w ptrSize : Nat) (τ1 : AState) (s c : Name) (hcs : c ≠ s)
    (l1 l2c : Node) (ts tr p1 p2 : Typ) (targs : List Typ) (v2 : AVal)
    (b o Lx K c0 b1 o1 Cx b2 o2 : Nat)
    (hs : τ1.env s = .slice b o (Lx + K) c0)
    (hst : ∀ τ' : AState, (∀ x, x ≠ c → τ'.env x = τ1.env x) →
      evalA w ptrSize τ' l1 = some (.slice b1 o1 Lx Cx) ∧ evalA w ptrSize τ' l2c = some v2)
    (hv2 : IsSource v2 b2 o2 K) :
    ∃ τ2, execListA rt w ptrSize
      [ .as ⟨.name c, .slice ts (.name s) (some (lenOf l1)) none none false⟩,
        .expr (mkcall "slicecopy" targs tr
          [.unary .OSPTR p1 (.name c), lenOf (.name c),
           .unary .OSPTR p2 l2c, lenOf l2c, NewInt (ts.Elem.Width ptrSize)]) ] τ1 = .done τ2 ∧
      τ2.env s = τ1.env s ∧ τ2.nextBlk = τ1.nextBlk ∧
      τ2.mem = memCopy τ1.mem b (o + Lx * ts.Elem.Width ptrSize) b2 o2
        (K * ts.Elem.Width ptrSize) := by
  have h1 := (hst τ1 (fun _ _ => rfl)).1
  have hsl : evalA w ptrSize τ1 (.slice ts (.name s) (some (lenOf l1)) none none false)
      = some (.slice b (o + Lx * ts.Elem.Width ptrSize) K (c0 - Lx)) := by
    simp [evalA, lenOf, hs, h1]
  have e1 := execA_as rt w ptrSize τ1 c _ _ hsl
  obtain ⟨τa, hτa⟩ : ∃ x : AState, x =
    { τ1 with env := (fun y => if y = c then
        (AVal.slice b (o + Lx * ts.Elem.Width ptrSize) K (c0 - Lx)) else (τ1.env y)) } :=
    ⟨_, rfl⟩
  rw [← hτa] at e1
  have hac : τa.env c = .slice b (o + Lx * ts.Elem.Width ptrSize) K (c0 - Lx) := by simp [hτa]
  have h2 := (hst τa (fun x hx => by simp [hτa, hx])).2
  have hargs : evalArgs w ptrSize τa
      [.unary .OSPTR p1 (.name c), lenOf (.name c),
        .unary .OSPTR p2 l2c, lenOf l2c, NewInt (ts.Elem.Width ptrSize)]
      = some [.ptr b (o + Lx * ts.Elem.Width ptrSize), .int K, .ptr b2 o2, .int K,
          .int (ts.Elem.Width ptrSize)] := by
    simp only [evalArgs, source_sptr w ptrSize τa l2c v2 b2 o2 K p2 h2 hv2,
      source_len w ptrSize τa l2c v2 b2 o2 K h2 hv2]
    simp [evalA, lenOf, hac, NewInt]
  have e2 := execA_primitive rt w ptrSize τa "slicecopy" targs tr _ _ hargs
  refine ⟨{ τa with mem := (memCopy τa.mem b (o + Lx * ts.Elem.Width ptrSize) b2 o2
      (K * ts.Elem.Width ptrSize)) }, ?_, ?_, ?_, ?_⟩
  · rw [execListA_cons_done _ _ _ _ _ _ _ e1, execListA_single, e2]
    simp [primitive]
  · simp [hτa, Ne.symm hcs]
  · simp [hτa]
  · simp [hτa]

theorem memmove_sem (rt : Runtime) (w ptrSize : Nat) (τ1 : AState) (s nw : Name) (hcs : nw ≠ s)
    (l1 l2c : Node) (te tr pa p2 : Typ) (bd : Bool) (targs : List Typ) (v2 : AVal)
    (b o Lx K c0 b1 o1 Cx b2 o2 : Nat)
    (hs : τ1.env s = .slice b o (Lx + K) c0)
    (hst : ∀ τ' : AState, (∀ x, x ≠ nw → τ'.env x = τ1.env x) →
      evalA w ptrSize τ' l1 = some (.slice b1 o1 Lx Cx) ∧ evalA w ptrSize τ' l2c = some v2)
    (hv2 : IsSource v2 b2 o2 K) (hK : K < 2 ^ w) (hbytes : K * te.Width ptrSize < 2 ^ w) :
    ∃ τ2, execListA rt w ptrSize
      [ .as ⟨.name nw, Conv (lenOf l2c) TUINTPTR⟩,
        .expr (mkcall "memmove" targs tr
          [.unary .OADDR pa (.index te (.name s) (lenOf l1) bd),
           .unary .OSPTR p2 l2c,
           .binary .OMUL TUINTPTR (.name nw) (NewInt (te.Width ptrSize))]) ] τ1 = .done τ2 ∧
      τ2.env s = τ1.env s ∧ τ2.nextBlk = τ1.nextBlk ∧
      τ2.mem = memCopy τ1.mem b (o + Lx * te.Width ptrSize) b2 o2 (K * te.Width ptrSize) := by
  have h2 := (hst τ1 (fun _ _ => rfl)).2
  have hcv : evalA w ptrSize τ1 (Conv (lenOf l2c) TUINTPTR) = some (.uint K) := by
    have := source_len w ptrSize τ1 l2c v2 b2 o2 K h2 hv2
    rw [evalA_conv w ptrSize τ1 _ TUINTPTR _ K this rfl]
    simp [ofInt, TUINTPTR, isUnsigned, wrapU_small w K hK]
  have e1 := execA_as rt w ptrSize τ1 nw _ _ hcv
  obtain ⟨τa, hτa⟩ : ∃ x : AState, x =
    { τ1 with env := (fun y => if y = nw then (AVal.uint K) else (τ1.env y)) } := ⟨_, rfl⟩
  rw [← hτa] at e1
  have han : τa.env nw = .uint K := by simp [hτa]
  have has : τa.env s = .slice b o (Lx + K) c0 := by simp [hτa, Ne.symm hcs, hs]
  obtain ⟨h1a, h2a⟩ := hst τa (fun x hx => by simp [hτa, hx])
  have hmul : wrapU w ((K : Int) * (te.Width ptrSize : Int)) = K * te.Width ptrSize := by
    rw [← wrapU_small w _ hbytes]
    push_cast; rfl
  have hargs : evalArgs w ptrSize τa
      [.unary .OADDR pa (.index te (.name s) (lenOf l1) bd),
       .unary .OSPTR p2 l2c,
       .binary .OMUL TUINTPTR (.name nw) (NewInt (te.Width ptrSize))]
      = some [.ptr b (o + Lx * te.Width ptrSize), .ptr b2 o2, .uint (K * te.Width ptrSize)] := by
    simp only [evalArgs, source_sptr w ptrSize τa l2c v2 b2 o2 K p2 h2a hv2]
    simp [evalA, lenOf, has, han, h1a, NewInt, binop, AVal.toInt, ofInt, TUINTPTR, isUnsigned,
      hmul]
  have e2 := execA_primitive rt w ptrSize τa "memmove" targs tr _ _ hargs
  refine ⟨{ τa with mem := (memCopy τa.mem b (o + Lx * te.Width ptrSize) b2 o2
      (K * te.Width ptrSize)) }, ?_, ?_, ?_, ?_⟩
  · rw [execListA_cons_done _ _ _ _ _ _ _ e1, execListA_single, e2]
    simp [primitive]
  · simp [hτa, Ne.symm hcs]
  · simp [hτa]
  · simp [hτa]

theorem cheapExpr_slice (t : Typ) (x : Node) (lo hi mx : Option Node) (bd : Bool)
    (init : List Stmt) (k : Nat) :
    cheapExpr (.slice t x lo hi mx bd) init k =
      (.name (Temp t k), init ++ [.as ⟨.name (Temp t k), .slice t x lo hi mx bd⟩], k + 1) := rfl

theorem cheapExpr_conv (t : Typ) (x : Node) (init : List Stmt) (k : Nat) :
    cheapExpr (Conv x t) init k =
      (.name (Temp t k), init ++ [.as ⟨.name (Temp t k), Conv x t⟩], k + 1) := rfl

theorem appendSlice_shape (fl : Flags) (ptrSize : Nat) (wa : WalkArgs) (op : CallOp)
    (t : Typ) (f : Fn) (args : List Node) (d : Bool) (k : Nat) (l1 l2 : Node)
    (rest : List Node) (ini : List Stmt) (k1 : Nat) (l2c : Node) (ini' : List Stmt) (k2 : Nat)
    (hw : wa args k = (l1 :: l2 :: rest, ini, k1))
    (hce : cheapExpr l2 ini k1 = (l2c, ini', k2)) :
    ∃ low tail, appendSlice fl ptrSize wa (.call op t f args d) k = .ok low ∧
      low.result = .name (Temp l1.typ k2) ∧
      low.init = ini' ++ (growStmts (Temp l1.typ k2) (Temp TINT (k2 + 1)) l1 (lenOf l2c) ++ tail) ∧
      ((∃ targs tr p1 p2, tail =
        [ .as ⟨.name (Temp l1.typ (k2 + 2)),
            .slice l1.typ (.name (Temp l1.typ k2)) (some (lenOf l1)) none none false⟩,
          .expr (mkcall "typedslicecopy" targs tr
            [.typeptr l1.typ.Elem,
             .unary .OSPTR p1 (.name (Temp l1.typ (k2 + 2))),
             lenOf (.name (Temp l1.typ (k2 + 2))),
             .unary .OSPTR p2 l2c, lenOf l2c]) ]) ∨
       (∃ targs tr p1 p2, tail =
        [ .as ⟨.name (Temp l1.typ (k2 + 2)),
            .slice l1.typ (.name (Temp l1.typ k2)) (some (lenOf l1)) none none false⟩,
          .expr (mkcall "slicecopy" targs tr
            [.unary .OSPTR p1 (.name (Temp l1.typ (k2 + 2))),
             lenOf (.name (Temp l1.typ (k2 + 2))),
             .unary .OSPTR p2 l2c, lenOf l2c, NewInt (l1.typ.Elem.Width ptrSize)]) ]) ∨
       (∃ targs tr pa p2, tail =
        [ .as ⟨.name (Temp TUINTPTR (k2 + 2)), Conv (lenOf l2c) TUINTPTR⟩,
          .expr (mkcall "memmove" targs tr
            [.unary .OADDR pa (.index l1.typ.Elem (.name (Temp l1.typ k2)) (lenOf l1) true),
             .unary .OSPTR p2 l2c,
             .binary .OMUL TUINTPTR (.name (Temp TUINTPTR (k2 + 2)))
               (NewInt (l1.typ.Elem.Width ptrSize))]) ])) := by
  simp only [appendSlice, hw, hce]
  have hs : (Node.name (Temp l1.typ k2)).typ = l1.typ := rfl
  have hs' : (Temp l1.typ k2).typ = l1.typ := rfl
  simp only [hs, cheapExpr_slice, cheapExpr_conv]
  by_cases hp : l1.typ.Elem.HasPointers = true
  · simp only [hp, if_true]
    refine ⟨_,
      [ .as ⟨.name (Temp l1.typ (k2 + 2)),
            .slice l1.typ (.name (Temp l1.typ k2)) (some (lenOf l1)) none none false⟩,
        .expr (mkcall "typedslicecopy" [l1.typ.Elem, l2c.typ.Elem] TINT
            [.typeptr l1.typ.Elem,
             (backingArrayPtrLen (.name (Temp l1.typ (k2 + 2)))).1,
             lenOf (.name (Temp l1.typ (k2 + 2))),
             (backingArrayPtrLen l2c).1, lenOf l2c]) ],
      rfl, rfl, ?_, Or.inl ⟨_, _, _, _, rfl⟩⟩
    simp [growStmts, growCond, backingArrayPtrLen, hs']
  · have hp' : l1.typ.Elem.HasPointers = false := by simpa using hp
    by_cases hi : (fl.Instrumenting && !fl.CompilingRuntime) = true
    · simp only [hp', hi, Bool.false_eq_true, if_false, if_true]
      refine ⟨_,
        [ .as ⟨.name (Temp l1.typ (k2 + 2)),
              .slice l1.typ (.name (Temp l1.typ k2)) (some (lenOf l1)) none none false⟩,
          .expr (mkcall "slicecopy"
              [(backingArrayPtrLen (.name (Temp l1.typ (k2 + 2)))).1.typ.Elem,
               (backingArrayPtrLen l2c).1.typ.Elem] TINT
              [(backingArrayPtrLen (.name (Temp l1.typ (k2 + 2)))).1,
               lenOf (.name (Temp l1.typ (k2 + 2))),
               (backingArrayPtrLen l2c).1, lenOf l2c, NewInt (l1.typ.Elem.Width ptrSize)]) ],
        rfl, rfl, ?_, Or.inr (Or.inl ⟨_, _, _, _, rfl⟩)⟩
      simp [growStmts, growCond, backingArrayPtrLen, hs']
    · simp only [hp', hi, Bool.false_eq_true, if_false]
      refine ⟨_,
        [ .as ⟨.name (Temp TUINTPTR (k2 + 2)), Conv (lenOf l2c) TUINTPTR⟩,
          .expr (mkcall "memmove" [l1.typ.Elem, l1.typ.Elem] .void
            [NodAddr (.index l1.typ.Elem (.name (Temp l1.typ k2)) (lenOf l1) true),
             .unary .OSPTR l2c.typ.Elem.PtrTo l2c,
             .binary .OMUL TUINTPTR (.name (Temp TUINTPTR (k2 + 2)))
               (NewInt (l1.typ.Elem.Width ptrSize))]) ],
        rfl, rfl, ?_, Or.inr (Or.inr ⟨_, _, _, _, rfl⟩)⟩
      simp [growStmts, growCond, backingArrayPtrLen, hs', NodAddr]

theorem cheapExpr_cases (n : Node) (init : List Stmt) (k : Nat) :
    cheapExpr n init k = (n, init, k) ∨
    cheapExpr n init k =
      (.name (Temp n.typ k), init ++ [.as ⟨.name (Temp n.typ k), n⟩], k + 1) := by
  unfold cheapExpr
  split <;> simp

theorem cheapExpr_sem (rt : Runtime) (w ptrSize : Nat) (e : Node) (ini : List Stmt) (k1 : Nat)
    (σ : AState) (v : AVal) (other : Node) (vo : AVal)
    (he : StableAt w ptrSize k1 σ e v) (ho : StableAt w ptrSize k1 σ other vo) :
    ∃ ec pre k2 τ0, cheapExpr e ini k1 = (ec, ini ++ pre, k2) ∧
      execListA rt w ptrSize pre σ = .done τ0 ∧ τ0.mem = σ.mem ∧ τ0.nextBlk = σ.nextBlk ∧
      StableAt w ptrSize k2 τ0 ec v ∧ StableAt w ptrSize k2 τ0 other vo := by
  rcases cheapExpr_cases e ini k1 with h | h
  · exact ⟨e, [], k1, σ, by simpa using h, by simp [execListA], rfl, rfl, he, ho⟩
  · have hev : evalA w ptrSize σ e = some v := he σ (fun _ _ => rfl)
    have e1 := execA_as rt w ptrSize σ (Temp e.typ k1) e v hev
    obtain ⟨τ0, hτ0⟩ : ∃ x : AState, x =
      { σ with env := (fun y => if y = Temp e.typ k1 then v else σ.env y) } := ⟨_, rfl⟩
    rw [← hτ0] at e1
    have hagree : ∀ τ : AState,
        (∀ x : Name, (∀ i, k1 + 1 ≤ i → x.sym ≠ .autotmp i) → τ.env x = τ0.env x) →
        ∀ x : Name, (∀ i, k1 ≤ i → x.sym ≠ .autotmp i) → τ.env x = σ.env x := by
      intro τ hτ x hx
      have hne : x ≠ Temp e.typ k1 := by
        rintro rfl
        exact hx k1 (le_refl _) rfl
      rw [hτ x (fun i hi => hx i (by omega))]
      simp [hτ0, hne]
    refine ⟨_, [.as ⟨.name (Temp e.typ k1), e⟩], k1 + 1, τ0, h, ?_, by simp [hτ0],
      by simp [hτ0], ?_, ?_⟩
    · rw [execListA_single, e1]
    · intro τ hτ
      have : τ.env (Temp e.typ k1) = τ0.env (Temp e.typ k1) :=
        hτ _ (fun i hi => by simp [Temp]; omega)
      simp [evalA, this, hτ0]
    · intro τ hτ
      exact ho τ (hagree τ hτ)

theorem copy_post (τ0 τ1 : AState) (mem2 : Nat → Nat → Nat) (junk : Nat → Nat → Nat)
    (hasPtrs : Bool) (b o b1 o1 b2 o2 Lx K Cx c W : Nat)
    (hdisj : (Lx + K ≤ Cx ∧ b = b1 ∧ o = o1 ∧ c = Cx ∧ τ1.mem = τ0.mem ∧
        τ1.nextBlk = τ0.nextBlk) ∨
      (Cx < Lx + K ∧ b = τ0.nextBlk ∧ o = 0 ∧ τ1.nextBlk = τ0.nextBlk + 1 ∧
        τ1.mem = fun b' a =>
          if b' = τ0.nextBlk then
            (if a < Lx * W then τ0.mem b1 (o1 + a)
             else if hasPtrs then 0 else junk τ0.nextBlk a)
          else τ0.mem b' a))
    (hb2 : b2 < τ0.nextBlk)
    (hmem : mem2 = memCopy τ1.mem b (o + Lx * W) b2 o2 (K * W)) :
    (∀ a, a < Lx * W → mem2 b (o + a) = τ0.mem b1 (o1 + a)) ∧
    (∀ a, a < K * W → mem2 b (o + Lx * W + a) = τ0.mem b2 (o2 + a)) := by
  subst hmem
  rcases hdisj with ⟨_, rfl, rfl, rfl, hm, _⟩ | ⟨_, rfl, rfl, _, hm⟩
  · constructor
    · intro a ha
      have : ¬ (o + Lx * W ≤ o + a) := by omega
      simp [memCopy, this, hm]
    · intro a ha
      simp [memCopy, ha, hm]
  · have hne : b2 ≠ τ0.nextBlk := by omega
    constructor
    · intro a ha
      have : ¬ (Lx * W ≤ a) := by omega
      simp [memCopy, this, hm, ha]
    · intro a ha
      simp [memCopy, ha, hm, hne]

theorem ne_Temp_of_low (x : Name) (k j : Nat) (t : Typ)
    (hx : ∀ i, k ≤ i → x.sym ≠ .autotmp i) (hj : k ≤ j) : x ≠ Temp t j := by
  rintro rfl
  exact hx j hj rfl

theorem Temp_ne (t t' : Typ) (i j : Nat) (h : i ≠ j) : Temp t i ≠ Temp t' j := by
  intro he
  have : (Temp t i).sym = (Temp t' j).sym := by rw [he]
  simp [Temp] at this
  exact h this

theorem appendSlice_sem (rt : Runtime) (w ptrSize : Nat) (hw : 0 < w)
    (hrt : ∀ c n, n ≤ rt.growCap c n) (fl : Flags) (wa : WalkArgs) (op : CallOp)
    (t : Typ) (f : Fn) (args : List Node) (d : Bool) (k : Nat) (l1 l2 : Node)
    (rest : List Node) (ini : List Stmt) (k1 : Nat)
    (hwalk : wa args k = (l1 :: l2 :: rest, ini, k1))
    (σ : AState) (v2 : AVal) (b1 o1 Lx Cx b2 o2 K : Nat)
    (h1 : StableAt w ptrSize k1 σ l1 (.slice b1 o1 Lx Cx))
    (h2 : StableAt w ptrSize k1 σ l2 v2) (hv2 : IsSource v2 b2 o2 K) (hb2 : b2 < σ.nextBlk)
    (hsum : Lx + K < 2 ^ (w - 1)) (hC : Cx < 2 ^ (w - 1))
    (hbytes : K * l1.typ.Elem.Width ptrSize < 2 ^ w) :
    ∃ low emitted σ' b o c, appendSlice fl ptrSize wa (.call op t f args d) k = .ok low ∧
      low.init = ini ++ emitted ∧ execListA rt w ptrSize emitted σ = .done σ' ∧
      evalA w ptrSize σ' low.result = some (.slice b o (Lx + K) c) ∧ Lx + K ≤ c ∧
      (∀ a, a < Lx * l1.typ.Elem.Width ptrSize → σ'.mem b (o + a) = σ.mem b1 (o1 + a)) ∧
      (∀ a, a < K * l1.typ.Elem.Width ptrSize →
        σ'.mem b (o + Lx * l1.typ.Elem.Width ptrSize + a) = σ.mem b2 (o2 + a)) := by
  obtain ⟨l2c, pre, k2, τ0, hce, hpre, hm0, hn0, hs2, hs1⟩ :=
    cheapExpr_sem rt w ptrSize l2 ini k1 σ v2 l1 _ h2 h1
  obtain ⟨low, tail, hlow, hres, hinit, htail⟩ :=
    appendSlice_shape fl ptrSize wa op t f args d k l1 l2 rest ini k1 l2c _ k2 hwalk hce
  have hne : Temp l1.typ k2 ≠ Temp TINT (k2 + 1) := Temp_ne _ _ _ _ (by omega)
  have hlen : ∀ τ' : AState,
      (∀ x, x ≠ Temp l1.typ k2 → x ≠ Temp TINT (k2 + 1) → τ'.env x = τ0.env x) →
      evalA w ptrSize τ' (lenOf l2c) = some (.int K) := by
    intro τ' hτ'
    refine source_len w ptrSize τ' l2c v2 b2 o2 K (hs2 τ' ?_) hv2
    intro x hx
    exact hτ' x (ne_Temp_of_low x k2 _ _ hx (le_refl _)) (ne_Temp_of_low x k2 _ _ hx (by omega))
  obtain ⟨τ1, b, o, c, hex, hs, hnn, hle, hoth, hdisj⟩ :=
    growStmts_sem rt w ptrSize hw hrt (Temp l1.typ k2) (Temp TINT (k2 + 1)) hne l1 (lenOf l2c) τ0
      b1 o1 Lx Cx K (hs1 τ0 (fun _ _ => rfl)) hlen hsum hC
  have hst : ∀ (t3 : Typ) (τ' : AState), (∀ x, x ≠ Temp t3 (k2 + 2) → τ'.env x = τ1.env x) →
      evalA w ptrSize τ' l1 = some (.slice b1 o1 Lx Cx) ∧ evalA w ptrSize τ' l2c = some v2 := by
    intro t3 τ' hτ'
    have hag : ∀ x : Name, (∀ i, k2 ≤ i → x.sym ≠ .autotmp i) → τ'.env x = τ0.env x := by
      intro x hx
      rw [hτ' x (ne_Temp_of_low x k2 _ _ hx (by omega))]
      exact hoth x (ne_Temp_of_low x k2 _ _ hx (le_refl _))
        (ne_Temp_of_low x k2 _ _ hx (by omega))
    exact ⟨hs1 τ' hag, hs2 τ' hag⟩
  have hfin : ∀ τ2 : AState, execListA rt w ptrSize tail τ1 = .done τ2 →
      τ2.env (Temp l1.typ k2) = τ1.env (Temp l1.typ k2) →
      τ2.mem = memCopy τ1.mem b (o + Lx * l1.typ.Elem.Width ptrSize) b2 o2
        (K * l1.typ.Elem.Width ptrSize) →
      ∃ low emitted σ' b o c, appendSlice fl ptrSize wa (.call op t f args d) k = .ok low ∧
      low.init = ini ++ emitted ∧ execListA rt w ptrSize emitted σ = .done σ' ∧
      evalA w ptrSize σ' low.result = some (.slice b o (Lx + K) c) ∧ Lx + K ≤ c ∧
      (∀ a, a < Lx * l1.typ.Elem.Width ptrSize → σ'.mem b (o + a) = σ.mem b1 (o1 + a)) ∧
      (∀ a, a < K * l1.typ.Elem.Width ptrSize →
        σ'.mem b (o + Lx * l1.typ.Elem.Width ptrSize + a) = σ.mem b2 (o2 + a)) := by
    intro τ2 hex2 henv hmem
    have hpost := copy_post τ0 τ1 τ2.mem rt.junk (Temp l1.typ k2).typ.Elem.HasPointers
      b o b1 o1 b2 o2 Lx K Cx c (l1.typ.Elem.Width ptrSize) hdisj (by omega) hmem
    refine ⟨low, pre ++ (growStmts (Temp l1.typ k2) (Temp TINT (k2 + 1)) l1 (lenOf l2c) ++ tail),
      τ2, b, o, c, hlow, ?_, ?_, ?_, hle, ?_, ?_⟩
    · rw [hinit, List.append_assoc]
    · rw [execListA_append_done _ _ _ _ _ _ _ hpre, execListA_append_done _ _ _ _ _ _ _ hex]
      exact hex2
    · rw [hres]
      simp [evalA, henv, hs]
    · intro a ha
      rw [hpost.1 a ha, hm0]
    · intro a ha
      rw [hpost.2 a ha, hm0]
  rcases htail with ⟨targs, tr, p1, p2, rfl⟩ | ⟨targs, tr, p1, p2, rfl⟩ | ⟨targs, tr, pa, p2, rfl⟩
  · obtain ⟨τ2, hex2, henv, _, hmem⟩ :=
      typedcopy_sem rt w ptrSize τ1 (Temp l1.typ k2) (Temp l1.typ (k2 + 2))
        (Temp_ne _ _ _ _ (by omega)) l1 l2c l1.typ tr p1 p2 targs v2 b o Lx K c b1 o1 Cx b2 o2
        hs (hst _) hv2
    exact hfin τ2 hex2 henv hmem
  · obtain ⟨τ2, hex2, henv, _, hmem⟩ :=
      slicecopy_sem rt w ptrSize τ1 (Temp l1.typ k2) (Temp l1.typ (k2 + 2))
        (Temp_ne _ _ _ _ (by omega)) l1 l2c l1.typ tr p1 p2 targs v2 b o Lx K c b1 o1 Cx b2 o2
        hs (hst _) hv2
    exact hfin τ2 hex2 henv hmem
  · have hK : K < 2 ^ w := by
      have := pow_half_lt w hw
      omega
    obtain ⟨τ2, hex2, henv, _, hmem⟩ :=
      memmove_sem rt w ptrSize τ1 (Temp l1.typ k2) (Temp TUINTPTR (k2 + 2))
        (Temp_ne _ _ _ _ (by omega)) l1 l2c l1.typ.Elem tr pa p2 true targs v2 b o Lx K c b1 o1 Cx
        b2 o2 hs (hst _) hv2 hK hbytes
    exact hfin τ2 hex2 henv hmem

theorem extendSlice_shape (ptrSize : Nat) (wa : WalkArgs) (op : CallOp) (t : Typ)
    (f : Fn) (a0 : Node) (mt : Typ) (len : Node) (cap : Option Node) (rest : List Node)
    (d : Bool) (k : Nat) (l1 l2 : Node) (r : List Node) (ini : List Stmt) (k1 : Nat)
    (hw : wa (a0 :: Conv len TINT :: rest) k = (l1 :: l2 :: r, ini, k1)) :
    ∃ low pt pt' ta tr, extendSlice ptrSize wa
        (.call op t f (a0 :: .makeslice mt len cap :: rest) d) k = .ok low ∧
      low.result = .name (Temp l1.typ k1) ∧
      low.init = ini ++ (lenCheck l2 ::
        (growStmts (Temp l1.typ k1) (Temp TINT (k1 + 1)) l1 l2 ++
          [ .as ⟨.name (Temp pt (k1 + 2)), .unary .OSPTR pt l1⟩,
            .as ⟨.name (Temp pt' (k1 + 3)), .unary .OSPTR pt' (.name (Temp l1.typ k1))⟩,
            if l1.typ.Elem.HasPointers then
              .ifs (.binary .OEQ TBOOL (.name (Temp pt (k1 + 2))) (.name (Temp pt' (k1 + 3))))
                [.expr (mkcall "memclrHasPointers" [] .void
                  [ConvNop (.unary .OADDR ta
                      (.index l1.typ.Elem (.name (Temp l1.typ k1)) (lenOf l1) true)) tr,
                    Conv (.binary .OMUL TINT l2 (NewInt (l1.typ.Elem.Width ptrSize))) TUINTPTR])]
                [] false
            else
              .expr (mkcall "memclrNoHeapPointers" [] .void
                  [ConvNop (.unary .OADDR ta
                      (.index l1.typ.Elem (.name (Temp l1.typ k1)) (lenOf l1) true)) tr,
                    Conv (.binary .OMUL TINT l2 (NewInt (l1.typ.Elem.Width ptrSize))) TUINTPTR])
          ])) := by
  simp only [extendSlice, hw]
  have hs : (Node.name (Temp l1.typ k1)).typ = l1.typ := rfl
  have hs' : (Temp l1.typ k1).typ = l1.typ := rfl
  simp only [hs]
  by_cases hp : l1.typ.Elem.HasPointers = true
  · simp only [hp, if_true]
    refine ⟨_, l1.typ.Elem.PtrTo, l1.typ.Elem.PtrTo,
      (Node.index l1.typ.Elem (.name (Temp l1.typ k1)) (lenOf l1) true).typ.PtrTo, TUNSAFEPTR,
      rfl, rfl, ?_⟩
    simp [growStmts, growCond, lenCheck, hs', NodAddr]
  · have hp' : l1.typ.Elem.HasPointers = false := by simpa using hp
    simp only [hp', Bool.false_eq_true, if_false]
    refine ⟨_, l1.typ.Elem.PtrTo, l1.typ.Elem.PtrTo,
      (Node.index l1.typ.Elem (.name (Temp l1.typ k1)) (lenOf l1) true).typ.PtrTo, TUNSAFEPTR,
      rfl, rfl, ?_⟩
    simp [growStmts, growCond, lenCheck, hs', NodAddr]

theorem clear_args (w ptrSize : Nat) (τ : AState) (s : Name) (l1 l2 : Node) (te ta tr : Typ)
    (bd : Bool) (b o Lx K c0 b1 o1 Cx : Nat)
    (hs : τ.env s = .slice b o (Lx + K) c0)
    (h1 : evalA w ptrSize τ l1 = some (.slice b1 o1 Lx Cx))
    (h2 : evalA w ptrSize τ l2 = some (.int K))
    (hbytes : K * te.Width ptrSize < 2 ^ w) :
    evalArgs w ptrSize τ
      [ConvNop (.unary .OADDR ta (.index te (.name s) (lenOf l1) bd)) tr,
       Conv (.binary .OMUL TINT l2 (NewInt (te.Width ptrSize))) TUINTPTR]
      = some [.ptr b (o + Lx * te.Width ptrSize), .uint (K * te.Width ptrSize)] := by
  have hmul : wrapU w ((K : Int) * (te.Width ptrSize : Int)) = K * te.Width ptrSize := by
    rw [← wrapU_small w _ hbytes]
    push_cast; rfl
  have hm : evalA w ptrSize τ (.binary .OMUL TINT l2 (NewInt (te.Width ptrSize)))
      = some (.int (wrapS w ((K : Int) * (te.Width ptrSize : Int)))) := by
    simp [evalA, h2, NewInt, binop, AVal.toInt, ofInt, TINT, isUnsigned]
  have hc := evalA_conv w ptrSize τ _ TUINTPTR _ _ hm rfl
  simp only [evalArgs, hc]
  simp [ConvNop, evalA, lenOf, hs, h1, ofInt, TUINTPTR, isUnsigned, wrapU_wrapS, hmul]

theorem clear_sem (rt : Runtime) (w ptrSize : Nat) (τ1 : AState) (s lp sp : Name)
    (hls : lp ≠ s) (hss : sp ≠ s) (hlsp : lp ≠ sp) (l1 l2 : Node) (te pt pt' ta tr : Typ)
    (hasP : Bool) (b o Lx K c0 b1 o1 Cx : Nat)
    (hs : τ1.env s = .slice b o (Lx + K) c0)
    (hst : ∀ τ' : AState, (∀ x, x ≠ lp → x ≠ sp → τ'.env x = τ1.env x) →
      evalA w ptrSize τ' l1 = some (.slice b1 o1 Lx Cx) ∧
      evalA w ptrSize τ' l2 = some (.int K))
    (hbytes : K * te.Width ptrSize < 2 ^ w) :
    ∃ τ2, execListA rt w ptrSize
      [ .as ⟨.name lp, .unary .OSPTR pt l1⟩,
        .as ⟨.name sp, .unary .OSPTR pt' (.name s)⟩,
        if hasP then
          .ifs (.binary .OEQ TBOOL (.name lp) (.name sp))
            [.expr (mkcall "memclrHasPointers" [] .void
              [ConvNop (.unary .OADDR ta (.index te (.name s) (lenOf l1) true)) tr,
               Conv (.binary .OMUL TINT l2 (NewInt (te.Width ptrSize))) TUINTPTR])]
            [] false
        else
          .expr (mkcall "memclrNoHeapPointers" [] .void
              [ConvNop (.unary .OADDR ta (.index te (.name s) (lenOf l1) true)) tr,
               Conv (.binary .OMUL TINT l2 (NewInt (te.Width ptrSize))) TUINTPTR]) ] τ1
        = .done τ2 ∧
      τ2.env s = τ1.env s ∧ τ2.nextBlk = τ1.nextBlk ∧
      τ2.mem = if hasP = true ∧ ¬ (b1 = b ∧ o1 = o) then τ1.mem
        else memClear τ1.mem b (o + Lx * te.Width ptrSize) (K * te.Width ptrSize) := by
  have h1 := (hst τ1 (fun _ _ _ => rfl)).1
  have hl : evalA w ptrSize τ1 (.unary .OSPTR pt l1) = some (.ptr b1 o1) := by
    simp [evalA, h1]
  have e1 := execA_as rt w ptrSize τ1 lp _ _ hl
  obtain ⟨τa, hτa⟩ : ∃ x : AState, x =
    { τ1 with env := (fun y => if y = lp then (AVal.ptr b1 o1) else (τ1.env y)) } := ⟨_, rfl⟩
  rw [← hτa] at e1
  have has : τa.env s = .slice b o (Lx + K) c0 := by simp [hτa, Ne.symm hls, hs]
  have hsp : evalA w ptrSize τa (.unary .OSPTR pt' (.name s)) = some (.ptr b o) := by
    simp [evalA, has]
  have e2 := execA_as rt w ptrSize τa sp _ _ hsp
  obtain ⟨τb, hτb⟩ : ∃ x : AState, x =
    { τa with env := (fun y => if y = sp then (AVal.ptr b o) else (τa.env y)) } := ⟨_, rfl⟩
  rw [← hτb] at e2
  have hbs : τb.env s = .slice b o (Lx + K) c0 := by simp [hτb, Ne.symm hss, has]
  have hbl : τb.env lp = .ptr b1 o1 := by simp [hτb, hτa, hlsp]
  have hbp : τb.env sp = .ptr b o := by simp [hτb]
  have hbmem : τb.mem = τ1.mem := by simp [hτb, hτa]
  have hbnext : τb.nextBlk = τ1.nextBlk := by simp [hτb, hτa]
  obtain ⟨h1b, h2b⟩ := hst τb (fun x hx hx' => by simp [hτb, hτa, hx, hx'])
  have hargs := clear_args w ptrSize τb s l1 l2 te ta tr true b o Lx K c0 b1 o1 Cx hbs h1b h2b
    hbytes
  rw [execListA_cons_done _ _ _ _ _ _ _ e1, execListA_cons_done _ _ _ _ _ _ _ e2,
    execListA_single]
  cases hasP with
  | false =>
    refine ⟨{ τb with mem := (memClear τb.mem b (o + Lx * te.Width ptrSize)
      (K * te.Width ptrSize)) }, ?_, ?_, ?_, ?_⟩
    · simp only [Bool.false_eq_true, if_false]
      rw [execA_primitive rt w ptrSize τb "memclrNoHeapPointers" [] .void _ _ hargs]
      simp [primitive]
    · simp [hbs, hs]
    · simp [hbnext]
    · simp [hbmem]
  | true =>
    have hcond : evalA w ptrSize τb (.binary .OEQ TBOOL (.name lp) (.name sp))
        = some (.bool (decide (b1 = b ∧ o1 = o))) := by
      simp [evalA, hbl, hbp, binop]
    simp only [if_true]
    rw [execA_ifs rt w ptrSize τb _ _ _ _ _ hcond]
    by_cases heq : b1 = b ∧ o1 = o
    · refine ⟨{ τb with mem := (memClear τb.mem b (o + Lx * te.Width ptrSize)
        (K * te.Width ptrSize)) }, ?_, ?_, ?_, ?_⟩
      · simp only [heq, and_self, decide_True, if_true, execListA_single]
        rw [execA_primitive rt w ptrSize τb "memclrHasPointers" [] .void _ _ hargs]
        simp [primitive]
      · simp [hbs, hs]
      · simp [hbnext]
      · simp [hbmem, heq]
    · refine ⟨τb, ?_, ?_, ?_, ?_⟩
      · simp [heq, execListA]
      · simp [hbs, hs]
      · simp [hbnext]
      · simp [hbmem, heq]

theorem execA_lenCheck_nonneg (rt : Runtime) (w ptrSize : Nat) (σ : AState) (l2 : Node)
    (K : Nat) (h : evalA w ptrSize σ l2 = some (.int K)) :
    execA rt w ptrSize (lenCheck l2) σ = .done σ := by
  have hc : evalA w ptrSize σ (.binary .OGE TBOOL l2 (NewInt 0)) = some (.bool true) := by
    simp [evalA, h, NewInt, binop, AVal.toInt]
  unfold lenCheck
  rw [execA_ifs rt w ptrSize σ _ _ _ _ _ hc]
  simp [execListA]

theorem clear_post (τ0 τ1 : AState) (mem2 : Nat → Nat → Nat) (junk : Nat → Nat → Nat)
    (hasPtrs : Bool) (b o b1 o1 Lx K Cx c W : Nat)
    (hdisj : (Lx + K ≤ Cx ∧ b = b1 ∧ o = o1 ∧ c = Cx ∧ τ1.mem = τ0.mem ∧
        τ1.nextBlk = τ0.nextBlk) ∨
      (Cx < Lx + K ∧ b = τ0.nextBlk ∧ o = 0 ∧ τ1.nextBlk = τ0.nextBlk + 1 ∧
        τ1.mem = fun b' a =>
          if b' = τ0.nextBlk then
            (if a < Lx * W then τ0.mem b1 (o1 + a)
             else if hasPtrs then 0 else junk τ0.nextBlk a)
          else τ0.mem b' a))
    (hb1 : b1 < τ0.nextBlk)
    (hmem : mem2 = if hasPtrs = true ∧ ¬ (b1 = b ∧ o1 = o) then τ1.mem
        else memClear τ1.mem b (o + Lx * W) (K * W)) :
    (∀ a, a < Lx * W → mem2 b (o + a) = τ0.mem b1 (o1 + a)) ∧
    (∀ a, a < K * W → mem2 b (o + Lx * W + a) = 0) := by
  subst hmem
  rcases hdisj with ⟨_, rfl, rfl, rfl, hm, _⟩ | ⟨_, rfl, rfl, _, hm⟩
  · constructor
    · intro a ha
      have : ¬ (o + Lx * W ≤ o + a) := by omega
      simp [memClear, this, hm]
    · intro a ha
      simp [memClear, ha]
  · have hne : b1 ≠ τ0.nextBlk := by omega
    by_cases hP : hasPtrs = true
    · constructor
      · intro a ha
        simp [hP, hne, hm, ha]
      · intro a ha
        have : ¬ (Lx * W + a < Lx * W) := by omega
        simp [hP, hne, hm, this]
    · constructor
      · intro a ha
        have : ¬ (Lx * W ≤ a) := by omega
        simp [hP, memClear, this, hm, ha]
      · intro a ha
        simp [hP, memClear, ha]

theorem extendSlice_sem (rt : Runtime) (w ptrSize : Nat) (hw : 0 < w)
    (hrt : ∀ c n, n ≤ rt.growCap c n) (wa : WalkArgs) (op : CallOp) (t : Typ)
    (f : Fn) (a0 : Node) (mt : Typ) (len : Node) (cap : Option Node) (rest : List Node)
    (d : Bool) (k : Nat) (l1 l2 : Node) (r : List Node) (ini : List Stmt) (k1 : Nat)
    (hwalk : wa (a0 :: Conv len TINT :: rest) k = (l1 :: l2 :: r, ini, k1))
    (σ : AState) (b1 o1 Lx Cx K : Nat)
    (h1 : StableAt w ptrSize k1 σ l1 (.slice b1 o1 Lx Cx))
    (h2 : StableAt w ptrSize k1 σ l2 (.int K)) (hb1 : b1 < σ.nextBlk)
    (hsum : Lx + K < 2 ^ (w - 1)) (hC : Cx < 2 ^ (w - 1))
    (hbytes : K * l1.typ.Elem.Width ptrSize < 2 ^ w) :
    ∃ low emitted σ' b o c,
      extendSlice ptrSize wa (.call op t f (a0 :: .makeslice mt len cap :: rest) d) k = .ok low ∧
      low.init = ini ++ emitted ∧ execListA rt w ptrSize emitted σ = .done σ' ∧
      evalA w ptrSize σ' low.result = some (.slice b o (Lx + K) c) ∧ Lx + K ≤ c ∧
      (∀ a, a < Lx * l1.typ.Elem.Width ptrSize → σ'.mem b (o + a) = σ.mem b1 (o1 + a)) ∧
      (∀ a, a < K * l1.typ.Elem.Width ptrSize →
        σ'.mem b (o + Lx * l1.typ.Elem.Width ptrSize + a) = 0) := by
  obtain ⟨low, pt, pt', ta, tr, hlow, hres, hinit⟩ :=
    extendSlice_shape ptrSize wa op t f a0 mt len cap rest d k l1 l2 r ini k1 hwalk
  have hne : Temp l1.typ k1 ≠ Temp TINT (k1 + 1) := Temp_ne _ _ _ _ (by omega)
  have e0 := execA_lenCheck_nonneg rt w ptrSize σ l2 K (h2 σ (fun _ _ => rfl))
  have hlen : ∀ τ' : AState,
      (∀ x, x ≠ Temp l1.typ k1 → x ≠ Temp TINT (k1 + 1) → τ'.env x = σ.env x) →
      evalA w ptrSize τ' l2 = some (.int K) := by
    intro τ' hτ'
    refine h2 τ' ?_
    intro x hx
    exact hτ' x (ne_Temp_of_low x k1 _ _ hx (le_refl _)) (ne_Temp_of_low x k1 _ _ hx (by omega))
  obtain ⟨τ1, b, o, c, hex, hs, hnn, hle, hoth, hdisj⟩ :=
    growStmts_sem rt w ptrSize hw hrt (Temp l1.typ k1) (Temp TINT (k1 + 1)) hne l1 l2 σ
      b1 o1 Lx Cx K (h1 σ (fun _ _ => rfl)) hlen hsum hC
  have hst : ∀ τ' : AState,
      (∀ x, x ≠ Temp pt (k1 + 2) → x ≠ Temp pt' (k1 + 3) → τ'.env x = τ1.env x) →
      evalA w ptrSize τ' l1 = some (.slice b1 o1 Lx Cx) ∧
      evalA w ptrSize τ' l2 = some (.int K) := by
    intro τ' hτ'
    have hag : ∀ x : Name, (∀ i, k1 ≤ i → x.sym ≠ .autotmp i) → τ'.env x = σ.env x := by
      intro x hx
      rw [hτ' x (ne_Temp_of_low x k1 _ _ hx (by omega)) (ne_Temp_of_low x k1 _ _ hx (by omega))]
      exact hoth x (ne_Temp_of_low x k1 _ _ hx (le_refl _))
        (ne_Temp_of_low x k1 _ _ hx (by omega))
    exact ⟨h1 τ' hag, h2 τ' hag⟩
  obtain ⟨τ2, hex2, henv, _, hmem⟩ :=
    clear_sem rt w ptrSize τ1 (Temp l1.typ k1) (Temp pt (k1 + 2)) (Temp pt' (k1 + 3))
      (Temp_ne _ _ _ _ (by omega)) (Temp_ne _ _ _ _ (by omega)) (Temp_ne _ _ _ _ (by omega))
      l1 l2 l1.typ.Elem pt pt' ta tr l1.typ.Elem.HasPointers b o Lx K c b1 o1 Cx hs hst hbytes
  have hpost := clear_post σ τ1 τ2.mem rt.junk (Temp l1.typ k1).typ.Elem.HasPointers
    b o b1 o1 Lx K Cx c (l1.typ.Elem.Width ptrSize) hdisj hb1 hmem
  refine ⟨low, _, τ2, b, o, c, hlow, hinit, ?_, ?_, hle, hpost.1, hpost.2⟩
  · rw [execListA_cons_done _ _ _ _ _ _ _ e0, execListA_append_done _ _ _ _ _ _ _ hex]
    exact hex2
  · rw [hres]
    simp [evalA, henv, hs]

/-- C6: with `w`-bit machine ints, for a sequence `s` of length `len` and
capacity `cap` and an appended length `k`, all in `[0, 2^(w-1)-1]`, the sum
statement `n = len(s) + k` that both lowerings emit stores the wrapped signed
value of `len + k`, and with `n` holding that value the emitted growth
condition `uint(n) > uint(cap(s))` is true if and only if the mathematical sum
`len + k` exceeds `cap`. In particular it is true when the sum overflows the
signed int, and then the guarded growth call runs. Both `appendSlice` and
`extendSlice` emit the sum and the growth call under exactly this condition. -/
theorem growCond_iff (w ptrSize : Nat) (hw : 0 < w) (σ : AState) (s nn : Name)
    (b o len cap k : Nat) (hs : σ.env s = .slice b o len cap)
    (hn : σ.env nn = .int (wrapS w ((len + k : Nat) : Int)))
    (hlen : len < 2 ^ (w - 1)) (hk : k < 2 ^ (w - 1)) (hcap : cap < 2 ^ (w - 1)) :
    evalA w ptrSize σ (growCond (.name s) (.name nn)) = some (.bool (decide (cap < len + k))) ∧
    (2 ^ (w - 1) ≤ len + k →
      evalA w ptrSize σ (growCond (.name s) (.name nn)) = some (.bool true)) ∧
    (∀ rt body, cap < len + k →
      execA rt w ptrSize (.ifs (growCond (.name s) (.name nn)) body [] false) σ
        = execListA rt w ptrSize body σ) ∧
    (∀ e, evalA w ptrSize σ e = some (.int k) →
      evalA w ptrSize σ (.binary .OADD TINT (lenOf (.name s)) e)
        = some (.int (wrapS w ((len + k : Nat) : Int)))) ∧
    (∀ fl wa op t f args d k0 l1 l2 rest ini k1,
      wa args k0 = (l1 :: l2 :: rest, ini, k1) →
      ∃ low pre post l2c k2,
        appendSlice fl ptrSize wa (.call op t f args d) k0 = .ok low ∧
        low.init = pre ++
          (growStmts (Temp l1.typ k2) (Temp TINT (k2 + 1)) l1 (lenOf l2c) ++ post)) ∧
    (∀ wa op t f a0 mt ln cp rest d k0 l1 l2 r ini k1,
      wa (a0 :: Conv ln TINT :: rest) k0 = (l1 :: l2 :: r, ini, k1) →
      ∃ low post,
        extendSlice ptrSize wa (.call op t f (a0 :: .makeslice mt ln cp :: rest) d) k0 = .ok low ∧
        low.init = ini ++ lenCheck l2 ::
          (growStmts (Temp l1.typ k1) (Temp TINT (k1 + 1)) l1 l2 ++ post)) := by
  have hlt := pow_half_lt w hw
  have h2 : (2 : Nat) ^ w = 2 * 2 ^ (w - 1) := by
    obtain ⟨m, rfl⟩ : ∃ m, w = m + 1 := ⟨w - 1, by omega⟩
    simp [pow_succ]; ring
  have hc := growCond_eval w ptrSize σ s nn b o len cap (len + k) hs hn (by omega) (by omega)
  refine ⟨hc, ?_, ?_, ?_, ?_, ?_⟩
  · intro hov
    rw [hc]
    have : cap < len + k := by omega
    simp [this]
  · intro rt body hg
    rw [execA_ifs rt w ptrSize σ _ _ _ _ _ hc]
    simp [hg]
  · intro e he
    simp [evalA, lenOf, hs, he, binop, AVal.toInt, ofInt, TINT, isUnsigned]
  · intro fl wa op t f args d k0 l1 l2 rest ini k1 hwalk
    rcases hce : cheapExpr l2 ini k1 with ⟨l2c, ini', k2⟩
    obtain ⟨low, tail, hlow, _, hinit, _⟩ :=
      appendSlice_shape fl ptrSize wa op t f args d k0 l1 l2 rest ini k1 l2c ini' k2 hwalk hce
    exact ⟨low, ini', tail, l2c, k2, hlow, hinit⟩
  · intro wa op t f a0 mt ln cp rest d k0 l1 l2 r ini k1 hwalk
    obtain ⟨low, pt, pt', ta, tr, hlow, _, hinit⟩ :=
      extendSlice_shape ptrSize wa op t f a0 mt ln cp rest d k0 l1 l2 r ini k1 hwalk
    exact ⟨low, _, hlow, hinit⟩

/-- C7: for a sequence `x` of length `Lx` and capacity `Cx` and an appended
length `K` with `Lx + K` representable, the statements emitted by `appendSlice`
(append-range) and by `extendSlice` (zero-extend) run to completion and leave
in the result variable a sequence of length `Lx + K`, within its capacity,
whose first `Lx` elements are the bytes of `x` and whose remaining `K`
elements are the bytes of the source (append-range) or zero (zero-extend),
whether or not the growth primitive is called. -/
theorem append_lowerings_correct (rt : Runtime) (w ptrSize : Nat) (hw : 0 < w)
    (hrt : ∀ c n, n ≤ rt.growCap c n) :
    (∀ (fl : Flags) (wa : WalkArgs) (op : CallOp) (t : Typ) (f : Fn) (args : List Node)
      (d : Bool) (k : Nat) (l1 l2 : Node) (rest : List Node) (ini : List Stmt) (k1 : Nat)
      (σ : AState) (v2 : AVal) (b1 o1 Lx Cx b2 o2 K : Nat),
      wa args k = (l1 :: l2 :: rest, ini, k1) →
      StableAt w ptrSize k1 σ l1 (.slice b1 o1 Lx Cx) →
      StableAt w ptrSize k1 σ l2 v2 → IsSource v2 b2 o2 K → b2 < σ.nextBlk →
      Lx + K < 2 ^ (w - 1) → Cx < 2 ^ (w - 1) →
      K * l1.typ.Elem.Width ptrSize < 2 ^ w →
      ∃ low emitted σ' b o c, appendSlice fl ptrSize wa (.call op t f args d) k = .ok low ∧
        low.init = ini ++ emitted ∧ execListA rt w ptrSize emitted σ = .done σ' ∧
        evalA w ptrSize σ' low.result = some (.slice b o (Lx + K) c) ∧ Lx + K ≤ c ∧
        (∀ a, a < Lx * l1.typ.Elem.Width ptrSize → σ'.mem b (o + a) = σ.mem b1 (o1 + a)) ∧
        (∀ a, a < K * l1.typ.Elem.Width ptrSize →
          σ'.mem b (o + Lx * l1.typ.Elem.Width ptrSize + a) = σ.mem b2 (o2 + a))) ∧
    (∀ (wa : WalkArgs) (op : CallOp) (t : Typ) (f : Fn) (a0 : Node) (mt : Typ) (len : Node)
      (cap : Option Node) (rest : List Node) (d : Bool) (k : Nat) (l1 l2 : Node)
      (r : List Node) (ini : List Stmt) (k1 : Nat) (σ : AState) (b1 o1 Lx Cx K : Nat),
      wa (a0 :: Conv len TINT :: rest) k = (l1 :: l2 :: r, ini, k1) →
      StableAt w ptrSize k1 σ l1 (.slice b1 o1 Lx Cx) →
      StableAt w ptrSize k1 σ l2 (.int K) → b1 < σ.nextBlk →
      Lx + K < 2 ^ (w - 1) → Cx < 2 ^ (w - 1) →
      K * l1.typ.Elem.Width ptrSize < 2 ^ w →
      ∃ low emitted σ' b o c,
        extendSlice ptrSize wa (.call op t f (a0 :: .makeslice mt len cap :: rest) d) k
          = .ok low ∧
        low.init = ini ++ emitted ∧ execListA rt w ptrSize emitted σ = .done σ' ∧
        evalA w ptrSize σ' low.result = some (.slice b o (Lx + K) c) ∧ Lx + K ≤ c ∧
        (∀ a, a < Lx * l1.typ.Elem.Width ptrSize → σ'.mem b (o + a) = σ.mem b1 (o1 + a)) ∧
        (∀ a, a < K * l1.typ.Elem.Width ptrSize →
          σ'.mem b (o + Lx * l1.typ.Elem.Width ptrSize + a) = 0)) := by
  constructor
  · intro fl wa op t f args d k l1 l2 rest ini k1 σ v2 b1 o1 Lx Cx b2 o2 K
      hwalk h1 h2 hv2 hb2 hsum hC hbytes
    exact appendSlice_sem rt w ptrSize hw hrt fl wa op t f args d k l1 l2 rest ini k1 hwalk σ v2
      b1 o1 Lx Cx b2 o2 K h1 h2 hv2 hb2 hsum hC hbytes
  · intro wa op t f a0 mt len cap rest d k l1 l2 r ini k1 σ b1 o1 Lx Cx K
      hwalk h1 h2 hb1 hsum hC hbytes
    exact extendSlice_sem rt w ptrSize hw hrt wa op t f a0 mt len cap rest d k l1 l2 r ini k1
      hwalk σ b1 o1 Lx Cx K h1 h2 hb1 hsum hC hbytes

/-- C11: on a zero-extend call whose walked arguments are `l1, l2, ...`, the last
statement `extendSlice` emits is the clear of the appended tail, placed after
the assignments `l1ptr = &l1[0]` and `sptr = &s[0]`. When the element type has
no pointers it is the bare call of `memclrNoHeapPointers`; when it has
pointers it is the call of `memclrHasPointers` inside `if l1ptr == sptr`, and
a write-barrier position is recorded exactly in that case. Run in any state,
the statement clears the tail if and only if the element type has no pointers
or the two pointers are equal, and changes nothing otherwise. -/
theorem extendSlice_clear (ptrSize : Nat) (wa : WalkArgs) (op : CallOp) (t : Typ)
    (f : Fn) (a0 : Node) (mt : Typ) (len : Node) (cap : Option Node) (rest : List Node)
    (d : Bool) (k : Nat) (l1 l2 : Node) (r : List Node) (ini : List Stmt) (k1 : Nat)
    (hw : wa (a0 :: Conv len TINT :: rest) k = (l1 :: l2 :: r, ini, k1)) :
    ∃ low pre lp sp pt pt' args clr,
      extendSlice ptrSize wa (.call op t f (a0 :: .makeslice mt len cap :: rest) d) k = .ok low ∧
      low.wbpos = l1.typ.Elem.HasPointers ∧
      low.init = pre ++
        [.as ⟨.name lp, .unary .OSPTR pt l1⟩,
         .as ⟨.name sp, .unary .OSPTR pt' low.result⟩, clr] ∧
      clr = (if l1.typ.Elem.HasPointers then
          .ifs (.binary .OEQ TBOOL (.name lp) (.name sp))
            [.expr (mkcall "memclrHasPointers" [] .void args)] [] false
        else .expr (mkcall "memclrNoHeapPointers" [] .void args)) ∧
      ∀ (rt : Runtime) (w : Nat) (τ : AState) (b o n : Nat),
        evalArgs w ptrSize τ args = some [.ptr b o, .uint n] →
        execA rt w ptrSize clr τ = .done { τ with mem :=
          (if l1.typ.Elem.HasPointers = false ∨ τ.env lp = τ.env sp
            then memClear τ.mem b o n else τ.mem) } := by
  obtain ⟨low, pt, pt', ta, tr, hlow, hres, hinit⟩ :=
    extendSlice_shape ptrSize wa op t f a0 mt len cap rest d k l1 l2 r ini k1 hw
  have hwb : low.wbpos = l1.typ.Elem.HasPointers := by
    simp only [extendSlice, hw] at hlow
    have hs : (Node.name (Temp l1.typ k1)).typ = l1.typ := rfl
    simp only [hs] at hlow
    by_cases hp : l1.typ.Elem.HasPointers = true
    · simp only [hp, if_true, Except.ok.injEq] at hlow
      rw [← hlow, hp]
    · have hp' : l1.typ.Elem.HasPointers = false := by simpa using hp
      simp only [hp', Bool.false_eq_true, if_false, Except.ok.injEq] at hlow
      rw [← hlow, hp']
  refine ⟨low, ini ++ lenCheck l2 :: growStmts (Temp l1.typ k1) (Temp TINT (k1 + 1)) l1 l2,
    Temp pt (k1 + 2), Temp pt' (k1 + 3), pt, pt',
    [ConvNop (.unary .OADDR ta (.index l1.typ.Elem (.name (Temp l1.typ k1)) (lenOf l1) true)) tr,
     Conv (.binary .OMUL TINT l2 (NewInt (l1.typ.Elem.Width ptrSize))) TUINTPTR], _,
    hlow, hwb, ?_, rfl, ?_⟩
  · rw [hinit, hres]
    simp
  · intro rt w τ b o n hargs
    by_cases hp : l1.typ.Elem.HasPointers = true
    · simp only [hp, if_true, Bool.true_eq_false, false_or]
      have hc : evalA w ptrSize τ
          (.binary .OEQ TBOOL (.name (Temp pt (k1 + 2))) (.name (Temp pt' (k1 + 3))))
          = some (.bool (decide (τ.env (Temp pt (k1 + 2)) = τ.env (Temp pt' (k1 + 3))))) := by
        simp [evalA, binop]
      rw [execA_ifs rt w ptrSize τ _ _ _ _ _ hc]
      by_cases he : τ.env (Temp pt (k1 + 2)) = τ.env (Temp pt' (k1 + 3))
      · simp only [he, decide_True, if_true, execListA_single]
        rw [execA_primitive rt w ptrSize τ "memclrHasPointers" [] .void _ _ hargs]
        simp [primitive]
      · simp [he, execListA]
    · have hp' : l1.typ.Elem.HasPointers = false := by simpa using hp
      simp only [hp', Bool.false_eq_true, if_false, true_or, if_true]
      rw [execA_primitive rt w ptrSize τ "memclrNoHeapPointers" [] .void _ _ hargs]
      simp [primitive]

theorem doROpt_iff (v : Name) (o : Option Node)
    (h : ∀ n, o = some n → (doR v n = true ↔ v ∈ names n)) :
    doROpt v o = true ↔ v ∈ namesOpt o := by
  cases o with
  | none => simp [doROpt, namesOpt]
  | some n => simpa [doROpt, namesOpt] using h n rfl

theorem doRList_iff (v : Name) : ∀ (l : List Node),
    (∀ a ∈ l, (doR v a = true ↔ v ∈ names a)) → (doRList v l = true ↔ v ∈ namesList l)
  | [], _ => by simp [doRList, namesList]
  | x :: xs, h => by
    have hx := h x (List.mem_cons_self _ _)
    have hxs := doRList_iff v xs (fun a ha => h a (List.mem_cons_of_mem _ ha))
    simp [doRList, namesList, hx, hxs]

theorem doR_iff (v : Name) (r : Node) : doR v r = true ↔ v ∈ names r := by
  induction r using Node.induct with
  | hname u => simp [doR, names, eq_comm]
  | hlit => simp [doR, names]
  | hnil => simp [doR, names]
  | htp => simp [doR, names]
  | hun o t x ih => simpa [doR, names] using ih
  | hbin o t x y ihx ihy => simp [doR, names, ihx, ihy]
  | hdot t x s ih => simpa [doR, names] using ih
  | hdotptr t x s ih => simpa [doR, names] using ih
  | hindex t x i b ihx ihi => simp [doR, names, ihx, ihi]
  | hindexmap t x i ihx ihi => simp [doR, names, ihx, ihi]
  | hslice t x lo hi mx b ihx ihlo ihhi ihmx =>
    simp [doR, names, ihx, doROpt_iff v lo ihlo, doROpt_iff v hi ihhi, doROpt_iff v mx ihmx]
  | hcall o t f args d ih => simpa [doR, names] using doRList_iff v args ih
  | hmake t l c ihl ihc => simp [doR, names, ihl, doROpt_iff v c ihc]

theorem doLOpt_iff (r : Node) (o : Option Node)
    (h : ∀ n, o = some n → (doL r n = true ↔ ∃ v ∈ names n, v ∈ names r)) :
    doLOpt r o = true ↔ ∃ v ∈ namesOpt o, v ∈ names r := by
  cases o with
  | none => simp [doLOpt, namesOpt]
  | some n => simpa [doLOpt, namesOpt] using h n rfl

theorem doLList_iff (r : Node) : ∀ (l : List Node),
    (∀ a ∈ l, (doL r a = true ↔ ∃ v ∈ names a, v ∈ names r)) →
    (doLList r l = true ↔ ∃ v ∈ namesList l, v ∈ names r)
  | [], _ => by simp [doLList, namesList]
  | x :: xs, h => by
    have hx := h x (List.mem_cons_self _ _)
    have hxs := doLList_iff r xs (fun a ha => h a (List.mem_cons_of_mem _ ha))
    simp [doLList, namesList, hx, hxs, or_and_right, exists_or]

theorem doL_iff (r l : Node) : doL r l = true ↔ ∃ v ∈ names l, v ∈ names r := by
  induction l using Node.induct with
  | hname u => simp [doL, names, doR_iff]
  | hlit => simp [doL, names]
  | hnil => simp [doL, names]
  | htp => simp [doL, names]
  | hun o t x ih => simpa [doL, names] using ih
  | hbin o t x y ihx ihy => simp [doL, names, ihx, ihy, or_and_right, exists_or]
  | hdot t x s ih => simpa [doL, names] using ih
  | hdotptr t x s ih => simpa [doL, names] using ih
  | hindex t x i b ihx ihi => simp [doL, names, ihx, ihi, or_and_right, exists_or]
  | hindexmap t x i ihx ihi => simp [doL, names, ihx, ihi, or_and_right, exists_or]
  | hslice t x lo hi mx b ihx ihlo ihhi ihmx =>
    simp [doL, names, ihx, doLOpt_iff r lo ihlo, doLOpt_iff r hi ihhi, doLOpt_iff r mx ihmx,
      or_and_right, exists_or]
  | hcall o t f args d ih => simpa [doL, names] using doLList_iff r args ih
  | hmake t l c ihl ihc => simp [doL, names, ihl, doLOpt_iff r c ihc, or_and_right, exists_or]

theorem findInner_iff (v : Name) (r : Node) :
    Id.run (Any (fun r => pure (match r with
        | .name u => decide (v = u)
        | _ => false)) r) = true ↔ v ∈ names r := by
  simp only [Id.run]
  refine (anyId_iff _ ?_ r).trans ?_
  · intro n hn
    cases n <;> simp_all [pure]
  · constructor
    · rintro ⟨u, hu, h⟩
      have : v = u := of_decide_eq_true h
      exact this ▸ hu
    · intro h
      exact ⟨v, h, by simp [pure]⟩

theorem refersToCommonNameFind_iff (l r : Node) :
    refersToCommonNameFind l r = true ↔ ∃ v ∈ names l, v ∈ names r := by
  unfold refersToCommonNameFind
  simp only [Id.run]
  refine (anyId_iff _ ?_ l).trans ?_
  · intro n hn
    cases n <;> simp_all [pure]
  · constructor
    · rintro ⟨v, hv, h⟩
      exact ⟨v, hv, (findInner_iff v r).1 h⟩
    · rintro ⟨v, hv, h⟩
      exact ⟨v, hv, (findInner_iff v r).2 h⟩

/-- C20: `refersToCommonName l r` is true if and only if both nodes are non-nil
and some name occurring in the tree of `l` also occurs in the tree of `r`; for
non-nil nodes this is the result of the nested-`Find` formulation given in its
comment, and the function is symmetric in its two arguments. -/
theorem refersToCommonName_iff (l r : Option Node) :
    (refersToCommonName l r = true ↔
      ∃ l' r', l = some l' ∧ r = some r' ∧ ∃ v, v ∈ names l' ∧ v ∈ names r') ∧
    (∀ l' r', l = some l' → r = some r' →
      refersToCommonName l r = refersToCommonNameFind l' r') ∧
    refersToCommonName l r = refersToCommonName r l := by
  have key : ∀ a b : Node, refersToCommonName (some a) (some b) = true ↔
      ∃ v, v ∈ names a ∧ v ∈ names b := by
    intro a b
    simp only [refersToCommonName]
    rw [doL_iff]
  refine ⟨?_, ?_, ?_⟩
  · cases l with
    | none => simp [refersToCommonName]
    | some a =>
      cases r with
      | none => simp [refersToCommonName]
      | some b => simpa using key a b
  · rintro l' r' rfl rfl
    rw [Bool.eq_iff_iff, key, refersToCommonNameFind_iff]
  · cases l with
    | none => cases r <;> simp [refersToCommonName]
    | some a =>
      cases r with
      | none => simp [refersToCommonName]
      | some b =>
        rw [Bool.eq_iff_iff, key, key]
        constructor <;> rintro ⟨v, h1, h2⟩ <;> exact ⟨v, h2, h1⟩

theorem bind_error {α β : Type} {x : Except String α} {f : α → Except String β} {e : String}
    (h : (x >>= f) = .error e) : x = .error e ∨ ∃ a, x = .ok a ∧ f a = .error e := by
  cases x with
  | error e' => simp [bind, Except.bind] at h; exact Or.inl (by rw [h])
  | ok a => exact Or.inr ⟨a, rfl, h⟩

theorem anyExc_unfold_error (c : Node → Except String Bool) (n : Node)
    (rest : Except String Bool) (e : String)
    (h : (c n >>= fun b => if b = true then pure true else rest) = .error e) :
    c n = .error e ∨ rest = .error e := by
  rcases bind_error h with h1 | ⟨b, _, h2⟩
  · exact Or.inl h1
  · cases b <;> simp [pure, Except.pure] at h2
    exact Or.inr h2

theorem seq_error (x rest : Except String Bool) (e : String)
    (h : (x >>= fun b => if b = true then pure true else rest) = .error e) :
    x = .error e ∨ rest = .error e := by
  rcases bind_error h with h1 | ⟨b, _, h2⟩
  · exact Or.inl h1
  · cases b <;> simp [pure, Except.pure] at h2
    exact Or.inr h2

theorem anyOptExc_error (c : Node → Except String Bool) (P : String → Prop) (o : Option Node)
    (h : ∀ n, o = some n → ∀ e, Any c n = .error e → P e) :
    ∀ e, AnyOpt c o = .error e → P e := by
  intro e he
  cases o with
  | none => simp [AnyOpt, pure, Except.pure] at he
  | some n => exact h n rfl e (by simpa [AnyOpt] using he)

theorem anyListExc_error (c : Node → Except String Bool) (P : String → Prop) :
    ∀ (l : List Node), (∀ a ∈ l, ∀ e, Any c a = .error e → P e) →
    ∀ e, AnyList c l = .error e → P e
  | [], _ => by intro e he; simp [AnyList, pure, Except.pure] at he
  | x :: xs, h => by
    intro e he
    simp only [AnyList] at he
    rcases seq_error _ _ _ he with h1 | h2
    · exact h x (List.mem_cons_self _ _) e h1
    · exact anyListExc_error c P xs (fun a ha => h a (List.mem_cons_of_mem _ ha)) e h2

theorem anyExc_error (c : Node → Except String Bool) (P : String → Prop)
    (hc : ∀ n e, c n = .error e → P e) : ∀ n e, Any c n = .error e → P e := by
  intro n
  induction n using Node.induct with
  | hname v => intro e h; exact hc _ e (by simpa [Any] using h)
  | hlit t k v => intro e h; exact hc _ e (by simpa [Any] using h)
  | hnil t => intro e h; exact hc _ e (by simpa [Any] using h)
  | htp t => intro e h; exact hc _ e (by simpa [Any] using h)
  | hun o t x ih =>
    intro e h
    simp only [Any] at h
    rcases seq_error _ _ _ h with h1 | h2
    · exact hc _ e h1
    · exact ih e h2
  | hbin o t x y ihx ihy =>
    intro e h
    simp only [Any] at h
    rcases seq_error _ _ _ h with h1 | h2
    · exact hc _ e h1
    · rcases seq_error _ _ _ h2 with h3 | h4
      · exact ihx e h3
      · exact ihy e h4
  | hdot t x s ih =>
    intro e h
    simp only [Any] at h
    rcases seq_error _ _ _ h with h1 | h2
    · exact hc _ e h1
    · exact ih e h2
  | hdotptr t x s ih =>
    intro e h
    simp only [Any] at h
    rcases seq_error _ _ _ h with h1 | h2
    · exact hc _ e h1
    · exact ih e h2
  | hindex t x i b ihx ihy =>
    intro e h
    simp only [Any] at h
    rcases seq_error _ _ _ h with h1 | h2
    · exact hc _ e h1
    · rcases seq_error _ _ _ h2 with h3 | h4
      · exact ihx e h3
      · exact ihy e h4
  | hindexmap t x i ihx ihy =>
    intro e h
    simp only [Any] at h
    rcases seq_error _ _ _ h with h1 | h2
    · exact hc _ e h1
    · rcases seq_error _ _ _ h2 with h3 | h4
      · exact ihx e h3
      · exact ihy e h4
  | hslice t x lo hi mx b ihx ihlo ihhi ihmx =>
    intro e h
    simp only [Any] at h
    rcases seq_error _ _ _ h with h1 | h2
    · exact hc _ e h1
    · rcases seq_error _ _ _ h2 with h3 | h4
      · exact ihx e h3
      · rcases seq_error _ _ _ h4 with h5 | h6
        · exact anyOptExc_error c P lo ihlo e h5
        · rcases seq_error _ _ _ h6 with h7 | h8
          · exact anyOptExc_error c P hi ihhi e h7
          · exact anyOptExc_error c P mx ihmx e h8
  | hcall o t f args d ih =>
    intro e h
    simp only [Any] at h
    rcases seq_error _ _ _ h with h1 | h2
    · exact hc _ e h1
    · exact anyListExc_error c P args ih e h2
  | hmake t l cp ihl ihc =>
    intro e h
    simp only [Any] at h
    rcases seq_error _ _ _ h with h1 | h2
    · exact hc _ e h1
    · rcases seq_error _ _ _ h2 with h3 | h4
      · exact ihl e h3
      · exact anyOptExc_error c P cp ihc e h4

theorem anyAddrTaken_error (n : Node) (e : String) (h : anyAddrTaken n = .error e) :
    SeqError e := by
  refine anyExc_error anyAddrTakenCond SeqError ?_ n e h
  intro m e' hm
  unfold anyAddrTakenCond at hm
  split at hm
  · simp at hm
  · split at hm <;> simp at hm
    exact Or.inl hm.symm

theorem aliasedLoop_error (r : Node) : ∀ (all : List AssignStmt) (mw : Bool) (e : String),
    aliasedLoop r all mw = .error e → SeqError e := by
  intro all
  induction all with
  | nil => intro mw e h; simp [aliasedLoop] at h
  | cons a rest ih =>
    intro mw e h
    rw [aliasedLoop_cons] at h
    cases hc : classOK a <;> cases hh : hitBy r a <;> simp [hc, hh] at h
    · exact Or.inr (Or.inl h.symm)
    · exact Or.inr (Or.inl h.symm)
    · exact ih _ _ h

theorem aliased_error (r : Option Node) (all : List AssignStmt) (e : String)
    (h : aliased r all = .error e) : SeqError e := by
  cases r with
  | none => simp [aliased] at h
  | some r0 =>
    simp only [aliased] at h
    rcases bind_error h with h1 | ⟨⟨hit, mw⟩, _, h2⟩
    · exact aliasedLoop_error _ _ _ _ h1
    · cases hit
      · cases mw
        · simp [pure, Except.pure, bind, Except.bind] at h2
        · cases ha : anyAddrTaken (stripDots r0) with
          | error e' =>
            have : e' = e := by simpa [ha, pure, Except.pure, bind, Except.bind] using h2
            exact this ▸ anyAddrTaken_error _ _ ha
          | ok b => cases b <;> simp [ha, pure, Except.pure, bind, Except.bind] at h2
      · simp [pure, Except.pure, bind, Except.bind] at h2

theorem reorder3save_error (n : Node) (prior : List AssignStmt) (st : Acc) (e : String)
    (h : reorder3save n prior st = .error e) : SeqError e := by
  unfold reorder3save at h
  cases ha : aliased (some n) prior with
  | error e' =>
    have : e' = e := by simpa [ha, pure, Except.pure, bind, Except.bind] using h
    exact this ▸ aliased_error _ _ _ ha
  | ok b => cases b <;> simp [ha, pure, Except.pure, bind, Except.bind] at h

theorem bind_error_of {α β : Type} {x : Except String α} {f : α → Except String β} {e : String}
    (P : String → Prop) (h : (x >>= f) = .error e) (hx : ∀ e, x = .error e → P e)
    (hf : ∀ a, x = .ok a → f a = .error e → P e) : P e := by
  rcases bind_error h with h1 | ⟨a, h2, h3⟩
  · exact hx e h1
  · exact hf a h2 h3

theorem reorder3Lhs_error (prior : List AssignStmt) : ∀ (x : Node) (st : Acc) (e : String),
    reorder3Lhs prior x st = .error e → SeqError e := by
  intro x
  induction x using Node.induct with
  | hname v => intro st e h; simp [reorder3Lhs, pure, Except.pure] at h
  | hlit t k v => intro st e h; simp [reorder3Lhs] at h; exact Or.inr (Or.inr h.symm)
  | hnil t => intro st e h; simp [reorder3Lhs] at h; exact Or.inr (Or.inr h.symm)
  | htp t => intro st e h; simp [reorder3Lhs] at h; exact Or.inr (Or.inr h.symm)
  | hun o t x ih =>
    intro st e h
    cases o <;>
      first
        | (simp [reorder3Lhs] at h; exact Or.inr (Or.inr h.symm))
        | (rw [reorder3Lhs] at h
           refine bind_error_of SeqError h (fun e' he' => ?_) (fun a _ ha => ?_)
           · first | exact ih _ _ he' | exact reorder3save_error _ _ _ _ he'
           · simp [pure, Except.pure] at ha)
  | hbin o t x y ihx ihy => intro st e h; simp [reorder3Lhs] at h; exact Or.inr (Or.inr h.symm)
  | hdot t x s ih =>
    intro st e h
    rw [reorder3Lhs] at h
    refine bind_error_of SeqError h (fun e' he' => ih _ _ he') (fun a _ ha => ?_)
    simp [pure, Except.pure] at ha
  | hdotptr t x s ih =>
    intro st e h
    rw [reorder3Lhs] at h
    refine bind_error_of SeqError h (fun e' he' => reorder3save_error _ _ _ _ he')
      (fun a _ ha => ?_)
    simp [pure, Except.pure] at ha
  | hindex t x i b ihx ihi =>
    intro st e h
    rw [reorder3Lhs] at h
    split at h
    · refine bind_error_of SeqError h (fun e' he' => reorder3save_error _ _ _ _ he')
        (fun a _ ha => ?_)
      refine bind_error_of SeqError ha (fun e' he' => ihx _ _ he') (fun a' _ ha' => ?_)
      simp [pure, Except.pure] at ha'
    · refine bind_error_of SeqError h (fun e' he' => reorder3save_error _ _ _ _ he')
        (fun a _ ha => ?_)
      refine bind_error_of SeqError ha (fun e' he' => reorder3save_error _ _ _ _ he')
        (fun a' _ ha' => ?_)
      simp [pure, Except.pure] at ha'
  | hindexmap t x i ihx ihi =>
    intro st e h
    rw [reorder3Lhs] at h
    refine bind_error_of SeqError h (fun e' he' => reorder3save_error _ _ _ _ he')
      (fun a _ ha => ?_)
    refine bind_error_of SeqError ha (fun e' he' => reorder3save_error _ _ _ _ he')
      (fun a' _ ha' => ?_)
    simp [pure, Except.pure] at ha'
  | hslice t x lo hi mx b ihx ihlo ihhi ihmx =>
    intro st e h; simp [reorder3Lhs] at h; exact Or.inr (Or.inr h.symm)
  | hcall o t f args d ih =>
    intro st e h; simp [reorder3Lhs] at h; exact Or.inr (Or.inr h.symm)
  | hmake t l cp ihl ihc =>
    intro st e h; simp [reorder3Lhs] at h; exact Or.inr (Or.inr h.symm)

theorem reorder3Step_error (convas : Convas) (prior : List AssignStmt) (n : AssignStmt)
    (st : Acc) (e : String) (h : reorder3Step convas prior n st = .error e) : SeqError e := by
  unfold reorder3Step at h
  refine bind_error_of SeqError h (fun e' he' => reorder3Lhs_error _ _ _ _ he')
    (fun a _ ha => ?_)
  refine bind_error_of SeqError ha (fun e' he' => reorder3save_error _ _ _ _ he')
    (fun a' _ ha' => ?_)
  simp [pure, Except.pure] at ha'

theorem reorder3Loop_error (convas : Convas) : ∀ (todo done : List AssignStmt) (st : Acc)
    (e : String), reorder3Loop convas done todo st = .error e → SeqError e := by
  intro todo
  induction todo with
  | nil => intro done st e h; simp [reorder3Loop] at h
  | cons n rest ih =>
    intro done st e h
    rw [reorder3Loop] at h
    exact bind_error_of SeqError h (fun e' he' => reorder3Step_error _ _ _ _ _ he')
      (fun a _ ha => ih _ _ _ ha)

theorem reorder3_error (convas : Convas) (next : Nat) (all : List AssignStmt) (e : String)
    (h : reorder3 convas next all = .error e) : SeqError e := by
  unfold reorder3 at h
  refine bind_error_of SeqError h (fun e' he' => reorder3Loop_error _ _ _ _ _ he')
    (fun a _ ha => ?_)
  simp [pure, Except.pure] at ha

theorem seqError_ne_shape : ¬ SeqError "error in shape" := by
  simp [SeqError]

theorem safeExprList_length (safeExpr : SafeExpr) : ∀ (nl : List Node) (k : Nat),
    (safeExprList safeExpr nl k).1.length = nl.length
  | [], k => rfl
  | n :: ns, k => by
    simp only [safeExprList, List.length_cons]
    rw [safeExprList_length safeExpr ns]

theorem ascompateeLoop_spec (op : Op) (sameSafe : Node → Node → Bool) (convas : Convas) :
    ∀ (nl nr : List Node) (nn : List AssignStmt) (init : List Stmt) (k : Nat),
    ∃ nn' ini' k' restL restR,
      ascompateeLoop op sameSafe convas nl nr nn init k =
        (nn ++ nn', init ++ ini', k', restL, restR) ∧
      ((restL = [] ∧ restR = []) ↔ nl.length = nr.length) ∧
      List.Forall₂ (PairedBy convas) (keptPairs op sameSafe nl nr) nn'
  | [], nr, nn, init, k => by
    refine ⟨[], [], k, [], nr, ?_, ?_, ?_⟩
    · simp [ascompateeLoop]
    · cases nr <;> simp
    · simp [keptPairs]
  | l :: nl, [], nn, init, k => by
    refine ⟨[], [], k, l :: nl, [], ?_, ?_, ?_⟩
    · simp [ascompateeLoop]
    · simp
    · simp [keptPairs]
  | l :: nl, r :: nr, nn, init, k => by
    by_cases hs : (op == .ORETURN && sameSafe l r) = true
    · obtain ⟨nn', ini', k', restL, restR, h1, h2, h3⟩ :=
        ascompateeLoop_spec op sameSafe convas nl nr nn init k
      refine ⟨nn', ini', k', restL, restR, ?_, ?_, ?_⟩
      · rw [ascompateeLoop]; simp only [hs, if_true]; exact h1
      · simpa using h2
      · simp only [keptPairs, List.zip_cons_cons, List.filter_cons, hs, Bool.not_true,
          Bool.false_eq_true, if_false]
        exact h3
    · obtain ⟨nn', ini', k', restL, restR, h1, h2, h3⟩ :=
        ascompateeLoop_spec op sameSafe convas nl nr
          (nn ++ [(ascompatee1 convas l r k).1]) (init ++ (ascompatee1 convas l r k).2.1)
          (ascompatee1 convas l r k).2.2
      refine ⟨(ascompatee1 convas l r k).1 :: nn', (ascompatee1 convas l r k).2.1 ++ ini', k',
        restL, restR, ?_, ?_, ?_⟩
      · rw [ascompateeLoop]; simp only [hs, if_false]
        rw [h1]; simp
      · simpa using h2
      · have hs' : (op == .ORETURN && sameSafe l r) = false := by simpa using hs
        simp only [keptPairs, List.zip_cons_cons, List.filter_cons, hs', Bool.not_false, if_true]
        exact List.Forall₂.cons ⟨k, rfl⟩ h3

theorem ascompatee_eq (op : Op) (sameSafe : Node → Node → Bool) (safeExpr : SafeExpr)
    (convas : Convas) (nl nr : List Node) (k : Nat) :
    ∃ (nn : List AssignStmt) (ini : List Stmt) (k' : Nat) (restL restR : List Node),
      ascompatee op sameSafe safeExpr convas nl nr k =
        (if !restL.isEmpty || !restR.isEmpty then .error "error in shape"
         else reorder3 convas k' nn >>= fun out => pure (out, ini)) ∧
      ((restL = [] ∧ restR = []) ↔ nl.length = nr.length) ∧
      List.Forall₂ (PairedBy convas)
        (keptPairs op sameSafe (safeExprList safeExpr nl k).1
          (safeExprList safeExpr nr (safeExprList safeExpr nl k).2.2).1) nn := by
  obtain ⟨nn', ini', k', restL, restR, h1, h2, h3⟩ :=
    ascompateeLoop_spec op sameSafe convas (safeExprList safeExpr nl k).1
      (safeExprList safeExpr nr (safeExprList safeExpr nl k).2.2).1 [] []
      (safeExprList safeExpr nr (safeExprList safeExpr nl k).2.2).2.2
  refine ⟨nn', (safeExprList safeExpr nl k).2.1 ++
      (safeExprList safeExpr nr (safeExprList safeExpr nl k).2.2).2.1 ++ ini', k', restL, restR,
    ?_, ?_, h3⟩
  · simp only [ascompatee, h1, List.nil_append]
  · rw [h2, safeExprList_length, safeExprList_length]

theorem forall2_mem_right {α β : Type} (R : α → β → Prop) :
    ∀ (l1 : List α) (l2 : List β), List.Forall₂ R l1 l2 → ∀ b ∈ l2, ∃ a ∈ l1, R a b := by
  intro l1 l2 h
  induction h with
  | nil => intro b hb; simp at hb
  | cons hxy _ ih =>
    intro b hb
    rcases List.mem_cons.1 hb with rfl | hb'
    · exact ⟨_, List.mem_cons_self _ _, hxy⟩
    · obtain ⟨a, ha, hab⟩ := ih b hb'
      exact ⟨a, List.mem_cons_of_mem _ ha, hab⟩

theorem mem_zip_index {α β : Type} (l1 : List α) (l2 : List β) (p : α × β)
    (h : p ∈ l1.zip l2) : ∃ i : Nat, l1[i]? = some p.1 ∧ l2[i]? = some p.2 := by
  obtain ⟨i, hi⟩ := List.mem_iff_getElem?.1 h
  exact ⟨i, List.getElem?_zip_eq_some.1 hi⟩

theorem pairKept_forall2 (convas : Convas) : ∀ (ps : List (Node × Node)) (k : Nat),
    List.Forall₂ (PairedBy convas) ps (pairKept convas ps k).1
  | [], k => by simp [pairKept]
  | p :: ps, k => by
    simp only [pairKept]
    exact List.Forall₂.cons ⟨k, rfl⟩ (pairKept_forall2 convas ps _)

theorem keptPairs_skip (op : Op) (sameSafe : Node → Node → Bool) (l r : Node)
    (nl nr : List Node) (hs : (op == .ORETURN && sameSafe l r) = true) :
    keptPairs op sameSafe (l :: nl) (r :: nr) = keptPairs op sameSafe nl nr := by
  simp only [keptPairs, List.zip_cons_cons, List.filter_cons, hs, Bool.not_true,
    Bool.false_eq_true, if_false]

theorem keptPairs_keep (op : Op) (sameSafe : Node → Node → Bool) (l r : Node)
    (nl nr : List Node) (hs : (op == .ORETURN && sameSafe l r) = false) :
    keptPairs op sameSafe (l :: nl) (r :: nr) = (l, r) :: keptPairs op sameSafe nl nr := by
  simp only [keptPairs, List.zip_cons_cons, List.filter_cons, hs, Bool.not_false, if_true]

theorem ascompateeLoop_pairKept (op : Op) (sameSafe : Node → Node → Bool) (convas : Convas) :
    ∀ (nl nr : List Node) (nn : List AssignStmt) (init : List Stmt) (k : Nat),
    nl.length = nr.length →
    ascompateeLoop op sameSafe convas nl nr nn init k =
      (nn ++ (pairKept convas (keptPairs op sameSafe nl nr) k).1,
       init ++ (pairKept convas (keptPairs op sameSafe nl nr) k).2.1,
       (pairKept convas (keptPairs op sameSafe nl nr) k).2.2, [], [])
  | [], [], nn, init, k, _ => by simp [ascompateeLoop, keptPairs, pairKept]
  | [], _ :: _, _, _, _, h => by simp at h
  | _ :: _, [], _, _, _, h => by simp at h
  | l :: nl, r :: nr, nn, init, k, h => by
    have hl : nl.length = nr.length := by simpa using h
    by_cases hs : (op == .ORETURN && sameSafe l r) = true
    · rw [ascompateeLoop]
      simp only [hs, if_true]
      rw [ascompateeLoop_pairKept op sameSafe convas nl nr nn init k hl,
        keptPairs_skip op sameSafe l r nl nr hs]
    · have hs' : (op == .ORETURN && sameSafe l r) = false := by simpa using hs
      rw [ascompateeLoop]
      simp only [hs, if_false]
      rw [keptPairs_keep op sameSafe l r nl nr hs']
      rw [ascompateeLoop_pairKept op sameSafe convas nl nr (nn ++ [(ascompatee1 convas l r k).1])
        (init ++ (ascompatee1 convas l r k).2.1) (ascompatee1 convas l r k).2.2 hl]
      simp [pairKept]

/-- C12: `ascompatee` hits the fatal "error in shape" error if and only if the
two lists differ in length. When the lengths are equal it makes the
destinations and then the sources safe, pairs the two lists position by
position (leaving out, for ORETURN only, the positions whose destination and
source are the same safe expression), builds with `ascompatee1` one assignment
for each pair, in order, and its result is that of `reorder3` on exactly this
list of assignments. -/
theorem ascompatee_shape (op : Op) (sameSafe : Node → Node → Bool) (safeExpr : SafeExpr)
    (convas : Convas) (nl nr : List Node) (k : Nat) :
    (ascompatee op sameSafe safeExpr convas nl nr k = .error "error in shape" ↔
      nl.length ≠ nr.length) ∧
    (nl.length = nr.length →
      ∃ (nlS nrS : List Node) (i1 i2 i3 : List Stmt) (k1 k2 k3 : Nat) (nn : List AssignStmt),
        safeExprList safeExpr nl k = (nlS, i1, k1) ∧
        safeExprList safeExpr nr k1 = (nrS, i2, k2) ∧
        pairKept convas (keptPairs op sameSafe nlS nrS) k2 = (nn, i3, k3) ∧
        ascompatee op sameSafe safeExpr convas nl nr k =
          (reorder3 convas k3 nn >>= fun out => pure (out, i1 ++ i2 ++ i3)) ∧
        List.Forall₂ (PairedBy convas) (keptPairs op sameSafe nlS nrS) nn ∧
        (∀ a ∈ nn, ∃ (i : Nat) (l r : Node),
          nlS[i]? = some l ∧ nrS[i]? = some r ∧ PairedBy convas (l, r) a) ∧
        (op ≠ .ORETURN → keptPairs op sameSafe nlS nrS = nlS.zip nrS ∧
          nn.length = nl.length)) := by
  obtain ⟨nn, ini, k', restL, restR, h1, h2, h3⟩ :=
    ascompatee_eq op sameSafe safeExpr convas nl nr k
  have hne : reorder3 convas k' nn >>= (fun out => pure (out, ini))
      ≠ (.error "error in shape" : Except String (List Stmt × List Stmt)) := by
    intro h
    rcases bind_error h with h4 | ⟨a, _, h5⟩
    · exact seqError_ne_shape (reorder3_error _ _ _ _ h4)
    · simp [pure, Except.pure] at h5
  constructor
  · rw [h1]
    by_cases hl : nl.length = nr.length
    · obtain ⟨rfl, rfl⟩ := h2.2 hl
      simp only [List.isEmpty_nil, Bool.not_true, Bool.or_self, Bool.false_eq_true, if_false]
      exact ⟨fun h => absurd h hne, fun h => absurd hl h⟩
    · have : ¬ (restL = [] ∧ restR = []) := fun h => hl (h2.1 h)
      have hc : (!restL.isEmpty || !restR.isEmpty) = true := by
        cases restL <;> cases restR <;> simp_all
      simp [hc, hl]
  · intro hl
    have hlS : (safeExprList safeExpr nl k).1.length =
        (safeExprList safeExpr nr (safeExprList safeExpr nl k).2.2).1.length := by
      rw [safeExprList_length, safeExprList_length, hl]
    have hf := pairKept_forall2 convas
      (keptPairs op sameSafe (safeExprList safeExpr nl k).1
        (safeExprList safeExpr nr (safeExprList safeExpr nl k).2.2).1)
      (safeExprList safeExpr nr (safeExprList safeExpr nl k).2.2).2.2
    refine ⟨_, _, _, _, _, _, _, _, _, rfl, rfl, rfl, ?_, hf, ?_, ?_⟩
    · simp only [ascompatee]
      rw [ascompateeLoop_pairKept op sameSafe convas _ _ [] [] _ hlS]
      simp
    · intro a ha
      obtain ⟨p, hp, hpa⟩ := forall2_mem_right _ _ _ hf a ha
      have hz := (List.mem_filter.1 hp).1
      obtain ⟨i, hi1, hi2⟩ := mem_zip_index _ _ p hz
      exact ⟨i, p.1, p.2, hi1, hi2, hpa⟩
    · intro hop
      have hk : keptPairs op sameSafe (safeExprList safeExpr nl k).1
          (safeExprList safeExpr nr (safeExprList safeExpr nl k).2.2).1 =
          (safeExprList safeExpr nl k).1.zip
            (safeExprList safeExpr nr (safeExprList safeExpr nl k).2.2).1 := by
        have : (op == Op.ORETURN) = false := by simpa using hop
        simp [keptPairs, this]
      refine ⟨hk, ?_⟩
      rw [← List.Forall₂.length_eq hf, hk, List.length_zip, safeExprList_length,
        safeExprList_length, hl, Nat.min_self]

/-- C13: for lists of equal length, the assignments `ascompatee` passes to
`reorder3` are, in left-to-right order, one for every position that is kept:
when the operation is ORETURN, every position whose safe destination and safe
source are not the same safe expression, and otherwise every position. -/
theorem ascompatee_pairs (op : Op) (sameSafe : Node → Node → Bool) (safeExpr : SafeExpr)
    (convas : Convas) (nl nr : List Node) (k : Nat) (hlen : nl.length = nr.length) :
    ∃ nn ini k' nlS nrS,
      nlS = (safeExprList safeExpr nl k).1 ∧
      nrS = (safeExprList safeExpr nr (safeExprList safeExpr nl k).2.2).1 ∧
      ascompatee op sameSafe safeExpr convas nl nr k =
        (reorder3 convas k' nn >>= fun out => pure (out, ini)) ∧
      (op = .ORETURN → List.Forall₂ (PairedBy convas)
        ((nlS.zip nrS).filter (fun p => !sameSafe p.1 p.2)) nn) ∧
      (op ≠ .ORETURN → List.Forall₂ (PairedBy convas) (nlS.zip nrS) nn ∧
        nn.length = nl.length) := by
  obtain ⟨nn, ini, k', restL, restR, h1, h2, h3⟩ :=
    ascompatee_eq op sameSafe safeExpr convas nl nr k
  obtain ⟨rfl, rfl⟩ := h2.2 hlen
  refine ⟨nn, ini, k', _, _, rfl, rfl, ?_, ?_, ?_⟩
  · rw [h1]; simp
  · rintro rfl
    simpa [keptPairs] using h3
  · intro hop
    have hk : keptPairs op sameSafe (safeExprList safeExpr nl k).1
        (safeExprList safeExpr nr (safeExprList safeExpr nl k).2.2).1 =
        (safeExprList safeExpr nl k).1.zip
          (safeExprList safeExpr nr (safeExprList safeExpr nl k).2.2).1 := by
      have : (op == Op.ORETURN) = false := by simpa using hop
      simp [keptPairs, this]
    rw [hk] at h3
    refine ⟨h3, ?_⟩
    rw [← List.Forall₂.length_eq h3, List.length_zip, safeExprList_length, safeExprList_length,
      hlen, Nat.min_self]

/-- C15: `fncall l rt` returns true if and only if `l` has the flag `HasCall`,
or `l` is a map index expression, or the type of `l` is not identical to
`rt`. -/
theorem fncall_iff (hasCall : Node → Bool) (l : Node) (rt : Typ) :
    fncall hasCall l rt = true ↔
      (hasCall l = true ∨ (∃ t x i, l = .indexmap t x i) ∨ Identical l.typ rt = false) := by
  have hop : l.op = .OINDEXMAP ↔ ∃ t x i, l = .indexmap t x i := by
    constructor
    · intro h
      cases l <;> simp [Node.op] at h
      · rename_i o _ _; cases o <;> simp [UnOp.toOp] at h
      · rename_i o _ _ _; cases o <;> simp [BinOp.toOp] at h
      · exact ⟨_, _, _, rfl⟩
      · rename_i o _ _ _ _; cases o <;> simp at h
    · rintro ⟨t, x, i, rfl⟩; rfl
  unfold fncall
  by_cases h1 : hasCall l = true
  · simp [h1]
  · by_cases h2 : l.op = .OINDEXMAP
    · simp [h2, hop.1 h2]
    · have h2' : (l.op == Op.OINDEXMAP) = false := by simpa using h2
      have h3 : ¬ ∃ t x i, l = .indexmap t x i := fun h => h2 (hop.2 h)
      cases h4 : Identical l.typ rt <;> simp [h1, h2', h3, h4]

theorem fncall_false (hasCall : Node → Bool) (l : Node) (rt : Typ)
    (h : fncall hasCall l rt = false) : hasCall l = false ∧ l.typ = rt := by
  unfold fncall at h
  by_cases h1 : (hasCall l || l.op == Op.OINDEXMAP) = true
  · simp [h1] at h
  · have h1' : hasCall l = false := by
      cases hh : hasCall l
      · rfl
      · simp [hh] at h1
    by_cases h2 : Identical l.typ rt = true
    · exact ⟨h1', by simpa [Identical] using h2⟩
    · simp [h1, h2] at h

theorem ascompatetLoop_spec (hasCall : Node → Bool) (stmtHasCall : AssignStmt → Bool)
    (resultExpr : Typ → Int → Node) (fixedFrameSize : Int) (convas : Convas)
    (hconv : ∀ a k, IsBlank a.X = false → a.X.typ = a.Y.typ → convas a k = (a, [], k))
    (hrt : ∀ t o, (resultExpr t o).typ = t)
    (hcall : ∀ x t o, hasCall x = false → stmtHasCall ⟨x, resultExpr t o⟩ = false)
    (htmp : ∀ t j, hasCall (.name (Temp t j)) = false) :
    ∀ (nl : List Node) (nr : List Field) (nn mm : List Stmt) (k : Nat),
    nl.length = nr.length →
    ∃ blocks : List (Stmt × List Stmt),
      ascompatetLoop hasCall stmtHasCall resultExpr fixedFrameSize convas nl nr nn mm k =
        .ok (nn ++ blocks.map (fun b => b.1), mm ++ blocks.flatMap (fun b => b.2)) ∧
      List.Forall₂ (SplitOf hasCall resultExpr fixedFrameSize convas)
        ((nl.zip nr).filter (fun p => !IsBlank p.1)) blocks
  | [], nr, nn, mm, k, _ => ⟨[], by simp [ascompatetLoop], by simp⟩
  | l :: nl, [], nn, mm, k, h => by simp at h
  | l :: nl, r :: nr, nn, mm, k, h => by
    have hlen : nl.length = nr.length := by simpa using h
    by_cases hb : IsBlank l = true
    · obtain ⟨blocks, h1, h2⟩ := ascompatetLoop_spec hasCall stmtHasCall resultExpr
        fixedFrameSize convas hconv hrt hcall htmp nl nr nn mm k hlen
      refine ⟨blocks, ?_, ?_⟩
      · rw [ascompatetLoop]; simp only [hb, if_true]; exact h1
      · simpa [hb] using h2
    · have hb' : IsBlank l = false := by simpa using hb
      cases hf : fncall hasCall l r.typ with
      | false =>
        obtain ⟨hc, ht⟩ := fncall_false hasCall l r.typ hf
        have hcv := hconv ⟨l, resultExpr r.typ (fixedFrameSize + r.Offset)⟩ k hb'
          (by simp [ht, hrt])
        obtain ⟨blocks, h1, h2⟩ := ascompatetLoop_spec hasCall stmtHasCall resultExpr
          fixedFrameSize convas hconv hrt hcall htmp nl nr
          (nn ++ [.as ⟨l, resultExpr r.typ (fixedFrameSize + r.Offset)⟩]) mm k hlen
        refine ⟨(.as ⟨l, resultExpr r.typ (fixedFrameSize + r.Offset)⟩, []) :: blocks, ?_, ?_⟩
        · rw [ascompatetLoop]
          simp only [hb', Bool.false_eq_true, if_false, hf, hcv, List.append_nil,
            hcall l _ _ hc]
          rw [h1]; simp
        · simp only [List.zip_cons_cons, List.filter_cons, hb', Bool.not_false, if_true]
          exact List.Forall₂.cons (Or.inl ⟨hf, rfl, rfl⟩) h2
      | true =>
        have hbt : IsBlank (.name (Temp r.typ k)) = false := by simp [IsBlank, Temp]
        have hcv := hconv ⟨.name (Temp r.typ k), resultExpr r.typ (fixedFrameSize + r.Offset)⟩
          (convas ⟨l, .name (Temp r.typ k)⟩ (k + 1)).2.2 hbt
          (by show (Temp r.typ k).typ = _; rw [hrt]; rfl)
        obtain ⟨blocks, h1, h2⟩ := ascompatetLoop_spec hasCall stmtHasCall resultExpr
          fixedFrameSize convas hconv hrt hcall htmp nl nr
          (nn ++ [.as ⟨.name (Temp r.typ k), resultExpr r.typ (fixedFrameSize + r.Offset)⟩])
          (mm ++ (convas ⟨l, .name (Temp r.typ k)⟩ (k + 1)).2.1 ++
            [.as (convas ⟨l, .name (Temp r.typ k)⟩ (k + 1)).1])
          (convas ⟨l, .name (Temp r.typ k)⟩ (k + 1)).2.2 hlen
        refine ⟨(.as ⟨.name (Temp r.typ k), resultExpr r.typ (fixedFrameSize + r.Offset)⟩,
          (convas ⟨l, .name (Temp r.typ k)⟩ (k + 1)).2.1 ++
            [.as (convas ⟨l, .name (Temp r.typ k)⟩ (k + 1)).1]) :: blocks, ?_, ?_⟩
        · rw [ascompatetLoop]
          simp only [hb', Bool.false_eq_true, if_false, hf, if_true, hcv, List.append_nil,
            hcall _ _ _ (htmp r.typ k)]
          rw [h1]; simp
        · simp only [List.zip_cons_cons, List.filter_cons, hb', Bool.not_false, if_true]
          exact List.Forall₂.cons (Or.inr ⟨hf, k, k + 1, rfl, rfl⟩) h2

/-- C14: when the destination list and the result type have the same number of
entries, `ascompatet` returns the reads of the result fields followed by the
deferred writes: a blank destination produces nothing, a destination for which
`fncall` is false produces one direct read of its field at offset
`FixedFrameSize` plus the field offset, and a destination for which `fncall` is
true produces a read of its field into a temporary among the reads and the
converted write of that temporary to the destination among the deferred
writes. When the numbers differ it hits the fatal count-mismatch error. The
collaborators are assumed to behave as follows: `convas` leaves an assignment
between identical types as it is, a result expression has the type it was built
with and no call, and a temporary has no call. -/
theorem ascompatet_order (hasCall : Node → Bool) (stmtHasCall : AssignStmt → Bool)
    (resultExpr : Typ → Int → Node) (fixedFrameSize : Int) (convas : Convas)
    (hconv : ∀ a k, IsBlank a.X = false → a.X.typ = a.Y.typ → convas a k = (a, [], k))
    (hrt : ∀ t o, (resultExpr t o).typ = t)
    (hcall : ∀ x t o, hasCall x = false → stmtHasCall ⟨x, resultExpr t o⟩ = false)
    (htmp : ∀ t j, hasCall (.name (Temp t j)) = false)
    (nl : List Node) (nr : List Field) (k : Nat) :
    (nl.length ≠ nr.length →
      ascompatet hasCall stmtHasCall resultExpr fixedFrameSize convas nl nr k =
        .error "ascompatet: assignment count mismatch") ∧
    (nl.length = nr.length →
      ∃ blocks : List (Stmt × List Stmt),
        ascompatet hasCall stmtHasCall resultExpr fixedFrameSize convas nl nr k =
          .ok (blocks.map (fun b => b.1) ++ blocks.flatMap (fun b => b.2)) ∧
        List.Forall₂ (SplitOf hasCall resultExpr fixedFrameSize convas)
          ((nl.zip nr).filter (fun p => !IsBlank p.1)) blocks) := by
  constructor
  · intro h
    simp [ascompatet, h]
  · intro h
    obtain ⟨blocks, h1, h2⟩ := ascompatetLoop_spec hasCall stmtHasCall resultExpr
      fixedFrameSize convas hconv hrt hcall htmp nl nr [] [] k h
    refine ⟨blocks, ?_, h2⟩
    simp only [ascompatet, h, bne_self_eq_false, Bool.false_eq_true, if_false, h1, bind,
      Except.bind, List.nil_append, pure, Except.pure]

theorem ascompatee_error (op : Op) (sameSafe : Node → Node → Bool) (safeExpr : SafeExpr)
    (convas : Convas) (nl nr : List Node) (k : Nat) (e : String)
    (h : ascompatee op sameSafe safeExpr convas nl nr k = .error e) :
    e = "error in shape" ∨ SeqError e := by
  obtain ⟨nn, ini, k', restL, restR, h1, _, _⟩ :=
    ascompatee_eq op sameSafe safeExpr convas nl nr k
  rw [h1] at h
  split at h
  · left; simpa using h.symm
  · right
    rcases bind_error h with h4 | ⟨a, _, h5⟩
    · exact reorder3_error _ _ _ _ h4
    · simp [pure, Except.pure] at h5

theorem walkReturnPositional_error (c : ReturnEnv) : ∀ (lhs : List Name) (rhs : List Node)
    (res init : List Stmt) (k : Nat) (e : String),
    walkReturnPositional c lhs rhs res init k = .error e → e = "index out of range"
  | [], _, res, init, k, e, h => by simp [walkReturnPositional] at h
  | _ :: _, [], res, init, k, e, h => by simpa [walkReturnPositional] using h.symm
  | nl :: lhs, r :: rhs, res, init, k, e, h => by
    rw [walkReturnPositional] at h
    exact walkReturnPositional_error c lhs rhs _ _ _ e h

/-- C16 (amended): `walkReturn` hits the fatal error about the number of return
arguments if and only if the statement returns at least one expression, the
function has named results and more than one expression is returned or an
output parameter is on the heap, and the number of returned expressions
differs from the number of output parameters declared before the first local
variable. -/
theorem walkReturn_fatal_iff (c : ReturnEnv) (fn : Func) (results : List Node) (k : Nat) :
    walkReturn c fn results k = .error "expected return arguments" ↔
      (results ≠ [] ∧
        ((fn.HasNamedResults = true ∧ 1 < results.length) ∨ fn.paramoutheap = true) ∧
        results.length ≠ (returnDests c fn.Dcl).length) := by
  unfold walkReturn
  by_cases h0 : results = []
  · subst h0; simp
  · have h0' : (results.length == 0) = false := by
      cases results with
      | nil => exact absurd rfl h0
      | cons _ _ => rfl
    simp only [h0', Bool.false_eq_true, if_false]
    by_cases hb : ((fn.HasNamedResults && decide (results.length > 1)) || fn.paramoutheap) = true
    · have hb' : (fn.HasNamedResults = true ∧ 1 < results.length) ∨ fn.paramoutheap = true := by
        simpa using hb
      simp only [hb, if_true]
      by_cases hl : results.length = (returnDests c fn.Dcl).length
      · simp only [hl, bne_self_eq_false, Bool.false_eq_true, if_false]
        constructor
        · intro h
          exfalso
          rcases bind_error h with h1 | ⟨a, _, h2⟩
          · rcases ascompatee_error _ _ _ _ _ _ _ _ h1 with h3 | h3
            · simp at h3
            · simp [SeqError] at h3
          · simp [pure, Except.pure] at h2
        · rintro ⟨_, _, h⟩; exact absurd rfl h
      · have : (results.length != (returnDests c fn.Dcl).length) = true := by simpa using hl
        simp only [this, if_true]
        exact ⟨fun _ => ⟨h0, hb', hl⟩, fun _ => trivial⟩
    · have hb' : ¬ ((fn.HasNamedResults = true ∧ 1 < results.length) ∨ fn.paramoutheap = true) := by
        simpa using hb
      simp only [hb, Bool.false_eq_true, if_false]
      constructor
      · intro h
        exfalso
        rcases bind_error h with h1 | ⟨a, _, h2⟩
        · have := walkReturnPositional_error _ _ _ _ _ _ _ h1
          simp at this
        · simp [pure, Except.pure] at h2
      · rintro ⟨_, h, _⟩; exact absurd h hb'

theorem isAppendOfMake_error (fl : Flags) (ptrSize : Nat) (tc : Bool) (n : Node) (e : String)
    (h : isAppendOfMake fl ptrSize tc n = .error e) : e = "missing typecheck" := by
  unfold isAppendOfMake at h
  repeat' split at h
  all_goals first | (simp at h; exact h.symm) | (simp at h; done) | cases h |
    (simp only [] at h; split at h <;> cases h)

theorem appendSlice_error (fl : Flags) (ptrSize : Nat) (wa : WalkArgs) (n : Node) (k : Nat)
    (e : String) (h : appendSlice fl ptrSize wa n k = .error e) : LowerError e := by
  cases n with
  | call op t f args d =>
    rcases hwa : wa args k with ⟨as, ini, k1⟩
    rcases as with _ | ⟨l1, _ | ⟨l2, rest⟩⟩
    · simp [appendSlice, hwa] at h; exact Or.inr (Or.inl h.symm)
    · simp [appendSlice, hwa] at h; exact Or.inr (Or.inl h.symm)
    · rcases hce : cheapExpr l2 ini k1 with ⟨l2c, ini', k2⟩
      obtain ⟨low, _, hlow, _⟩ :=
        appendSlice_shape fl ptrSize wa op t f args d k l1 l2 rest ini k1 l2c ini' k2 hwa hce
      rw [hlow] at h; cases h
  | _ => simp [appendSlice] at h; exact Or.inr (Or.inr (Or.inl h.symm))

theorem extendSlice_error (ptrSize : Nat) (wa : WalkArgs) (n : Node) (k : Nat)
    (e : String) (h : extendSlice ptrSize wa n k = .error e) : LowerError e := by
  unfold extendSlice at h
  split at h
  · rename_i a0 mt len cap rest d
    rcases hwa : wa (a0 :: Conv len TINT :: rest) k with ⟨as, ini, k1⟩
    rcases as with _ | ⟨l1, _ | ⟨l2, r⟩⟩
    · simp [hwa] at h; exact Or.inr (Or.inl h.symm)
    · simp [hwa] at h; exact Or.inr (Or.inl h.symm)
    · simp only [hwa] at h
      split at h <;> cases h
  · simp at h; exact Or.inr (Or.inr (Or.inr h.symm))

theorem lowerAppend_error (c : AssignEnv) (X call : Node) (d isMake : Bool) (st : WalkState)
    (e : String) (h : lowerAppend c X call d isMake st = .error e) : LowerError e := by
  unfold lowerAppend at h
  split at h
  · split at h
    · rename_i e2 he2
      simp only [Except.error.injEq] at h
      subst h
      exact extendSlice_error _ _ _ _ _ he2
    · simp at h
  · split at h
    · split at h
      · rename_i e2 he2
        simp only [Except.error.injEq] at h
        subst h
        exact appendSlice_error _ _ _ _ _ _ he2
      · simp at h
    · simp at h

theorem lowerAppend_log (c : AssignEnv) (X call : Node) (d isMake : Bool) (st st' : WalkState)
    (r : Node) (h : lowerAppend c X call d isMake st = .ok (r, st')) :
    ∃ e, st'.log = st.log ++ [e] ∧
      (e = .extendSlice call ∨ e = .appendSlice call ∨ e = .walkAppend call) := by
  unfold lowerAppend at h
  split at h
  · split at h
    · simp at h
    · simp only [Except.ok.injEq, Prod.mk.injEq] at h
      exact ⟨_, by rw [← h.2]; rfl, Or.inl rfl⟩
  · split at h
    · split at h
      · simp at h
      · simp only [Except.ok.injEq, Prod.mk.injEq] at h
        exact ⟨_, by rw [← h.2]; rfl, Or.inr (Or.inl rfl)⟩
    · simp only [Except.ok.injEq] at h
      have h2 : (st.run (Call.walkAppend call)
          (c.walkAppend call ⟨X, call⟩ st.next)).2 = st' := by rw [h]
      exact ⟨_, by rw [← h2]; rfl, Or.inr (Or.inr rfl)⟩

theorem walkAssignConvas_spec (c : AssignEnv) (X y : Node) (st : WalkState) :
    (∃ a : AssignStmt, (walkAssignConvas c X y st).1 = .ok (.assign a.X (some a.Y))) ∧
    (walkAssignConvas c X y st).2.log = st.log ++ [.convas ⟨X, y⟩] :=
  ⟨⟨_, rfl⟩, rfl⟩

theorem walkAssignAppend_error (c : AssignEnv) (X : Node) (t : Typ) (f : Fn)
    (args : List Node) (d : Bool) (st : WalkState) (e : String)
    (h : (walkAssignAppend c X t f args d st).1 = .error e) : LowerError e := by
  unfold walkAssignAppend at h
  simp only at h
  split at h
  · rename_i e' he'
    simp only [Except.error.injEq] at h
    subst h
    exact Or.inl (isAppendOfMake_error _ _ _ _ _ he')
  · split at h
    · rename_i e' he'
      simp only [Except.error.injEq] at h
      subst h
      exact lowerAppend_error _ _ _ _ _ _ _ he'
    · simp at h
    · rw [(walkAssignConvas_spec _ _ _ _).1.choose_spec] at h
      cases h

theorem or3_widen {a b c d : Prop} (h : a ∨ b ∨ c) : a ∨ b ∨ c ∨ d := by
  tauto

theorem walkAssignAppend_log (c : AssignEnv) (X : Node) (t : Typ) (f : Fn)
    (args : List Node) (d : Bool) (st : WalkState) :
    ∃ extra, (walkAssignAppend c X t f args d st).2.log = st.log ++ extra ∧
      ∀ e ∈ extra, e = .errorf ∨ e = .extendSlice (.call .OAPPEND t f args d) ∨
        e = .appendSlice (.call .OAPPEND t f args d) ∨
        e = .walkAppend (.call .OAPPEND t f args d) ∨ ∃ y, e = .convas ⟨X, y⟩ := by
  obtain ⟨pre, hpre, hp⟩ : ∃ pre : List Call,
      (if c.notInHeap t.Elem = true then { st with log := st.log ++ [Call.errorf] } else st).log
        = st.log ++ pre ∧ ∀ e ∈ pre, e = Call.errorf := by
    by_cases hn : c.notInHeap t.Elem = true
    · exact ⟨[.errorf], by simp [hn], by simp⟩
    · exact ⟨[], by simp [hn], by simp⟩
  unfold walkAssignAppend
  simp only
  split
  · exact ⟨pre, hpre, fun e he => Or.inl (hp e he)⟩
  · split
    · exact ⟨pre, hpre, fun e he => Or.inl (hp e he)⟩
    · rename_i hl
      obtain ⟨e1, h1, h2⟩ := lowerAppend_log _ _ _ _ _ _ _ _ hl
      refine ⟨pre ++ [e1], by simp [h1, hpre], ?_⟩
      intro e he
      rcases List.mem_append.1 he with he | he
      · exact Or.inl (hp e he)
      · simp only [List.mem_singleton] at he
        subst he
        exact Or.inr (or3_widen h2)
    · rename_i r' st2 _ hl
      obtain ⟨e1, h1, h2⟩ := lowerAppend_log _ _ _ _ _ _ _ _ hl
      refine ⟨pre ++ [e1, .convas ⟨X, r'⟩], ?_, ?_⟩
      · rw [(walkAssignConvas_spec _ _ _ _).2, h1, hpre]; simp
      · intro e he
        rcases List.mem_append.1 he with he | he
        · exact Or.inl (hp e he)
        · simp only [List.mem_cons, List.mem_singleton, List.not_mem_nil, or_false] at he
          rcases he with rfl | rfl
          · exact Or.inr (or3_widen h2)
          · exact Or.inr (Or.inr (Or.inr (Or.inr ⟨_, rfl⟩)))

theorem walkAssignTail_error (c : AssignEnv) (X : Node) (Y : Option Node) (st : WalkState)
    (e : String) (h : (walkAssignTail c X Y st).1 = .error e) : LowerError e := by
  unfold walkAssignTail at h
  simp only [WalkState.run] at h
  split at h
  · simp at h
  · split at h
    · simp at h
    · split at h
      · simp at h
      · split at h
        · simp at h
        · exact walkAssignAppend_error _ _ _ _ _ _ _ _ h
        · rw [(walkAssignConvas_spec _ _ _ _).1.choose_spec] at h
          cases h

theorem walkAssignTail_append_log (c : AssignEnv) (X : Node) (t : Typ) (f : Fn)
    (args : List Node) (d : Bool) (st : WalkState) :
    ∃ extra, (walkAssignTail c X (some (.call .OAPPEND t f args d)) st).2.log = st.log ++ extra ∧
      ∀ e ∈ extra, AppendTailCall X (.call .OAPPEND t f args d) e := by
  unfold walkAssignTail
  simp only [WalkState.run]
  split
  · exact ⟨[_], rfl, by simp [AppendTailCall]⟩
  · split
    · exact ⟨[_], rfl, by simp [AppendTailCall]⟩
    · obtain ⟨extra, h1, h2⟩ := walkAssignAppend_log c X t f args d
        { st with init := st.init ++ (c.oaslit X (some (.call .OAPPEND t f args d)) st.next).2.1,
                  next := (c.oaslit X (some (.call .OAPPEND t f args d)) st.next).2.2,
                  log := st.log ++ [.oaslit X (some (.call .OAPPEND t f args d))] }
      refine ⟨.oaslit X (some (.call .OAPPEND t f args d)) :: extra, ?_, ?_⟩
      · rw [h1]; simp
      · intro e he
        rcases List.mem_cons.1 he with rfl | he
        · exact Or.inl rfl
        · exact Or.inr (h2 e he)

theorem mapAppendOf_pattern (sameSafe : Node → Node → Bool) (tm : Typ) (m k : Node) (t : Typ)
    (f : Fn) (args : List Node) (d : Bool) :
    mapAppendOf sameSafe (.indexmap tm m k) (some (.call .OAPPEND t f args d)) =
      match args with
      | a0 :: _ =>
        if sameSafe (.indexmap tm m k) a0 then .ok (some (.call .OAPPEND t f args d))
        else .error "not same expressions"
      | [] => .error "index out of range" := by
  cases args with
  | nil => simp [mapAppendOf, Node.op]
  | cons a0 rest => cases h : sameSafe (.indexmap tm m k) a0 <;> simp [mapAppendOf, Node.op, h]

theorem walkAssignHead_error (c : AssignEnv) (ninit : List Stmt) (n : AssignNode)
    (st : WalkState) (e : String) (h : mapAppendOf c.sameSafe n.X n.Y = .error e) :
    walkAssignHead c ninit n st = (.error e, { st with init := st.init ++ ninit }) := by
  cases n <;> simp only [AssignNode.X, AssignNode.Y] at h <;> simp [walkAssignHead, h]

theorem walkAssignHead_ok (c : AssignEnv) (ninit : List Stmt) (n : AssignNode)
    (st : WalkState) (ma : Option Node) (h : mapAppendOf c.sameSafe n.X n.Y = .ok ma) :
    ∃ l1 l2 k1 k2 i1 i2,
      c.walkExpr n.X st.next = (l1, i1, k1) ∧ c.safeExpr l1 k1 = (l2, i2, k2) ∧
      walkAssignHead c ninit n st =
        (.ok (l2,
          AssignNode.casesOn (motive := fun _ => Option Node) n
            (fun _ Y => (ma.map (fun r => some (setArg0 r l2))).getD Y)
            (fun op _ Y => some (c.typecheckExpr (.binary op .void l2
              ((ma.map (fun r => setArg0 r l2)).getD Y))))),
         { init := st.init ++ ninit ++ i1 ++ i2, next := k2, wbpos := st.wbpos,
           log := st.log ++ [.walkExpr n.X, .safeExpr l1] }) := by
  cases n <;> cases ma <;> simp only [AssignNode.X, AssignNode.Y] at h ⊢ <;>
    exact ⟨_, _, _, _, _, _, rfl, rfl, by simp [walkAssignHead, h, WalkState.run]⟩

theorem lowerError_ne_same : ¬ LowerError "not same expressions" := by
  simp [LowerError]

/-- C17: for an assignment whose destination is a map index expression and
whose source is an append call, `walkAssign` hits the fatal
"not same expressions" error if and only if the destination and the first
argument of the append are not the same safe expression; and when it does, no
collaborator has been called: neither the destination nor the source has been
lowered. -/
theorem walkAssign_not_same (c : AssignEnv) (ninit : List Stmt) (n : AssignNode)
    (st : WalkState) (tm : Typ) (m k : Node) (t : Typ) (f : Fn) (args : List Node) (d : Bool)
    (hX : n.X = .indexmap tm m k) (hY : n.Y = some (.call .OAPPEND t f args d)) :
    ((walkAssign c ninit n st).1 = .error "not same expressions" ↔
      ∃ a0 rest, args = a0 :: rest ∧ c.sameSafe (.indexmap tm m k) a0 = false) ∧
    ((walkAssign c ninit n st).1 = .error "not same expressions" →
      (walkAssign c ninit n st).2.log = st.log) := by
  have hm := mapAppendOf_pattern c.sameSafe tm m k t f args d
  rw [← hX, ← hY] at hm
  cases args with
  | nil =>
    simp only at hm
    have hh := walkAssignHead_error c ninit n st _ hm
    simp [walkAssign, hh]
  | cons a0 rest =>
    simp only at hm
    cases hs : c.sameSafe (.indexmap tm m k) a0 with
    | false =>
      rw [← hX] at hs
      simp only [hs, Bool.false_eq_true, if_false] at hm
      have hh := walkAssignHead_error c ninit n st _ hm
      rw [hX] at hs
      simp [walkAssign, hh, hs]
    | true =>
      have hs' := hs
      rw [← hX] at hs'
      simp only [hs', if_true] at hm
      obtain ⟨l1, l2, k1, k2, i1, i2, _, _, hh⟩ := walkAssignHead_ok c ninit n st _ hm
      have hne : (walkAssign c ninit n st).1 ≠ .error "not same expressions" := by
        intro h
        simp only [walkAssign, hh] at h
        exact lowerError_ne_same (walkAssignTail_error _ _ _ _ _ h)
      exact ⟨⟨fun h => absurd h hne, fun ⟨a, r, h1, h2⟩ => by
        simp only [List.cons.injEq] at h1
        rw [← h1.1, hs] at h2
        cases h2⟩, fun h => absurd h hne⟩

/-- C18: for an assignment `m[k] = append(m[k], ...)` that passes the identity
check, `walkAssign` lowers the destination exactly once, by one call of
`walkExpr` followed by one call of `safeExpr`; the lowered node is both the
destination of the assignment and the first argument of the append call that
is handed on, and none of the calls made afterwards lowers an expression by
`walkExpr` or `safeExpr`: the append lowerings receive the call with the
lowered node as first argument. -/
theorem walkAssign_map_append_once (c : AssignEnv) (ninit : List Stmt) (st : WalkState)
    (tm : Typ) (m k : Node) (t : Typ) (f : Fn) (a0 : Node) (rest : List Node) (d : Bool)
    (hs : c.sameSafe (.indexmap tm m k) a0 = true) :
    ∃ l1 l2 st1 extra,
      l1 = (c.walkExpr (.indexmap tm m k) st.next).1 ∧
      l2 = (c.safeExpr l1 (c.walkExpr (.indexmap tm m k) st.next).2.2).1 ∧
      walkAssignHead c ninit
          (.as (.indexmap tm m k) (some (.call .OAPPEND t f (a0 :: rest) d))) st =
        (.ok (l2, some (.call .OAPPEND t f (l2 :: rest) d)), st1) ∧
      st1.log = st.log ++ [.walkExpr (.indexmap tm m k), .safeExpr l1] ∧
      walkAssign c ninit (.as (.indexmap tm m k) (some (.call .OAPPEND t f (a0 :: rest) d))) st =
        walkAssignTail c l2 (some (.call .OAPPEND t f (l2 :: rest) d)) st1 ∧
      (walkAssign c ninit
          (.as (.indexmap tm m k) (some (.call .OAPPEND t f (a0 :: rest) d))) st).2.log =
        st.log ++ [.walkExpr (.indexmap tm m k), .safeExpr l1] ++ extra ∧
      (∀ e ∈ extra, AppendTailCall l2 (.call .OAPPEND t f (l2 :: rest) d) e) ∧
      (∀ e ∈ extra, ∀ x, e ≠ .walkExpr x ∧ e ≠ .safeExpr x) := by
  have hm := mapAppendOf_pattern c.sameSafe tm m k t f (a0 :: rest) d
  simp only [hs, if_true] at hm
  obtain ⟨l1, l2, k1, k2, i1, i2, h1, h2, hh⟩ := walkAssignHead_ok c ninit
    (.as (.indexmap tm m k) (some (.call .OAPPEND t f (a0 :: rest) d))) st _ hm
  simp only [AssignNode.X, setArg0, Option.map_some', Option.getD_some] at h1 h2 hh
  obtain ⟨extra, he1, he2⟩ := walkAssignTail_append_log c l2 t f (l2 :: rest) d
    { init := st.init ++ ninit ++ i1 ++ i2, next := k2, wbpos := st.wbpos,
      log := st.log ++ [.walkExpr (.indexmap tm m k), .safeExpr l1] }
  have hl1 : l1 = (c.walkExpr (.indexmap tm m k) st.next).1 := by rw [h1]
  have hk1 : k1 = (c.walkExpr (.indexmap tm m k) st.next).2.2 := by rw [h1]
  have hl2 : l2 = (c.safeExpr l1 (c.walkExpr (.indexmap tm m k) st.next).2.2).1 := by
    rw [← hk1, h2]
  refine ⟨l1, l2, _, extra, hl1, hl2, hh, rfl, ?_, ?_, he2, ?_⟩
  · simp only [walkAssign, hh]
  · simp only [walkAssign, hh]
    rw [he1]
  · intro e he x
    rcases he2 e he with h | h | h | h | h | ⟨y, h⟩ <;> subst h <;> simp

/-- C19 (amended): for a compound assignment `x op= y`, `walkAssign` first
lowers the destination, by one call of `walkExpr` followed by one call of
`safeExpr`, and then rewrites the statement to `l = l op y`, where `l` is the
lowered destination: the one lowered node is the destination of the
assignment and the left operand of the binary expression, and the
assignment handed on to the rest of `walkAssign` is this one. -/
theorem walkAssign_compound (c : AssignEnv) (ninit : List Stmt) (op : BinOp) (x y : Node)
    (st : WalkState) (ma : Option Node)
    (hma : mapAppendOf c.sameSafe x (some y) = .ok ma) :
    ∃ l1 l2 y' st1,
      l1 = (c.walkExpr x st.next).1 ∧
      l2 = (c.safeExpr l1 (c.walkExpr x st.next).2.2).1 ∧
      y' = (ma.map (fun r => setArg0 r l2)).getD y ∧
      walkAssignHead c ninit (.asop op x y) st =
        (.ok (l2, some (c.typecheckExpr (.binary op .void l2 y'))), st1) ∧
      st1.log = st.log ++ [.walkExpr x, .safeExpr l1] ∧
      walkAssign c ninit (.asop op x y) st =
        walkAssignTail c l2 (some (c.typecheckExpr (.binary op .void l2 y'))) st1 := by
  obtain ⟨l1, l2, k1, k2, i1, i2, h1, h2, hh⟩ :=
    walkAssignHead_ok c ninit (.asop op x y) st ma hma
  simp only [AssignNode.X] at h1 h2 hh
  have hl1 : l1 = (c.walkExpr x st.next).1 := by rw [h1]
  have hk1 : k1 = (c.walkExpr x st.next).2.2 := by rw [h1]
  have hl2 : l2 = (c.safeExpr l1 (c.walkExpr x st.next).2.2).1 := by rw [← hk1, h2]
  refine ⟨l1, l2, _, _, hl1, hl2, rfl, hh, rfl, ?_⟩
  simp only [walkAssign, hh]

/-! ## String comparison -/

theorem strLess_cons (x y : Fin 256) (a b : GoString) :
    strLess (x :: a) (y :: b) = (decide (x < y) || (decide (x = y) && strLess a b)) := by
  rw [strLess]
  by_cases h1 : x < y
  · simp [h1]
  · by_cases h2 : y < x
    · have hne : x ≠ y := h2.ne'
      simp [h1, h2, hne]
    · have : x = y := le_antisymm (not_lt.1 h2) (not_lt.1 h1)
      simp [h1, h2, this]

theorem strLess_prefix : ∀ (a t : GoString), t ≠ [] → strLess a (a ++ t) = true := by
  intro a
  induction a with
  | nil => intro t ht; cases t with
    | nil => exact absurd rfl ht
    | cons y t => rfl
  | cons x a ih => intro t ht; simp [strLess_cons, ih t ht]

theorem strLess_differ : ∀ (p : GoString) (x y : Fin 256) (s t : GoString), x < y →
    strLess (p ++ x :: s) (p ++ y :: t) = true := by
  intro p
  induction p with
  | nil => intro x y s t h; simp [strLess_cons, h]
  | cons z p ih => intro x y s t h; simp [strLess_cons, ih x y s t h]

theorem lexLess_of_strLess : ∀ (a b : GoString), strLess a b = true → LexLess a b := by
  intro a
  induction a with
  | nil =>
    intro b h
    cases b with
    | nil => simp [strLess] at h
    | cons y b => exact Or.inl ⟨y :: b, by simp, rfl⟩
  | cons x a ih =>
    intro b h
    cases b with
    | nil => simp [strLess] at h
    | cons y b =>
      rw [strLess_cons] at h
      simp only [Bool.or_eq_true, Bool.and_eq_true, decide_eq_true_eq] at h
      rcases h with h | ⟨hxy, h⟩
      · exact Or.inr ⟨[], x, y, a, b, rfl, rfl, h⟩
      · subst hxy
        rcases ih b h with ⟨t, ht, hb⟩ | ⟨p, u, v, s, t, ha, hb, huv⟩
        · exact Or.inl ⟨t, ht, by rw [hb]; rfl⟩
        · exact Or.inr ⟨x :: p, u, v, s, t, by rw [ha]; rfl, by rw [hb]; rfl, huv⟩

theorem strLess_iff (a b : GoString) : strLess a b = true ↔ LexLess a b := by
  constructor
  · exact lexLess_of_strLess a b
  · rintro (⟨t, ht, hb⟩ | ⟨p, x, y, s, t, ha, hb, hxy⟩)
    · rw [hb]; exact strLess_prefix a t ht
    · rw [ha, hb]; exact strLess_differ p x y s t hxy

theorem strLess_total : ∀ (a b : GoString), strLess a b = false → strLess b a = false →
    a = b := by
  intro a
  induction a with
  | nil => intro b h1 h2; cases b with
    | nil => rfl
    | cons y b => simp [strLess] at h1
  | cons x a ih =>
    intro b h1 h2
    cases b with
    | nil => simp [strLess] at h2
    | cons y b =>
      rw [strLess_cons] at h1 h2
      simp only [Bool.or_eq_false_iff, Bool.and_eq_false_iff, decide_eq_false_iff_not] at h1 h2
      have hxy : x = y := le_antisymm (not_lt.1 h2.1) (not_lt.1 h1.1)
      subst hxy
      simp only [not_true_eq_false, false_or] at h1 h2
      rw [ih b h1.2 h2.2]

theorem strLess_irrefl : ∀ (a : GoString), strLess a a = false := by
  intro a
  induction a with
  | nil => rfl
  | cons x a ih => simp [strLess_cons, ih]

theorem strLess_asymm : ∀ (a b : GoString), strLess a b = true → strLess b a = false := by
  intro a
  induction a with
  | nil => intro b h; cases b with
    | nil => rfl
    | cons y b => rfl
  | cons x a ih =>
    intro b h
    cases b with
    | nil => simp [strLess] at h
    | cons y b =>
      rw [strLess_cons] at h ⊢
      simp only [Bool.or_eq_true, Bool.and_eq_true, decide_eq_true_eq] at h
      rcases h with h | ⟨hxy, h⟩
      · simp [not_lt.2 h.le, h.ne']
      · subst hxy; simp [ih b h]

/-- C21: for all strings `a` and `b`, `Compare a b` is 0 exactly when `a = b`,
-1 exactly when `a` comes before `b` in lexicographic byte order, and +1
exactly when `b` comes before `a`; it never takes any other value. -/
theorem Compare_trichotomy (a b : GoString) :
    (Compare a b = 0 ↔ a = b) ∧ (Compare a b = -1 ↔ LexLess a b) ∧
    (Compare a b = 1 ↔ LexLess b a) ∧
    (Compare a b = 0 ∨ Compare a b = -1 ∨ Compare a b = 1) := by
  rw [← strLess_iff a b, ← strLess_iff b a]
  unfold Compare
  cases h1 : strLess a b
  · cases h2 : strLess b a
    · have := strLess_total a b h1 h2
      simp [this]
    · have hne : a ≠ b := by
        rintro rfl
        rw [strLess_irrefl] at h2
        exact absurd h2 (by simp)
      simp [hne]
  · have h2 := strLess_asymm a b h1
    have hne : a ≠ b := by
      rintro rfl
      rw [strLess_irrefl] at h1
      exact absurd h1 (by simp)
    simp [h2, hne]

/-! ## Field selections and the traversal of `anyAddrTaken` -/

theorem anyAddrTakenCond_odot (n : Node) (e : String) :
    anyAddrTakenCond n = .error e ↔ (n.op = .ODOT ∧ e = "anyAddrTaken unexpected ODOT") := by
  cases n with
  | unary o t x => cases o <;> simp [anyAddrTakenCond, Node.op, UnOp.toOp]
  | binary o t x y => cases o <;> simp [anyAddrTakenCond, Node.op, BinOp.toOp]
  | call o t f args d => cases o <;> simp [anyAddrTakenCond, Node.op]
  | dot t x s => simp [anyAddrTakenCond, Node.op, eq_comm]
  | _ => simp [anyAddrTakenCond, Node.op]

theorem stripDots_op (r : Node) : (stripDots r).op ≠ .ODOT := by
  induction r using Node.induct with
  | hdot t x s ih => simpa [stripDots] using ih
  | hun o t x _ => cases o <;> simp [stripDots, Node.op, UnOp.toOp]
  | hbin o t x y _ _ => cases o <;> simp [stripDots, Node.op, BinOp.toOp]
  | hcall o t f args d _ => cases o <;> simp [stripDots, Node.op]
  | _ => simp [stripDots, Node.op]

theorem anyAddrTaken_exposed : ∀ (n : Node) (e : String), anyAddrTaken n = .error e →
    exposedDot n = true := by
  intro n
  induction n using Node.induct with
  | hname v => intro e h; simp [anyAddrTaken, Any, anyAddrTakenCond] at h
  | hlit t k v => intro e h; simp [anyAddrTaken, Any, anyAddrTakenCond, Node.op] at h
  | hnil t => intro e h; simp [anyAddrTaken, Any, anyAddrTakenCond, Node.op] at h
  | htp t => intro e h; simp [anyAddrTaken, Any, anyAddrTakenCond, Node.op] at h
  | hun o t x ih =>
    intro e h
    cases o <;>
      simp [anyAddrTaken, Any, anyAddrTakenCond, Node.op, UnOp.toOp, bind, Except.bind, pure,
        Except.pure, exposedDot, lookedThrough] at h ⊢ <;>
      exact ih e h
  | hbin o t x y ihx ihy =>
    intro e h
    cases o <;>
      simp only [anyAddrTaken, Any, anyAddrTakenCond, Node.op, BinOp.toOp, exposedDot,
        lookedThrough, Bool.true_and, Bool.false_and, Bool.or_eq_true] at h ⊢ <;>
      first
      | (simp [bind, Except.bind, pure, Except.pure] at h; done)
      | (simp only [bind, Except.bind, pure, Except.pure] at h
         rcases seq_error _ _ _ h with h1 | h2
         · exact Or.inl (ihx e h1)
         · exact Or.inr (ihy e h2))
  | hdot t x s _ => intro e _; rfl
  | hdotptr t x s _ =>
    intro e h
    simp [anyAddrTaken, Any, anyAddrTakenCond, Node.op, bind, Except.bind, pure, Except.pure] at h
  | hindex t x i b _ _ =>
    intro e h
    simp [anyAddrTaken, Any, anyAddrTakenCond, Node.op, bind, Except.bind, pure, Except.pure] at h
  | hindexmap t x i _ _ =>
    intro e h
    simp [anyAddrTaken, Any, anyAddrTakenCond, Node.op, bind, Except.bind, pure, Except.pure] at h
  | hslice t x lo hi mx b _ _ _ _ =>
    intro e h
    simp [anyAddrTaken, Any, anyAddrTakenCond, Node.op, bind, Except.bind, pure, Except.pure] at h
  | hcall o t f args d _ =>
    intro e h
    cases o <;>
      simp [anyAddrTaken, Any, anyAddrTakenCond, Node.op, bind, Except.bind, pure,
        Except.pure] at h
  | hmake t l c _ _ =>
    intro e h
    simp [anyAddrTaken, Any, anyAddrTakenCond, Node.op, bind, Except.bind, pure, Except.pure] at h

theorem aliasedLoop_error_class (r : Node) : ∀ (all : List AssignStmt) (mw : Bool) (e : String),
    aliasedLoop r all mw = .error e → e = "unexpected class" := by
  intro all
  induction all with
  | nil => intro mw e h; simp [aliasedLoop] at h
  | cons a rest ih =>
    intro mw e h
    rw [aliasedLoop_cons] at h
    cases hc : classOK a <;> cases hh : hitBy r a <;> simp [hc, hh] at h
    · exact h.symm
    · exact h.symm
    · exact ih _ _ h

theorem aliased_error_odot (r : Node) (all : List AssignStmt)
    (h : aliased (some r) all = .error "anyAddrTaken unexpected ODOT") :
    anyAddrTaken (stripDots r) = .error "anyAddrTaken unexpected ODOT" := by
  simp only [aliased] at h
  rcases bind_error h with h1 | ⟨⟨hit, mw⟩, _, h2⟩
  · exact absurd (aliasedLoop_error_class _ _ _ _ h1) (by decide)
  · cases hit
    · cases mw
      · simp [pure, Except.pure, bind, Except.bind] at h2
      · cases ha : anyAddrTaken (stripDots r) with
        | error e' =>
          simp [ha, pure, Except.pure, bind, Except.bind] at h2
          rw [h2]
        | ok b => cases b <;> simp [ha, pure, Except.pure, bind, Except.bind] at h2
    · simp [pure, Except.pure, bind, Except.bind] at h2

/-- Where the fatal error of `anyAddrTaken` cannot be reached from `aliased`:
`aliased` strips the field selections at the root of the read expression, and
the condition of `anyAddrTaken` aborts exactly at the ODOT nodes it visits;
when no field selection of the stripped expression can be reached through the
operations `anyAddrTaken` looks through, the traversal returns without
visiting one, and `aliased` does not end in the fatal error
`anyAddrTaken unexpected ODOT`, whatever the prior assignments. -/
theorem aliased_odot_shielded (r : Node) (all : List AssignStmt)
    (h : exposedDot (stripDots r) = false) :
    (stripDots r).op ≠ .ODOT ∧
    (∀ n, anyAddrTakenCond n = .error "anyAddrTaken unexpected ODOT" ↔ n.op = .ODOT) ∧
    (∃ b, anyAddrTaken (stripDots r) = .ok b) ∧
    aliased (some r) all ≠ .error "anyAddrTaken unexpected ODOT" := by
  have hret : ∃ b, anyAddrTaken (stripDots r) = .ok b := by
    cases ha : anyAddrTaken (stripDots r) with
    | error e =>
      have := anyAddrTaken_exposed _ e ha
      rw [h] at this
      exact absurd this (by simp)
    | ok b => exact ⟨b, rfl⟩
  refine ⟨stripDots_op r, fun n => ?_, hret, fun hal => ?_⟩
  · rw [anyAddrTakenCond_odot]; simp
  · obtain ⟨b, hb⟩ := hret
    rw [aliased_error_odot r all hal] at hb
    exact absurd hb (by simp)

/-! ## Monotonicity of `aliased` in the prior writes -/

theorem aliasedLoop_append_hit (r : Node) (more : List AssignStmt) :
    ∀ (all : List AssignStmt) (mw0 mw : Bool), aliasedLoop r all mw0 = .ok (true, mw) →
      aliasedLoop r (all ++ more) mw0 = .ok (true, mw) := by
  intro all
  induction all with
  | nil => intro mw0 mw h; simp [aliasedLoop] at h
  | cons a rest ih =>
    intro mw0 mw h
    rw [List.cons_append, aliasedLoop_cons]
    rw [aliasedLoop_cons] at h
    cases hc : classOK a <;> cases hh : hitBy r a <;> simp [hc, hh] at h ⊢
    · exact ih _ _ h
    · exact h

theorem aliasedLoop_append_nohit (r : Node) (more : List AssignStmt) :
    ∀ (all : List AssignStmt) (mw0 mw : Bool), aliasedLoop r all mw0 = .ok (false, mw) →
      aliasedLoop r (all ++ more) mw0 = aliasedLoop r more mw := by
  intro all
  induction all with
  | nil => intro mw0 mw h; simp [aliasedLoop] at h; simp [h]
  | cons a rest ih =>
    intro mw0 mw h
    rw [List.cons_append, aliasedLoop_cons]
    rw [aliasedLoop_cons] at h
    cases hc : classOK a <;> cases hh : hitBy r a <;> simp [hc, hh] at h ⊢
    exact ih _ _ h

/-- C23: `aliased` is monotone in the list of prior writes. If `aliased r all`
returns true and every assignment of `more` writes a blank, a location that is
not a named variable, or a variable of a recognised storage class, then
`aliased r (all ++ more)` returns true. -/
theorem aliased_monotone (r : Option Node) (all more : List AssignStmt)
    (hmore : ∀ a ∈ more, classOK a = true)
    (h : aliased r all = .ok true) : aliased r (all ++ more) = .ok true := by
  cases r with
  | none => simp [aliased] at h
  | some r0 =>
    have hm : more.all classOK = true := List.all_eq_true.2 hmore
    simp only [aliased] at h ⊢
    cases hl : aliasedLoop (stripDots r0) all false with
    | error e => simp [hl, bind, Except.bind] at h
    | ok res =>
      obtain ⟨hit, mw⟩ := res
      cases hit with
      | true =>
        rw [aliasedLoop_append_hit _ more all _ _ hl]
        simp [bind, Except.bind, pure, Except.pure]
      | false =>
        rw [aliasedLoop_append_nohit _ more all _ _ hl]
        cases mw with
        | false => simp [hl, bind, Except.bind, pure, Except.pure] at h
        | true =>
          cases ha : anyAddrTaken (stripDots r0) with
          | error e => simp [hl, ha, bind, Except.bind, pure, Except.pure] at h
          | ok b =>
            cases b with
            | false => simp [hl, ha, bind, Except.bind, pure, Except.pure] at h
            | true =>
              obtain ⟨⟨hit2, mw2⟩, h2⟩ := aliasedLoop_ok (stripDots r0) more true hm
              cases hit2 with
              | true => simp [h2, bind, Except.bind, pure, Except.pure]
              | false =>
                obtain ⟨h3, _, _⟩ := aliasedLoop_false _ _ _ _ h2
                simp only [Bool.true_or] at h3
                subst h3
                simp [h2, ha, bind, Except.bind, pure, Except.pure]

/-! ## The first assignment of a list -/

theorem aliased_empty (r : Option Node) : aliased r [] = .ok false := by
  cases r with
  | none => rfl
  | some r0 => exact aliased_nil r0

theorem reorder3save_empty (n : Node) (st : Acc) : reorder3save n [] st = .ok (n, st) :=
  reorder3save_no n [] st (aliased_nil n)

theorem reorder3Lhs_empty : ∀ (x : Node) (st : Acc) (x' : Node) (m : Bool) (st' : Acc),
    reorder3Lhs [] x st = .ok (x', m, st') → x' = x ∧ st' = st := by
  intro x
  induction x using Node.induct with
  | hname v =>
    intro st x' m st' h
    simp [reorder3Lhs, pure, Except.pure] at h
    exact ⟨h.1.symm, h.2.2.symm⟩
  | hdot t x s ih =>
    intro st x' m st' h
    simp only [reorder3Lhs] at h
    cases hx : reorder3Lhs [] x st with
    | error e => simp [hx, bind, Except.bind] at h
    | ok res =>
      obtain ⟨x1, m1, st1⟩ := res
      obtain ⟨e1, e2⟩ := ih st x1 m1 st1 hx
      simp [hx, bind, Except.bind, pure, Except.pure] at h
      subst e1 e2
      exact ⟨h.1.symm, h.2.2.symm⟩
  | hun o t x ih =>
    intro st x' m st' h
    cases o <;> simp only [reorder3Lhs, reorder3save_empty] at h <;>
      first
      | (simp [bind, Except.bind, pure, Except.pure] at h; exact ⟨h.1.symm, h.2.2.symm⟩)
      | cases h
      | (cases hx : reorder3Lhs [] x st with
         | error e => simp [hx, bind, Except.bind] at h
         | ok res =>
           obtain ⟨x1, m1, st1⟩ := res
           obtain ⟨e1, e2⟩ := ih st x1 m1 st1 hx
           simp [hx, bind, Except.bind, pure, Except.pure] at h
           subst e1 e2
           exact ⟨h.1.symm, h.2.2.symm⟩)
  | hindex t x i b ihx _ =>
    intro st x' m st' h
    simp only [reorder3Lhs, reorder3save_empty] at h
    split at h
    · cases hx : reorder3Lhs [] x st with
      | error e => simp [hx, bind, Except.bind] at h
      | ok res =>
        obtain ⟨x1, m1, st1⟩ := res
        obtain ⟨e1, e2⟩ := ihx st x1 m1 st1 hx
        simp [hx, bind, Except.bind, pure, Except.pure] at h
        subst e1 e2
        exact ⟨h.1.symm, h.2.2.symm⟩
    · simp [bind, Except.bind, pure, Except.pure] at h
      exact ⟨h.1.symm, h.2.2.symm⟩
  | hindexmap t x i _ _ =>
    intro st x' m st' h
    simp [reorder3Lhs, reorder3save_empty, bind, Except.bind, pure, Except.pure] at h
    exact ⟨h.1.symm, h.2.2.symm⟩
  | hdotptr t x s _ =>
    intro st x' m st' h
    simp [reorder3Lhs, reorder3save_empty, bind, Except.bind, pure, Except.pure] at h
    exact ⟨h.1.symm, h.2.2.symm⟩
  | _ => intro st x' m st' h; simp [reorder3Lhs] at h

theorem reorder3Lhs_root : ∀ (x : Node) (st : Acc),
    ((lvalueRoot x).op = .ONAME ∨ (lvalueRoot x).op = .OINDEX ∨
      (lvalueRoot x).op = .ODEREF ∨ (lvalueRoot x).op = .ODOTPTR) →
    reorder3Lhs [] x st = .ok (x, false, st) := by
  intro x
  induction x using Node.induct with
  | hname v => intro st _; simp [reorder3Lhs, pure, Except.pure]
  | hdot t x s ih =>
    intro st h
    simp only [lvalueRoot] at h
    simp [reorder3Lhs, ih st h, bind, Except.bind, pure, Except.pure]
  | hun o t x ih =>
    intro st h
    cases o with
    | OPAREN =>
      simp only [lvalueRoot] at h
      simp [reorder3Lhs, ih st h, bind, Except.bind, pure, Except.pure]
    | ODEREF => simp [reorder3Lhs, reorder3save_empty, bind, Except.bind, pure, Except.pure]
    | _ => simp [lvalueRoot, Node.op, UnOp.toOp] at h
  | hindex t x i b ihx _ =>
    intro st h
    simp only [lvalueRoot] at h
    by_cases ha : x.typ.IsArray = true
    · simp only [ha, if_true] at h
      simp [reorder3Lhs, ha, reorder3save_empty, ihx st h, bind, Except.bind, pure, Except.pure]
    · simp [reorder3Lhs, ha, reorder3save_empty, bind, Except.bind, pure, Except.pure]
  | hdotptr t x s _ =>
    intro st _
    simp [reorder3Lhs, reorder3save_empty, bind, Except.bind, pure, Except.pure]
  | hbin o t x y _ _ => intro st h; cases o <;> simp [lvalueRoot, Node.op, BinOp.toOp] at h
  | hcall o t f args d _ => intro st h; cases o <;> simp [lvalueRoot, Node.op] at h
  | _ => intro st h; simp [lvalueRoot, Node.op] at h

/-- C24: `aliased r []` returns false for every read expression `r`, also for
those on which the traversals it would otherwise start end in a fatal error.
Consequently `reorder3save` against no prior assignment returns its argument
and makes no copy, the step of `reorder3` for the first assignment adds no
early copy, and on a one-element list whose destination root is a name, a
non-map index, a dereference or a pointer field access `reorder3` returns
exactly that one assignment, unchanged, with no temporary. -/
theorem reorder3_single (convas : Convas) (k : Nat) (a : AssignStmt)
    (hroot : (lvalueRoot a.X).op = .ONAME ∨ (lvalueRoot a.X).op = .OINDEX ∨
      (lvalueRoot a.X).op = .ODEREF ∨ (lvalueRoot a.X).op = .ODOTPTR) :
    (∀ r : Option Node, aliased r [] = .ok false) ∧
    (∀ (n : Node) (st : Acc), reorder3save n [] st = .ok (n, st)) ∧
    (∀ (b : AssignStmt) (st : Acc) (b' : AssignStmt) (st' : Acc),
      reorder3Step convas [] b st = .ok (b', st') → st'.early = st.early) ∧
    reorder3 convas k [a] = .ok [.as a] := by
  refine ⟨aliased_empty, reorder3save_empty, ?_, ?_⟩
  · intro b st b' st' h
    simp only [reorder3Step, reorder3save_empty] at h
    cases hx : reorder3Lhs [] b.X st with
    | error e => simp [hx, bind, Except.bind] at h
    | ok res =>
      obtain ⟨x1, m1, st1⟩ := res
      obtain ⟨e1, e2⟩ := reorder3Lhs_empty _ _ _ _ _ hx
      subst e1 e2
      cases m1 <;> simp [hx, bind, Except.bind, pure, Except.pure] at h <;>
        rw [← h.2]
  · simp [reorder3, reorder3Loop, reorder3Step, reorder3Lhs_root a.X _ hroot,
      reorder3save_empty, bind, Except.bind, pure, Except.pure]

/-! ## Instances at concrete inputs -/

/-- Instance of `reorder3_simultaneous` at the swap `a[i], a[j] = a[j], a[i]`. -/
theorem reorder3_simultaneous_witness :
    ∃ out, reorder3 exConvas 0 exSwap = .ok out ∧
      ∀ σ, SameOutcome 0 (execSeq out σ) (simultaneous exSwap σ) :=
  reorder3_simultaneous exConvas 0 exSwap (by decide)

/-- Instance of `aliased_no_false_negative`: the read `a[i]` against the write
`a[i] = a[j]`. -/
theorem aliased_no_false_negative_witness :
    aliased (some (.index exInt (.name exA) (.name exI) false)) exSwap ≠ .ok false :=
  aliased_no_false_negative (.index exInt (.name exA) (.name exI) false) exSwap
    ⟨.index exInt (.name exA) (.name exI) false, .index exInt (.name exA) (.name exJ) false⟩
    exA (List.mem_cons_self _ _) rfl rfl (Or.inl rfl) (by simp [names])

/-- Instance of `aliased_exact_without_memwrite`: the read `a[i]` against the
two writes of the swap, none of which is a write to memory. -/
theorem aliased_exact_without_memwrite_witness :
    ∃ b, aliased (some (.index exInt (.name exA) (.name exI) false)) exSwap = .ok b ∧
      (b = true ↔ ∃ a ∈ exSwap, IsBlank a.X = false ∧
        ∃ l, OuterValue a.X = .name l ∧
          l ∈ names (.index exInt (.name exA) (.name exI) false)) :=
  (aliased_exact_without_memwrite (.index exInt (.name exA) (.name exI) false) exSwap
    (fun a ha => by
      simp only [exSwap, List.mem_cons, List.mem_singleton, List.not_mem_nil, or_false] at ha
      rcases ha with rfl | rfl <;> exact Or.inr ⟨exA, rfl, Or.inl rfl, rfl⟩)).1

/-- Instance of `swap_lowering`: on `a = [1, 2, 3, 4]`, `i = 0`, `j = 1` the
lowered swap runs and exchanges the two elements. -/
theorem swap_lowering_witness :
    reorder3 exConvas 0 exSwap = .ok exSwapOut ∧
      ∃ σ', execSeq exSwapOut exSeqState = some σ' ∧
        eval σ' (.index exInt (.name exA) (.name exI) false) = some (.int 2) ∧
        eval σ' (.index exInt (.name exA) (.name exJ) false) = some (.int 1) := by
  have h := swap_lowering exConvas 0 exA exI exJ exInt false false (by decide) (by decide)
    (by decide) (by decide) (by decide) (by decide) (Or.inl rfl) (by decide) (by decide)
    (by decide)
  refine ⟨h.1, ?_⟩
  obtain ⟨σ', h1, h2, h3, _⟩ := h.2 exSeqState (.int 1) (.int 2)
    (fun _ => ⟨_, rfl⟩) (fun hs => by simp [exA, Typ.IsSlice] at hs) rfl rfl
  exact ⟨σ', h1, h2, h3⟩

/-- Instance of `reorder3_output_shape` at the lowering of the swap. -/
theorem reorder3_output_shape_witness :
    ∃ (mapinit early : List Stmt) (all' : List AssignStmt) (k' : Nat),
      exSwapOut = mapinit ++ early ++ all'.map Stmt.as ∧ all'.length = exSwap.length ∧
      Sequenced exConvas [] exSwap 0 all' early mapinit k' ∧
      (∀ s ∈ mapinit, ∃ a k, s ∈ (exConvas a k).2.1) ∧
      (∀ s ∈ early, ∃ t k e, s = Stmt.as ⟨.name (Temp t k), e⟩) ∧
      ((∀ a k, k ≤ (exConvas a k).2.2) → ∃ hi, EarlyInc 0 early hi) ∧
      List.Forall₂ (Rewritten exConvas early) exSwap all' :=
  reorder3_output_shape exConvas 0 exSwap exSwapOut
    (swap_reorder3 exConvas 0 exA exI exJ exInt false false (by decide) (by decide) (by decide)
      (by decide) (by decide))

/-- Instance of `growCond_iff`: length 1, one more element, capacity 1, on a
64-bit machine. -/
theorem growCond_iff_witness :
    evalA 64 8 exAState (growCond (.name exDst) (.name exI))
      = some (.bool (decide (1 < 1 + 1))) :=
  (growCond_iff 64 8 (by decide) exAState exDst exI 0 0 1 1 1 rfl (by decide) (by decide)
    (by decide) (by decide)).1

theorem stable_name (w ptrSize k : Nat) (σ : AState) (v : Name)
    (hv : ∀ i, k ≤ i → v.sym ≠ .autotmp i) : StableAt w ptrSize k σ (.name v) (σ.env v) := by
  intro τ hτ
  simp [evalA, hτ v hv]

/-- Instance of `append_lowerings_correct`: appending the one-byte slice `y`,
and two zero bytes, to the full one-byte slice `x` on a 64-bit machine. -/
theorem append_lowerings_correct_witness :
    (∃ low emitted σ' b o c, appendSlice exRuntimeFlags 8 exWalkArgs exAppend 0 = .ok low ∧
      low.init = [] ++ emitted ∧ execListA exRuntime 64 8 emitted exAState = .done σ' ∧
      evalA 64 8 σ' low.result = some (.slice b o (1 + 1) c) ∧ 1 + 1 ≤ c ∧
      (∀ a, a < 1 * (Node.name exDst).typ.Elem.Width 8 →
        σ'.mem b (o + a) = exAState.mem 0 (0 + a)) ∧
      (∀ a, a < 1 * (Node.name exDst).typ.Elem.Width 8 →
        σ'.mem b (o + 1 * (Node.name exDst).typ.Elem.Width 8 + a) = exAState.mem 1 (0 + a))) ∧
    (∃ low emitted σ' b o c, extendSlice 8 exWalkLen exExtend 0 = .ok low ∧
      low.init = [] ++ emitted ∧ execListA exRuntime 64 8 emitted exAState = .done σ' ∧
      evalA 64 8 σ' low.result = some (.slice b o (1 + 2) c) ∧ 1 + 2 ≤ c ∧
      (∀ a, a < 1 * (Node.name exDst).typ.Elem.Width 8 →
        σ'.mem b (o + a) = exAState.mem 0 (0 + a)) ∧
      (∀ a, a < 2 * (Node.name exDst).typ.Elem.Width 8 →
        σ'.mem b (o + 1 * (Node.name exDst).typ.Elem.Width 8 + a) = 0)) := by
  have h := append_lowerings_correct exRuntime 64 8 (by decide)
    (fun c n => by simp only [exRuntime]; omega)
  refine ⟨?_, ?_⟩
  · exact h.1 exRuntimeFlags exWalkArgs .OAPPEND exBytes .none [.name exDst, .name exSrc] true 0
      (.name exDst) (.name exSrc) [] [] 0 exAState (.slice 1 0 1 1) 0 0 1 1 1 0 1 rfl
      (stable_name 64 8 0 exAState exDst (by simp [exDst]))
      (stable_name 64 8 0 exAState exSrc (by simp [exSrc]))
      (Or.inl ⟨1, rfl⟩) (by decide) (by decide) (by decide) (by decide)
  · exact h.2 exWalkLen .OAPPEND exBytes .none (.name exDst) exBytes (.name exI) none [] true 0
      (.name exDst) (.name exI) [] [] 0 exAState 0 0 1 1 2 rfl
      (stable_name 64 8 0 exAState exDst (by simp [exDst]))
      (stable_name 64 8 0 exAState exI (by simp [exI]))
      (by decide) (by decide) (by decide) (by decide)

/-- Instance of `extendSlice_len_check_first`: with the length variable holding
-1, the emitted statements start with the check and panic in the start state. -/
theorem extendSlice_len_check_first_witness :
    ∃ low tail, extendSlice 8 exWalkLen exExtend 0 = .ok low ∧
      low.init = lenCheck (.name exI) :: tail ∧
      execListA exRuntime 64 8 (lenCheck (.name exI) :: tail) exNegState
        = .panicked "makeslice: len out of range" exNegState := by
  obtain ⟨low, clear, h1, _, _, _, h5⟩ :=
    extendSlice_len_check_first 8 exWalkLen .OAPPEND exBytes .none (.name exDst) exBytes
      (.name exI) none [] true 0 (.name exDst) (.name exI) [] [] 0 rfl
  obtain ⟨tail, h6, h7⟩ := h5 exRuntime 64 exNegState (-1) rfl (by decide)
  exact ⟨low, tail, h1, by simpa using h6, h7⟩

/-- Instance of `extendSlice_clear` at `append(x, make([]uint8, i)...)`: bytes
hold no pointers, so no write-barrier position is recorded. -/
theorem extendSlice_clear_witness :
    ∃ low, extendSlice 8 exWalkLen exExtend 0 = .ok low ∧
      low.wbpos = (Node.name exDst).typ.Elem.HasPointers := by
  obtain ⟨low, _, _, _, _, _, _, _, h1, h2, _⟩ :=
    extendSlice_clear 8 exWalkLen .OAPPEND exBytes .none (.name exDst) exBytes
      (.name exI) none [] true 0 (.name exDst) (.name exI) [] [] 0 rfl
  exact ⟨low, h1, h2⟩

/-- Instance of `ascompatee_pairs` at the swap `a[i], a[j] = a[j], a[i]`. -/
theorem ascompatee_pairs_witness :
    ∃ nn ini k' nlS nrS,
      nlS = (safeExprList exSafeExpr (exSwap.map (fun a => a.X)) 0).1 ∧
      nrS = (safeExprList exSafeExpr (exSwap.map (fun a => a.Y))
        (safeExprList exSafeExpr (exSwap.map (fun a => a.X)) 0).2.2).1 ∧
      ascompatee .OAS (fun _ _ => false) exSafeExpr exConvas (exSwap.map (fun a => a.X))
          (exSwap.map (fun a => a.Y)) 0 =
        (reorder3 exConvas k' nn >>= fun out => pure (out, ini)) ∧
      (Op.OAS = .ORETURN → List.Forall₂ (PairedBy exConvas)
        ((nlS.zip nrS).filter (fun p => !(fun _ _ => false) p.1 p.2)) nn) ∧
      (Op.OAS ≠ .ORETURN → List.Forall₂ (PairedBy exConvas) (nlS.zip nrS) nn ∧
        nn.length = (exSwap.map (fun a => a.X)).length) :=
  ascompatee_pairs .OAS (fun _ _ => false) exSafeExpr exConvas (exSwap.map (fun a => a.X))
    (exSwap.map (fun a => a.Y)) 0 rfl

/-- Instance of `ascompatet_order`: the destinations `i, j` matched with two
int fields. -/
theorem ascompatet_order_witness :
    ∃ blocks : List (Stmt × List Stmt),
      ascompatet (fun _ => false) (fun _ => false) exResultExpr 16 exConvas
          [.name exI, .name exJ] exFields 0 =
        .ok (blocks.map (fun b => b.1) ++ blocks.flatMap (fun b => b.2)) ∧
      List.Forall₂ (SplitOf (fun _ => false) exResultExpr 16 exConvas)
        (([Node.name exI, Node.name exJ].zip exFields).filter (fun p => !IsBlank p.1)) blocks :=
  (ascompatet_order (fun _ => false) (fun _ => false) exResultExpr 16 exConvas
    (fun _ _ _ _ => rfl) (fun _ _ => rfl) (fun _ _ _ _ => rfl) (fun _ _ => rfl)
    [.name exI, .name exJ] exFields 0).2 rfl

/-- C16 (counterexample): a bare return in a function with one named result
returns no expression although one result is declared, and `walkReturn`
returns it unchanged without any fatal error. -/
theorem walkReturn_bare_return_ok :
    ([] : List Node).length ≠ exFunc.Results.length ∧
      walkReturn exReturnEnv exFunc [] 0 = .ok ([], []) :=
  ⟨by decide, rfl⟩

/-- Instance of `walkAssign_not_same`: `m[i] = append(m[i], y...)` when the two
occurrences of `m[i]` are not the same safe expression. -/
theorem walkAssign_not_same_witness :
    (walkAssign exAssignEnvStrict [] exMapAppend exWalkState).1 =
        .error "not same expressions" ∧
      (walkAssign exAssignEnvStrict [] exMapAppend exWalkState).2.log = exWalkState.log := by
  have h := walkAssign_not_same exAssignEnvStrict [] exMapAppend exWalkState exBytes
    (.name exMap) (.name exI) exBytes .none [exMapIndex, .name exSrc] true rfl rfl
  have h1 := h.1.2 ⟨_, _, rfl, rfl⟩
  exact ⟨h1, h.2 h1⟩

/-- Instance of `walkAssign_map_append_once` at `m[i] = append(m[i], y...)`. -/
theorem walkAssign_map_append_once_witness :
    ∃ l1 l2 st1 extra,
      l1 = (exAssignEnv.walkExpr exMapIndex exWalkState.next).1 ∧
      l2 = (exAssignEnv.safeExpr l1 (exAssignEnv.walkExpr exMapIndex exWalkState.next).2.2).1 ∧
      walkAssignHead exAssignEnv [] exMapAppend exWalkState =
        (.ok (l2, some (.call .OAPPEND exBytes .none (l2 :: [.name exSrc]) true)), st1) ∧
      st1.log = exWalkState.log ++ [.walkExpr exMapIndex, .safeExpr l1] ∧
      walkAssign exAssignEnv [] exMapAppend exWalkState =
        walkAssignTail exAssignEnv l2
          (some (.call .OAPPEND exBytes .none (l2 :: [.name exSrc]) true)) st1 ∧
      (walkAssign exAssignEnv [] exMapAppend exWalkState).2.log =
        exWalkState.log ++ [.walkExpr exMapIndex, .safeExpr l1] ++ extra ∧
      (∀ e ∈ extra,
        AppendTailCall l2 (.call .OAPPEND exBytes .none (l2 :: [.name exSrc]) true) e) ∧
      (∀ e ∈ extra, ∀ x, e ≠ .walkExpr x ∧ e ≠ .safeExpr x) :=
  walkAssign_map_append_once exAssignEnv [] exWalkState exBytes (.name exMap) (.name exI)
    exBytes .none exMapIndex [.name exSrc] true rfl

/-- C19 (counterexample): on `i += j`, with a `walkExpr` that wraps its
argument in parentheses, the assignment that `walkAssign` builds is
`(i) = (i) + j`: both the destination and the left operand are the lowered
node, and the two lowering calls have been made by then. The statement
`i = i + j` over the destination as written is never built. -/
theorem walkAssign_compound_lowers_first :
    walkAssignHead exAssignEnv [] (.asop .OADD (.name exI) (.name exJ)) exWalkState =
      (.ok (.unary .OPAREN exInt (.name exI),
          some (.binary .OADD .void (.unary .OPAREN exInt (.name exI)) (.name exJ))),
        { init := [], next := 0, wbpos := false,
          log := [.walkExpr (.name exI), .safeExpr (.unary .OPAREN exInt (.name exI))] }) ∧
    (walkAssignHead exAssignEnv [] (.asop .OADD (.name exI) (.name exJ)) exWalkState).1 ≠
      .ok (.name exI, some (.binary .OADD .void (.name exI) (.name exJ))) := by
  have h : walkAssignHead exAssignEnv [] (.asop .OADD (.name exI) (.name exJ)) exWalkState =
      (.ok (.unary .OPAREN exInt (.name exI),
          some (.binary .OADD .void (.unary .OPAREN exInt (.name exI)) (.name exJ))),
        { init := [], next := 0, wbpos := false,
          log := [.walkExpr (.name exI), .safeExpr (.unary .OPAREN exInt (.name exI))] }) := rfl
  refine ⟨h, ?_⟩
  rw [h]
  simp

/-- Instance of `walkAssign_compound` at `i += j`. -/
theorem walkAssign_compound_witness :
    ∃ l1 l2 y' st1,
      l1 = (exAssignEnv.walkExpr (.name exI) exWalkState.next).1 ∧
      l2 = (exAssignEnv.safeExpr l1 (exAssignEnv.walkExpr (.name exI) exWalkState.next).2.2).1 ∧
      y' = ((none : Option Node).map (fun r => setArg0 r l2)).getD (.name exJ) ∧
      walkAssignHead exAssignEnv [] (.asop .OADD (.name exI) (.name exJ)) exWalkState =
        (.ok (l2, some (exAssignEnv.typecheckExpr (.binary .OADD .void l2 y'))), st1) ∧
      st1.log = exWalkState.log ++ [.walkExpr (.name exI), .safeExpr l1] ∧
      walkAssign exAssignEnv [] (.asop .OADD (.name exI) (.name exJ)) exWalkState =
        walkAssignTail exAssignEnv l2
          (some (exAssignEnv.typecheckExpr (.binary .OADD .void l2 y'))) st1 :=
  walkAssign_compound exAssignEnv [] .OADD (.name exI) (.name exJ) exWalkState none rfl

/-- C22: the fatal error `anyAddrTaken unexpected ODOT` is reachable from
`aliased`, at the read `s.f + 1` after the write `*p = 0`. The field selection
lies under the addition, so `aliased` does not strip it; the write goes to
memory, so `anyAddrTaken` is called, visits the field selection and ends in the
fatal error, although its comment says that a field selection should have been
handled in `aliased`. -/
theorem aliased_nested_odot_fatal :
    stripDots exFieldSum = exFieldSum ∧ exposedDot (stripDots exFieldSum) = true ∧
      aliased (some exFieldSum) [exPtrWrite] = .error "anyAddrTaken unexpected ODOT" :=
  ⟨rfl, rfl, rfl⟩

/-- Instance of `aliased_odot_shielded`: the read `s.f` after the write
`*p = 0`. -/
theorem aliased_odot_shielded_witness :
    (∃ b, anyAddrTaken (stripDots exField) = .ok b) ∧
      aliased (some exField) [exPtrWrite] ≠ .error "anyAddrTaken unexpected ODOT" :=
  (aliased_odot_shielded exField [exPtrWrite] rfl).2.2

/-- Instance of `aliased_monotone`: the read `a[i]` is flagged against the two
writes of the swap, and stays flagged when the write `*p = 0` is added. -/
theorem aliased_monotone_witness :
    aliased (some (.index exInt (.name exA) (.name exI) false)) exSwap = .ok true ∧
      aliased (some (.index exInt (.name exA) (.name exI) false)) (exSwap ++ [exPtrWrite]) =
        .ok true :=
  ⟨rfl, aliased_monotone (some (.index exInt (.name exA) (.name exI) false)) exSwap [exPtrWrite]
    (fun a ha => by rw [List.mem_singleton.1 ha]; rfl) rfl⟩

/-- Instance of `reorder3_single`: the single assignment `a[i] = j` into a
fixed-size array. -/
theorem reorder3_single_witness :
    (lvalueRoot exElemWrite.X).op = .ONAME ∧
      reorder3 exConvas 0 [exElemWrite] = .ok [.as exElemWrite] :=
  ⟨rfl, (reorder3_single exConvas 0 exElemWrite (Or.inl rfl)).2.2.2⟩

end Walk
